import Mathlib

/-!
# TinyInfiniTensor: shape inference, allocator, graph IR

A shallow embedding of `src/utils/operator_utils.cc`, `src/operators/matmul.cc`,
`src/operators/transpose.cc`, `src/core/allocator.cc` and `src/core/graph.cc`.

Conventions of the embedding
* `Shape` is `std::vector<int>`; the dimensions are mathematical integers.
* A failed `IT_ASSERT` is the value `none`.
* `size_t` values are natural numbers below `2 ^ 64`; every `size_t` operation
  of the source is followed by an explicit `% 2 ^ 64`.
* References (`Ref<TensorObj>`, `Ref<OperatorObj>`) are natural numbers that
  index a heap of objects; two references are the same pointer exactly when
  the numbers are equal.  Null references are not modelled.
-/

namespace infini

/-! ## Shapes and broadcasting (`operator_utils.cc`) -/

/-- The type `Shape` of the source, a vector of `int`. -/
abbrev Shape := List Int

/-- A `for` loop that computes one value for each element of `l`, in order, and
stops at the first failed assertion (`none`). -/
def forEachAssert {α β : Type} (f : α → Option β) : List α → Option (List β)
  | [] => some []
  | a :: l =>
    match f a with
    | none => none
    | some b =>
      match forEachAssert f l with
      | none => none
      | some r => some (b :: r)

/-- One iteration of the loop body of `infer_broadcast`: the value stored in
`out[i]` for the aligned sizes `aDim`, `bDim`, or `none` for the failed
assertion. -/
def broadcastDim (aDim bDim : Int) : Option Int :=
  if aDim = bDim then some aDim
  else if aDim = 1 then some bDim
  else if bDim = 1 then some aDim
  else none

/-- The `aDim` (resp. `bDim`) of iteration `i` of `infer_broadcast`: `1` when
`i < rank - rankS` (the index is `(size_t)-1`), the entry `S[i - (rank - rankS)]`
otherwise. -/
def alignedDim (S : Shape) (rank i : Nat) : Int :=
  if i < rank - S.length then 1 else S.getD (i - (rank - S.length)) 0

/-- The function `infer_broadcast` of `operator_utils.cc`.  The loop writes
`out[i]` once for each `i` from `0` to `rank - 1`, in this order, and stops at
the first failed assertion. -/
def infer_broadcast (A B : Shape) : Option Shape :=
  let rank := max A.length B.length
  forEachAssert (fun i => broadcastDim (alignedDim A rank i) (alignedDim B rank i))
    (List.range rank)

/-- The shape `S` padded with leading ones up to rank `rank` (the alignment at
the trailing axis as the specification words it). -/
def padLeading (S : Shape) (rank : Nat) : Shape :=
  List.replicate (rank - S.length) 1 ++ S

/-! ## Operators (`transpose.cc`, `matmul.cc`) -/

/-- The loop of `TransposeObj::inferShape` over the output axes `outAxis`
listed in the first argument; the state is the pair of the vectors `seen` and
`output_dim`.  `none` is a failed assertion (an axis out of range, or seen for
the second time). -/
def transposeLoop (perm : List Int) (input_dim : Shape) (rank : Nat) :
    List Nat → List Int × Shape → Option (List Int × Shape)
  | [], st => some st
  | outAxis :: rest, (seen, output_dim) =>
    let inAxis := perm.getD outAxis 0
    if 0 ≤ inAxis ∧ inAxis < rank then
      let seen1 := seen.set inAxis.toNat (seen.getD inAxis.toNat 0 + 1)
      if seen1.getD inAxis.toNat 0 = 1 then
        transposeLoop perm input_dim rank rest
          (seen1, output_dim.set outAxis (input_dim.getD inAxis.toNat 0))
      else none
    else none

/-- The function `TransposeObj::inferShape` for an operator whose member
`transposePermute` is the first argument, on an input tensor of dimensions
`input_dim`; `A->getRank()` is the number of dimensions of the tensor. -/
def TransposeObj.inferShape (transposePermute : List Int) (input_dim : Shape) :
    Option (List Shape) :=
  let rank := input_dim.length
  let perm : List Int :=
    if transposePermute.isEmpty then
      (List.range rank).map fun i : Nat => (rank : Int) - 1 - (i : Int)
    else transposePermute
  if perm.length = rank then
    match transposeLoop perm input_dim rank (List.range rank)
        (List.replicate rank 0, input_dim) with
    | none => none
    | some (_, output_dim) => some [output_dim]
  else none

/-- The values `m`, `n`, `k` that `MatmulObj::inferShape` records on the
operator. -/
structure MatmulDims where
  m : Int
  n : Int
  k : Int
  deriving DecidableEq, Repr

/-- The function `MatmulObj::inferShape` for an operator with the flags
`transA`, `transB`, on the dimensions of its input tensors.  The result is the
list of output shapes together with the recorded `m`, `n`, `k`; `none` is a
failed assertion. -/
def MatmulObj.inferShape (transA transB : Bool) (inputs : List Shape) :
    Option (List Shape × MatmulDims) :=
  if inputs.length = 2 then
    let dimsA := inputs.getD 0 []
    let dimsB := inputs.getD 1 []
    let rankA := dimsA.length
    let rankB := dimsB.length
    if 2 ≤ rankA ∧ 2 ≤ rankB then
      let a0 := dimsA.getD (rankA - 2) 0
      let a1 := dimsA.getD (rankA - 1) 0
      let b0 := dimsB.getD (rankB - 2) 0
      let b1 := dimsB.getD (rankB - 1) 0
      let m_ := if transA then a1 else a0
      let kA := if transA then a0 else a1
      let kB := if transB then b1 else b0
      let n_ := if transB then b0 else b1
      if kA = kB then
        let batchA : Shape := if 2 < rankA then dimsA.take (rankA - 2) else []
        let batchB : Shape := if 2 < rankB then dimsB.take (rankB - 2) else []
        match infer_broadcast batchA batchB with
        | none => none
        | some out => some ([out ++ [m_] ++ [n_]], ⟨m_, n_, kA⟩)
      else none
    else none
  else none

/-- The shape `X` with its last two axes exchanged (a shape of rank at least
two). -/
def swapLastTwo (X : Shape) : Shape :=
  X.take (X.length - 2) ++ [X.getD (X.length - 1) 0, X.getD (X.length - 2) 0]

/-! ## The optimizer's permutation tests (`graph.cc`, `GraphObj::optimize`) -/

/-- The lambda `is_swap_last_two` of `GraphObj::optimize`.  Its `int rank` is
always the cast of a tensor rank, a natural number. -/
def is_swap_last_two (perm : List Int) (rank : Nat) : Bool :=
  if rank < 2 then false
  else if perm.length ≠ rank then false
  else if (List.range (rank - 2)).any fun i => perm.getD i 0 ≠ (i : Int) then false
  else perm.getD (rank - 2) 0 == (rank : Int) - 1 && perm.getD (rank - 1) 0 == (rank : Int) - 2

/-- The first loop of the lambda `is_inverse_perm`: it fills `inv` with
`inv[p[i]] = i`, and fails the assertion when an entry of `p` is out of
range. -/
def inversePermLoop (p : List Int) (rank : Nat) : List Nat → List Int → Option (List Int)
  | [], inv => some inv
  | i :: rest, inv =>
    if 0 ≤ p.getD i 0 ∧ p.getD i 0 < rank then
      inversePermLoop p rank rest (inv.set (p.getD i 0).toNat (i : Int))
    else none

/-- The lambda `is_inverse_perm` of `GraphObj::optimize`; `none` is the failed
assertion of its first loop. -/
def is_inverse_perm (p q : List Int) (rank : Nat) : Option Bool :=
  if p.length ≠ rank ∨ q.length ≠ rank then some false
  else
    match inversePermLoop p rank (List.range rank) (List.replicate rank (-1)) with
    | none => none
    | some inv => some ((List.range rank).all fun i => inv.getD i 0 == q.getD i 0)

/-! ## The allocator (`allocator.cc`) -/

/-- The number of values of `size_t`. -/
def sizeModulus : Nat := 2 ^ 64

/-- The member `freeBlocks`, a `std::map<size_t, size_t>` from the start offset
of a free block to its size, as the list of its entries in iteration order
(increasing keys). -/
abbrev FreeBlocks := List (Nat × Nat)

/-- The call `freeBlocks.emplace(k, v)`: the entry is inserted at its place in
key order; nothing happens when the key is present. -/
def mapEmplace (k v : Nat) : FreeBlocks → FreeBlocks
  | [] => [(k, v)]
  | e :: rest =>
    if k < e.1 then (k, v) :: e :: rest
    else if k = e.1 then e :: rest
    else e :: mapEmplace k v rest

/-- The call `freeBlocks.erase(it)` for the iterator of the entry with key
`k`. -/
def mapErase (k : Nat) (fb : FreeBlocks) : FreeBlocks :=
  fb.filter fun e => e.1 ≠ k

/-- The call `freeBlocks.find(k)`. -/
def mapFind (k : Nat) (fb : FreeBlocks) : Option (Nat × Nat) :=
  fb.find? fun e => e.1 = k

/-- The call `freeBlocks.lower_bound(k)`: the first entry whose key is not
below `k`, `none` for `end()`. -/
def mapLowerBound (k : Nat) (fb : FreeBlocks) : Option (Nat × Nat) :=
  fb.find? fun e => k ≤ e.1

/-- The entry before `freeBlocks.upper_bound(k)`: the last entry whose key is
at most `k`, `none` when `upper_bound(k)` is `begin()`. -/
def mapBeforeUpperBound (k : Nat) (fb : FreeBlocks) : Option (Nat × Nat) :=
  (fb.filter fun e => e.1 ≤ k).getLast?

/-- The entry before `freeBlocks.lower_bound(k)`: the last entry whose key is
below `k`, `none` when `lower_bound(k)` is `begin()`. -/
def mapBeforeLowerBound (k : Nat) (fb : FreeBlocks) : Option (Nat × Nat) :=
  (fb.filter fun e => e.1 < k).getLast?

/-- The state of an `Allocator`: `ptr` is `none` while the real buffer has not
been materialized. -/
structure Allocator where
  used : Nat
  peak : Nat
  alignment : Nat
  ptr : Option Nat
  freeBlocks : FreeBlocks
  deriving DecidableEq, Repr

/-- The constructor `Allocator::Allocator`; `sizeof(uint64_t)` is `8`. -/
def Allocator.init : Allocator :=
  { used := 0, peak := 0, alignment := 8, ptr := none, freeBlocks := [] }

/-- The function `Allocator::getAlignedSize`, in `size_t` arithmetic. -/
def Allocator.getAlignedSize (a : Allocator) (size : Nat) : Nat :=
  ((((size + sizeModulus - 1) % sizeModulus) / a.alignment + 1) * a.alignment) % sizeModulus

/-- The best-fit scan of `Allocator::alloc` over the entries of `freeBlocks`;
the state is `(bestStart, bestSize, found)`. -/
def allocScan (size : Nat) : FreeBlocks → Nat × Nat × Bool → Nat × Nat × Bool
  | [], st => st
  | (start, blkSize) :: rest, (bestStart, bestSize, found) =>
    if blkSize < size then allocScan size rest (bestStart, bestSize, found)
    else if !found || blkSize < bestSize then
      if blkSize = size then (start, blkSize, true)
      else allocScan size rest (start, blkSize, true)
    else allocScan size rest (bestStart, bestSize, found)

/-- The function `Allocator::alloc`: the returned offset and the new state, or
`none` for a failed assertion. -/
def Allocator.alloc (a : Allocator) (size : Nat) : Option (Nat × Allocator) :=
  if a.ptr.isSome then none
  else
    let size := a.getAlignedSize size
    match allocScan size a.freeBlocks (0, 0, false) with
    | (bestStart, bestSize, true) =>
      if (mapFind bestStart a.freeBlocks).isNone then none
      else if bestSize = size then
        some (bestStart, { a with freeBlocks := mapErase bestStart a.freeBlocks })
      else
        let rest := mapEmplace ((bestStart + size) % sizeModulus)
          ((bestSize + sizeModulus - size) % sizeModulus) (mapErase bestStart a.freeBlocks)
        some (bestStart, { a with freeBlocks := rest })
    | (_, _, false) =>
      let offset := a.used
      let used := (a.used + size) % sizeModulus
      some (offset, { a with used := used, peak := if used > a.peak then used else a.peak })

/-- The `while (true)` loop of case 1 of `Allocator::free` on the pair
`(used, freeBlocks)`.  Each iteration that does not leave the loop erases an
entry, so `fuel = freeBlocks.size()` iterations reach a `break`. -/
def freeShrink : Nat → Nat → FreeBlocks → Nat × FreeBlocks
  | 0, used, fb => (used, fb)
  | fuel + 1, used, fb =>
    if fb.isEmpty then (used, fb)
    else
      match mapBeforeUpperBound used fb with
      | none => (used, fb)
      | some (start, blkSize) =>
        if (start + blkSize) % sizeModulus ≠ used then (used, fb)
        else freeShrink fuel start (mapErase start fb)

/-- The function `Allocator::free`: the new state, or `none` for a failed
assertion. -/
def Allocator.free (a : Allocator) (addr size : Nat) : Option Allocator :=
  if a.ptr.isSome then none
  else
    let size := a.getAlignedSize size
    if ¬ 0 < size then none
    else if ¬ (addr + size) % sizeModulus ≤ a.used then none
    else if (addr + size) % sizeModulus = a.used then
      let r := freeShrink a.freeBlocks.length addr a.freeBlocks
      some { a with used := r.1, freeBlocks := r.2 }
    else
      let s1 : Nat × Nat × FreeBlocks :=
        match mapBeforeLowerBound addr a.freeBlocks with
        | none => (addr, size, a.freeBlocks)
        | some (prevStart, prevSize) =>
          if (prevStart + prevSize) % sizeModulus = addr then
            (prevStart, (size + prevSize) % sizeModulus, mapErase prevStart a.freeBlocks)
          else (addr, size, a.freeBlocks)
      let newStart := s1.1
      let s2 : Nat × FreeBlocks :=
        match mapLowerBound newStart s1.2.2 with
        | none => (s1.2.1, s1.2.2)
        | some (nextStart, nextSize) =>
          if (newStart + s1.2.1) % sizeModulus = nextStart then
            ((s1.2.1 + nextSize) % sizeModulus, mapErase nextStart s1.2.2)
          else (s1.2.1, s1.2.2)
      some { a with freeBlocks := mapEmplace newStart s2.1 s2.2 }

/-- A call of the allocator's interface. -/
inductive AllocCall where
  | alloc (size : Nat)
  | free (addr size : Nat)
  deriving DecidableEq, Repr

/-- The list without the first occurrence of the region `r`. -/
def eraseRegion (r : Nat × Nat) : List (Nat × Nat) → List (Nat × Nat)
  | [] => []
  | x :: xs => if x = r then xs else x :: eraseRegion r xs

/-- An allocator together with the regions `(offset, aligned size)` that `alloc`
has returned and that have not been freed since. -/
structure AllocSim where
  a : Allocator
  live : List (Nat × Nat)
  deriving DecidableEq, Repr

/-- One call on a simulation state.  A `free` is admitted only for a region
that is outstanding; `none` is a failed assertion or a `free` of a region that
is not outstanding. -/
def AllocSim.step (s : AllocSim) : AllocCall → Option AllocSim
  | .alloc size =>
    match s.a.alloc size with
    | none => none
    | some (off, a1) => some { a := a1, live := (off, s.a.getAlignedSize size) :: s.live }
  | .free addr size =>
    if (addr, s.a.getAlignedSize size) ∈ s.live then
      match s.a.free addr size with
      | none => none
      | some a1 => some { a := a1, live := eraseRegion (addr, s.a.getAlignedSize size) s.live }
    else none

/-- A sequence of calls, from left to right. -/
def AllocSim.run (s : AllocSim) : List AllocCall → Option AllocSim
  | [] => some s
  | c :: cs =>
    match s.step c with
    | none => none
    | some s1 => s1.run cs

/-- The simulation state of a fresh allocator. -/
def AllocSim.fresh : AllocSim := { a := Allocator.init, live := [] }

/-- The address `x` lies in the region `r = (offset, size)`, the range
`[offset, offset + size)`. -/
def inRegion (r : Nat × Nat) (x : Nat) : Prop := r.1 ≤ x ∧ x < r.1 + r.2

instance (r : Nat × Nat) (x : Nat) : Decidable (inRegion r x) := by
  unfold inRegion
  infer_instance

/-- Two regions have no address in common. -/
def regionsDisjoint (r1 r2 : Nat × Nat) : Prop := ∀ x, ¬ (inRegion r1 x ∧ inRegion r2 x)

/-- The sum of the aligned sizes of the `alloc` calls of a sequence. -/
def totalRequested (a : Allocator) : List AllocCall → Nat
  | [] => 0
  | .alloc size :: cs => a.getAlignedSize size + totalRequested a cs
  | .free _ _ :: cs => totalRequested a cs

/-- The number of regions of the list that contain the address `x`. -/
def cover (rs : List (Nat × Nat)) (x : Nat) : Nat :=
  rs.countP fun r => decide (inRegion r x)

/-- The keys of the entries increase strictly, as in a `std::map`. -/
def KeysSorted (fb : FreeBlocks) : Prop := fb.Pairwise fun e1 e2 => e1.1 < e2.1

/-- The sum of the sizes of the regions of a list. -/
def sizeSum (rs : List (Nat × Nat)) : Nat := (rs.map fun r => r.2).sum

/-- The invariant of the allocator with respect to the outstanding regions
`live`. -/
structure AllocInv (a : Allocator) (live : List (Nat × Nat)) : Prop where
  ptr_none : a.ptr = none
  used_lt : a.used < sizeModulus
  used_le_peak : a.used ≤ a.peak
  sorted : KeysSorted a.freeBlocks
  pos : ∀ e ∈ a.freeBlocks, 0 < e.2
  covers : ∀ x, cover (live ++ a.freeBlocks) x = if x < a.used then 1 else 0
  sum_eq : sizeSum (live ++ a.freeBlocks) = a.used

/-- The invariant inside case 2 of `free`: the region `R` is being returned to
the map `fb`, the outstanding regions are `live`. -/
structure PendInv (used : Nat) (live : List (Nat × Nat)) (R : Nat × Nat) (fb : FreeBlocks) :
    Prop where
  used_lt : used < sizeModulus
  sorted : KeysSorted fb
  pos : ∀ e ∈ fb, 0 < e.2
  rpos : 0 < R.2
  covers : ∀ x, cover (R :: (live ++ fb)) x = if x < used then 1 else 0
  sum_eq : sizeSum (R :: (live ++ fb)) = used

/-- The free map is coalesced: no free block ends where another begins, and
none ends at `used`. -/
structure Coalesced (a : Allocator) : Prop where
  no_tail : ∀ e ∈ a.freeBlocks, e.1 + e.2 ≠ a.used
  non_adj : ∀ e ∈ a.freeBlocks, ∀ d ∈ a.freeBlocks, e.1 + e.2 ≠ d.1

/-! ## The graph (`graph.cc`)

The classes `TensorObj`, `OperatorObj` and `GraphObj` are declared in headers
that are not part of the sources at hand; their data members are taken from
the way `graph.cc` uses them and from the data model of the specification. -/

/-- The operator types that `graph.cc` tells apart; `Other` stands for the rest
of the operator catalog. -/
inductive OpType where
  | MatMul
  | Transpose
  | Other
  deriving DecidableEq, Repr

/-- Modelled from the spec: the members of an operator that `graph.cc` reads
and writes (the class is declared in a header that is missing).  Tensors and
operators are referred to by their references. -/
structure OperatorObj where
  type : OpType
  inputs : List Nat
  outputs : List Nat
  predecessors : List Nat
  successors : List Nat
  transA : Bool
  transB : Bool
  transposePermute : List Int
  deriving DecidableEq, Repr

/-- Modelled from the spec: the members of a tensor that `graph.cc` reads and
writes (the class is declared in a header that is missing).  `bytes` is the
value of `getBytes()`, `source = none` is an empty (expired) source, `data` is
the address of the bound blob. -/
structure TensorObj where
  fuid : Nat
  shape : Shape
  bytes : Nat
  source : Option Nat
  targets : List Nat
  data : Option Nat
  deriving DecidableEq, Repr

/-- The state of a `GraphObj`: its members `tensors`, `ops`, `sorted` and
`allocator`, and the objects that the references point to. -/
structure GraphObj where
  tensors : List Nat
  ops : List Nat
  sorted : Bool
  allocator : Allocator
  tensorAt : Nat → TensorObj
  opAt : Nat → OperatorObj

/-- The condition of the `if` in the scan of `GraphObj::topo_sort`: `op` is not
in `flags`, and each of its inputs has no source or a source in `flags`. -/
def topoReady (g : GraphObj) (flags : List Nat) (op : Nat) : Bool :=
  !flags.contains op &&
    (g.opAt op).inputs.all fun input =>
      match (g.tensorAt input).source with
      | none => true
      | some ptr => flags.contains ptr

/-- The `for` loop of `GraphObj::topo_sort` over the operators listed in the
first argument; the state is `(sorted, flags, modified)`. -/
def topoPass (g : GraphObj) : List Nat → List Nat × List Nat × Bool → List Nat × List Nat × Bool
  | [], st => st
  | op :: rest, (sorted, flags, modified) =>
    if topoReady g flags op then topoPass g rest (sorted ++ [op], op :: flags, true)
    else topoPass g rest (sorted, flags, modified)

/-- The `while` loop of `GraphObj::topo_sort`.  The result `some none` is
`return false`, `some (some sorted)` is the exit of the loop with the vector
`sorted`, and `none` means that the fuel has run out. -/
def topoLoop (g : GraphObj) : Nat → List Nat → List Nat → Option (Option (List Nat))
  | fuel, sorted, flags =>
    if sorted.length < g.ops.length then
      match fuel with
      | 0 => none
      | fuel + 1 =>
        match topoPass g g.ops (sorted, flags, false) with
        | (_, _, false) => some none
        | (sorted1, flags1, true) => topoLoop g fuel sorted1 flags1
    else some (some sorted)

/-- The function `GraphObj::topo_sort`: the returned value and the new state.
Every pass of the loop that does not return places an operator, so
`ops.size() + 1` passes are enough (`topoLoop_total`). -/
def GraphObj.topo_sort (g : GraphObj) : Option (Bool × GraphObj) :=
  if g.sorted then some (true, g)
  else
    match topoLoop g (g.ops.length + 1) [] [] with
    | none => none
    | some none => some (false, g)
    | some (some sorted) => some (true, { g with ops := sorted, sorted := true })

/-! ### Memory planning (`GraphObj::dataMalloc`) -/

/-- A `std::unordered_map<TensorObj *, size_t>`. -/
abbrev RefMap := Nat → Option Nat

/-- The call `m.emplace(k, v)`: nothing happens when the key is present. -/
def RefMap.emplace (m : RefMap) (k v : Nat) : RefMap :=
  fun x => if x = k then (match m k with | none => some v | some w => some w) else m x

/-- The assignment through an iterator of the entry with key `k`. -/
def RefMap.assign (m : RefMap) (k v : Nat) : RefMap :=
  fun x => if x = k then some v else m x

/-- Membership in the set `pinned` of `dataMalloc`: the tensors of the graph
without source or without targets. -/
def isPinned (g : GraphObj) (t : Nat) : Bool :=
  g.tensors.contains t &&
    ((g.tensorAt t).source.isNone || (g.tensorAt t).targets.isEmpty)

/-- The first loop of `dataMalloc`, as far as `remainingUses` goes. -/
def initialUses (g : GraphObj) : List Nat → RefMap → RefMap
  | [], m => m
  | t :: ts, m => initialUses g ts (m.emplace t (g.tensorAt t).targets.length)

/-- The local state of pass 1 of `dataMalloc`. -/
structure PlanState where
  allocator : Allocator
  offsetMap : RefMap
  remainingUses : RefMap

/-- The loop "allocate graph inputs first" over the tensors listed. -/
def planInputs (g : GraphObj) : List Nat → PlanState → Option PlanState
  | [], st => some st
  | t :: ts, st =>
    if (g.tensorAt t).source.isNone then
      match st.allocator.alloc (g.tensorAt t).bytes with
      | none => none
      | some (off, a1) =>
        planInputs g ts { st with allocator := a1, offsetMap := st.offsetMap.emplace t off }
    else planInputs g ts st

/-- The loop "allocate op outputs" over the outputs of one operator. -/
def planOutputs (g : GraphObj) : List Nat → PlanState → Option PlanState
  | [], st => some st
  | out :: rest, st =>
    if (st.offsetMap out).isNone then
      match st.allocator.alloc (g.tensorAt out).bytes with
      | none => none
      | some (off, a1) =>
        planOutputs g rest { st with allocator := a1, offsetMap := st.offsetMap.emplace out off }
    else planOutputs g rest st

/-- The loop "consume op inputs; free when no longer needed" over the inputs
of one operator. -/
def planConsume (g : GraphObj) : List Nat → PlanState → Option PlanState
  | [], st => some st
  | tp :: rest, st =>
    if isPinned g tp then planConsume g rest st
    else
      match st.remainingUses tp with
      | none => none
      | some 0 => none
      | some (c + 1) =>
        if c = 0 then
          match st.offsetMap tp with
          | none => none
          | some off =>
            match st.allocator.free off (g.tensorAt tp).bytes with
            | none => none
            | some a1 =>
              planConsume g rest
                { st with allocator := a1, remainingUses := st.remainingUses.assign tp c }
        else planConsume g rest { st with remainingUses := st.remainingUses.assign tp c }

/-- The loop of pass 1 over the operators listed. -/
def planOps (g : GraphObj) : List Nat → PlanState → Option PlanState
  | [], st => some st
  | op :: rest, st =>
    match planOutputs g (g.opAt op).outputs st with
    | none => none
    | some st1 =>
      match planConsume g (g.opAt op).inputs st1 with
      | none => none
      | some st2 => planOps g rest st2

/-- Pass 1 of `dataMalloc` on a graph that has been sorted. -/
def planMemory (g : GraphObj) : Option PlanState :=
  match planInputs g g.tensors
      { allocator := g.allocator, offsetMap := fun _ => none,
        remainingUses := initialUses g g.tensors fun _ => none } with
  | none => none
  | some st => planOps g g.ops st

/-- The loop of pass 2 of `dataMalloc`: each tensor listed that has an offset
is bound to the address `base + offset`. -/
def bindBlobs (offsetMap : RefMap) (base : Nat) :
    List Nat → (Nat → TensorObj) → (Nat → TensorObj)
  | [], ts => ts
  | t :: rest, ts =>
    match offsetMap t with
    | none => bindBlobs offsetMap base rest ts
    | some off =>
      bindBlobs offsetMap base rest
        fun x => if x = t then { ts t with data := some (base + off) } else ts x

/-- The function `GraphObj::dataMalloc`; `base` is the address that the runtime
returns for the arena (`allocator.getPtr()`).  `none` is a failed assertion. -/
def GraphObj.dataMalloc (g : GraphObj) (base : Nat) : Option GraphObj :=
  match g.topo_sort with
  | some (true, g1) =>
    match planMemory g1 with
    | none => none
    | some st =>
      let ptr := match st.allocator.ptr with
        | none => some base
        | some q => some q
      some { g1 with allocator := { st.allocator with ptr := ptr },
                     tensorAt := bindBlobs st.offsetMap base g1.tensors g1.tensorAt }
  | _ => none

/-- The sum of the aligned sizes of the tensors listed. -/
def outputsBytes (g : GraphObj) (l : List Nat) : Nat :=
  (l.map fun t => g.allocator.getAlignedSize (g.tensorAt t).bytes).sum

/-- The sum of the aligned sizes of the source-less tensors among those
listed. -/
def inputsBytes (g : GraphObj) (l : List Nat) : Nat :=
  outputsBytes g (l.filter fun t => (g.tensorAt t).source.isNone)

/-- The sum of the aligned sizes of the outputs of the operators listed. -/
def opsBytes (g : GraphObj) (l : List Nat) : Nat :=
  (l.map fun op => outputsBytes g (g.opAt op).outputs).sum

/-- The number of bytes that pass 1 requests from the allocator at most: the
aligned sizes of the source-less tensors of the graph, and of the outputs of
its operators. -/
def planBytes (g : GraphObj) : Nat :=
  inputsBytes g g.tensors + opsBytes g g.ops

/-- The step at which the live range of the tensor `t` begins: `0` (before the
first operator) for a tensor without source, `i + 1` when its source is the
operator at index `i` of the operator list. -/
def liveStart (g : GraphObj) (t : Nat) : Nat :=
  match (g.tensorAt t).source with
  | none => 0
  | some p => g.ops.indexOf p + 1

/-- The indices of the operators that have `t` among their inputs. -/
def consumerIndices (g : GraphObj) (t : Nat) : List Nat :=
  (List.range g.ops.length).filter fun i => (g.opAt (g.ops.getD i 0)).inputs.contains t

/-- The step at which the live range of the tensor `t` ends: the end of the
pass (`ops.length + 1`) for a tensor without source or without targets,
`i + 1` when the last operator that consumes `t` is at index `i`. -/
def liveEnd (g : GraphObj) (t : Nat) : Nat :=
  if (g.tensorAt t).source.isNone || (g.tensorAt t).targets.isEmpty then g.ops.length + 1
  else
    match (consumerIndices g t).getLast? with
    | none => 0
    | some i => i + 1

/-! ### The optimizer (`GraphObj::optimize`) -/

/-- The result of a function that can fail an assertion, and whose loops are
run with fuel. -/
inductive Outcome (α : Type) where
  | done (a : α)
  | assertFailed
  | outOfFuel

/-- The graph in which the operator `o` is the object `v`. -/
def GraphObj.setOp (g : GraphObj) (o : Nat) (v : OperatorObj) : GraphObj :=
  { g with opAt := fun x => if x = o then v else g.opAt x }

/-- The graph in which the tensor `t` is the object `v`. -/
def GraphObj.setTensor (g : GraphObj) (t : Nat) (v : TensorObj) : GraphObj :=
  { g with tensorAt := fun x => if x = t then v else g.tensorAt x }

/-- Modelled from the spec: `TensorObj::addTarget` (its header is missing)
registers the operator `op` as a target of the tensor `t`; `graph.cc` reads the
targets as a vector (`getTargets()[0]`, `.size()`), to which the operator is
appended. -/
def GraphObj.addTarget (g : GraphObj) (t op : Nat) : GraphObj :=
  g.setTensor t { g.tensorAt t with targets := (g.tensorAt t).targets ++ [op] }

/-- Modelled from the spec: `TensorObj::removeTarget` (its header is missing)
removes the operator `op` from the targets of the tensor `t`. -/
def GraphObj.removeTarget (g : GraphObj) (t op : Nat) : GraphObj :=
  g.setTensor t { g.tensorAt t with targets := (g.tensorAt t).targets.filter fun o => o ≠ op }

/-- The call `t->source.reset()`. -/
def GraphObj.resetSource (g : GraphObj) (t : Nat) : GraphObj :=
  g.setTensor t { g.tensorAt t with source := none }

/-- Modelled from the spec: `OperatorObj::addPredecessors` (its header is
missing) links `p` as a predecessor of the operator `o`. -/
def GraphObj.addPredecessors (g : GraphObj) (o p : Nat) : GraphObj :=
  g.setOp o { g.opAt o with predecessors := (g.opAt o).predecessors ++ [p] }

/-- Modelled from the spec: `OperatorObj::addSuccessors` (its header is
missing) links `s` as a successor of the operator `o`. -/
def GraphObj.addSuccessors (g : GraphObj) (o s : Nat) : GraphObj :=
  g.setOp o { g.opAt o with successors := (g.opAt o).successors ++ [s] }

/-- Modelled from the spec: `OperatorObj::removePredecessors` (its header is
missing) removes `p` from the predecessors of the operator `o`. -/
def GraphObj.removePredecessors (g : GraphObj) (o p : Nat) : GraphObj :=
  g.setOp o { g.opAt o with predecessors := (g.opAt o).predecessors.filter fun x => x ≠ p }

/-- Modelled from the spec: `OperatorObj::removeSuccessors` (its header is
missing) removes `s` from the successors of the operator `o`. -/
def GraphObj.removeSuccessors (g : GraphObj) (o s : Nat) : GraphObj :=
  g.setOp o { g.opAt o with successors := (g.opAt o).successors.filter fun x => x ≠ s }

/-- Modelled from the spec: `OperatorObj::replaceInput` (its header is missing)
rebinds the inputs of the operator `o` that are the tensor `t1` to `t2`. -/
def GraphObj.replaceInput (g : GraphObj) (o t1 t2 : Nat) : GraphObj :=
  g.setOp o { g.opAt o with inputs := (g.opAt o).inputs.map fun t => if t = t1 then t2 else t }

/-- The lambda `cleanup_dangling_tensors` of `optimize`. -/
def GraphObj.cleanup_dangling_tensors (g : GraphObj) : GraphObj :=
  { g with tensors := g.tensors.filter fun t =>
      !((g.tensorAt t).targets.isEmpty && (g.tensorAt t).source.isNone) }

/-- The lambda `detach_op` of `optimize`. -/
def GraphObj.detach_op (g : GraphObj) (op : Nat) : GraphObj :=
  let g1 := (g.opAt op).inputs.foldl (fun h tin => h.removeTarget tin op) g
  let g2 := (g1.opAt op).outputs.foldl
    (fun h out => if (h.tensorAt out).source = some op then h.resetSource out else h) g1
  let g3 := (g2.opAt op).predecessors.foldl (fun h pred => h.removeSuccessors pred op) g2
  let g4 := (g3.opAt op).successors.foldl (fun h succ => h.removePredecessors succ op) g3
  g4.setOp op { g4.opAt op with predecessors := [], successors := [] }

/-- The state of the scan of rule 2: the graph, the set `eraseOps`, and the
variable `changed`. -/
structure FuseState where
  g : GraphObj
  eraseOps : List Nat
  changed : Bool

/-- The body of the loop over `inputIdx` of rule 2 for the Matmul `op`. -/
def fuseStep (op inputIdx : Nat) (st : FuseState) : FuseState :=
  match (st.g.opAt op).inputs.get? inputIdx with
  | none => st
  | some tin =>
    match (st.g.tensorAt tin).source with
    | none => st
    | some pred =>
      if st.eraseOps.contains pred || (st.g.opAt pred).type != OpType.Transpose then st
      else if (st.g.tensorAt tin).targets.length ≠ 1 then st
      else if !is_swap_last_two (st.g.opAt pred).transposePermute
          (st.g.tensorAt tin).shape.length then st
      else
        match (st.g.opAt pred).inputs.get? 0 with
        | none => st
        | some orig =>
          let g1 := ((st.g.replaceInput op tin orig).removeTarget tin op).addTarget orig op
          let g2 := (g1.removePredecessors op pred).removeSuccessors pred op
          let g3 := match (g2.tensorAt orig).source with
            | none => g2
            | some origPred => (g2.addSuccessors origPred op).addPredecessors op origPred
          let g4 :=
            if inputIdx = 0 then g3.setOp op { g3.opAt op with transA := !(g3.opAt op).transA }
            else g3.setOp op { g3.opAt op with transB := !(g3.opAt op).transB }
          if (g4.tensorAt tin).targets.isEmpty then ⟨g4.detach_op pred, pred :: st.eraseOps, true⟩
          else ⟨g4, st.eraseOps, st.changed⟩

/-- The loop of rule 2 over the operators listed. -/
def fusePass : List Nat → FuseState → FuseState
  | [], st => st
  | op :: rest, st =>
    if st.eraseOps.contains op then fusePass rest st
    else if (st.g.opAt op).type != OpType.MatMul then fusePass rest st
    else fusePass rest (fuseStep op 1 (fuseStep op 0 st))

/-- The body of the loop "rewire: replace uses of z with x" of rule 1 for the
consumer `succ`. -/
def rewireConsumer (op2 z x : Nat) (g : GraphObj) (succ : Nat) : GraphObj :=
  let g1 := ((g.replaceInput succ z x).removeTarget z succ).addTarget x succ
  let g2 := (g1.removePredecessors succ op2).removeSuccessors op2 succ
  match (g2.tensorAt x).source with
  | none => g2
  | some xp => (g2.addSuccessors xp succ).addPredecessors succ xp

/-- One visit of the loop of rule 1 at the operator `op1`: `done none` is
`++it`, `done (some g1)` is the graph after the pair has been removed. -/
def inversePairAt (g : GraphObj) (op1 : Nat) : Outcome (Option GraphObj) :=
  if (g.opAt op1).type != OpType.Transpose then .done none
  else
    match (g.opAt op1).outputs.get? 0 with
    | none => .done none
    | some y =>
      if (g.tensorAt y).targets.length ≠ 1 then .done none
      else
        match (g.tensorAt y).targets.get? 0 with
        | none => .done none
        | some op2 =>
          if (g.opAt op2).type != OpType.Transpose then .done none
          else
            match (g.opAt op2).outputs.get? 0 with
            | none => .done none
            | some z =>
              if (g.tensorAt z).targets.isEmpty then .done none
              else
                match (g.opAt op1).inputs.get? 0 with
                | none => .done none
                | some x =>
                  match is_inverse_perm (g.opAt op1).transposePermute
                      (g.opAt op2).transposePermute (g.tensorAt y).shape.length with
                  | none => .assertFailed
                  | some false => .done none
                  | some true =>
                    let g1 := (g.tensorAt z).targets.foldl (rewireConsumer op2 z x) g
                    let g2 := (g1.detach_op op1).detach_op op2
                    let ops1 := (g2.ops.filter fun o => o ≠ op1).filter fun o => o ≠ op2
                    .done (some ({ g2 with ops := ops1 }).cleanup_dangling_tensors)

/-- The loop of rule 1 with its iterator at index `idx`; the result is the
graph and the variable `changed`. -/
def removePairs : Nat → GraphObj → Nat → Bool → Outcome (GraphObj × Bool)
  | 0, _, _, _ => .outOfFuel
  | fuel + 1, g, idx, changed =>
    match g.ops.get? idx with
    | none => .done (g, changed)
    | some op1 =>
      match inversePairAt g op1 with
      | .assertFailed => .assertFailed
      | .outOfFuel => .outOfFuel
      | .done none => removePairs fuel g (idx + 1) changed
      | .done (some g1) => removePairs fuel g1 0 true

/-- The `do ... while (changed)` loop of `optimize`. -/
def optimizeLoop : Nat → GraphObj → Outcome GraphObj
  | 0, _ => .outOfFuel
  | fuel + 1, g =>
    let st := fusePass g.ops ⟨g, [], false⟩
    let g1 : GraphObj :=
      if st.eraseOps.isEmpty then st.g
      else { st.g with ops := st.g.ops.filter fun o => !st.eraseOps.contains o }
    match removePairs ((g1.ops.length + 1) * (g1.ops.length + 1) + 1) g1 0 st.changed with
    | .assertFailed => .assertFailed
    | .outOfFuel => .outOfFuel
    | .done (g2, false) => .done g2
    | .done (g2, true) =>
      match ({ g2 with sorted := false }).topo_sort with
      | none => .outOfFuel
      | some (false, _) => .assertFailed
      | some (true, g3) => optimizeLoop fuel g3.cleanup_dangling_tensors

/-- The function `GraphObj::optimize`. -/
def GraphObj.optimize (g : GraphObj) : Outcome GraphObj :=
  match g.topo_sort with
  | none => .outOfFuel
  | some (false, _) => .assertFailed
  | some (true, g1) => optimizeLoop (g1.ops.length + 1) g1

/-- In the list `l`, every operator comes after the producers of its inputs:
whenever `l = pre ++ op :: post`, the source of each input of `op` is in
`pre`. -/
def ProducersFirst (g : GraphObj) (l : List Nat) : Prop :=
  ∀ pre op post, l = pre ++ op :: post →
    ∀ t ∈ (g.opAt op).inputs, ∀ p, (g.tensorAt t).source = some p → p ∈ pre

/-- The state of the scan of `topo_sort`: `flags` holds the operators of
`sorted`, and `sorted` lists producers first. -/
structure TopoInv (g : GraphObj) (sorted flags : List Nat) : Prop where
  flags_eq : ∀ x, x ∈ flags ↔ x ∈ sorted
  ordered : ProducersFirst g sorted

/-- An operator of the catalog with the given inputs and outputs and no
links. -/
def plainOp (inputs outputs : List Nat) : OperatorObj :=
  ⟨OpType.Other, inputs, outputs, [], [], false, false, []⟩

/-- A tensor of 8 bytes with the given source and targets. -/
def plainTensor (source : Option Nat) (targets : List Nat) : TensorObj :=
  ⟨0, [2], 8, source, targets, none⟩

/-- The chain `t0 -> op0 -> t1 -> op1 -> t2`, its operators listed in the order
`[op1, op0]`. -/
def chainGraph : GraphObj :=
  { tensors := [0, 1, 2], ops := [1, 0], sorted := false, allocator := Allocator.init
    tensorAt := fun t =>
      if t = 0 then plainTensor none [0]
      else if t = 1 then plainTensor (some 0) [1] else plainTensor (some 1) []
    opAt := fun o => if o = 0 then plainOp [0] [1] else plainOp [1] [2] }

/-- One operator that consumes its own output. -/
def selfLoopGraph : GraphObj :=
  { tensors := [0], ops := [0], sorted := false, allocator := Allocator.init
    tensorAt := fun _ => plainTensor (some 0) [0]
    opAt := fun _ => plainOp [0] [0] }

/-- The region `(offset, aligned size)` that the plan assigns to the tensor
`t`. -/
def regionOf (g : GraphObj) (om : RefMap) (t : Nat) : Nat × Nat :=
  ((om t).getD 0, g.allocator.getAlignedSize (g.tensorAt t).bytes)

/-- The storage of the tensor `t` has been given back to the allocator: `t` is
not pinned and its count of remaining uses is zero. -/
def isFreed (g : GraphObj) (st : PlanState) (t : Nat) : Prop :=
  isPinned g t = false ∧ st.remainingUses t = some 0

/-- The tensor `t1` was freed before the tensor `t2` was allocated: the
operators visited so far split into `d1 ++ d2`, no operator of `d1` has `t2`
as an output, no operator of `d2` has `t1` as an input, and `t2` is not a
source-less tensor of the graph. -/
def FreedBefore (g : GraphObj) (done : List Nat) (st : PlanState) (t1 t2 : Nat) : Prop :=
  isFreed g st t1 ∧ ((g.tensorAt t2).source.isSome ∨ t2 ∉ g.tensors) ∧
    ∃ d1 d2, done = d1 ++ d2 ∧ (∀ op ∈ d1, t2 ∉ (g.opAt op).outputs) ∧
      (∀ op ∈ d2, t1 ∉ (g.opAt op).inputs)

/-- The invariant of pass 1 of `dataMalloc` after the operators `done`, with
`budget` bytes still to be requested at most.  `outs` lists the tensors whose
storage is outstanding, `leaks` the regions that were allocated for a tensor
that had an offset already. -/
structure PlanInv (g : GraphObj) (done : List Nat) (budget : Nat) (st : PlanState)
    (outs : List Nat) (leaks : List (Nat × Nat)) : Prop where
  inv : AllocInv st.allocator (outs.map (regionOf g st.offsetMap) ++ leaks)
  align : st.allocator.alignment = g.allocator.alignment
  fit : st.allocator.used + budget < sizeModulus
  nodup : outs.Nodup
  outs_iff : ∀ t, t ∈ outs ↔ (st.offsetMap t).isSome ∧ ¬ isFreed g st t
  sep : ∀ t1 t2, t1 ≠ t2 → (st.offsetMap t1).isSome → (st.offsetMap t2).isSome →
    regionsDisjoint (regionOf g st.offsetMap t1) (regionOf g st.offsetMap t2) ∨
      FreedBefore g done st t1 t2 ∨ FreedBefore g done st t2 t1
  produced : ∀ op ∈ done, ∀ out ∈ (g.opAt op).outputs, (st.offsetMap out).isSome
  freed_has : ∀ t, isFreed g st t → (st.offsetMap t).isSome

/-- The chain `t0 -> op0 -> t1 -> op1 -> t2 -> op2 -> t3` of tensors of 8
bytes, its operators listed in the order `[op2, op1, op0]`. -/
def chain4 : GraphObj :=
  { tensors := [0, 1, 2, 3], ops := [2, 1, 0], sorted := false, allocator := Allocator.init
    tensorAt := fun t =>
      if t = 0 then plainTensor none [0]
      else if t = 1 then plainTensor (some 0) [1]
      else if t = 2 then plainTensor (some 1) [2] else plainTensor (some 2) []
    opAt := fun o =>
      if o = 0 then plainOp [0] [1] else if o = 1 then plainOp [1] [2] else plainOp [2] [3] }

/-- The graph `chain4` after `dataMalloc` with the arena at address 1000. -/
def chain4Planned : GraphObj := (chain4.dataMalloc 1000).getD chain4

/-- Two graph inputs of `2 ^ 63` bytes and an operator that consumes both and
produces a tensor of 8 bytes. -/
def hugeGraph : GraphObj :=
  { tensors := [0, 1, 2], ops := [0], sorted := false, allocator := Allocator.init
    tensorAt := fun t =>
      if t = 0 then ⟨0, [2], 2 ^ 63, none, [0], none⟩
      else if t = 1 then ⟨1, [2], 2 ^ 63, none, [0], none⟩
      else ⟨2, [2], 8, some 0, [], none⟩
    opAt := fun _ => plainOp [0, 1] [2] }

/-! ### Graphs used to state the behaviour of the optimizer -/

/-- A heap given by the list of its entries: the object at the reference `k` is
the value of the first entry with key `k`, and `d k` when there is none. -/
def heapFun {α : Type} (l : List (Nat × α)) (d : Nat → α) (k : Nat) : α :=
  match l with
  | [] => d k
  | e :: r => if k = e.1 then e.2 else heapFun r d k

/-- The entries of a heap after the object at the reference `k` has been
replaced by `v`. -/
def heapSet {α : Type} (k : Nat) (v : α) : List (Nat × α) → List (Nat × α)
  | [] => [(k, v)]
  | e :: r => if k = e.1 then (k, v) :: r else e :: heapSet k v r

/-- The permutation `perm` of `r` axes is the identity on all axes except the
last two, which it swaps. -/
def SwapsLastTwo (perm : List Int) (r : Nat) : Prop :=
  2 ≤ r ∧ perm.length = r ∧ (∀ i : Nat, i < r - 2 → perm.getD i 0 = (i : Int)) ∧
    perm.getD (r - 2) 0 = (r : Int) - 1 ∧ perm.getD (r - 1) 0 = (r : Int) - 2

/-- The lists `p` and `q` are permutations of `[0, r)` that are inverse to each
other. -/
def InversePerms (p q : List Int) (r : Nat) : Prop :=
  p.length = r ∧ q.length = r ∧
    ∀ i : Nat, i < r →
      (0 ≤ p.getD i 0 ∧ p.getD i 0 < r ∧ q.getD (p.getD i 0).toNat 0 = i) ∧
      (0 ≤ q.getD i 0 ∧ q.getD i 0 < r ∧ p.getD (q.getD i 0).toNat 0 = i)

/-- The chain `t0 -> Transpose(q) -> t1 -> Transpose(p) -> t2 -> Transpose(q)
-> t3 -> op3 -> t4` with `p = [1, 2, 0]` and `q = [2, 0, 1]`, the inverse of
`p`; the operators are 0, 1, 2 and 3 in this order. -/
def tripleTransposeGraph : GraphObj :=
  { tensors := [0, 1, 2, 3, 4], ops := [0, 1, 2, 3], sorted := false
    allocator := Allocator.init
    tensorAt := fun t =>
      if t = 0 then ⟨0, [2, 3, 4], 96, none, [0], none⟩
      else if t = 1 then ⟨1, [4, 2, 3], 96, some 0, [1], none⟩
      else if t = 2 then ⟨2, [2, 3, 4], 96, some 1, [2], none⟩
      else if t = 3 then ⟨3, [4, 2, 3], 96, some 2, [3], none⟩
      else ⟨4, [4, 2, 3], 96, some 3, [], none⟩
    opAt := fun o =>
      if o = 0 then ⟨OpType.Transpose, [0], [1], [], [1], false, false, [2, 0, 1]⟩
      else if o = 1 then ⟨OpType.Transpose, [1], [2], [0], [2], false, false, [1, 2, 0]⟩
      else if o = 2 then ⟨OpType.Transpose, [2], [3], [1], [3], false, false, [2, 0, 1]⟩
      else ⟨OpType.Other, [3], [4], [2], [], false, false, []⟩ }

/-! ### The constructor of `TransposeObj` (`transpose.cc`) -/

/-- The assignment `v[i] = x` to an element of a `std::vector<int>`.  An index
outside the vector is undefined behaviour, which the embedding treats as a
failure (`none`). -/
def vectorAssign (v : List Int) (i : Nat) (x : Int) : Option (List Int) :=
  if i < v.length then some (v.set i x) else none

/-- The loop `for (size_t i = 0; i < rank; ++i) transposePermute[i] = i` of the
constructor, over the indices listed. -/
def identityFill : List Nat → List Int → Option (List Int)
  | [], v => some v
  | i :: rest, v =>
    match vectorAssign v i (i : Int) with
    | none => none
    | some v1 => identityFill rest v1

/-- The constructor `TransposeObj::TransposeObj` for an input tensor of rank
`rank` and the argument `permute`: the value of the member `transposePermute`
after the body, or `none` for a failed assertion or an undefined access.
`member0` is the value of the member when the body starts; the member is
declared in `transpose.h`, which is not among the sources at hand, so its
initial value is a parameter.  The final `IT_ASSERT(checkValid(graph))` calls
`OperatorObj::checkValid`, whose code is not among the sources at hand either:
its result for the operator with the member `perm` is the parameter
`checkValid`. -/
def TransposeObj.construct (checkValid : List Int → Bool) (member0 : List Int) (rank : Nat)
    (permute : List Int) : Option (List Int) :=
  match (if permute.isEmpty then identityFill (List.range rank) member0
    else if rank = permute.length then some permute
    else none) with
  | none => none
  | some perm => if checkValid perm then some perm else none

/-- The output shapes that a Transpose constructed with the argument `permute`
infers for an input of dimensions `input_dim`. -/
def TransposeObj.constructAndInfer (checkValid : List Int → Bool) (member0 : List Int)
    (permute : List Int) (input_dim : Shape) : Option (List Shape) :=
  match TransposeObj.construct checkValid member0 input_dim.length permute with
  | none => none
  | some perm => TransposeObj.inferShape perm input_dim

/-- The producer-to-consumer relation between the operators of the graph: `p`
produces an input tensor of `q`. -/
def producerEdge (g : GraphObj) (p q : Nat) : Prop :=
  p ∈ g.ops ∧ q ∈ g.ops ∧ ∃ t ∈ (g.opAt q).inputs, (g.tensorAt t).source = some p

/-- The producer-to-consumer relation of the graph contains no cycle. -/
def Acyclic (g : GraphObj) : Prop :=
  ∀ op, ¬ Relation.TransGen (producerEdge g) op op

/-! ### Edge construction (`GraphObj::addOperatorAndConnect`) -/

/-- Modelled from the spec: `TensorObj::setSource` (its header is missing)
makes the operator `op` the source of the tensor `t`. -/
def GraphObj.setSource (g : GraphObj) (t op : Nat) : GraphObj :=
  g.setTensor t { g.tensorAt t with source := some op }

/-- The body of the loop of `addOperatorAndConnect` over the inputs of `op`. -/
def connectInput (op : Nat) (g : GraphObj) (input : Nat) : GraphObj :=
  let g1 := g.addTarget input op
  match (g1.tensorAt input).source with
  | none => g1
  | some pred => (g1.addSuccessors pred op).addPredecessors op pred

/-- The body of the inner loop of `addOperatorAndConnect` over the targets of
an output of `op`. -/
def linkSuccessor (op : Nat) (g : GraphObj) (succ : Nat) : GraphObj :=
  (g.addPredecessors succ op).addSuccessors op succ

/-- The body of the loop of `addOperatorAndConnect` over the outputs of
`op`. -/
def connectOutput (op : Nat) (g : GraphObj) (output : Nat) : GraphObj :=
  let g1 := g.setSource output op
  (g1.tensorAt output).targets.foldl (linkSuccessor op) g1

/-- The function `GraphObj::addOperatorAndConnect`. -/
def GraphObj.addOperatorAndConnect (g : GraphObj) (op : Nat) : GraphObj :=
  let g0 : GraphObj := { g with sorted := false, ops := g.ops ++ [op] }
  let g1 := (g0.opAt op).inputs.foldl (connectInput op) g0
  (g1.opAt op).outputs.foldl (connectOutput op) g1

/-- The tensors and operators of the graph are unconnected, and the graph has
no operator: no tensor has a source or a target, and no operator has a
predecessor or a successor. -/
def Unconnected (g : GraphObj) : Prop :=
  g.ops = [] ∧ (∀ t, (g.tensorAt t).source = none ∧ (g.tensorAt t).targets = []) ∧
    ∀ o, (g.opAt o).predecessors = [] ∧ (g.opAt o).successors = []

/-- Some output tensor of the operator `p` is an input tensor of the operator
`q`. -/
def Feeds (g : GraphObj) (p q : Nat) : Prop :=
  ∃ t ∈ (g.opAt p).outputs, t ∈ (g.opAt q).inputs

/-- The graph with four unconnected tensors and the operators 0 (from tensor 0
to tensor 1), 1 (from tensors 1 and 2 to tensor 3), not yet added. -/
def looseGraph : GraphObj :=
  { tensors := [0, 1, 2, 3], ops := [], sorted := false, allocator := Allocator.init
    tensorAt := fun _ => plainTensor none []
    opAt := fun o => if o = 0 then plainOp [0] [1] else plainOp [1, 2] [3] }

/-- The operator list and the inputs and outputs of every operator are the
same in the graphs `r` and `h`. -/
def SameFrame (r h : GraphObj) : Prop :=
  r.ops = h.ops ∧ ∀ x, (r.opAt x).inputs = (h.opAt x).inputs ∧
    (r.opAt x).outputs = (h.opAt x).outputs

/-- The edges of the graph `g` are those derived from the operators `done`
with the inputs and outputs they have in `g0`: `g` lists the operators `done`,
a tensor's source is its producer among them, its targets are its consumers
among them, and the predecessors and successors are the pairs of them of which
the first feeds the second. -/
structure EdgesDerived (g g0 : GraphObj) (done : List Nat) : Prop where
  frame : SameFrame g { g0 with ops := done }
  src : ∀ t P, (g.tensorAt t).source = some P ↔ P ∈ done ∧ t ∈ (g0.opAt P).outputs
  tgt : ∀ t Q, Q ∈ (g.tensorAt t).targets ↔ Q ∈ done ∧ t ∈ (g0.opAt Q).inputs
  pred : ∀ P Q, P ∈ (g.opAt Q).predecessors ↔ P ∈ done ∧ Q ∈ done ∧ Feeds g0 P Q
  succ : ∀ P Q, Q ∈ (g.opAt P).successors ↔ P ∈ done ∧ Q ∈ done ∧ Feeds g0 P Q

/-! ### Shape inference over the graph (`GraphObj::shape_infer`) -/

/-- The virtual call `op->inferShape()`: `MatmulObj::inferShape` and
`TransposeObj::inferShape` for the two operator types at hand, and the
parameter `infer` for the operators of the rest of the catalog, whose code is
not among the sources.  A Transpose reads `inputs[0]`; without an input the
access is undefined, which counts as a failure. -/
def OperatorObj.inferShapeFrom (infer : OperatorObj → List Shape → Option (List Shape))
    (op : OperatorObj) (ins : List Shape) : Option (List Shape) :=
  match op.type with
  | OpType.MatMul =>
    match MatmulObj.inferShape op.transA op.transB ins with
    | none => none
    | some r => some r.1
  | OpType.Transpose =>
    match ins.get? 0 with
    | none => none
    | some input_dim => TransposeObj.inferShape op.transposePermute input_dim
  | OpType.Other => infer op ins

/-- The result of `op->inferShape()` for the operator `op` of the graph, on the
shapes that its input tensors have in `g`. -/
def GraphObj.inferShapeOp (infer : OperatorObj → List Shape → Option (List Shape))
    (g : GraphObj) (op : Nat) : Option (List Shape) :=
  OperatorObj.inferShapeFrom infer (g.opAt op) ((g.opAt op).inputs.map fun t => (g.tensorAt t).shape)

/-- The function `GraphObj::getTensor`: the first tensor of the graph with the
given Fuid, or `none` for `nullptr`. -/
def GraphObj.getTensor (g : GraphObj) (fuid : Nat) : Option Nat :=
  g.tensors.find? fun t => (g.tensorAt t).fuid = fuid

/-- Modelled from the spec: `TensorObj::setShape` (its header is missing)
rewrites the shape of the tensor `t`.  The byte size that the tensor reports
afterwards is computed by code that is not at hand and is the parameter
`bytesOf`. -/
def GraphObj.setShape (bytesOf : TensorObj → Shape → Nat) (g : GraphObj) (t : Nat)
    (shape : Shape) : GraphObj :=
  g.setTensor t { g.tensorAt t with shape := shape, bytes := bytesOf (g.tensorAt t) shape }

/-- The inner loop of `shape_infer` over the pairs `(ans[i], oldOutputs[i])`.
A shape that differs is written to the tensor that `getTensor` finds for the
Fuid of the output; `none` is the call of `setShape` on `nullptr`. -/
def rewriteShapes (bytesOf : TensorObj → Shape → Nat) :
    List (Shape × Nat) → GraphObj → Option GraphObj
  | [], g => some g
  | (newShape, out) :: rest, g =>
    if newShape ≠ (g.tensorAt out).shape then
      match g.getTensor (g.tensorAt out).fuid with
      | none => none
      | some tensor => rewriteShapes bytesOf rest (g.setShape bytesOf tensor newShape)
    else rewriteShapes bytesOf rest g

/-- The body of the loop of `shape_infer` for the operator `op`; `none` is a
failed assertion. -/
def shapeInferOp (infer : OperatorObj → List Shape → Option (List Shape))
    (bytesOf : TensorObj → Shape → Nat) (g : GraphObj) (op : Nat) : Option GraphObj :=
  match g.inferShapeOp infer op with
  | none => none
  | some ans =>
    if ans.length = (g.opAt op).outputs.length then
      rewriteShapes bytesOf (ans.zip (g.opAt op).outputs) g
    else none

/-- The loop of `shape_infer` over the operators listed. -/
def shapeInferLoop (infer : OperatorObj → List Shape → Option (List Shape))
    (bytesOf : TensorObj → Shape → Nat) : List Nat → GraphObj → Option GraphObj
  | [], g => some g
  | op :: rest, g =>
    match shapeInferOp infer bytesOf g op with
    | none => none
    | some g1 => shapeInferLoop infer bytesOf rest g1

/-- The function `GraphObj::shape_infer`. -/
def GraphObj.shape_infer (infer : OperatorObj → List Shape → Option (List Shape))
    (bytesOf : TensorObj → Shape → Nat) (g : GraphObj) : Option GraphObj :=
  shapeInferLoop infer bytesOf g.ops g

/-- The conditions on a graph under which `shape_infer` is used: the Fuids of
the tensors of the graph are unique; the outputs of every operator are
distinct tensors of the graph whose source is that operator; the operators are
pairwise distinct and listed in a topological order. -/
structure ShapeReady (g : GraphObj) : Prop where
  fuid_unique : ∀ t1 ∈ g.tensors, ∀ t2 ∈ g.tensors,
    (g.tensorAt t1).fuid = (g.tensorAt t2).fuid → t1 = t2
  out_mem : ∀ op ∈ g.ops, ∀ t ∈ (g.opAt op).outputs, t ∈ g.tensors
  out_source : ∀ op ∈ g.ops, ∀ t ∈ (g.opAt op).outputs, (g.tensorAt t).source = some op
  out_nodup : ∀ op ∈ g.ops, (g.opAt op).outputs.Nodup
  ops_nodup : g.ops.Nodup
  ordered : ProducersFirst g g.ops

/-- The graphs `g` and `h` differ in the shapes and byte sizes of their
tensors at most. -/
def SameButShapes (g h : GraphObj) : Prop :=
  h.ops = g.ops ∧ h.tensors = g.tensors ∧ h.opAt = g.opAt ∧
    ∀ t, (h.tensorAt t).fuid = (g.tensorAt t).fuid ∧
      (h.tensorAt t).source = (g.tensorAt t).source ∧
      (h.tensorAt t).targets = (g.tensorAt t).targets

/-- The graph `X (t0) -> Transpose [1, 0] (op0) -> t1`, `(t1, t2) -> Matmul
(op1) -> t3`, in which the shapes of `t1` and `t3` have not been inferred. -/
def staleShapesGraph : GraphObj :=
  { tensors := [0, 1, 2, 3], ops := [0, 1], sorted := true, allocator := Allocator.init
    tensorAt := fun t =>
      if t = 0 then ⟨0, [2, 3], 48, none, [0], none⟩
      else if t = 1 then ⟨1, [], 8, some 0, [1], none⟩
      else if t = 2 then ⟨2, [2, 5], 80, none, [1], none⟩
      else ⟨3, [], 8, some 1, [], none⟩
    opAt := fun o =>
      if o = 0 then ⟨OpType.Transpose, [0], [1], [], [1], false, false, [1, 0]⟩
      else ⟨OpType.MatMul, [1, 2], [3], [0], [], false, false, []⟩ }

/-- The inference function of a catalog without other operator types. -/
def noOtherInfer : OperatorObj → List Shape → Option (List Shape) := fun _ _ => none

/-- A byte size of 8 bytes for each element of the shape. -/
def eightBytesPerElement : TensorObj → Shape → Nat := fun _ s => (s.foldl (· * ·) 1).toNat * 8

/-- The graph `staleShapesGraph` after `shape_infer`. -/
def inferredShapesGraph : GraphObj :=
  (staleShapesGraph.shape_infer noOtherInfer eightBytesPerElement).getD staleShapesGraph

/-- The free blocks of the list `run` are entries of the map `fb` chained
directly below the address `hi` down to `lo`: the first ends at `hi`, each
further one ends where the one before it starts, and the last starts at `lo`
(`lo = hi` for the empty list). -/
def FreeChain (fb : FreeBlocks) (lo : Nat) : Nat → List (Nat × Nat) → Prop
  | hi, [] => lo = hi
  | hi, b :: rest => b ∈ fb ∧ b.1 + b.2 = hi ∧ FreeChain fb lo b.1 rest

/-- The list `p` is a permutation of `[0, r)`: it has `r` entries, all in
range and pairwise different. -/
def ValidPerm (p : List Int) (r : Nat) : Prop :=
  p.length = r ∧ (∀ i : Nat, i < r → 0 ≤ p.getD i 0 ∧ p.getD i 0 < r) ∧
    ∀ i j : Nat, i < r → j < r → p.getD i 0 = p.getD j 0 → i = j

/-- The number of times that the operators listed have the tensor `t` as an
input, an operator that has it twice counting twice. -/
def useCount (g : GraphObj) (l : List Nat) (t : Nat) : Nat :=
  (l.map fun op => (g.opAt op).inputs.count t).sum

/-- Every offset that pass 1 has assigned to a tensor of the graph is the start
of a range of the tensor's aligned size that ends at or below `peak`. -/
def OffsetsBelowPeak (g : GraphObj) (st : PlanState) : Prop :=
  ∀ t ∈ g.tensors, ∀ off, st.offsetMap t = some off →
    off + g.allocator.getAlignedSize (g.tensorAt t).bytes ≤ st.allocator.peak

/-- Every tensor of the graph has a count of remaining uses that is at least
the number `pending t` of uses that pass 1 has still to visit. -/
def UsesCovered (g : GraphObj) (st : PlanState) (pending : Nat → Nat) : Prop :=
  ∀ t ∈ g.tensors, ∃ c, st.remainingUses t = some c ∧ pending t ≤ c

/-- What `dataMalloc` expects of the graph: a fresh allocator; a cached flag
that, if set, belongs to an order that lists producers first; pairwise distinct
operators; the source of every tensor is an operator of the graph that lists it
as an output; the inputs of every operator are tensors of the graph; the
targets of a tensor have an entry for each use of the tensor as an input; the
byte sizes are positive, and the aligned sizes and their sum stay below
`2 ^ 64`. -/
structure PlanReady (g : GraphObj) : Prop where
  fresh : g.allocator = Allocator.init
  cache : g.sorted = true → ProducersFirst g g.ops
  ops_nodup : g.ops.Nodup
  source_valid : ∀ t ∈ g.tensors, ∀ p, (g.tensorAt t).source = some p →
    p ∈ g.ops ∧ t ∈ (g.opAt p).outputs
  inputs_valid : ∀ op ∈ g.ops, ∀ t ∈ (g.opAt op).inputs, t ∈ g.tensors
  uses : ∀ t ∈ g.tensors, useCount g g.ops t ≤ (g.tensorAt t).targets.length
  bytes_pos : ∀ t ∈ g.tensors, 0 < (g.tensorAt t).bytes ∧
    (g.tensorAt t).bytes + 8 ≤ sizeModulus
  fits : planBytes g < sizeModulus

/-- The chain `t0 -> op0 -> t1 -> op1 -> t2` in which `op1` has the tensor `t1`
as both of its inputs, while `t1` lists `op1` once among its targets. -/
def doubleUseGraph : GraphObj :=
  { tensors := [0, 1, 2], ops := [0, 1], sorted := false, allocator := Allocator.init
    tensorAt := fun t =>
      if t = 0 then ⟨0, [2], 8, none, [0], none⟩
      else if t = 1 then ⟨1, [2], 8, some 0, [1], none⟩
      else ⟨2, [2], 8, some 1, [], none⟩
    opAt := fun o =>
      if o = 0 then ⟨OpType.Other, [0], [1], [], [1], false, false, []⟩
      else ⟨OpType.Other, [1, 1], [2], [0], [], false, false, []⟩ }

/-- The last loop of `GraphObj::checkValid` over the tensors listed; `s` is the
set of the Fuids seen so far, and `false` is the failed assertion. -/
def fuidLoop (g : GraphObj) : List Nat → List Nat → Bool
  | [], _ => true
  | t :: rest, s =>
    !s.contains (g.tensorAt t).fuid && fuidLoop g rest ((g.tensorAt t).fuid :: s)

/-- The function `GraphObj::checkValid`: `true` when every assertion passes (the
function then returns true), `false` when one of them fails. -/
def GraphObj.checkValid (g : GraphObj) : Bool :=
  (g.tensors.all fun t =>
    !((g.tensorAt t).targets.length == 0 && (g.tensorAt t).source.isNone) &&
    ((g.tensorAt t).targets.all fun op => g.ops.contains op) &&
    (match (g.tensorAt t).source with
      | none => true
      | some op => g.ops.contains op)) &&
  (g.ops.all fun op =>
    ((g.opAt op).inputs.all fun t => g.tensors.contains t) &&
    ((g.opAt op).outputs.all fun t => g.tensors.contains t) &&
    ((g.opAt op).predecessors.all fun p => g.ops.contains p) &&
    ((g.opAt op).successors.all fun s => g.ops.contains s)) &&
  fuidLoop g g.tensors []

/-- The chain `t0 -> op0 -> t1 -> op1 -> t2` of tensors of 8 bytes with the
Fuids 0, 1 and 2, its operators linked as predecessor and successor. -/
def linkedChain : GraphObj :=
  { tensors := [0, 1, 2], ops := [0, 1], sorted := false, allocator := Allocator.init
    tensorAt := fun t =>
      if t = 0 then ⟨0, [2], 8, none, [0], none⟩
      else if t = 1 then ⟨1, [2], 8, some 0, [1], none⟩
      else ⟨2, [2], 8, some 1, [], none⟩
    opAt := fun o =>
      if o = 0 then ⟨OpType.Other, [0], [1], [], [1], false, false, []⟩
      else ⟨OpType.Other, [1], [2], [0], [], false, false, []⟩ }

/-- The operators of the graphs `g` and `h` differ at most in their
predecessors, successors and flags; the operator list, the tensor list and the
tensors are the same. -/
def SameWiring (g h : GraphObj) : Prop :=
  h.ops = g.ops ∧ h.tensors = g.tensors ∧ h.tensorAt = g.tensorAt ∧
    ∀ x, (h.opAt x).inputs = (g.opAt x).inputs ∧ (h.opAt x).outputs = (g.opAt x).outputs ∧
      (h.opAt x).type = (g.opAt x).type ∧
      (h.opAt x).transposePermute = (g.opAt x).transposePermute

/-- The graph `h` is the graph `g` after the consumer `succ` of the tensor `z`,
produced by the operator `d`, has been rewired to the tensor `x`: `succ` reads
`x` where it read `z`, `z` no longer lists `succ` as a target and `x` does,
`d` and `succ` are no longer linked, and the source of `x`, if any, is linked
with `succ`. -/
structure Rewired (g h : GraphObj) (d z x succ : Nat) : Prop where
  ops_eq : h.ops = g.ops
  tensors_eq : h.tensors = g.tensors
  ops_frame : ∀ o, (h.opAt o).outputs = (g.opAt o).outputs ∧
    (h.opAt o).type = (g.opAt o).type ∧
    (h.opAt o).transposePermute = (g.opAt o).transposePermute
  inputs_eq : ∀ o, (h.opAt o).inputs =
    if o = succ then (g.opAt o).inputs.map (fun t => if t = z then x else t)
    else (g.opAt o).inputs
  tensors_frame : ∀ t, (h.tensorAt t).fuid = (g.tensorAt t).fuid ∧
    (h.tensorAt t).source = (g.tensorAt t).source
  targets_iff : ∀ t Q, Q ∈ (h.tensorAt t).targets ↔
    (Q ∈ (g.tensorAt t).targets ∧ ¬ (t = z ∧ Q = succ)) ∨ (t = x ∧ Q = succ)
  preds_iff : ∀ o P, P ∈ (h.opAt o).predecessors ↔
    (P ∈ (g.opAt o).predecessors ∧ ¬ (o = succ ∧ P = d)) ∨
      (o = succ ∧ (g.tensorAt x).source = some P)
  succs_iff : ∀ o Q, Q ∈ (h.opAt o).successors ↔
    (Q ∈ (g.opAt o).successors ∧ ¬ (o = d ∧ Q = succ)) ∨
      ((g.tensorAt x).source = some o ∧ Q = succ)

/-- The graph `h` is the graph `g` after `detach_op` of the operator `d`: `d`
is no longer a target of its inputs, the source of its outputs, a predecessor
of its successors or a successor of its predecessors, and it has no
predecessors and successors itself. -/
structure Detached (g h : GraphObj) (d : Nat) : Prop where
  ops_eq : h.ops = g.ops
  tensors_eq : h.tensors = g.tensors
  ops_frame : ∀ o, (h.opAt o).inputs = (g.opAt o).inputs ∧
    (h.opAt o).outputs = (g.opAt o).outputs ∧ (h.opAt o).type = (g.opAt o).type ∧
    (h.opAt o).transposePermute = (g.opAt o).transposePermute
  tensors_frame : ∀ t, (h.tensorAt t).fuid = (g.tensorAt t).fuid
  targets_iff : ∀ t Q, Q ∈ (h.tensorAt t).targets ↔
    Q ∈ (g.tensorAt t).targets ∧ ¬ (Q = d ∧ t ∈ (g.opAt d).inputs)
  source_eq : ∀ t, (h.tensorAt t).source =
    if t ∈ (g.opAt d).outputs ∧ (g.tensorAt t).source = some d then none
    else (g.tensorAt t).source
  preds_iff : ∀ o P, P ∈ (h.opAt o).predecessors ↔
    o ≠ d ∧ P ∈ (g.opAt o).predecessors ∧ ¬ (P = d ∧ o ∈ (g.opAt d).successors)
  succs_iff : ∀ o Q, Q ∈ (h.opAt o).successors ↔
    o ≠ d ∧ Q ∈ (g.opAt o).successors ∧ ¬ (Q = d ∧ o ∈ (g.opAt d).predecessors)

/-- The edges of the graph are consistent for the operators `live`, up to the
operators `ghost`, which are about to be detached.  For an operator that is
not in `ghost`: a tensor's source is its producer among the `live` operators,
its targets are its consumers among them, and the predecessors and successors
of a `live` operator are the `live` operators that feed it and that it feeds.
An operator in `ghost` may still be the source of its outputs, a target of its
inputs, a predecessor of its successors and a successor of its predecessors.
The inputs and outputs of the `live` operators are tensors of the graph, and
the Fuids of the tensors are unique. -/
structure EdgesValidG (g : GraphObj) (live ghost : Nat → Prop) : Prop where
  disjoint : ∀ P, live P → ¬ ghost P
  src : ∀ t ∈ g.tensors, ∀ P, ¬ ghost P →
    ((g.tensorAt t).source = some P ↔ live P ∧ t ∈ (g.opAt P).outputs)
  src_ghost : ∀ t ∈ g.tensors, ∀ P, ghost P → (g.tensorAt t).source = some P →
    t ∈ (g.opAt P).outputs
  tgt : ∀ t ∈ g.tensors, ∀ Q, ¬ ghost Q →
    (Q ∈ (g.tensorAt t).targets ↔ live Q ∧ t ∈ (g.opAt Q).inputs)
  tgt_ghost : ∀ t ∈ g.tensors, ∀ Q, ghost Q → Q ∈ (g.tensorAt t).targets →
    t ∈ (g.opAt Q).inputs
  in_mem : ∀ Q, live Q → ∀ t ∈ (g.opAt Q).inputs, t ∈ g.tensors
  out_mem : ∀ Q, live Q → ∀ t ∈ (g.opAt Q).outputs, t ∈ g.tensors
  pred : ∀ Q, live Q → ∀ P, ¬ ghost P →
    (P ∈ (g.opAt Q).predecessors ↔ live P ∧ Feeds g P Q)
  pred_ghost : ∀ Q, live Q → ∀ P, ghost P → P ∈ (g.opAt Q).predecessors →
    Q ∈ (g.opAt P).successors
  succ : ∀ P, live P → ∀ Q, ¬ ghost Q →
    (Q ∈ (g.opAt P).successors ↔ live Q ∧ Feeds g P Q)
  succ_ghost : ∀ P, live P → ∀ Q, ghost Q → Q ∈ (g.opAt P).successors →
    P ∈ (g.opAt Q).predecessors
  fuid_unique : ∀ t1 ∈ g.tensors, ∀ t2 ∈ g.tensors,
    (g.tensorAt t1).fuid = (g.tensorAt t2).fuid → t1 = t2

/-- The invariants of the graph.  The conditions of `checkValid`: no tensor of
the graph is without source and targets; the source and the targets of every
tensor are operators of the graph; the inputs and outputs of every operator are
tensors of the graph; every predecessor and successor is an operator of the
graph; the Fuids are unique.  The edges are derived from the inputs and outputs
of the operators: the source of a tensor is the operator of the graph that has
it as an output, its targets are the operators of the graph that have it as an
input, and `P` is a predecessor of `Q`, and `Q` a successor of `P`, exactly
when both are operators of the graph and an output of `P` is an input of
`Q`.  The graph lists no operator and no tensor twice. -/
structure GraphValid (g : GraphObj) : Prop where
  ops_nodup : g.ops.Nodup
  tensors_nodup : g.tensors.Nodup
  no_dangling : ∀ t ∈ g.tensors,
    ¬ ((g.tensorAt t).targets = [] ∧ (g.tensorAt t).source = none)
  src_iff : ∀ t ∈ g.tensors, ∀ P,
    (g.tensorAt t).source = some P ↔ P ∈ g.ops ∧ t ∈ (g.opAt P).outputs
  tgt_iff : ∀ t ∈ g.tensors, ∀ Q,
    Q ∈ (g.tensorAt t).targets ↔ Q ∈ g.ops ∧ t ∈ (g.opAt Q).inputs
  in_mem : ∀ Q ∈ g.ops, ∀ t ∈ (g.opAt Q).inputs, t ∈ g.tensors
  out_mem : ∀ Q ∈ g.ops, ∀ t ∈ (g.opAt Q).outputs, t ∈ g.tensors
  pred_iff : ∀ Q ∈ g.ops, ∀ P,
    P ∈ (g.opAt Q).predecessors ↔ P ∈ g.ops ∧ Feeds g P Q
  succ_iff : ∀ P ∈ g.ops, ∀ Q,
    Q ∈ (g.opAt P).successors ↔ Q ∈ g.ops ∧ Feeds g P Q
  fuid_unique : ∀ t1 ∈ g.tensors, ∀ t2 ∈ g.tensors,
    (g.tensorAt t1).fuid = (g.tensorAt t2).fuid → t1 = t2

/-- The statement "toggle trans flag" of rule 2 for the Matmul `op` and its
input at the position `inputIdx`. -/
def toggleTrans (g : GraphObj) (op inputIdx : Nat) : GraphObj :=
  if inputIdx = 0 then g.setOp op { g.opAt op with transA := !(g.opAt op).transA }
  else g.setOp op { g.opAt op with transB := !(g.opAt op).transB }

/-- The tests of rule 2 for the input at the position `inputIdx` of the Matmul
`op` all pass, with `tin` that input, `pred` its source and `orig` the first
input of `pred`: `pred` is a Transpose that is not in `eraseOps`, `tin` has one
target, and the permutation of `pred` swaps the last two axes of the rank of
`tin`. -/
def FuseCond (g : GraphObj) (eraseOps : List Nat) (op inputIdx tin pred orig : Nat) : Prop :=
  (g.opAt op).inputs.get? inputIdx = some tin ∧ (g.tensorAt tin).source = some pred ∧
    pred ∉ eraseOps ∧ (g.opAt pred).type = OpType.Transpose ∧
    (g.tensorAt tin).targets.length = 1 ∧
    is_swap_last_two (g.opAt pred).transposePermute (g.tensorAt tin).shape.length = true ∧
    (g.opAt pred).inputs.get? 0 = some orig

/-- The tests of rule 1 at the operator `op1` all pass, with `y` its first
output, `op2` the one target of `y`, `z` the first output of `op2` and `x` the
first input of `op1`: both operators are Transposes, `z` has a target, and the
inverse check accepts their permutations at the rank of `y`. -/
def PairCond (g : GraphObj) (op1 y op2 z x : Nat) : Prop :=
  (g.opAt op1).type = OpType.Transpose ∧ (g.opAt op1).outputs.get? 0 = some y ∧
    (g.tensorAt y).targets.length = 1 ∧ (g.tensorAt y).targets.get? 0 = some op2 ∧
    (g.opAt op2).type = OpType.Transpose ∧ (g.opAt op2).outputs.get? 0 = some z ∧
    (g.tensorAt z).targets ≠ [] ∧ (g.opAt op1).inputs.get? 0 = some x ∧
    is_inverse_perm (g.opAt op1).transposePermute (g.opAt op2).transposePermute
      (g.tensorAt y).shape.length = some true

/-- The graph after rule 1 has removed the pair `op1`, `op2`. -/
def removePair (g : GraphObj) (op1 op2 z x : Nat) : GraphObj :=
  let g1 := (g.tensorAt z).targets.foldl (rewireConsumer op2 z x) g
  let g2 := (g1.detach_op op1).detach_op op2
  let ops1 := (g2.ops.filter fun o => o ≠ op1).filter fun o => o ≠ op2
  ({ g2 with ops := ops1 }).cleanup_dangling_tensors

/-- The producer-to-consumer relation between the operators `live`: `p`
produces an input tensor of `q`. -/
def edgeOn (g : GraphObj) (live : Nat → Prop) (p q : Nat) : Prop :=
  live p ∧ live q ∧ ∃ t ∈ (g.opAt q).inputs, (g.tensorAt t).source = some p

/-- The graph `g` with the operators `live` comes from the graph `g0` with the
operators `live0` by rewrites of the optimizer: it has no new tensors and no
new operators, the types and permutations of the operators are the same, and
every producer-to-consumer edge of `g` is a path of such edges of `g0`. -/
structure Reduced (g0 : GraphObj) (live0 : Nat → Prop) (g : GraphObj) (live : Nat → Prop) :
    Prop where
  tensors_sub : ∀ t ∈ g.tensors, t ∈ g0.tensors
  live_sub : ∀ P, live P → live0 P
  frame : ∀ o, (g.opAt o).type = (g0.opAt o).type ∧
    (g.opAt o).transposePermute = (g0.opAt o).transposePermute
  edges : ∀ p q, edgeOn g live p q → Relation.TransGen (edgeOn g0 live0) p q

/-- The invariant of the scan of rule 2 on the graph `g0`: the edges are
consistent for the operators that are not in `eraseOps`, the lists of the
operators and tensors are those of `g0`, the operators in `eraseOps` are
operators of `g0`, and `changed` is set exactly when `eraseOps` is not empty;
without a change the graph is `g0`. -/
structure FuseInv (g0 : GraphObj) (st : FuseState) : Prop where
  valid : EdgesValidG st.g (fun P => P ∈ g0.ops ∧ P ∉ st.eraseOps) (fun _ => False)
  ops_eq : st.g.ops = g0.ops
  tensors_eq : st.g.tensors = g0.tensors
  reduced : Reduced g0 (fun P => P ∈ g0.ops) st.g (fun P => P ∈ g0.ops ∧ P ∉ st.eraseOps)
  erased : ∀ e ∈ st.eraseOps, e ∈ g0.ops
  changed_iff : st.changed = true ↔ st.eraseOps ≠ []
  unchanged : st.changed = false → st.g = g0

/-- One pass of the `do ... while (changed)` loop of `optimize`: the graph
after the pass and the value of `changed`. -/
def optimizePass (g : GraphObj) : Outcome (GraphObj × Bool) :=
  let st := fusePass g.ops ⟨g, [], false⟩
  let g1 : GraphObj :=
    if st.eraseOps.isEmpty then st.g
    else { st.g with ops := st.g.ops.filter fun o => !st.eraseOps.contains o }
  match removePairs ((g1.ops.length + 1) * (g1.ops.length + 1) + 1) g1 0 st.changed with
  | .assertFailed => .assertFailed
  | .outOfFuel => .outOfFuel
  | .done (g2, false) => .done (g2, false)
  | .done (g2, true) =>
    match ({ g2 with sorted := false }).topo_sort with
    | none => .outOfFuel
    | some (false, _) => .assertFailed
    | some (true, g3) => .done (g3.cleanup_dangling_tensors, true)

/-- Every entry of the permutation of every Transpose of the graph is an axis
of the permutation: it lies between 0 and the length of the permutation. -/
def PermsInRange (g : GraphObj) : Prop :=
  ∀ o ∈ g.ops, (g.opAt o).type = OpType.Transpose →
    ∀ i : Nat, i < (g.opAt o).transposePermute.length →
      0 ≤ (g.opAt o).transposePermute.getD i 0 ∧
        (g.opAt o).transposePermute.getD i 0 < (g.opAt o).transposePermute.length

/-- The graph `g` comes from the graph `g0` by rewrites of the optimizer (see
`Reduced`) and its edges are consistent; it lists no operator twice, not more
operators than `g0`, and its tensors are among those of `g0`, in their
order. -/
structure Kept (g0 g : GraphObj) : Prop where
  valid : EdgesValidG g (fun P => P ∈ g.ops) (fun _ => False)
  reduced : Reduced g0 (fun P => P ∈ g0.ops) g (fun P => P ∈ g.ops)
  ops_nodup : g.ops.Nodup
  ops_len : g.ops.length ≤ g0.ops.length
  tensors_sub : List.Sublist g.tensors g0.tensors

/-- Rule 2 does not apply in the graph: for no Matmul of the graph and none of
its two input positions do the tests of the rule pass. -/
def NoFusable (g : GraphObj) : Prop :=
  ∀ op ∈ g.ops, (g.opAt op).type = OpType.MatMul → ∀ inputIdx : Nat, inputIdx < 2 →
    ¬ ∃ tin pred orig, FuseCond g [] op inputIdx tin pred orig

/-- Rule 1 does not apply in the graph: at no operator of the graph do the
tests of the rule pass. -/
def NoInversePair (g : GraphObj) : Prop :=
  ∀ op1 ∈ g.ops, ¬ ∃ y op2 z x, PairCond g op1 y op2 z x

instance (g : GraphObj) (p q : Nat) : Decidable (Feeds g p q) := by
  unfold Feeds
  infer_instance

/-- A Transpose (operator 0, permutation `[1, 0]`) of the tensor 0 whose output,
the tensor 1, is the first input of a Matmul (operator 1) with the second
input 2 and the output 3. -/
def demoGraph : GraphObj :=
  { tensors := [0, 1, 2, 3], ops := [0, 1], sorted := false, allocator := Allocator.init
    tensorAt := fun t =>
      if t = 0 then ⟨0, [2, 3], 48, none, [0], none⟩
      else if t = 1 then ⟨1, [3, 2], 48, some 0, [1], none⟩
      else if t = 2 then ⟨2, [2, 4], 64, none, [1], none⟩
      else ⟨3, [3, 4], 96, some 1, [], none⟩
    opAt := fun o =>
      if o = 0 then ⟨OpType.Transpose, [0], [1], [], [1], false, false, [1, 0]⟩
      else ⟨OpType.MatMul, [1, 2], [3], [0], [], false, false, []⟩ }

/-- The graph `demoGraph` after `optimize`. -/
def demoOptimized : GraphObj :=
  match demoGraph.optimize with
  | .done g => g
  | _ => demoGraph

/-- A Transpose (operator 0, permutation `[1, 0]`) of the tensor 0 whose output,
the tensor 1, is both inputs of a Matmul (operator 1) with the output 2, as
`addOperatorAndConnect` builds it: the tensor 1 lists the Matmul twice among
its targets, and the two operators are linked twice. -/
def squareGraph : GraphObj :=
  { tensors := [0, 1, 2], ops := [0, 1], sorted := false, allocator := Allocator.init
    tensorAt := fun t =>
      if t = 0 then ⟨0, [2, 2], 32, none, [0], none⟩
      else if t = 1 then ⟨1, [2, 2], 32, some 0, [1, 1], none⟩
      else ⟨2, [2, 2], 32, some 1, [], none⟩
    opAt := fun o =>
      if o = 0 then ⟨OpType.Transpose, [0], [1], [], [1, 1], false, false, [1, 0]⟩
      else ⟨OpType.MatMul, [1, 1], [2], [0, 0], [], false, false, []⟩ }

/-- The tensors and operators of `squareGraph` before the operators have been
added to the graph. -/
def squareLoose : GraphObj :=
  { tensors := [0, 1, 2], ops := [], sorted := false, allocator := Allocator.init
    tensorAt := fun t =>
      if t = 0 then ⟨0, [2, 2], 32, none, [], none⟩
      else if t = 1 then ⟨1, [2, 2], 32, none, [], none⟩
      else ⟨2, [2, 2], 32, none, [], none⟩
    opAt := fun o =>
      if o = 0 then ⟨OpType.Transpose, [0], [1], [], [], false, false, [1, 0]⟩
      else ⟨OpType.MatMul, [1, 1], [2], [], [], false, false, []⟩ }

/-- The graphs `g` and `h` have the same flags `transA`, `transB` at every
operator and the same shape at every tensor. -/
def SameData (g h : GraphObj) : Prop :=
  (∀ o, (h.opAt o).transA = (g.opAt o).transA ∧ (h.opAt o).transB = (g.opAt o).transB) ∧
    ∀ t, (h.tensorAt t).shape = (g.tensorAt t).shape

/-- The graph after rule 2 has fused the Transpose `pred`, the source of the
input `tin` of the Matmul `op` at the position `inputIdx`, into `op`: the
Matmul reads `orig`, the input of `pred`, its flag of that position is
toggled, and `pred` is detached. -/
def fuseFire (g : GraphObj) (op inputIdx tin pred orig : Nat) : GraphObj :=
  (toggleTrans (rewireConsumer pred tin orig g op) op inputIdx).detach_op pred

/-- The producer-to-consumer relation between the operators listed in `l`
contains no cycle. -/
def NoCycleOn (g : GraphObj) (l : List Nat) : Prop :=
  ∀ o, ¬ Relation.TransGen (edgeOn g (fun P => P ∈ l)) o o

/-- A property `J` of the objects of a graph and of the list of its operators
that are still in use is carried through `optimize`: it does not depend on the
lists `ops` and `tensors` of the graph, every firing of rule 2 and of rule 1
keeps it (rule 1 fires at the first operator of the list at which its tests
pass), and so does a reordering of the list that puts producers first. -/
structure Carried (J : GraphObj → List Nat → Prop) : Prop where
  ext : ∀ (g h : GraphObj) (l : List Nat), h.tensorAt = g.tensorAt → h.opAt = g.opAt →
    J g l → J h l
  fuse : ∀ (g : GraphObj) (l : List Nat) (op inputIdx tin pred orig : Nat), l.Nodup →
    EdgesValidG g (fun P => P ∈ l) (fun _ => False) → NoCycleOn g l → J g l →
    op ∈ l → pred ∈ l → (g.opAt op).type = OpType.MatMul → inputIdx < 2 →
    FuseCond g [] op inputIdx tin pred orig →
    EdgesValidG (fuseFire g op inputIdx tin pred orig)
      (fun P => P ∈ l.filter fun o => o ≠ pred) (fun _ => False) →
    J (fuseFire g op inputIdx tin pred orig) (l.filter fun o => o ≠ pred)
  pair : ∀ (g : GraphObj) (pre post : List Nat) (op1 y op2 z x : Nat),
    g.ops = pre ++ op1 :: post → g.ops.Nodup →
    EdgesValidG g (fun P => P ∈ g.ops) (fun _ => False) → NoCycleOn g g.ops → J g g.ops →
    (∀ o ∈ pre, ¬ ∃ y op2 z x, PairCond g o y op2 z x) → PairCond g op1 y op2 z x →
    EdgesValidG (removePair g op1 op2 z x) (fun P => P ∈ (removePair g op1 op2 z x).ops)
      (fun _ => False) →
    J (removePair g op1 op2 z x) (removePair g op1 op2 z x).ops
  sort : ∀ (g : GraphObj) (l l1 : List Nat), l.Nodup →
    EdgesValidG g (fun P => P ∈ l) (fun _ => False) → J g l → l1.Perm l →
    ProducersFirst g l1 → J g l1

/-- The state of a graph made of the Transpose `T`, from the tensor `x` to the
tensor `y`, and the Matmul `M`, with the inputs `in0` and the flags `tA`, `tB`
at the start, that reads `y` at the position `i`, while `optimize` runs.
Either both operators are in use and untouched, or only the Matmul is: it
reads `x` where it read `y`, and its flag of the position `i` is negated. -/
def FusionTrack (T M x y i : Nat) (in0 out0 : List Nat) (tA tB : Bool) (g : GraphObj)
    (l : List Nat) : Prop :=
  (∀ o ∈ l, o = T ∨ o = M) ∧ M ∈ l ∧ (g.opAt M).type = OpType.MatMul ∧
    (g.opAt T).type = OpType.Transpose ∧ (g.opAt M).outputs = out0 ∧
    (g.opAt T).outputs = [y] ∧
    ((T ∈ l ∧ (g.opAt M).inputs = in0 ∧ (g.opAt M).transA = tA ∧ (g.opAt M).transB = tB ∧
        (g.opAt T).inputs = [x] ∧ (g.tensorAt y).targets = [M] ∧
        is_swap_last_two (g.opAt T).transposePermute (g.tensorAt y).shape.length = true) ∨
      (T ∉ l ∧ (g.opAt M).inputs = in0.map (fun t => if t = y then x else t) ∧
        (g.opAt M).transA = (if i = 0 then !tA else tA) ∧
        (g.opAt M).transB = (if i = 0 then tB else !tB)))

/-- A Transpose (operator 0, permutation `[1, 0]`) of the tensor 0 whose output,
the tensor 1, is the first input of a Matmul (operator 1) that has the tensor 0
itself as its second input, with the output 2. -/
def selfProductGraph : GraphObj :=
  { tensors := [0, 1, 2], ops := [0, 1], sorted := false, allocator := Allocator.init
    tensorAt := fun t =>
      if t = 0 then ⟨0, [2, 2], 32, none, [0, 1], none⟩
      else if t = 1 then ⟨1, [2, 2], 32, some 0, [1], none⟩
      else ⟨2, [2, 2], 32, some 1, [], none⟩
    opAt := fun o =>
      if o = 0 then ⟨OpType.Transpose, [0], [1], [], [1], false, false, [1, 0]⟩
      else ⟨OpType.MatMul, [1, 0], [2], [0], [], false, true, []⟩ }

/-- The facts about the chain `x -> Transpose T1 -> y -> Transpose T2 -> z` in
the graph `g0` that do not change while `optimize` runs: the types and outputs
of the two operators, their permutations, inverse to each other at the rank of
`y`, and that the tensors and the operators are different ones. -/
structure ChainStatic (g0 : GraphObj) (T1 T2 x y z : Nat) : Prop where
  type1 : (g0.opAt T1).type = OpType.Transpose
  type2 : (g0.opAt T2).type = OpType.Transpose
  out1 : (g0.opAt T1).outputs = [y]
  out2 : (g0.opAt T2).outputs = [z]
  inverse : InversePerms (g0.opAt T1).transposePermute (g0.opAt T2).transposePermute
    (g0.tensorAt y).shape.length
  x_ne_y : x ≠ y
  y_ne_z : y ≠ z
  x_ne_z : x ≠ z
  ops_ne : T1 ≠ T2

/-- What every state of the graph `g` with the operators `l` in use has in
common with the graph `g0` that `optimize` started from: the outputs, types and
permutations of the operators and the shapes of the tensors are those of `g0`,
every Transpose in use has one input and one output, and the source of `x`, if
any, is not a Transpose. -/
structure ChainBase (g0 : GraphObj) (x : Nat) (g : GraphObj) (l : List Nat) : Prop where
  frame : ∀ o, (g.opAt o).outputs = (g0.opAt o).outputs ∧
    (g.opAt o).type = (g0.opAt o).type ∧
    (g.opAt o).transposePermute = (g0.opAt o).transposePermute
  shape : ∀ t, (g.tensorAt t).shape = (g0.tensorAt t).shape
  arity : ∀ o ∈ l, (g.opAt o).type = OpType.Transpose →
    (g.opAt o).inputs.length = 1 ∧ (g.opAt o).outputs.length = 1
  xsrc : ∀ P, (g.tensorAt x).source = some P → (g.opAt P).type ≠ OpType.Transpose

/-- The chain is intact: both Transposes are in use, `T1` before `T2` in the
list, `T1` reads `x`, `T2` reads `y` and is its one target, `z` has a target,
and the operators in use that read `z` in `g0` read it at the same positions. -/
def ChainIntact (g0 : GraphObj) (T1 T2 x y z : Nat) (g : GraphObj) (l : List Nat) : Prop :=
  T1 ∈ l ∧ T2 ∈ l ∧ (∃ pre post, l = pre ++ T1 :: post ∧ T2 ∈ post) ∧
    (g.opAt T1).inputs = [x] ∧ (g.opAt T2).inputs = [y] ∧ (g.tensorAt y).targets = [T2] ∧
    (g.tensorAt z).targets ≠ [] ∧
    ∀ Q ∈ l, ∀ i : Nat, (g0.opAt Q).inputs.get? i = some z → (g.opAt Q).inputs.get? i = some z

/-- Rule 2 has fused `T2` into the Matmul that read `z`: `T1` is in use and
reads `x`, `T2` is not, a Matmul in use reads `y` at one of its two inputs and
is its one target, the permutation of `T1` swaps the last two axes, no operator
in use reads `z`, and the operators in use that read `z` in `g0` read `y` at
the same positions. -/
def ChainHalf (g0 : GraphObj) (T1 T2 x y z : Nat) (g : GraphObj) (l : List Nat) : Prop :=
  T1 ∈ l ∧ T2 ∉ l ∧ (g.opAt T1).inputs = [x] ∧
    (∃ M i, M ∈ l ∧ (g.opAt M).type = OpType.MatMul ∧ i < 2 ∧
      (g.opAt M).inputs.get? i = some y ∧ (g.tensorAt y).targets = [M]) ∧
    is_swap_last_two (g0.opAt T1).transposePermute (g0.tensorAt y).shape.length = true ∧
    (∀ Q ∈ l, z ∉ (g.opAt Q).inputs) ∧
    ∀ Q ∈ l, ∀ i : Nat, (g0.opAt Q).inputs.get? i = some z → (g.opAt Q).inputs.get? i = some y

/-- Both Transposes are gone: neither is in use, no operator in use reads `y`
or `z`, and the operators in use that read `z` in `g0` read `x` at the same
positions. -/
def ChainGone (g0 : GraphObj) (T1 T2 x y z : Nat) (g : GraphObj) (l : List Nat) : Prop :=
  T1 ∉ l ∧ T2 ∉ l ∧ (∀ Q ∈ l, y ∉ (g.opAt Q).inputs ∧ z ∉ (g.opAt Q).inputs) ∧
    ∀ Q ∈ l, ∀ i : Nat, (g0.opAt Q).inputs.get? i = some z → (g.opAt Q).inputs.get? i = some x

/-- The state of the chain `x -> Transpose T1 -> y -> Transpose T2 -> z` of the
graph `g0` while `optimize` runs. -/
def ChainTrack (g0 : GraphObj) (T1 T2 x y z : Nat) (g : GraphObj) (l : List Nat) : Prop :=
  ChainBase g0 x g l ∧
    (ChainIntact g0 T1 T2 x y z g l ∨ ChainHalf g0 T1 T2 x y z g l ∨
      ChainGone g0 T1 T2 x y z g l)

/-- The chain `t1 -> Transpose [1, 2, 0] (operator 1) -> t2 -> Transpose
[2, 0, 1] (operator 2) -> t3 -> operator 3 -> t4`, in which `t1` is produced
from the graph input `t0` by the operator 0, which is not a Transpose. -/
def producedChainGraph : GraphObj :=
  { tensors := [0, 1, 2, 3, 4], ops := [0, 1, 2, 3], sorted := false
    allocator := Allocator.init
    tensorAt := fun t =>
      if t = 0 then ⟨0, [2, 3, 4], 192, none, [0], none⟩
      else if t = 1 then ⟨1, [2, 3, 4], 192, some 0, [1], none⟩
      else if t = 2 then ⟨2, [3, 4, 2], 192, some 1, [2], none⟩
      else if t = 3 then ⟨3, [2, 3, 4], 192, some 2, [3], none⟩
      else ⟨4, [2, 3, 4], 192, some 3, [], none⟩
    opAt := fun o =>
      if o = 0 then ⟨OpType.Other, [0], [1], [], [1], false, false, []⟩
      else if o = 1 then ⟨OpType.Transpose, [1], [2], [0], [2], false, false, [1, 2, 0]⟩
      else if o = 2 then ⟨OpType.Transpose, [2], [3], [1], [3], false, false, [2, 0, 1]⟩
      else ⟨OpType.Other, [3], [4], [2], [], false, false, []⟩ }

/-! # Theorems -/

/-! ### Facts about the embedding of loops with assertions -/

theorem forEachAssert_eq_some {α β : Type} (f : α → Option β) :
    ∀ (l : List α) (r : List β),
      forEachAssert f l = some r ↔ List.Forall₂ (fun a b => f a = some b) l r := by
  intro l
  induction l with
  | nil =>
    intro r
    cases r with
    | nil => simp [forEachAssert]
    | cons b r => simp [forEachAssert]
  | cons a l ih =>
    intro r
    cases r with
    | nil =>
      simp only [forEachAssert]
      constructor
      · intro h
        split at h
        · cases h
        · split at h <;> cases h
      · intro h
        cases h
    | cons b r =>
      simp only [forEachAssert, List.forall₂_cons, ← ih]
      cases hfa : f a with
      | none => simp
      | some b' =>
        cases hl : forEachAssert f l with
        | none => simp
        | some r' => simp

theorem forEachAssert_eq_none {α β : Type} (f : α → Option β) :
    ∀ (l : List α), forEachAssert f l = none ↔ ∃ a ∈ l, f a = none := by
  intro l
  induction l with
  | nil => simp [forEachAssert]
  | cons a l ih =>
    simp only [forEachAssert, List.mem_cons, exists_eq_or_imp, ← ih]
    cases hfa : f a with
    | none => simp
    | some b =>
      cases hl : forEachAssert f l with
      | none => simp
      | some r' => simp

theorem alignedDim_eq_padLeading (S : Shape) (rank i : Nat) (hS : S.length ≤ rank) :
    alignedDim S rank i = (padLeading S rank).getD i 0 := by
  unfold alignedDim padLeading
  by_cases h : i < rank - S.length
  · rw [if_pos h, List.getD_append _ _ _ _ (by simpa using h),
      List.getD_eq_getElem _ _ (by simpa using h)]
    simp
  · rw [if_neg h, List.getD_append_right _ _ _ _ (by simp; omega)]
    simp

theorem broadcastDim_eq_none (a b : Int) :
    broadcastDim a b = none ↔ a ≠ b ∧ a ≠ 1 ∧ b ≠ 1 := by
  unfold broadcastDim
  split_ifs <;> simp_all

theorem broadcastDim_eq_some (a b c : Int) (h : broadcastDim a b = some c) :
    (a = b → c = a) ∧ (a = 1 → c = b) ∧ (b = 1 → c = a) := by
  unfold broadcastDim at h
  split_ifs at h <;> simp_all

/-- Claim C10: `infer_broadcast A B` aligns the shapes at the trailing axis
(the shorter one padded with leading ones); a result has rank
`max (rank A) (rank B)`, each axis being the common size when the aligned
sizes agree and the other size when one of them is `1`; the call fails exactly
when some aligned pair has two different sizes, none of them `1`; and the three
examples of the specification evaluate as stated. -/
theorem infer_broadcast_aligns_trailing (A B : Shape) :
    (∀ out, infer_broadcast A B = some out →
      out.length = max A.length B.length ∧
      ∀ i, i < max A.length B.length →
        ((padLeading A (max A.length B.length)).getD i 0
            = (padLeading B (max A.length B.length)).getD i 0 →
          out.getD i 0 = (padLeading A (max A.length B.length)).getD i 0) ∧
        ((padLeading A (max A.length B.length)).getD i 0 = 1 →
          out.getD i 0 = (padLeading B (max A.length B.length)).getD i 0) ∧
        ((padLeading B (max A.length B.length)).getD i 0 = 1 →
          out.getD i 0 = (padLeading A (max A.length B.length)).getD i 0)) ∧
    (infer_broadcast A B = none ↔
      ∃ i, i < max A.length B.length ∧
        (padLeading A (max A.length B.length)).getD i 0
          ≠ (padLeading B (max A.length B.length)).getD i 0 ∧
        (padLeading A (max A.length B.length)).getD i 0 ≠ 1 ∧
        (padLeading B (max A.length B.length)).getD i 0 ≠ 1) ∧
    infer_broadcast [8, 1, 6, 1] [7, 1, 5] = some [8, 7, 6, 5] ∧
    infer_broadcast [3, 4] [4] = some [3, 4] ∧
    infer_broadcast [2, 3] [4, 5] = none := by
  refine ⟨?_, ?_, by decide, by decide, by decide⟩
  · intro out h
    unfold infer_broadcast at h
    simp only at h
    rw [forEachAssert_eq_some] at h
    rw [List.forall₂_iff_get] at h
    obtain ⟨hlen, hget⟩ := h
    rw [List.length_range] at hlen
    refine ⟨hlen.symm, ?_⟩
    intro i hi
    have h1 := hget i (by simpa using hi) (by omega)
    simp only [List.get_eq_getElem, List.getElem_range] at h1
    rw [alignedDim_eq_padLeading A _ i (le_max_left _ _),
      alignedDim_eq_padLeading B _ i (le_max_right _ _)] at h1
    have h2 : out.getD i 0 = out[i] := List.getD_eq_getElem _ _ (by omega)
    rw [h2]
    exact broadcastDim_eq_some _ _ _ h1
  · unfold infer_broadcast
    simp only
    rw [forEachAssert_eq_none]
    constructor
    · rintro ⟨i, hi, h⟩
      rw [List.mem_range] at hi
      rw [alignedDim_eq_padLeading A _ i (le_max_left _ _),
        alignedDim_eq_padLeading B _ i (le_max_right _ _),
        broadcastDim_eq_none] at h
      exact ⟨i, hi, h⟩
    · rintro ⟨i, hi, h⟩
      refine ⟨i, List.mem_range.2 hi, ?_⟩
      rw [alignedDim_eq_padLeading A _ i (le_max_left _ _),
        alignedDim_eq_padLeading B _ i (le_max_right _ _),
        broadcastDim_eq_none]
      exact h

/-! ### Matmul shape inference and the fusion rule -/

theorem swapLastTwo_length (X : Shape) (hX : 2 ≤ X.length) :
    (swapLastTwo X).length = X.length := by
  unfold swapLastTwo
  simp
  omega

theorem swapLastTwo_take (X : Shape) :
    (swapLastTwo X).take (X.length - 2) = X.take (X.length - 2) := by
  unfold swapLastTwo
  rw [List.take_append_of_le_length (by simp)]
  simp

theorem swapLastTwo_getD_last (X : Shape) (hX : 2 ≤ X.length) :
    (swapLastTwo X).getD (X.length - 1) 0 = X.getD (X.length - 2) 0 := by
  unfold swapLastTwo
  rw [List.getD_append_right _ _ _ _ (by simp; omega)]
  have : X.length - 1 - (List.take (X.length - 2) X).length = 1 := by
    simp; omega
  rw [this]
  rfl

theorem swapLastTwo_getD_prev (X : Shape) :
    (swapLastTwo X).getD (X.length - 2) 0 = X.getD (X.length - 1) 0 := by
  unfold swapLastTwo
  rw [List.getD_append_right _ _ _ _ (by simp)]
  have : X.length - 2 - (List.take (X.length - 2) X).length = 0 := by
    simp
  rw [this]
  rfl

/-- Claim C8: the fusion of a last-two-axes transpose into a Matmul keeps the
result of Matmul shape inference: for a shape `X` of rank at least two,
inference on `(swapLastTwo X, B)` with flags `(tA, tB)` equals inference on
`(X, B)` with flags `(not tA, tB)` (the same output shape and recorded
`m, n, k`, or a failed assertion on both sides), and the same for the second
operand with `tB`. -/
theorem matmul_inferShape_fusion_invariant (X B : Shape) (tA tB : Bool)
    (hX : 2 ≤ X.length) :
    MatmulObj.inferShape tA tB [swapLastTwo X, B] = MatmulObj.inferShape (!tA) tB [X, B] ∧
    MatmulObj.inferShape tA tB [B, swapLastTwo X] = MatmulObj.inferShape tA (!tB) [B, X] := by
  have hl := swapLastTwo_length X hX
  have ht := swapLastTwo_take X
  have h1 := swapLastTwo_getD_last X hX
  have h2 := swapLastTwo_getD_prev X
  constructor
  · simp only [MatmulObj.inferShape, List.length_cons, List.length_nil, List.getD_cons_zero,
      List.getD_cons_succ, hl]
    rw [ht, h1, h2]
    cases tA <;> simp
  · simp only [MatmulObj.inferShape, List.length_cons, List.length_nil, List.getD_cons_zero,
      List.getD_cons_succ, hl]
    rw [ht, h1, h2]
    cases tB <;> simp

/-- Witness of `matmul_inferShape_fusion_invariant` at `X = [2, 3, 4]`,
`B = [4, 5]`. -/
theorem matmul_inferShape_fusion_invariant_witness :
    2 ≤ ([2, 3, 4] : Shape).length ∧
    (MatmulObj.inferShape true false [swapLastTwo [2, 3, 4], [3, 5]]
        = MatmulObj.inferShape (!true) false [[2, 3, 4], [3, 5]] ∧
      MatmulObj.inferShape true false [[3, 5], swapLastTwo [2, 3, 4]]
        = MatmulObj.inferShape true (!false) [[3, 5], [2, 3, 4]]) :=
  ⟨by decide, matmul_inferShape_fusion_invariant [2, 3, 4] [3, 5] true false (by decide)⟩

/-! ### The allocator invariant -/

theorem mapErase_sublist (k : Nat) (fb : FreeBlocks) : (mapErase k fb).Sublist fb :=
  List.filter_sublist fb

theorem mapErase_sorted (k : Nat) (fb : FreeBlocks) (h : KeysSorted fb) :
    KeysSorted (mapErase k fb) :=
  List.Pairwise.sublist (mapErase_sublist k fb) h

theorem mem_mapErase (k : Nat) (fb : FreeBlocks) (e : Nat × Nat) :
    e ∈ mapErase k fb ↔ e ∈ fb ∧ e.1 ≠ k := by
  simp [mapErase]

theorem mapErase_perm (fb : FreeBlocks) (h : KeysSorted fb) (e : Nat × Nat) (he : e ∈ fb) :
    List.Perm fb (e :: mapErase e.1 fb) := by
  induction fb with
  | nil => cases he
  | cons d rest ih =>
    have hs := List.pairwise_cons.1 h
    rcases List.mem_cons.1 he with rfl | he'
    · have : mapErase e.1 (e :: rest) = rest := by
        simp only [mapErase, ne_eq, not_true_eq_false, decide_False, Bool.false_eq_true,
          not_false_eq_true, List.filter_cons_of_neg]
        apply List.filter_eq_self.2
        intro x hx
        have := hs.1 x hx
        simp
        omega
      rw [this]
    · have hne : d.1 ≠ e.1 := by
        have := hs.1 e he'
        omega
      have : mapErase e.1 (d :: rest) = d :: mapErase e.1 rest := by
        simp [mapErase, hne]
      rw [this]
      exact (List.Perm.cons d (ih hs.2 he')).trans (List.Perm.swap e d _)

theorem mapEmplace_perm (k v : Nat) (fb : FreeBlocks) (hk : ∀ e ∈ fb, e.1 ≠ k) :
    List.Perm (mapEmplace k v fb) ((k, v) :: fb) := by
  induction fb with
  | nil => simp [mapEmplace]
  | cons d rest ih =>
    have hd : d.1 ≠ k := hk d (List.mem_cons_self _ _)
    unfold mapEmplace
    split_ifs with h1 h2
    · exact List.Perm.refl _
    · exact absurd h2.symm hd
    · exact (List.Perm.cons d (ih fun e he => hk e (List.mem_cons_of_mem _ he))).trans
        (List.Perm.swap (k, v) d _)

theorem mem_mapEmplace_imp (k v : Nat) (fb : FreeBlocks) (x : Nat × Nat)
    (hx : x ∈ mapEmplace k v fb) : x = (k, v) ∨ x ∈ fb := by
  induction fb with
  | nil =>
    simp only [mapEmplace, List.mem_singleton] at hx
    exact Or.inl hx
  | cons d rest ih =>
    unfold mapEmplace at hx
    split_ifs at hx with h1 h2
    · rcases List.mem_cons.1 hx with h | h
      · exact Or.inl h
      · exact Or.inr h
    · exact Or.inr hx
    · rcases List.mem_cons.1 hx with h | h
      · exact Or.inr (h ▸ List.mem_cons_self _ _)
      · rcases ih h with h | h
        · exact Or.inl h
        · exact Or.inr (List.mem_cons_of_mem _ h)

theorem mapEmplace_sorted (k v : Nat) (fb : FreeBlocks) (h : KeysSorted fb) :
    KeysSorted (mapEmplace k v fb) := by
  induction fb with
  | nil => simp [mapEmplace, KeysSorted]
  | cons d rest ih =>
    have hs := List.pairwise_cons.1 h
    unfold mapEmplace
    split_ifs with h1 h2
    · refine List.pairwise_cons.2 ⟨?_, h⟩
      intro x hx
      rcases List.mem_cons.1 hx with rfl | hx
      · exact h1
      · have := hs.1 x hx
        show k < x.1
        omega
    · exact h
    · refine List.pairwise_cons.2 ⟨?_, ih hs.2⟩
      intro x hx
      rcases mem_mapEmplace_imp k v rest x hx with hxk | hx'
      · subst hxk
        show d.1 < k
        omega
      · exact hs.1 x hx'

theorem cover_cons (r : Nat × Nat) (rs : List (Nat × Nat)) (x : Nat) :
    cover (r :: rs) x = cover rs x + (if inRegion r x then 1 else 0) := by
  unfold cover
  rw [List.countP_cons]
  simp

theorem cover_append (rs ss : List (Nat × Nat)) (x : Nat) :
    cover (rs ++ ss) x = cover rs x + cover ss x := by
  unfold cover
  rw [List.countP_append]

theorem cover_perm {rs ss : List (Nat × Nat)} (h : List.Perm rs ss) (x : Nat) :
    cover rs x = cover ss x :=
  h.countP_eq _

theorem cover_pos_of_mem (rs : List (Nat × Nat)) (r : Nat × Nat) (x : Nat) (hr : r ∈ rs)
    (hx : inRegion r x) : 0 < cover rs x := by
  unfold cover
  rw [List.countP_pos_iff]
  exact ⟨r, hr, by simpa using hx⟩

theorem sizeSum_cons (r : Nat × Nat) (rs : List (Nat × Nat)) :
    sizeSum (r :: rs) = r.2 + sizeSum rs := by
  simp [sizeSum]

theorem sizeSum_append (rs ss : List (Nat × Nat)) :
    sizeSum (rs ++ ss) = sizeSum rs + sizeSum ss := by
  simp [sizeSum]

theorem sizeSum_perm {rs ss : List (Nat × Nat)} (h : List.Perm rs ss) :
    sizeSum rs = sizeSum ss :=
  (h.map _).sum_eq

theorem AllocInv.region_le {a : Allocator} {live : List (Nat × Nat)} (h : AllocInv a live)
    (r : Nat × Nat) (hr : r ∈ live ++ a.freeBlocks) (hpos : 0 < r.2) : r.1 + r.2 ≤ a.used := by
  by_contra hc
  have h1 := h.covers (r.1 + r.2 - 1)
  have h2 := cover_pos_of_mem _ r (r.1 + r.2 - 1) hr (by unfold inRegion; omega)
  rw [if_neg (by omega)] at h1
  omega

theorem allocScan_found (size : Nat) :
    ∀ (fb : FreeBlocks) (st : Nat × Nat × Bool) (bs bz : Nat),
      allocScan size fb st = (bs, bz, true) →
        (st = (bs, bz, true)) ∨ ((bs, bz) ∈ fb ∧ size ≤ bz) := by
  intro fb
  induction fb with
  | nil =>
    intro st bs bz h
    simp only [allocScan] at h
    exact Or.inl h
  | cons e rest ih =>
    intro st bs bz h
    obtain ⟨start, blk⟩ := e
    obtain ⟨b0, z0, f0⟩ := st
    simp only [allocScan] at h
    split_ifs at h with h1 h2 h3
    · rcases ih _ _ _ h with h' | h'
      · exact Or.inl h'
      · exact Or.inr ⟨List.mem_cons_of_mem _ h'.1, h'.2⟩
    · simp only [Prod.mk.injEq, and_true] at h
      refine Or.inr ⟨?_, ?_⟩
      · rw [← h.1, ← h.2]; exact List.mem_cons_self _ _
      · omega
    · rcases ih _ _ _ h with h' | h'
      · simp only [Prod.mk.injEq, and_true] at h'
        refine Or.inr ⟨?_, ?_⟩
        · rw [← h'.1, ← h'.2]; exact List.mem_cons_self _ _
        · omega
      · exact Or.inr ⟨List.mem_cons_of_mem _ h'.1, h'.2⟩
    · rcases ih _ _ _ h with h' | h'
      · exact Or.inl h'
      · exact Or.inr ⟨List.mem_cons_of_mem _ h'.1, h'.2⟩

theorem AllocInv.key_unique {a : Allocator} {live : List (Nat × Nat)} (h : AllocInv a live)
    (e d : Nat × Nat) (he : e ∈ a.freeBlocks) (hd : d ∈ a.freeBlocks) (hk : e.1 = d.1) :
    e = d := by
  by_contra hne
  have hp := mapErase_perm a.freeBlocks h.sorted e he
  have hd' : d ∈ mapErase e.1 a.freeBlocks := by
    rcases List.mem_cons.1 (hp.mem_iff.1 hd) with h1 | h1
    · exact absurd h1.symm hne
    · exact h1
  have := (mem_mapErase _ _ _).1 hd'
  exact this.2 hk.symm

/-- No free block other than `e` contains an address of the free block `e`,
and no outstanding region does. -/
theorem AllocInv.cover_erase {a : Allocator} {live : List (Nat × Nat)} (h : AllocInv a live)
    (e : Nat × Nat) (he : e ∈ a.freeBlocks) (x : Nat) :
    cover (live ++ mapErase e.1 a.freeBlocks) x + (if inRegion e x then 1 else 0)
      = if x < a.used then 1 else 0 := by
  rw [← h.covers x, cover_append, cover_append,
    cover_perm (mapErase_perm a.freeBlocks h.sorted e he) x, cover_cons]
  omega

theorem AllocInv.sum_erase {a : Allocator} {live : List (Nat × Nat)} (h : AllocInv a live)
    (e : Nat × Nat) (he : e ∈ a.freeBlocks) :
    sizeSum (live ++ mapErase e.1 a.freeBlocks) + e.2 = a.used := by
  rw [← h.sum_eq, sizeSum_append, sizeSum_append,
    sizeSum_perm (mapErase_perm a.freeBlocks h.sorted e he), sizeSum_cons]
  omega

theorem getAlignedSize_lt (a : Allocator) (size : Nat) : a.getAlignedSize size < sizeModulus :=
  Nat.mod_lt _ (by unfold sizeModulus; norm_num)

theorem Allocator.alloc_inv (a a1 : Allocator) (live : List (Nat × Nat)) (size off : Nat)
    (h : AllocInv a live) (hov : a.used + a.getAlignedSize size < sizeModulus)
    (hal : a.alloc size = some (off, a1)) :
    AllocInv a1 ((off, a.getAlignedSize size) :: live) ∧ a1.alignment = a.alignment ∧
      a1.used ≤ a.used + a.getAlignedSize size ∧ a.peak ≤ a1.peak ∧
      a1.peak = max a.peak a1.used := by
  unfold Allocator.alloc at hal
  rw [h.ptr_none] at hal
  simp only [Option.isSome_none, Bool.false_eq_true, ↓reduceIte] at hal
  generalize hsz : a.getAlignedSize size = s at hal hov ⊢
  rcases hscan : allocScan s a.freeBlocks (0, 0, false) with ⟨bs, bz, found⟩
  rw [hscan] at hal
  cases found with
  | false =>
    simp only [Option.some.injEq, Prod.mk.injEq] at hal
    obtain ⟨hoff, ha1⟩ := hal
    subst ha1
    subst hoff
    have hmod : (a.used + s) % sizeModulus = a.used + s := Nat.mod_eq_of_lt hov
    simp only [hmod]
    have hpk := h.used_le_peak
    refine ⟨⟨rfl, hov, ?_, h.sorted, h.pos, ?_, ?_⟩, trivial, le_refl _, ?_, ?_⟩
    · show a.used + s ≤ if a.used + s > a.peak then a.used + s else a.peak
      split_ifs <;> omega
    · intro x
      show cover ((a.used, s) :: live ++ a.freeBlocks) x = if x < a.used + s then 1 else 0
      rw [List.cons_append, cover_cons, h.covers x]
      unfold inRegion
      simp only
      split_ifs <;> omega
    · show sizeSum ((a.used, s) :: live ++ a.freeBlocks) = a.used + s
      rw [List.cons_append, sizeSum_cons, h.sum_eq]
      simp only
      omega
    · show a.peak ≤ if a.used + s > a.peak then a.used + s else a.peak
      split_ifs <;> omega
    · show (if a.used + s > a.peak then a.used + s else a.peak) = max a.peak (a.used + s)
      split_ifs <;> omega
  | true =>
    have hmem := allocScan_found s a.freeBlocks (0, 0, false) bs bz hscan
    simp only [Prod.mk.injEq, Bool.false_eq_true, and_false, false_or] at hmem
    obtain ⟨hmem, hle⟩ := hmem
    have hend := h.region_le (bs, bz) (List.mem_append_right _ hmem) (h.pos _ hmem)
    have hbz := h.pos _ hmem
    simp only at hend hbz
    have hul := h.used_lt
    have hfind : (mapFind bs a.freeBlocks).isNone = false := by
      unfold mapFind
      cases hf : List.find? (fun e => decide (e.1 = bs)) a.freeBlocks with
      | none =>
        rw [List.find?_eq_none] at hf
        have := hf _ hmem
        simp at this
      | some v => rfl
    simp only [hfind, Bool.false_eq_true, ↓reduceIte] at hal
    have hce := fun x => h.cover_erase (bs, bz) hmem x
    have hse := h.sum_erase (bs, bz) hmem
    simp only at hce hse
    split_ifs at hal with heq
    · simp only [Option.some.injEq, Prod.mk.injEq] at hal
      obtain ⟨hoff, ha1⟩ := hal
      subst ha1
      subst hoff
      refine ⟨⟨rfl, h.used_lt, h.used_le_peak, mapErase_sorted _ _ h.sorted, ?_, ?_, ?_⟩,
        rfl, by simp, le_refl _, ?_⟩
      · intro e he
        exact h.pos e ((mem_mapErase _ _ _).1 he).1
      · intro x
        show cover ((bs, s) :: live ++ mapErase bs a.freeBlocks) x = _
        rw [List.cons_append, cover_cons, ← hce x, heq]
      · show sizeSum ((bs, s) :: live ++ mapErase bs a.freeBlocks) = _
        rw [List.cons_append, sizeSum_cons, ← hse, heq]
        simp only
        omega
      · have := h.used_le_peak
        show a.peak = max a.peak a.used
        omega
    · simp only [Option.some.injEq, Prod.mk.injEq] at hal
      obtain ⟨hoff, ha1⟩ := hal
      subst ha1
      subst hoff
      have hm1 : (bs + s) % sizeModulus = bs + s := Nat.mod_eq_of_lt (by omega)
      have hm2 : (bz + sizeModulus - s) % sizeModulus = bz - s := by
        have : bz + sizeModulus - s = (bz - s) + sizeModulus := by omega
        rw [this, Nat.add_mod_right]
        exact Nat.mod_eq_of_lt (by omega)
      simp only [hm1, hm2]
      have hfresh : ∀ e ∈ mapErase bs a.freeBlocks, e.1 ≠ bs + s := by
        intro e he hk
        have he' := (mem_mapErase _ _ _).1 he
        have h1 := hce (bs + s)
        have h2 := cover_pos_of_mem (live ++ mapErase bs a.freeBlocks) e (bs + s)
          (List.mem_append_right _ he)
          (by unfold inRegion; have := h.pos e he'.1; omega)
        rw [if_pos (by unfold inRegion; simp only; omega)] at h1
        split_ifs at h1 <;> omega
      have hperm := mapEmplace_perm (bs + s) (bz - s) _ hfresh
      refine ⟨⟨rfl, h.used_lt, h.used_le_peak,
        mapEmplace_sorted _ _ _ (mapErase_sorted _ _ h.sorted), ?_, ?_, ?_⟩,
        trivial, by simp, le_refl _, ?_⟩
      · intro e he
        rcases mem_mapEmplace_imp _ _ _ _ he with h1 | h1
        · rw [h1]
          simp only
          omega
        · exact h.pos e ((mem_mapErase _ _ _).1 h1).1
      · intro x
        show cover ((bs, s) :: live ++ mapEmplace (bs + s) (bz - s) (mapErase bs a.freeBlocks)) x
          = _
        rw [List.cons_append, cover_cons, cover_append, cover_perm hperm, cover_cons, ← hce x,
          cover_append]
        unfold inRegion
        simp only
        split_ifs <;> omega
      · show sizeSum ((bs, s) :: live ++ mapEmplace (bs + s) (bz - s) (mapErase bs a.freeBlocks))
          = _
        rw [List.cons_append, sizeSum_cons, sizeSum_append, sizeSum_perm hperm, sizeSum_cons,
          ← hse, sizeSum_append]
        simp only
        omega
      · have := h.used_le_peak
        show a.peak = max a.peak a.used
        omega

theorem mapBeforeUpperBound_some (k : Nat) (fb : FreeBlocks) (e : Nat × Nat)
    (h : mapBeforeUpperBound k fb = some e) : e ∈ fb ∧ e.1 ≤ k := by
  unfold mapBeforeUpperBound at h
  have := List.mem_of_mem_getLast? h
  simpa using this

theorem mapBeforeLowerBound_some (k : Nat) (fb : FreeBlocks) (e : Nat × Nat)
    (h : mapBeforeLowerBound k fb = some e) : e ∈ fb ∧ e.1 < k := by
  unfold mapBeforeLowerBound at h
  have := List.mem_of_mem_getLast? h
  simpa using this

theorem mapLowerBound_some (k : Nat) (fb : FreeBlocks) (e : Nat × Nat)
    (h : mapLowerBound k fb = some e) : e ∈ fb ∧ k ≤ e.1 := by
  unfold mapLowerBound at h
  exact ⟨List.mem_of_find?_eq_some h, by simpa using List.find?_some h⟩

theorem PendInv.rend {used : Nat} {live : List (Nat × Nat)} {R : Nat × Nat} {fb : FreeBlocks}
    (h : PendInv used live R fb) : R.1 + R.2 ≤ used := by
  by_contra hc
  have h1 := h.covers (R.1 + R.2 - 1)
  have h2 := cover_pos_of_mem (R :: (live ++ fb)) R (R.1 + R.2 - 1) (List.mem_cons_self _ _)
    (by unfold inRegion; have := h.rpos; omega)
  rw [if_neg (by omega)] at h1
  omega

theorem PendInv.block_end {used : Nat} {live : List (Nat × Nat)} {R : Nat × Nat}
    {fb : FreeBlocks} (h : PendInv used live R fb) (e : Nat × Nat) (he : e ∈ fb) :
    e.1 + e.2 ≤ used := by
  by_contra hc
  have h1 := h.covers (e.1 + e.2 - 1)
  have h2 := cover_pos_of_mem (R :: (live ++ fb)) e (e.1 + e.2 - 1)
    (List.mem_cons_of_mem _ (List.mem_append_right _ he))
    (by unfold inRegion; have := h.pos e he; omega)
  rw [if_neg (by omega)] at h1
  omega

theorem PendInv.cover_erase_pending {used : Nat} {live : List (Nat × Nat)} {R : Nat × Nat}
    {fb : FreeBlocks} (h : PendInv used live R fb) (e : Nat × Nat) (he : e ∈ fb) (x : Nat) :
    cover (live ++ mapErase e.1 fb) x + (if inRegion e x then 1 else 0)
      + (if inRegion R x then 1 else 0) = if x < used then 1 else 0 := by
  rw [← h.covers x, cover_cons, cover_append, cover_append,
    cover_perm (mapErase_perm fb h.sorted e he) x, cover_cons]
  omega

theorem PendInv.sum_erase_pending {used : Nat} {live : List (Nat × Nat)} {R : Nat × Nat}
    {fb : FreeBlocks} (h : PendInv used live R fb) (e : Nat × Nat) (he : e ∈ fb) :
    sizeSum (live ++ mapErase e.1 fb) + e.2 + R.2 = used := by
  rw [← h.sum_eq, sizeSum_cons, sizeSum_append, sizeSum_append,
    sizeSum_perm (mapErase_perm fb h.sorted e he), sizeSum_cons]
  omega

theorem PendInv.merge_prev {used : Nat} {live : List (Nat × Nat)} {R : Nat × Nat}
    {fb : FreeBlocks} (h : PendInv used live R fb) (e : Nat × Nat) (he : e ∈ fb)
    (hadj : e.1 + e.2 = R.1) : PendInv used live (e.1, R.2 + e.2) (mapErase e.1 fb) := by
  have hr := h.rpos
  have hp := h.pos e he
  refine ⟨h.used_lt, mapErase_sorted _ _ h.sorted, ?_, ?_, ?_, ?_⟩
  · intro d hd
    exact h.pos d ((mem_mapErase _ _ _).1 hd).1
  · show 0 < R.2 + e.2
    omega
  · intro x
    rw [cover_cons, ← h.cover_erase_pending e he x]
    unfold inRegion
    simp only
    split_ifs <;> omega
  · rw [sizeSum_cons, ← h.sum_erase_pending e he]
    simp only
    omega

theorem PendInv.merge_next {used : Nat} {live : List (Nat × Nat)} {R : Nat × Nat}
    {fb : FreeBlocks} (h : PendInv used live R fb) (e : Nat × Nat) (he : e ∈ fb)
    (hadj : R.1 + R.2 = e.1) : PendInv used live (R.1, R.2 + e.2) (mapErase e.1 fb) := by
  have hr := h.rpos
  have hp := h.pos e he
  refine ⟨h.used_lt, mapErase_sorted _ _ h.sorted, ?_, ?_, ?_, ?_⟩
  · intro d hd
    exact h.pos d ((mem_mapErase _ _ _).1 hd).1
  · show 0 < R.2 + e.2
    omega
  · intro x
    rw [cover_cons, ← h.cover_erase_pending e he x]
    unfold inRegion
    simp only
    split_ifs <;> omega
  · rw [sizeSum_cons, ← h.sum_erase_pending e he]
    simp only
    omega

theorem PendInv.key_absent {used : Nat} {live : List (Nat × Nat)} {R : Nat × Nat}
    {fb : FreeBlocks} (h : PendInv used live R fb) : ∀ e ∈ fb, e.1 ≠ R.1 := by
  intro e he hk
  have h1 := h.covers R.1
  have h2 := cover_pos_of_mem (live ++ fb) e R.1 (List.mem_append_right _ he)
    (by unfold inRegion; have := h.pos e he; omega)
  rw [cover_cons, if_pos (by unfold inRegion; have := h.rpos; omega)] at h1
  split_ifs at h1 <;> omega

theorem PendInv.finish {a : Allocator} {live : List (Nat × Nat)} {R : Nat × Nat}
    {fb : FreeBlocks} (h : PendInv a.used live R fb) (hptr : a.ptr = none)
    (hpk : a.used ≤ a.peak) :
    AllocInv { a with freeBlocks := mapEmplace R.1 R.2 fb } live := by
  have hperm := mapEmplace_perm R.1 R.2 fb h.key_absent
  refine ⟨hptr, h.used_lt, hpk, mapEmplace_sorted _ _ _ h.sorted, ?_, ?_, ?_⟩
  · intro e he
    rcases mem_mapEmplace_imp _ _ _ _ he with h1 | h1
    · rw [h1]
      exact h.rpos
    · exact h.pos e h1
  · intro x
    show cover (live ++ mapEmplace R.1 R.2 fb) x = _
    rw [← h.covers x, cover_append, cover_perm hperm]
    simp only [cover_cons, cover_append, Prod.mk.eta]
    omega
  · show sizeSum (live ++ mapEmplace R.1 R.2 fb) = _
    rw [← h.sum_eq, sizeSum_append, sizeSum_perm hperm]
    simp only [sizeSum_cons, sizeSum_append]
    omega

theorem eraseRegion_perm (r : Nat × Nat) (l : List (Nat × Nat)) (h : r ∈ l) :
    List.Perm l (r :: eraseRegion r l) := by
  induction l with
  | nil => cases h
  | cons x xs ih =>
    unfold eraseRegion
    split_ifs with hx
    · rw [hx]
    · rcases List.mem_cons.1 h with h1 | h1
      · exact absurd h1.symm hx
      · exact (List.Perm.cons x (ih h1)).trans (List.Perm.swap r x _)

theorem AllocInv.pend {a : Allocator} {live : List (Nat × Nat)} (h : AllocInv a live)
    (R : Nat × Nat) (hR : R ∈ live) (hpos : 0 < R.2) :
    PendInv a.used (eraseRegion R live) R a.freeBlocks := by
  have hperm := eraseRegion_perm R live hR
  refine ⟨h.used_lt, h.sorted, h.pos, hpos, ?_, ?_⟩
  · intro x
    rw [← h.covers x, cover_append, cover_perm hperm]
    simp only [cover_cons, cover_append]
    omega
  · rw [← h.sum_eq, sizeSum_append, sizeSum_perm hperm]
    simp only [sizeSum_cons, sizeSum_append]
    omega

theorem freeShrink_inv (fuel : Nat) :
    ∀ (a : Allocator) (live : List (Nat × Nat)), AllocInv a live →
      AllocInv { a with used := (freeShrink fuel a.used a.freeBlocks).1,
                        freeBlocks := (freeShrink fuel a.used a.freeBlocks).2 } live ∧
        (freeShrink fuel a.used a.freeBlocks).1 ≤ a.used := by
  induction fuel with
  | zero =>
    intro a live h
    exact ⟨h, le_refl _⟩
  | succ fuel ih =>
    intro a live h
    unfold freeShrink
    split_ifs with hemp
    · exact ⟨h, le_refl _⟩
    · cases hb : mapBeforeUpperBound a.used a.freeBlocks with
      | none => exact ⟨h, le_refl _⟩
      | some e =>
        obtain ⟨start, blk⟩ := e
        have hmem := mapBeforeUpperBound_some _ _ _ hb
        have hend := h.region_le (start, blk) (List.mem_append_right _ hmem.1) (h.pos _ hmem.1)
        have hpos := h.pos _ hmem.1
        have hul := h.used_lt
        simp only at hend hpos
        have hmod : (start + blk) % sizeModulus = start + blk := Nat.mod_eq_of_lt (by omega)
        simp only [hmod]
        split_ifs with hne
        · exact ⟨h, le_refl _⟩
        · have hne' : start + blk = a.used := by
            by_contra hc
            exact hne hc
          have hinv : AllocInv { a with used := start, freeBlocks := mapErase start a.freeBlocks }
              live := by
            refine ⟨h.ptr_none, by show start < sizeModulus; omega, ?_,
              mapErase_sorted _ _ h.sorted, ?_, ?_, ?_⟩
            · have := h.used_le_peak
              show start ≤ a.peak
              omega
            · intro d hd
              exact h.pos d ((mem_mapErase _ _ _).1 hd).1
            · intro x
              have := h.cover_erase (start, blk) hmem.1 x
              show cover (live ++ mapErase start a.freeBlocks) x = if x < start then 1 else 0
              unfold inRegion at this
              simp only at this
              split_ifs at this ⊢ <;> omega
            · have := h.sum_erase (start, blk) hmem.1
              show sizeSum (live ++ mapErase start a.freeBlocks) = start
              simp only at this
              omega
          have := ih _ live hinv
          simp only at this
          exact ⟨this.1, by omega⟩

theorem Allocator.free_inv (a a1 : Allocator) (live : List (Nat × Nat)) (addr size : Nat)
    (h : AllocInv a live) (hR : (addr, a.getAlignedSize size) ∈ live)
    (hfr : a.free addr size = some a1) :
    AllocInv a1 (eraseRegion (addr, a.getAlignedSize size) live) ∧
      a1.alignment = a.alignment ∧ a1.used ≤ a.used ∧ a1.peak = a.peak := by
  unfold Allocator.free at hfr
  have hptr : a.ptr.isSome = false := by rw [h.ptr_none]; rfl
  rw [hptr] at hfr
  simp only [Bool.false_eq_true, ↓reduceIte] at hfr
  generalize hsz : a.getAlignedSize size = s at hfr hR ⊢
  have hul := h.used_lt
  by_cases hpos : 0 < s
  swap
  · rw [if_pos hpos] at hfr
    cases hfr
  rw [if_neg (not_not.2 hpos)] at hfr
  have hend := h.region_le (addr, s) (List.mem_append_left _ hR) hpos
  simp only at hend
  have hmod : (addr + s) % sizeModulus = addr + s := Nat.mod_eq_of_lt (by omega)
  rw [hmod, if_neg (not_not.2 hend)] at hfr
  have hpend := h.pend (addr, s) hR hpos
  by_cases htail : addr + s = a.used
  · rw [if_pos htail] at hfr
    simp only [Option.some.injEq] at hfr
    subst hfr
    have hinv : AllocInv { a with used := addr } (eraseRegion (addr, s) live) := by
      refine ⟨h.ptr_none, by show addr < sizeModulus; omega, ?_, h.sorted, h.pos, ?_, ?_⟩
      · have := h.used_le_peak
        show addr ≤ a.peak
        omega
      · intro x
        have := hpend.covers x
        rw [cover_cons] at this
        show cover (eraseRegion (addr, s) live ++ a.freeBlocks) x = if x < addr then 1 else 0
        unfold inRegion at this
        simp only at this
        split_ifs at this ⊢ <;> omega
      · have := hpend.sum_eq
        rw [sizeSum_cons] at this
        show sizeSum (eraseRegion (addr, s) live ++ a.freeBlocks) = addr
        simp only at this
        omega
    obtain ⟨hi, hle⟩ := freeShrink_inv a.freeBlocks.length _ _ hinv
    refine ⟨hi, rfl, ?_, rfl⟩
    show (freeShrink a.freeBlocks.length addr a.freeBlocks).1 ≤ a.used
    have : (freeShrink a.freeBlocks.length addr a.freeBlocks).1 ≤ addr := hle
    omega
  · rw [if_neg htail] at hfr
    simp only [Option.some.injEq] at hfr
    subst hfr
    refine ⟨?_, rfl, le_refl _, rfl⟩
    -- the merge with the block below
    have hs1 : ∃ R1 fb1, PendInv a.used (eraseRegion (addr, s) live) R1 fb1 ∧
        (match mapBeforeLowerBound addr a.freeBlocks with
          | none => (addr, s, a.freeBlocks)
          | some (prevStart, prevSize) =>
            if (prevStart + prevSize) % sizeModulus = addr then
              (prevStart, (s + prevSize) % sizeModulus, mapErase prevStart a.freeBlocks)
            else (addr, s, a.freeBlocks)) = (R1.1, R1.2, fb1) := by
      cases hb : mapBeforeLowerBound addr a.freeBlocks with
      | none => exact ⟨(addr, s), a.freeBlocks, hpend, rfl⟩
      | some e =>
        obtain ⟨ps, pz⟩ := e
        have hmem := mapBeforeLowerBound_some _ _ _ hb
        have hpe := hpend.block_end (ps, pz) hmem.1
        simp only at hpe
        have hm : (ps + pz) % sizeModulus = ps + pz := Nat.mod_eq_of_lt (by omega)
        simp only [hm]
        split_ifs with hadj
        · have hmg := hpend.merge_prev (ps, pz) hmem.1 hadj
          have hre := hmg.rend
          simp only at hre
          have hm2 : (s + pz) % sizeModulus = s + pz := Nat.mod_eq_of_lt (by omega)
          exact ⟨(ps, s + pz), mapErase ps a.freeBlocks, hmg, by rw [hm2]⟩
        · exact ⟨(addr, s), a.freeBlocks, hpend, rfl⟩
    obtain ⟨R1, fb1, hp1, he1⟩ := hs1
    rw [he1]
    simp only
    have hs2 : ∃ R2 fb2, PendInv a.used (eraseRegion (addr, s) live) R2 fb2 ∧ R2.1 = R1.1 ∧
        (match mapLowerBound R1.1 fb1 with
          | none => (R1.2, fb1)
          | some (nextStart, nextSize) =>
            if (R1.1 + R1.2) % sizeModulus = nextStart then
              ((R1.2 + nextSize) % sizeModulus, mapErase nextStart fb1)
            else (R1.2, fb1)) = (R2.2, fb2) := by
      have hr1 := hp1.rend
      have hm : (R1.1 + R1.2) % sizeModulus = R1.1 + R1.2 := Nat.mod_eq_of_lt (by omega)
      cases hb : mapLowerBound R1.1 fb1 with
      | none => exact ⟨R1, fb1, hp1, rfl, rfl⟩
      | some e =>
        obtain ⟨ns, nz⟩ := e
        have hmem := mapLowerBound_some _ _ _ hb
        simp only [hm]
        split_ifs with hadj
        · have hmg := hp1.merge_next (ns, nz) hmem.1 hadj
          have hre := hmg.rend
          simp only at hre
          have hm2 : (R1.2 + nz) % sizeModulus = R1.2 + nz := Nat.mod_eq_of_lt (by omega)
          exact ⟨(R1.1, R1.2 + nz), mapErase ns fb1, hmg, rfl, by rw [hm2]⟩
        · exact ⟨R1, fb1, hp1, rfl, rfl⟩
    obtain ⟨R2, fb2, hp2, h21, he2⟩ := hs2
    rw [he2, ← h21]
    exact hp2.finish h.ptr_none h.used_le_peak

/-! ### Runs of the allocator -/

theorem getAlignedSize_congr (a b : Allocator) (h : a.alignment = b.alignment) (size : Nat) :
    a.getAlignedSize size = b.getAlignedSize size := by
  unfold Allocator.getAlignedSize
  rw [h]

theorem totalRequested_congr (a b : Allocator) (h : a.alignment = b.alignment)
    (calls : List AllocCall) : totalRequested a calls = totalRequested b calls := by
  induction calls with
  | nil => rfl
  | cons c cs ih =>
    cases c with
    | alloc size => simp only [totalRequested, ih, getAlignedSize_congr a b h]
    | free addr size => simp only [totalRequested, ih]

theorem totalRequested_append (a : Allocator) (l1 l2 : List AllocCall) :
    totalRequested a (l1 ++ l2) = totalRequested a l1 + totalRequested a l2 := by
  induction l1 with
  | nil => simp [totalRequested]
  | cons c cs ih =>
    cases c with
    | alloc size =>
      show a.getAlignedSize size + totalRequested a (cs ++ l2) = _
      rw [ih]
      simp only [totalRequested]
      omega
    | free addr size =>
      show totalRequested a (cs ++ l2) = _
      rw [ih]
      simp only [totalRequested]

theorem AllocSim.run_append (s : AllocSim) (l1 l2 : List AllocCall) :
    s.run (l1 ++ l2) = (s.run l1).bind fun s1 => s1.run l2 := by
  induction l1 generalizing s with
  | nil => rfl
  | cons c cs ih =>
    simp only [List.cons_append, AllocSim.run]
    cases s.step c with
    | none => rfl
    | some s1 => exact ih s1

/-- One call keeps the invariant, provided `used` does not wrap. -/
theorem AllocSim.step_inv (s s1 : AllocSim) (c : AllocCall) (h : AllocInv s.a s.live)
    (hfit : s.a.used + totalRequested s.a [c] < sizeModulus) (hs : s.step c = some s1) :
    AllocInv s1.a s1.live ∧ s1.a.alignment = s.a.alignment ∧
      s1.a.used ≤ s.a.used + totalRequested s.a [c] ∧ s.a.peak ≤ s1.a.peak ∧
      s1.a.peak = max s.a.peak s1.a.used := by
  cases c with
  | alloc size =>
    simp only [AllocSim.step] at hs
    cases hal : s.a.alloc size with
    | none => rw [hal] at hs; cases hs
    | some r =>
      obtain ⟨off, a1⟩ := r
      rw [hal] at hs
      simp only [Option.some.injEq] at hs
      subst hs
      simp only [totalRequested, add_zero] at hfit ⊢
      exact Allocator.alloc_inv s.a a1 s.live size off h hfit hal
  | free addr size =>
    simp only [AllocSim.step] at hs
    split_ifs at hs with hmem
    cases hfr : s.a.free addr size with
    | none => rw [hfr] at hs; cases hs
    | some a1 =>
      rw [hfr] at hs
      simp only [Option.some.injEq] at hs
      subst hs
      have := Allocator.free_inv s.a a1 s.live addr size h hmem hfr
      simp only [totalRequested, add_zero]
      refine ⟨this.1, this.2.1, this.2.2.1, by omega, ?_⟩
      have hp := this.1.used_le_peak
      omega

theorem AllocInv.at_init : AllocInv AllocSim.fresh.a AllocSim.fresh.live := by
  refine ⟨rfl, by decide, le_refl _, List.Pairwise.nil, ?_, ?_, rfl⟩
  · intro e he
    cases he
  · intro x
    simp [AllocSim.fresh, Allocator.init, cover]

/-- A run without wrap-around of `used` keeps the invariant and never lowers
`peak`. -/
theorem AllocSim.run_inv_from (calls : List AllocCall) :
    ∀ (s s1 : AllocSim), AllocInv s.a s.live →
      s.a.used + totalRequested s.a calls < sizeModulus → s.run calls = some s1 →
      AllocInv s1.a s1.live ∧ s1.a.alignment = s.a.alignment ∧
        s1.a.used ≤ s.a.used + totalRequested s.a calls ∧ s.a.peak ≤ s1.a.peak := by
  induction calls with
  | nil =>
    intro s s1 h _ hrun
    simp only [AllocSim.run, Option.some.injEq] at hrun
    subst hrun
    exact ⟨h, rfl, by omega, le_refl _⟩
  | cons c cs ih =>
    intro s s1 h hfit hrun
    simp only [AllocSim.run] at hrun
    have hsplit : totalRequested s.a (c :: cs) = totalRequested s.a [c] + totalRequested s.a cs :=
      totalRequested_append s.a [c] cs
    cases hst : s.step c with
    | none => rw [hst] at hrun; cases hrun
    | some s0 =>
      rw [hst] at hrun
      obtain ⟨hi, hal, hu, hpk, _⟩ := AllocSim.step_inv s s0 c h (by omega) hst
      have hc := totalRequested_congr s0.a s.a hal cs
      obtain ⟨hi1, hal1, hu1, hpk1⟩ := ih s0 s1 hi (by rw [hc]; omega) hrun
      rw [hc] at hu1
      exact ⟨hi1, hal1.trans hal, by omega, by omega⟩

/-- A run from the fresh allocator without wrap-around of `used` keeps the
invariant. -/
theorem AllocSim.run_inv (calls : List AllocCall) (s : AllocSim)
    (hrun : AllocSim.fresh.run calls = some s)
    (hfit : totalRequested Allocator.init calls < sizeModulus) :
    AllocInv s.a s.live ∧ s.a.alignment = Allocator.init.alignment ∧
      s.a.used ≤ totalRequested Allocator.init calls := by
  have := AllocSim.run_inv_from calls AllocSim.fresh s AllocInv.at_init
    (by show 0 + totalRequested Allocator.init calls < sizeModulus; omega) hrun
  refine ⟨this.1, this.2.1, ?_⟩
  have h3 := this.2.2.1
  have h0 : AllocSim.fresh.a.used = 0 := rfl
  have h1 : AllocSim.fresh.a = Allocator.init := rfl
  rw [h0, h1] at h3
  omega

/-- Some prefix of a run from the fresh allocator ends in a state whose `used`
is the final `peak`. -/
theorem AllocSim.peak_reached (calls : List AllocCall) :
    ∀ (s : AllocSim), AllocSim.fresh.run calls = some s →
      totalRequested Allocator.init calls < sizeModulus →
      ∃ n s0, n ≤ calls.length ∧ AllocSim.fresh.run (calls.take n) = some s0 ∧
        s0.a.used = s.a.peak := by
  induction calls using List.reverseRecOn with
  | nil =>
    intro s hrun _
    simp only [AllocSim.run, Option.some.injEq] at hrun
    subst hrun
    exact ⟨0, AllocSim.fresh, le_refl _, rfl, rfl⟩
  | append_singleton l c ih =>
    intro s hrun hfit
    have hrun0 := hrun
    rw [AllocSim.run_append] at hrun
    cases h0 : AllocSim.fresh.run l with
    | none => rw [h0] at hrun; cases hrun
    | some s0 =>
      rw [h0] at hrun
      simp only [Option.bind, AllocSim.run] at hrun
      cases hst : s0.step c with
      | none => rw [hst] at hrun; cases hrun
      | some s1 =>
        rw [hst] at hrun
        simp only [Option.some.injEq] at hrun
        subst hrun
        rw [totalRequested_append] at hfit
        obtain ⟨hi, hal, hu⟩ := AllocSim.run_inv l s0 h0 (by omega)
        have hc := totalRequested_congr s0.a Allocator.init hal [c]
        have hstep := AllocSim.step_inv s0 s1 c hi (by rw [hc]; omega) hst
        have hpk := hstep.2.2.2.2
        by_cases hcase : s0.a.peak ≤ s1.a.used
        · refine ⟨(l ++ [c]).length, s1, le_refl _, ?_, ?_⟩
          · rw [List.take_length]
            exact hrun0
          · omega
        · obtain ⟨n, s2, hn, hr2, hu2⟩ := ih s0 h0 (by omega)
          refine ⟨n, s2, ?_, ?_, ?_⟩
          · simp only [List.length_append, List.length_singleton]
            omega
          · rw [List.take_append_of_le_length hn]
            exact hr2
          · omega

theorem pairwise_disjoint_of_cover (rs : List (Nat × Nat)) (h : ∀ x, cover rs x ≤ 1) :
    rs.Pairwise regionsDisjoint := by
  induction rs with
  | nil => exact List.Pairwise.nil
  | cons r rest ih =>
    refine List.pairwise_cons.2 ⟨?_, ih ?_⟩
    · intro r1 hr1 x hx
      have h1 := h x
      rw [cover_cons, if_pos hx.1] at h1
      have := cover_pos_of_mem rest r1 x hr1 hx.2
      omega
    · intro x
      have h1 := h x
      rw [cover_cons] at h1
      omega

theorem cover_pos_iff (rs : List (Nat × Nat)) (x : Nat) :
    0 < cover rs x ↔ ∃ r ∈ rs, inRegion r x := by
  unfold cover
  rw [List.countP_pos_iff]
  simp

theorem AllocInv.tiles {a : Allocator} {live : List (Nat × Nat)} (h : AllocInv a live) :
    (live ++ a.freeBlocks).Pairwise regionsDisjoint ∧
      ∀ x, x < a.used ↔ ∃ r ∈ live ++ a.freeBlocks, inRegion r x := by
  constructor
  · apply pairwise_disjoint_of_cover
    intro x
    rw [h.covers x]
    split_ifs <;> omega
  · intro x
    rw [← cover_pos_iff, h.covers x]
    split_ifs <;> simp [*]

/-- A successful `alloc` never lowers `peak`, in any state. -/
theorem Allocator.alloc_peak_mono (a a1 : Allocator) (size off : Nat)
    (hal : a.alloc size = some (off, a1)) : a.peak ≤ a1.peak := by
  unfold Allocator.alloc at hal
  split_ifs at hal
  simp only at hal
  rcases hscan : allocScan (a.getAlignedSize size) a.freeBlocks (0, 0, false) with
    ⟨bs, bz, found⟩
  rw [hscan] at hal
  cases found with
  | false =>
    simp only [Option.some.injEq, Prod.mk.injEq] at hal
    rw [← hal.2]
    show a.peak ≤ if (a.used + a.getAlignedSize size) % sizeModulus > a.peak then
      (a.used + a.getAlignedSize size) % sizeModulus else a.peak
    split_ifs with hgt
    · exact le_of_lt hgt
    · exact le_refl _
  | true =>
    simp only at hal
    split_ifs at hal
    · simp only [Option.some.injEq, Prod.mk.injEq] at hal
      rw [← hal.2]
    · simp only [Option.some.injEq, Prod.mk.injEq] at hal
      rw [← hal.2]

/-- A successful `free` leaves `peak` as it is, in any state. -/
theorem Allocator.free_peak (a a1 : Allocator) (addr size : Nat)
    (hfr : a.free addr size = some a1) : a1.peak = a.peak := by
  unfold Allocator.free at hfr
  simp only at hfr
  split_ifs at hfr
  · simp only [Option.some.injEq] at hfr
    rw [← hfr]
  · simp only [Option.some.injEq] at hfr
    rw [← hfr]

/-- Claim C2 (amended): for every sequence of `alloc` and `free` calls on a
fresh allocator in which each `free` releases one outstanding region, no
assertion fails, and the aligned sizes of the `alloc` calls sum to less than
`2 ^ 64`, the outstanding regions and the free blocks are pairwise disjoint
and their union is `[0, used)`.  The statement holds after every call, a prefix
of such a sequence being such a sequence. -/
theorem alloc_free_regions_tile_used (calls : List AllocCall) (s : AllocSim)
    (hrun : AllocSim.fresh.run calls = some s)
    (hfit : totalRequested Allocator.init calls < sizeModulus) :
    (s.live ++ s.a.freeBlocks).Pairwise regionsDisjoint ∧
      ∀ x, x < s.a.used ↔ ∃ r ∈ s.live ++ s.a.freeBlocks, inRegion r x :=
  (AllocSim.run_inv calls s hrun hfit).1.tiles

/-- Claim C3 (amended): along a sequence of `alloc` and `free` calls on a fresh
allocator whose aligned request sizes sum to less than `2 ^ 64`, the sizes of
the outstanding allocations sum to at most `used`, a further call never lowers
`peak`, and `peak` is the largest value that `used` has had after any of the
calls (or at construction).  A request that is a multiple of the alignment is
its own aligned size. -/
theorem alloc_free_sum_le_used_peak_max (calls : List AllocCall) (s : AllocSim)
    (hrun : AllocSim.fresh.run calls = some s)
    (hfit : totalRequested Allocator.init calls < sizeModulus) :
    sizeSum s.live ≤ s.a.used ∧
    (∀ c s1, s.step c = some s1 → s.a.peak ≤ s1.a.peak) ∧
    (∀ n s0, AllocSim.fresh.run (calls.take n) = some s0 →
      s0.a.used ≤ s.a.peak ∧ s0.a.peak ≤ s.a.peak) ∧
    (∃ n s0, AllocSim.fresh.run (calls.take n) = some s0 ∧ s0.a.used = s.a.peak) ∧
    (∀ size, size < sizeModulus → size % 8 = 0 → Allocator.init.getAlignedSize size = size) := by
  obtain ⟨hi, hal, hu⟩ := AllocSim.run_inv calls s hrun hfit
  refine ⟨?_, ?_, ?_, ?_, ?_⟩
  · have := hi.sum_eq
    rw [sizeSum_append] at this
    omega
  · intro c s1 hst
    cases c with
    | alloc size =>
      simp only [AllocSim.step] at hst
      cases hal : s.a.alloc size with
      | none => rw [hal] at hst; cases hst
      | some r =>
        obtain ⟨off, a1⟩ := r
        rw [hal] at hst
        simp only [Option.some.injEq] at hst
        subst hst
        exact Allocator.alloc_peak_mono s.a a1 size off hal
    | free addr size =>
      simp only [AllocSim.step] at hst
      split_ifs at hst with hmem
      cases hfr : s.a.free addr size with
      | none => rw [hfr] at hst; cases hst
      | some a1 =>
        rw [hfr] at hst
        simp only [Option.some.injEq] at hst
        subst hst
        have := Allocator.free_peak s.a a1 addr size hfr
        show s.a.peak ≤ a1.peak
        omega
  · intro n s0 h0
    have hsplit : calls = calls.take n ++ calls.drop n := (List.take_append_drop n calls).symm
    have htot := totalRequested_append Allocator.init (calls.take n) (calls.drop n)
    rw [← hsplit] at htot
    obtain ⟨hi0, hal0, hu0⟩ := AllocSim.run_inv (calls.take n) s0 h0 (by omega)
    have hrun1 : s0.run (calls.drop n) = some s := by
      have := AllocSim.run_append AllocSim.fresh (calls.take n) (calls.drop n)
      rw [← hsplit, hrun, h0] at this
      exact this.symm
    have hc := totalRequested_congr s0.a Allocator.init hal0 (calls.drop n)
    have := AllocSim.run_inv_from (calls.drop n) s0 s hi0 (by rw [hc]; omega) hrun1
    have hp0 := hi0.used_le_peak
    exact ⟨by omega, this.2.2.2⟩
  · obtain ⟨n, s0, _, h1, h2⟩ := AllocSim.peak_reached calls s hrun hfit
    exact ⟨n, s0, h1, h2⟩
  · intro size hlt hmod
    unfold Allocator.getAlignedSize Allocator.init sizeModulus at *
    simp only
    omega

/-! ### Coalescing of the free map -/

theorem keysSorted_last_max (ys : FreeBlocks) (p : Nat × Nat) (h : KeysSorted (ys ++ [p])) :
    ∀ d ∈ ys ++ [p], d.1 ≤ p.1 := by
  intro d hd
  rcases List.mem_append.1 hd with h1 | h1
  · have := (List.pairwise_append.1 h).2.2 d h1 p (List.mem_singleton_self _)
    omega
  · rw [List.mem_singleton.1 h1]

theorem mapBeforeLowerBound_max (k : Nat) (fb : FreeBlocks) (hs : KeysSorted fb)
    (p : Nat × Nat) (h : mapBeforeLowerBound k fb = some p) :
    ∀ d ∈ fb, d.1 < k → d.1 ≤ p.1 := by
  intro d hd hk
  unfold mapBeforeLowerBound at h
  obtain ⟨ys, hys⟩ := List.getLast?_eq_some_iff.1 h
  have hsorted : KeysSorted (List.filter (fun e => decide (e.1 < k)) fb) :=
    List.Pairwise.sublist (List.filter_sublist fb) hs
  rw [hys] at hsorted
  apply keysSorted_last_max ys p hsorted
  rw [← hys]
  exact List.mem_filter.2 ⟨hd, by simpa using hk⟩

theorem mapBeforeLowerBound_none (k : Nat) (fb : FreeBlocks)
    (h : mapBeforeLowerBound k fb = none) : ∀ d ∈ fb, ¬ d.1 < k := by
  intro d hd hk
  unfold mapBeforeLowerBound at h
  rw [List.getLast?_eq_none_iff] at h
  have : d ∈ List.filter (fun e => decide (e.1 < k)) fb :=
    List.mem_filter.2 ⟨hd, by simpa using hk⟩
  rw [h] at this
  cases this

theorem mapBeforeUpperBound_max (k : Nat) (fb : FreeBlocks) (hs : KeysSorted fb)
    (p : Nat × Nat) (h : mapBeforeUpperBound k fb = some p) :
    ∀ d ∈ fb, d.1 ≤ k → d.1 ≤ p.1 := by
  intro d hd hk
  unfold mapBeforeUpperBound at h
  obtain ⟨ys, hys⟩ := List.getLast?_eq_some_iff.1 h
  have hsorted : KeysSorted (List.filter (fun e => decide (e.1 ≤ k)) fb) :=
    List.Pairwise.sublist (List.filter_sublist fb) hs
  rw [hys] at hsorted
  apply keysSorted_last_max ys p hsorted
  rw [← hys]
  exact List.mem_filter.2 ⟨hd, by simpa using hk⟩

theorem mapBeforeUpperBound_none (k : Nat) (fb : FreeBlocks)
    (h : mapBeforeUpperBound k fb = none) : ∀ d ∈ fb, ¬ d.1 ≤ k := by
  intro d hd hk
  unfold mapBeforeUpperBound at h
  rw [List.getLast?_eq_none_iff] at h
  have : d ∈ List.filter (fun e => decide (e.1 ≤ k)) fb :=
    List.mem_filter.2 ⟨hd, by simpa using hk⟩
  rw [h] at this
  cases this

theorem mapLowerBound_min (k : Nat) (fb : FreeBlocks) (hs : KeysSorted fb)
    (n : Nat × Nat) (h : mapLowerBound k fb = some n) :
    ∀ d ∈ fb, k ≤ d.1 → n.1 ≤ d.1 := by
  induction fb with
  | nil => intro d hd; cases hd
  | cons e rest ih =>
    intro d hd hk
    have hp := List.pairwise_cons.1 hs
    unfold mapLowerBound at h
    rw [List.find?_cons] at h
    by_cases he : k ≤ e.1
    · simp only [he, decide_True, Option.some.injEq] at h
      subst h
      rcases List.mem_cons.1 hd with h1 | h1
      · rw [h1]
      · exact le_of_lt (hp.1 d h1)
    · simp only [he, decide_False] at h
      rcases List.mem_cons.1 hd with h1 | h1
      · rw [h1] at hk
        exact absurd hk he
      · exact ih hp.2 h d h1 hk

theorem mapLowerBound_none (k : Nat) (fb : FreeBlocks)
    (h : mapLowerBound k fb = none) : ∀ d ∈ fb, ¬ k ≤ d.1 := by
  intro d hd hk
  unfold mapLowerBound at h
  rw [List.find?_eq_none] at h
  have := h d hd
  simp at this
  omega

/-- Two free blocks that share an address are the same entry. -/
theorem AllocInv.block_unique {a : Allocator} {live : List (Nat × Nat)} (h : AllocInv a live)
    (e d : Nat × Nat) (he : e ∈ a.freeBlocks) (hd : d ∈ a.freeBlocks) (x : Nat)
    (hxe : inRegion e x) (hxd : inRegion d x) : e = d := by
  by_contra hne
  have hp := mapErase_perm a.freeBlocks h.sorted e he
  have hd' : d ∈ mapErase e.1 a.freeBlocks := by
    rcases List.mem_cons.1 (hp.mem_iff.1 hd) with h1 | h1
    · exact absurd h1.symm hne
    · exact h1
  have h1 := h.cover_erase e he x
  have h2 := cover_pos_of_mem (live ++ mapErase e.1 a.freeBlocks) d x
    (List.mem_append_right _ hd') hxd
  rw [if_pos hxe] at h1
  split_ifs at h1 <;> omega

/-- No outstanding region shares an address with a free block. -/
theorem AllocInv.live_free_disjoint {a : Allocator} {live : List (Nat × Nat)}
    (h : AllocInv a live) (r e : Nat × Nat) (hr : r ∈ live) (he : e ∈ a.freeBlocks) (x : Nat)
    (hxr : inRegion r x) (hxe : inRegion e x) : False := by
  have h1 := h.covers x
  rw [cover_append] at h1
  have h2 := cover_pos_of_mem live r x hr hxr
  have h3 := cover_pos_of_mem a.freeBlocks e x he hxe
  split_ifs at h1 <;> omega

theorem allocScan_not_found (size : Nat) :
    ∀ (fb : FreeBlocks) (st : Nat × Nat × Bool) (bs bz : Nat),
      allocScan size fb st = (bs, bz, false) → st.2.2 = false ∧ ∀ e ∈ fb, e.2 < size := by
  intro fb
  induction fb with
  | nil =>
    intro st bs bz h
    simp only [allocScan] at h
    rw [h]
    exact ⟨rfl, fun e he => by cases he⟩
  | cons e rest ih =>
    intro st bs bz h
    obtain ⟨start, blk⟩ := e
    obtain ⟨b0, z0, f0⟩ := st
    simp only [allocScan] at h
    split_ifs at h with h1 h2 h3
    · have := ih _ _ _ h
      refine ⟨this.1, ?_⟩
      intro d hd
      rcases List.mem_cons.1 hd with h4 | h4
      · rw [h4]; exact h1
      · exact this.2 d h4
    · simp at h
    · have := ih _ _ _ h
      simp at this
    · have := ih _ _ _ h
      simp only at this
      rw [this.1] at h2
      simp at h2

/-- The three ways in which `alloc` returns: a bump allocation when no free
block fits, an exact fit that removes a block, a fit that leaves a
remainder. -/
theorem Allocator.alloc_cases (a a1 : Allocator) (size off : Nat)
    (hal : a.alloc size = some (off, a1)) :
    (off = a.used ∧ (∀ e ∈ a.freeBlocks, e.2 < a.getAlignedSize size) ∧
      ∃ used1, used1 = (a.used + a.getAlignedSize size) % sizeModulus ∧
        a1 = { a with used := used1, peak := if used1 > a.peak then used1 else a.peak }) ∨
    (∃ bz, (off, bz) ∈ a.freeBlocks ∧ bz = a.getAlignedSize size ∧
      a1 = { a with freeBlocks := mapErase off a.freeBlocks }) ∨
    (∃ bz rest, (off, bz) ∈ a.freeBlocks ∧ a.getAlignedSize size < bz ∧
      rest = mapEmplace ((off + a.getAlignedSize size) % sizeModulus)
        ((bz + sizeModulus - a.getAlignedSize size) % sizeModulus) (mapErase off a.freeBlocks) ∧
      a1 = { a with freeBlocks := rest }) := by
  unfold Allocator.alloc at hal
  split_ifs at hal
  simp only at hal
  rcases hscan : allocScan (a.getAlignedSize size) a.freeBlocks (0, 0, false) with
    ⟨bs, bz, found⟩
  rw [hscan] at hal
  cases found with
  | false =>
    simp only [Option.some.injEq, Prod.mk.injEq] at hal
    exact Or.inl ⟨hal.1.symm, (allocScan_not_found _ _ _ _ _ hscan).2, _, rfl, hal.2.symm⟩
  | true =>
    have hmem := allocScan_found _ a.freeBlocks (0, 0, false) bs bz hscan
    simp only [Prod.mk.injEq, Bool.false_eq_true, and_false, false_or] at hmem
    simp only at hal
    split_ifs at hal with h1 h2
    · simp only [Option.some.injEq, Prod.mk.injEq] at hal
      rw [← hal.1]
      exact Or.inr (Or.inl ⟨bz, hmem.1, h2, hal.2.symm⟩)
    · simp only [Option.some.injEq, Prod.mk.injEq] at hal
      rw [← hal.1]
      exact Or.inr (Or.inr ⟨bz, _, hmem.1, by omega, rfl, hal.2.symm⟩)

theorem keysSorted_key_unique (fb : FreeBlocks) (hs : KeysSorted fb) (e d : Nat × Nat)
    (he : e ∈ fb) (hd : d ∈ fb) (hk : e.1 = d.1) : e = d := by
  by_contra hne
  have hp := mapErase_perm fb hs e he
  have hd' : d ∈ mapErase e.1 fb := by
    rcases List.mem_cons.1 (hp.mem_iff.1 hd) with h1 | h1
    · exact absurd h1.symm hne
    · exact h1
  exact ((mem_mapErase _ _ _).1 hd').2 hk.symm

theorem Allocator.alloc_coalesced (a a1 : Allocator) (live : List (Nat × Nat)) (size off : Nat)
    (h : AllocInv a live) (hc : Coalesced a)
    (hov : a.used + a.getAlignedSize size < sizeModulus)
    (hal : a.alloc size = some (off, a1)) : Coalesced a1 := by
  have hul := h.used_lt
  rcases Allocator.alloc_cases a a1 size off hal with ⟨_, _, used1, hu1, ha1⟩ |
    ⟨bz, hmem, _, ha1⟩ | ⟨bz, rest, hmem, hlt, hrest, ha1⟩
  · subst ha1
    subst hu1
    have hmod : (a.used + a.getAlignedSize size) % sizeModulus = a.used + a.getAlignedSize size :=
      Nat.mod_eq_of_lt hov
    refine ⟨?_, hc.non_adj⟩
    intro e he
    show e.1 + e.2 ≠ (a.used + a.getAlignedSize size) % sizeModulus
    rw [hmod]
    have h1 := hc.no_tail e he
    have h2 := h.region_le e (List.mem_append_right _ he) (h.pos e he)
    omega
  · subst ha1
    refine ⟨?_, ?_⟩
    · intro e he
      exact hc.no_tail e ((mem_mapErase _ _ _).1 he).1
    · intro e he d hd
      exact hc.non_adj e ((mem_mapErase _ _ _).1 he).1 d ((mem_mapErase _ _ _).1 hd).1
  · subst ha1
    subst hrest
    have hend := h.region_le (off, bz) (List.mem_append_right _ hmem) (h.pos _ hmem)
    simp only at hend
    have hm1 : (off + a.getAlignedSize size) % sizeModulus = off + a.getAlignedSize size :=
      Nat.mod_eq_of_lt (by omega)
    have hm2 : (bz + sizeModulus - a.getAlignedSize size) % sizeModulus
        = bz - a.getAlignedSize size := by
      have : bz + sizeModulus - a.getAlignedSize size
          = (bz - a.getAlignedSize size) + sizeModulus := by omega
      rw [this, Nat.add_mod_right]
      exact Nat.mod_eq_of_lt (by omega)
    simp only [hm1, hm2]
    generalize a.getAlignedSize size = s at *
    have hold : ∀ e ∈ mapEmplace (off + s) (bz - s) (mapErase off a.freeBlocks),
        e = (off + s, bz - s) ∨ (e ∈ a.freeBlocks ∧ e.1 ≠ off) := by
      intro e he
      rcases mem_mapEmplace_imp _ _ _ _ he with h1 | h1
      · exact Or.inl h1
      · exact Or.inr ((mem_mapErase _ _ _).1 h1)
    refine ⟨?_, ?_⟩
    · intro e he
      rcases hold e he with h1 | h1
      · rw [h1]
        have := hc.no_tail _ hmem
        simp only at this ⊢
        omega
      · exact hc.no_tail e h1.1
    · intro e he d hd
      rcases hold e he with h1 | h1 <;> rcases hold d hd with h2 | h2
      · rw [h1, h2]
        simp only
        omega
      · rw [h1]
        have := hc.non_adj _ hmem d h2.1
        simp only at this ⊢
        omega
      · rw [h2]
        simp only
        intro heq
        by_cases hs0 : s = 0
        · have := hc.non_adj e h1.1 _ hmem
          simp only at this
          omega
        · have hpe := h.pos e h1.1
          have : e = (off, bz) :=
            h.block_unique e (off, bz) h1.1 hmem (off + s - 1)
              (by unfold inRegion; omega) (by unfold inRegion; simp only; omega)
          rw [this] at h1
          exact h1.2 rfl
      · exact hc.non_adj e h1.1 d h2.1

/-- One iteration of the tail loop of `free` keeps the invariant. -/
theorem AllocInv.shrink_step {a : Allocator} {live : List (Nat × Nat)} (h : AllocInv a live)
    (p : Nat × Nat) (hp : p ∈ a.freeBlocks) (hend : p.1 + p.2 = a.used) :
    AllocInv { a with used := p.1, freeBlocks := mapErase p.1 a.freeBlocks } live := by
  have hul := h.used_lt
  have hpos := h.pos p hp
  refine ⟨h.ptr_none, by show p.1 < sizeModulus; omega, ?_,
    mapErase_sorted _ _ h.sorted, ?_, ?_, ?_⟩
  · have := h.used_le_peak
    show p.1 ≤ a.peak
    omega
  · intro d hd
    exact h.pos d ((mem_mapErase _ _ _).1 hd).1
  · intro x
    have := h.cover_erase p hp x
    show cover (live ++ mapErase p.1 a.freeBlocks) x = if x < p.1 then 1 else 0
    unfold inRegion at this
    split_ifs at this ⊢ <;> omega
  · have := h.sum_erase p hp
    show sizeSum (live ++ mapErase p.1 a.freeBlocks) = p.1
    omega

theorem mapErase_length_lt (fb : FreeBlocks) (hs : KeysSorted fb) (p : Nat × Nat)
    (hp : p ∈ fb) : (mapErase p.1 fb).length < fb.length := by
  have := (mapErase_perm fb hs p hp).length_eq
  simp only [List.length_cons] at this
  omega

/-- The tail loop of `free` only erases entries, and stops in a state in which
no free block ends at `used`. -/
theorem freeShrink_no_tail (fuel : Nat) :
    ∀ (a : Allocator) (live : List (Nat × Nat)), AllocInv a live →
      a.freeBlocks.length ≤ fuel →
      (∀ e ∈ (freeShrink fuel a.used a.freeBlocks).2, e ∈ a.freeBlocks) ∧
      (∀ e ∈ (freeShrink fuel a.used a.freeBlocks).2,
        e.1 + e.2 ≠ (freeShrink fuel a.used a.freeBlocks).1) := by
  induction fuel with
  | zero =>
    intro a live h hlen
    have : a.freeBlocks = [] := List.length_eq_zero.1 (by omega)
    rw [this]
    simp [freeShrink]
  | succ fuel ih =>
    intro a live h hlen
    have hstop : (∀ e ∈ a.freeBlocks, e.1 + e.2 ≠ a.used) →
        (∀ e ∈ (a.used, a.freeBlocks).2, e ∈ a.freeBlocks) ∧
          (∀ e ∈ (a.used, a.freeBlocks).2, e.1 + e.2 ≠ (a.used, a.freeBlocks).1) :=
      fun hx => ⟨fun e he => he, hx⟩
    unfold freeShrink
    split_ifs with hemp
    · apply hstop
      intro e he
      rw [List.isEmpty_iff] at hemp
      rw [hemp] at he
      cases he
    · cases hb : mapBeforeUpperBound a.used a.freeBlocks with
      | none =>
        apply hstop
        intro e he _
        have h1 := mapBeforeUpperBound_none _ _ hb e he
        have h2 := h.region_le e (List.mem_append_right _ he) (h.pos e he)
        omega
      | some p =>
        obtain ⟨start, blk⟩ := p
        have hmem := mapBeforeUpperBound_some _ _ _ hb
        have hmax := mapBeforeUpperBound_max _ _ h.sorted _ hb
        have hend := h.region_le (start, blk) (List.mem_append_right _ hmem.1) (h.pos _ hmem.1)
        have hpos := h.pos _ hmem.1
        have hul := h.used_lt
        simp only at hend hpos hmax
        have hmod : (start + blk) % sizeModulus = start + blk := Nat.mod_eq_of_lt (by omega)
        simp only [hmod]
        split_ifs with hne
        · apply hstop
          intro e he heq
          have hpe := h.pos e he
          have hle := hmax e he (by omega)
          by_cases hk : e.1 = start
          · have := keysSorted_key_unique _ h.sorted e (start, blk) he hmem.1 hk
            rw [this] at heq
            exact hne heq
          · have hpend := hmem.2
            simp only at hpend
            by_cases hlt : start < e.1 + e.2
            · have := h.block_unique e (start, blk) he hmem.1 start
                (by unfold inRegion; omega) (by unfold inRegion; simp only; omega)
              rw [this] at hk
              exact hk rfl
            · omega
        · have hne' : start + blk = a.used := by
            by_contra hc
            exact hne hc
          have hinv := h.shrink_step (start, blk) hmem.1 hne'
          have hlen' : (mapErase start a.freeBlocks).length < a.freeBlocks.length :=
            mapErase_length_lt _ h.sorted (start, blk) hmem.1
          have := ih _ live hinv (by show (mapErase start a.freeBlocks).length ≤ fuel; omega)
          simp only at this
          exact ⟨fun e he => ((mem_mapErase _ _ _).1 (this.1 e he)).1, this.2⟩

theorem PendInv.block_disjoint {used : Nat} {live : List (Nat × Nat)} {R : Nat × Nat}
    {fb : FreeBlocks} (h : PendInv used live R fb) (e : Nat × Nat) (he : e ∈ fb) (x : Nat)
    (hxe : inRegion e x) (hxR : inRegion R x) : False := by
  have h1 := h.covers x
  have h2 := cover_pos_of_mem (live ++ fb) e x (List.mem_append_right _ he) hxe
  rw [cover_cons, if_pos hxR] at h1
  split_ifs at h1 <;> omega

/-- The shape of the state after case 2 of `free` (the freed region does not
end at `used`): one block `F` that contains the freed region is inserted, after
the blocks that touch the region from below and from above have been erased
and absorbed. -/
theorem Allocator.free_insert_shape (a a1 : Allocator) (live : List (Nat × Nat))
    (addr size : Nat) (h : AllocInv a live) (hR : (addr, a.getAlignedSize size) ∈ live)
    (hnt : addr + a.getAlignedSize size ≠ a.used) (hfr : a.free addr size = some a1) :
    ∃ F fb2, a1 = { a with freeBlocks := mapEmplace F.1 F.2 fb2 } ∧
      PendInv a.used (eraseRegion (addr, a.getAlignedSize size) live) F fb2 ∧
      (∀ e ∈ fb2, e ∈ a.freeBlocks) ∧
      (F.1 = addr ∨ ∃ p ∈ a.freeBlocks, p.1 = F.1 ∧ p.1 + p.2 = addr) ∧
      (F.1 + F.2 = addr + a.getAlignedSize size ∨
        ∃ n ∈ a.freeBlocks, n.1 = addr + a.getAlignedSize size ∧ n.1 + n.2 = F.1 + F.2) ∧
      (∀ e ∈ a.freeBlocks, e.1 + e.2 = addr → e ∉ fb2) ∧
      (∀ d ∈ a.freeBlocks, d.1 = addr + a.getAlignedSize size → d ∉ fb2) ∧
      F.1 ≤ addr ∧ addr + a.getAlignedSize size ≤ F.1 + F.2 ∧ 0 < a.getAlignedSize size := by
  unfold Allocator.free at hfr
  have hptr : a.ptr.isSome = false := by rw [h.ptr_none]; rfl
  rw [hptr] at hfr
  simp only [Bool.false_eq_true, ↓reduceIte] at hfr
  generalize hsz : a.getAlignedSize size = s at hfr hR hnt ⊢
  have hul := h.used_lt
  by_cases hpos : 0 < s
  swap
  · rw [if_pos hpos] at hfr
    cases hfr
  rw [if_neg (not_not.2 hpos)] at hfr
  have hend := h.region_le (addr, s) (List.mem_append_left _ hR) hpos
  simp only at hend
  have hmod : (addr + s) % sizeModulus = addr + s := Nat.mod_eq_of_lt (by omega)
  rw [hmod, if_neg (not_not.2 hend), if_neg hnt] at hfr
  simp only [Option.some.injEq] at hfr
  subst hfr
  have hpend := h.pend (addr, s) hR hpos
  have hs1 : ∃ R1 fb1, PendInv a.used (eraseRegion (addr, s) live) R1 fb1 ∧
      (match mapBeforeLowerBound addr a.freeBlocks with
        | none => (addr, s, a.freeBlocks)
        | some (prevStart, prevSize) =>
          if (prevStart + prevSize) % sizeModulus = addr then
            (prevStart, (s + prevSize) % sizeModulus, mapErase prevStart a.freeBlocks)
          else (addr, s, a.freeBlocks)) = (R1.1, R1.2, fb1) ∧
      (∀ e ∈ fb1, e ∈ a.freeBlocks) ∧ R1.1 + R1.2 = addr + s ∧
      (R1.1 = addr ∨ ∃ p ∈ a.freeBlocks, p.1 = R1.1 ∧ p.1 + p.2 = addr) ∧
      (∀ e ∈ a.freeBlocks, e.1 + e.2 = addr → e ∉ fb1) ∧
      (∀ d ∈ a.freeBlocks, d.1 = addr + s → d ∈ fb1) := by
    cases hb : mapBeforeLowerBound addr a.freeBlocks with
    | none =>
      refine ⟨(addr, s), a.freeBlocks, hpend, rfl, fun e he => he, rfl, Or.inl rfl, ?_,
        fun d hd _ => hd⟩
      intro e he heq
      have := mapBeforeLowerBound_none _ _ hb e he
      have := h.pos e he
      omega
    | some p =>
      obtain ⟨ps, pz⟩ := p
      have hmem := mapBeforeLowerBound_some _ _ _ hb
      have hmax := mapBeforeLowerBound_max _ _ h.sorted _ hb
      have hpe := hpend.block_end (ps, pz) hmem.1
      have hpp := h.pos _ hmem.1
      have hlt := hmem.2
      simp only at hpe hpp hlt hmax
      have hm : (ps + pz) % sizeModulus = ps + pz := Nat.mod_eq_of_lt (by omega)
      simp only [hm]
      split_ifs with hadj
      · have hmg := hpend.merge_prev (ps, pz) hmem.1 hadj
        have hre := hmg.rend
        simp only at hre
        have hm2 : (s + pz) % sizeModulus = s + pz := Nat.mod_eq_of_lt (by omega)
        refine ⟨(ps, s + pz), mapErase ps a.freeBlocks, hmg, by rw [hm2],
          fun e he => ((mem_mapErase _ _ _).1 he).1, by simp only; omega,
          Or.inr ⟨(ps, pz), hmem.1, rfl, hadj⟩, ?_, ?_⟩
        · intro e he heq hin
          have hpe' := h.pos e he
          have : e = (ps, pz) :=
            h.block_unique e (ps, pz) he hmem.1 (addr - 1)
              (by unfold inRegion; omega) (by unfold inRegion; simp only; omega)
          rw [this] at hin
          exact ((mem_mapErase _ _ _).1 hin).2 rfl
        · intro d hd hk
          exact (mem_mapErase _ _ _).2 ⟨hd, by omega⟩
      · refine ⟨(addr, s), a.freeBlocks, hpend, rfl, fun e he => he, rfl, Or.inl rfl, ?_,
          fun d hd _ => hd⟩
        intro e he heq _
        have hpe' := h.pos e he
        have hle := hmax e he (by omega)
        by_cases hk : e.1 = ps
        · have := keysSorted_key_unique _ h.sorted e (ps, pz) he hmem.1 hk
          rw [this] at heq
          exact hadj heq
        · have := h.block_unique e (ps, pz) he hmem.1 ps
            (by unfold inRegion; omega) (by unfold inRegion; simp only; omega)
          rw [this] at hk
          exact hk rfl
  obtain ⟨R1, fb1, hp1, he1, hsub1, hend1, hlow1, hprev1, hnext1⟩ := hs1
  rw [he1]
  simp only
  have hs2 : ∃ R2 fb2, PendInv a.used (eraseRegion (addr, s) live) R2 fb2 ∧ R2.1 = R1.1 ∧
      (match mapLowerBound R1.1 fb1 with
        | none => (R1.2, fb1)
        | some (nextStart, nextSize) =>
          if (R1.1 + R1.2) % sizeModulus = nextStart then
            ((R1.2 + nextSize) % sizeModulus, mapErase nextStart fb1)
          else (R1.2, fb1)) = (R2.2, fb2) ∧
      (∀ e ∈ fb2, e ∈ fb1) ∧
      (R2.1 + R2.2 = R1.1 + R1.2 ∨
        ∃ n ∈ fb1, n.1 = R1.1 + R1.2 ∧ n.1 + n.2 = R2.1 + R2.2) ∧
      (∀ d ∈ fb1, d.1 = R1.1 + R1.2 → d ∉ fb2) ∧ R1.1 + R1.2 ≤ R2.1 + R2.2 := by
    have hr1 := hp1.rend
    have hrp := hp1.rpos
    have hm : (R1.1 + R1.2) % sizeModulus = R1.1 + R1.2 := Nat.mod_eq_of_lt (by omega)
    cases hb : mapLowerBound R1.1 fb1 with
    | none =>
      refine ⟨R1, fb1, hp1, rfl, rfl, fun e he => he, Or.inl rfl, ?_, le_refl _⟩
      intro d hd hk
      have := mapLowerBound_none _ _ hb d hd
      omega
    | some n =>
      obtain ⟨ns, nz⟩ := n
      have hmem := mapLowerBound_some _ _ _ hb
      have hmin := mapLowerBound_min _ _ hp1.sorted _ hb
      have hnp := hp1.pos _ hmem.1
      have hge := hmem.2
      simp only at hnp hge hmin
      simp only [hm]
      split_ifs with hadj
      · have hmg := hp1.merge_next (ns, nz) hmem.1 hadj
        have hre := hmg.rend
        simp only at hre
        have hm2 : (R1.2 + nz) % sizeModulus = R1.2 + nz := Nat.mod_eq_of_lt (by omega)
        refine ⟨(R1.1, R1.2 + nz), mapErase ns fb1, hmg, rfl, by rw [hm2],
          fun e he => ((mem_mapErase _ _ _).1 he).1,
          Or.inr ⟨(ns, nz), hmem.1, hadj.symm, by simp only; omega⟩, ?_, by simp only; omega⟩
        intro d hd hk hin
        exact ((mem_mapErase _ _ _).1 hin).2 (by omega)
      · refine ⟨R1, fb1, hp1, rfl, rfl, fun e he => he, Or.inl rfl, ?_, le_refl _⟩
        intro d hd hk _
        have hle := hmin d hd (by omega)
        exact hp1.block_disjoint (ns, nz) hmem.1 ns (by unfold inRegion; simp only; omega)
          (by unfold inRegion; omega)
  obtain ⟨R2, fb2, hp2, h21, he2, hsub2, hup2, hnext2, hge2⟩ := hs2
  rw [he2, ← h21]
  refine ⟨R2, fb2, rfl, hp2, fun e he => hsub1 e (hsub2 e he), ?_, ?_, ?_, ?_, ?_, ?_, hpos⟩
  · rw [h21]
    exact hlow1
  · rcases hup2 with h3 | ⟨n, hn, hn1, hn2⟩
    · exact Or.inl (by omega)
    · exact Or.inr ⟨n, hsub1 n hn, by omega, hn2⟩
  · intro e he heq hin
    exact hprev1 e he heq (hsub2 e hin)
  · intro d hd hk hin
    exact hnext2 d (hnext1 d hd hk) (by omega) hin
  · rcases hlow1 with h3 | ⟨p, _, hp1', hp2'⟩
    · omega
    · have := h.pos p ‹_›
      omega
  · omega

/-- The state inside case 1 of `free` after `used = addr`. -/
theorem AllocInv.drop_tail {a : Allocator} {live : List (Nat × Nat)} (h : AllocInv a live)
    (addr s : Nat) (hR : (addr, s) ∈ live) (hpos : 0 < s) (htail : addr + s = a.used) :
    AllocInv { a with used := addr } (eraseRegion (addr, s) live) := by
  have hul := h.used_lt
  have hpend := h.pend (addr, s) hR hpos
  refine ⟨h.ptr_none, by show addr < sizeModulus; omega, ?_, h.sorted, h.pos, ?_, ?_⟩
  · have := h.used_le_peak
    show addr ≤ a.peak
    omega
  · intro x
    have := hpend.covers x
    rw [cover_cons] at this
    show cover (eraseRegion (addr, s) live ++ a.freeBlocks) x = if x < addr then 1 else 0
    unfold inRegion at this
    simp only at this
    split_ifs at this ⊢ <;> omega
  · have := hpend.sum_eq
    rw [sizeSum_cons] at this
    show sizeSum (eraseRegion (addr, s) live ++ a.freeBlocks) = addr
    simp only at this
    omega

/-- The shape of the state after case 1 of `free` (the freed region ends at
`used`). -/
theorem Allocator.free_tail_shape (a a1 : Allocator) (live : List (Nat × Nat))
    (addr size : Nat) (h : AllocInv a live) (hR : (addr, a.getAlignedSize size) ∈ live)
    (htail : addr + a.getAlignedSize size = a.used) (hfr : a.free addr size = some a1) :
    0 < a.getAlignedSize size ∧
    a1 = { a with used := (freeShrink a.freeBlocks.length addr a.freeBlocks).1,
                  freeBlocks := (freeShrink a.freeBlocks.length addr a.freeBlocks).2 } := by
  unfold Allocator.free at hfr
  have hptr : a.ptr.isSome = false := by rw [h.ptr_none]; rfl
  rw [hptr] at hfr
  simp only [Bool.false_eq_true, ↓reduceIte] at hfr
  generalize hsz : a.getAlignedSize size = s at hfr hR htail ⊢
  have hul := h.used_lt
  by_cases hpos : 0 < s
  swap
  · rw [if_pos hpos] at hfr
    cases hfr
  rw [if_neg (not_not.2 hpos)] at hfr
  have hmod : (addr + s) % sizeModulus = addr + s := Nat.mod_eq_of_lt (by omega)
  rw [hmod, if_neg (not_not.2 (le_of_eq htail)), if_pos htail] at hfr
  simp only [Option.some.injEq] at hfr
  exact ⟨hpos, hfr.symm⟩

theorem Allocator.free_coalesced (a a1 : Allocator) (live : List (Nat × Nat))
    (addr size : Nat) (h : AllocInv a live) (hc : Coalesced a)
    (hR : (addr, a.getAlignedSize size) ∈ live) (hfr : a.free addr size = some a1) :
    Coalesced a1 := by
  by_cases htail : addr + a.getAlignedSize size = a.used
  · obtain ⟨hpos, ha1⟩ := Allocator.free_tail_shape a a1 live addr size h hR htail hfr
    have hinv := h.drop_tail addr _ hR hpos htail
    have := freeShrink_no_tail a.freeBlocks.length _ _ hinv (le_refl _)
    simp only at this
    subst ha1
    refine ⟨this.2, ?_⟩
    intro e he d hd
    exact hc.non_adj e (this.1 e he) d (this.1 d hd)
  · obtain ⟨F, fb2, ha1, hp, hsub, hlow, hup, hprev, hnext, _, _, hpos⟩ :=
      Allocator.free_insert_shape a a1 live addr size h hR htail hfr
    subst ha1
    have hend := h.region_le (addr, a.getAlignedSize size) (List.mem_append_left _ hR) hpos
    simp only at hend
    have hold : ∀ e ∈ mapEmplace F.1 F.2 fb2, e = F ∨ e ∈ fb2 := by
      intro e he
      rcases mem_mapEmplace_imp _ _ _ _ he with h1 | h1
      · exact Or.inl h1
      · exact Or.inr h1
    have hFend : F.1 + F.2 ≠ a.used := by
      rcases hup with h2 | ⟨n, hn1, hn2, hn3⟩
      · omega
      · have := hc.no_tail n hn1
        omega
    have hFpos := hp.rpos
    refine ⟨?_, ?_⟩
    · intro e he
      rcases hold e he with h1 | h1
      · rw [h1]; exact hFend
      · exact hc.no_tail e (hsub e h1)
    · intro e he d hd
      rcases hold e he with h1 | h1 <;> rcases hold d hd with h2 | h2
      · rw [h1, h2]; omega
      · rw [h1]
        intro heq
        rcases hup with h3 | ⟨n, hn1, hn2, hn3⟩
        · exact hnext d (hsub d h2) (by omega) h2
        · exact hc.non_adj n hn1 d (hsub d h2) (by omega)
      · rw [h2]
        intro heq
        rcases hlow with h3 | ⟨p, hp1, hp2, hp3⟩
        · exact hprev e (hsub e h1) (by omega) h1
        · exact hc.non_adj e (hsub e h1) p hp1 (by omega)
      · exact hc.non_adj e (hsub e h1) d (hsub d h2)

theorem Coalesced.at_fresh : Coalesced AllocSim.fresh.a :=
  ⟨fun e he => (by cases he), fun e he => (by cases he)⟩

theorem AllocSim.step_coalesced (s s1 : AllocSim) (c : AllocCall) (h : AllocInv s.a s.live)
    (hc : Coalesced s.a) (hfit : s.a.used + totalRequested s.a [c] < sizeModulus)
    (hs : s.step c = some s1) : Coalesced s1.a := by
  cases c with
  | alloc size =>
    simp only [AllocSim.step] at hs
    cases hal : s.a.alloc size with
    | none => rw [hal] at hs; cases hs
    | some r =>
      obtain ⟨off, a1⟩ := r
      rw [hal] at hs
      simp only [Option.some.injEq] at hs
      subst hs
      simp only [totalRequested, add_zero] at hfit
      exact Allocator.alloc_coalesced s.a a1 s.live size off h hc hfit hal
  | free addr size =>
    simp only [AllocSim.step] at hs
    split_ifs at hs with hmem
    cases hfr : s.a.free addr size with
    | none => rw [hfr] at hs; cases hs
    | some a1 =>
      rw [hfr] at hs
      simp only [Option.some.injEq] at hs
      subst hs
      exact Allocator.free_coalesced s.a a1 s.live addr size h hc hmem hfr

theorem AllocSim.run_coalesced_from (calls : List AllocCall) :
    ∀ (s s1 : AllocSim), AllocInv s.a s.live → Coalesced s.a →
      s.a.used + totalRequested s.a calls < sizeModulus → s.run calls = some s1 →
      Coalesced s1.a := by
  induction calls with
  | nil =>
    intro s s1 _ hc _ hrun
    simp only [AllocSim.run, Option.some.injEq] at hrun
    subst hrun
    exact hc
  | cons c cs ih =>
    intro s s1 h hc hfit hrun
    simp only [AllocSim.run] at hrun
    have hsplit : totalRequested s.a (c :: cs) = totalRequested s.a [c] + totalRequested s.a cs :=
      totalRequested_append s.a [c] cs
    cases hst : s.step c with
    | none => rw [hst] at hrun; cases hrun
    | some s0 =>
      rw [hst] at hrun
      obtain ⟨hi, hal, hu, _, _⟩ := AllocSim.step_inv s s0 c h (by omega) hst
      have hc0 := AllocSim.step_coalesced s s0 c h hc (by omega) hst
      have hcg := totalRequested_congr s0.a s.a hal cs
      exact ih s0 s1 hi hc0 (by rw [hcg]; omega) hrun

theorem AllocSim.run_coalesced (calls : List AllocCall) (s : AllocSim)
    (hrun : AllocSim.fresh.run calls = some s)
    (hfit : totalRequested Allocator.init calls < sizeModulus) : Coalesced s.a :=
  AllocSim.run_coalesced_from calls AllocSim.fresh s AllocInv.at_init Coalesced.at_fresh
    (by show 0 + totalRequested Allocator.init calls < sizeModulus; omega) hrun

/-! ### Freeing two adjacent regions -/

/-- A `free` of an outstanding region of positive size passes every
assertion. -/
theorem Allocator.free_succeeds (a : Allocator) (live : List (Nat × Nat)) (addr size : Nat)
    (h : AllocInv a live) (hR : (addr, a.getAlignedSize size) ∈ live)
    (hpos : 0 < a.getAlignedSize size) : ∃ a1, a.free addr size = some a1 := by
  unfold Allocator.free
  have hptr : a.ptr.isSome = false := by rw [h.ptr_none]; rfl
  rw [hptr]
  simp only [Bool.false_eq_true, ↓reduceIte]
  have hul := h.used_lt
  have hend := h.region_le (addr, a.getAlignedSize size) (List.mem_append_left _ hR) hpos
  simp only at hend
  have hmod : (addr + a.getAlignedSize size) % sizeModulus = addr + a.getAlignedSize size :=
    Nat.mod_eq_of_lt (by omega)
  rw [if_neg (not_not.2 hpos), hmod, if_neg (not_not.2 hend)]
  split_ifs
  · exact ⟨_, rfl⟩
  · exact ⟨_, rfl⟩

theorem mem_eraseRegion_of_ne (r d : Nat × Nat) (l : List (Nat × Nat)) (hd : d ∈ l)
    (hne : d ≠ r) : d ∈ eraseRegion r l := by
  induction l with
  | nil => cases hd
  | cons x xs ih =>
    unfold eraseRegion
    split_ifs with hx
    · rcases List.mem_cons.1 hd with h1 | h1
      · exact absurd (h1.trans hx) hne
      · exact h1
    · rcases List.mem_cons.1 hd with h1 | h1
      · rw [h1]; exact List.mem_cons_self _ _
      · exact List.mem_cons_of_mem _ (ih h1)

/-- A run of two `free` calls that release two different outstanding regions
of positive size. -/
theorem AllocSim.two_frees (s : AllocSim) (h : AllocInv s.a s.live) (hc : Coalesced s.a)
    (xA qA xB qB : Nat)
    (hA : (xA, s.a.getAlignedSize qA) ∈ s.live) (hB : (xB, s.a.getAlignedSize qB) ∈ s.live)
    (hne : (xB, s.a.getAlignedSize qB) ≠ (xA, s.a.getAlignedSize qA))
    (hpA : 0 < s.a.getAlignedSize qA) (hpB : 0 < s.a.getAlignedSize qB) :
    ∃ s2, s.run [.free xA qA, .free xB qB] = some s2 ∧ AllocInv s2.a s2.live ∧
      Coalesced s2.a ∧
      s2.live = eraseRegion (xB, s.a.getAlignedSize qB)
        (eraseRegion (xA, s.a.getAlignedSize qA) s.live) ∧
      s2.a.used ≤ s.a.used ∧
      (xA + s.a.getAlignedSize qA ≠ s.a.used → xB + s.a.getAlignedSize qB ≠ s.a.used →
        s2.a.used = s.a.used) := by
  obtain ⟨a1, hf1⟩ := Allocator.free_succeeds s.a s.live xA qA h hA hpA
  obtain ⟨hi1, hal1, hu1, _⟩ := Allocator.free_inv s.a a1 s.live xA qA h hA hf1
  have hc1 := Allocator.free_coalesced s.a a1 s.live xA qA h hc hA hf1
  have hg : ∀ q, a1.getAlignedSize q = s.a.getAlignedSize q :=
    fun q => getAlignedSize_congr a1 s.a hal1 q
  have hB1 : (xB, a1.getAlignedSize qB) ∈ eraseRegion (xA, s.a.getAlignedSize qA) s.live := by
    rw [hg]
    exact mem_eraseRegion_of_ne _ _ _ hB hne
  obtain ⟨a2, hf2⟩ := Allocator.free_succeeds a1 _ xB qB hi1 hB1 (by rw [hg]; exact hpB)
  obtain ⟨hi2, hal2, hu2, _⟩ := Allocator.free_inv a1 a2 _ xB qB hi1 hB1 hf2
  have hc2 := Allocator.free_coalesced a1 a2 _ xB qB hi1 hc1 hB1 hf2
  refine ⟨⟨a2, eraseRegion (xB, s.a.getAlignedSize qB)
      (eraseRegion (xA, s.a.getAlignedSize qA) s.live)⟩, ?_, ?_, hc2, rfl, ?_, ?_⟩
  · have hB2 := hB1
    rw [hg] at hB2
    simp only [AllocSim.run, AllocSim.step, hA, ↓reduceIte, hf1, hB2, hf2, hg]
  · rw [hg] at hi2
    exact hi2
  · show a2.used ≤ s.a.used
    omega
  · intro hnA hnB
    obtain ⟨_, _, e1, _⟩ := Allocator.free_insert_shape s.a a1 s.live xA qA h hA hnA hf1
    have hu : a1.used = s.a.used := by rw [e1]
    obtain ⟨_, _, e2, _⟩ := Allocator.free_insert_shape a1 a2 _ xB qB hi1 hB1
      (by rw [hg, hu]; exact hnB) hf2
    show a2.used = s.a.used
    rw [e2]
    exact hu

/-- All addresses of a range below `used` that no outstanding region contains
lie in one free block. -/
theorem AllocInv.free_range_single_block {a : Allocator} {live : List (Nat × Nat)}
    (h : AllocInv a live) (hc : Coalesced a) (lo hi : Nat) (hlt : lo < hi) (hhi : hi ≤ a.used)
    (hfree : ∀ y, lo ≤ y → y < hi → cover live y = 0) :
    ∃ b ∈ a.freeBlocks, b.1 ≤ lo ∧ hi ≤ b.1 + b.2 ∧
      ∀ d ∈ a.freeBlocks, (∃ y, lo ≤ y ∧ y < hi ∧ inRegion d y) → d = b := by
  have hfb : ∀ y, lo ≤ y → y < hi → ∃ b ∈ a.freeBlocks, inRegion b y := by
    intro y h1 h2
    have h3 := h.covers y
    rw [cover_append, hfree y h1 h2, if_pos (by omega)] at h3
    exact (cover_pos_iff _ _).1 (by omega)
  obtain ⟨b, hb, hin⟩ := hfb lo (le_refl _) hlt
  have hbhi : hi ≤ b.1 + b.2 := by
    by_contra hcon
    have hpb := h.pos b hb
    unfold inRegion at hin
    obtain ⟨d, hd, hdin⟩ := hfb (b.1 + b.2) (by omega) (by omega)
    unfold inRegion at hdin
    by_cases hk : d.1 = b.1 + b.2
    · exact hc.non_adj b hb d hd hk.symm
    · have : d = b := h.block_unique d b hd hb (b.1 + b.2 - 1)
        (by unfold inRegion; omega) (by unfold inRegion; omega)
      rw [this] at hdin
      omega
  refine ⟨b, hb, hin.1, hbhi, ?_⟩
  rintro d hd ⟨y, hy1, hy2, hdy⟩
  exact h.block_unique d b hd hb y hdy (by unfold inRegion at hin ⊢; omega)

theorem cover_eraseRegion (r : Nat × Nat) (l : List (Nat × Nat)) (hr : r ∈ l) (y : Nat) :
    cover (eraseRegion r l) y + (if inRegion r y then 1 else 0) = cover l y := by
  rw [cover_perm (eraseRegion_perm r l hr) y, cover_cons]

/-- Claim C4 (amended): in a state reached from a fresh allocator (aligned
request sizes summing to less than `2 ^ 64`), let `[x, x + s1)` and
`[x + s1, x + s1 + s2)` be two adjacent outstanding regions of positive size.
Freeing both, in either order, passes every assertion.  If the upper region
does not end at `used`, the free map afterwards has one block that spans both
regions, and no other block meets them.  If the upper region ends at `used`,
no block is inserted: `used` drops to at most `x` and every free block ends
below `used`. -/
theorem adjacent_frees_merge_or_shrink (calls : List AllocCall) (s : AllocSim)
    (hrun : AllocSim.fresh.run calls = some s)
    (hfit : totalRequested Allocator.init calls < sizeModulus) (x q1 q2 : Nat)
    (h1 : (x, s.a.getAlignedSize q1) ∈ s.live)
    (h2 : (x + s.a.getAlignedSize q1, s.a.getAlignedSize q2) ∈ s.live)
    (hp1 : 0 < s.a.getAlignedSize q1) (hp2 : 0 < s.a.getAlignedSize q2) :
    (∃ t, s.run [.free x q1, .free (x + s.a.getAlignedSize q1) q2] = some t) ∧
    (∃ t, s.run [.free (x + s.a.getAlignedSize q1) q2, .free x q1] = some t) ∧
    ∀ t, (s.run [.free x q1, .free (x + s.a.getAlignedSize q1) q2] = some t ∨
        s.run [.free (x + s.a.getAlignedSize q1) q2, .free x q1] = some t) →
      (x + s.a.getAlignedSize q1 + s.a.getAlignedSize q2 ≠ s.a.used →
        ∃ b ∈ t.a.freeBlocks, b.1 ≤ x ∧
          x + s.a.getAlignedSize q1 + s.a.getAlignedSize q2 ≤ b.1 + b.2 ∧
          ∀ d ∈ t.a.freeBlocks,
            (∃ y, x ≤ y ∧ y < x + s.a.getAlignedSize q1 + s.a.getAlignedSize q2 ∧ inRegion d y) →
              d = b) ∧
      (x + s.a.getAlignedSize q1 + s.a.getAlignedSize q2 = s.a.used →
        t.a.used ≤ x ∧ ∀ b ∈ t.a.freeBlocks, b.1 + b.2 < t.a.used) := by
  obtain ⟨hi, _, _⟩ := AllocSim.run_inv calls s hrun hfit
  have hc := AllocSim.run_coalesced calls s hrun hfit
  generalize hs1 : s.a.getAlignedSize q1 = s1 at *
  generalize hs2 : s.a.getAlignedSize q2 = s2 at *
  have hne12 : ((x + s1, s2) : Nat × Nat) ≠ (x, s1) := by
    intro heq
    have := congrArg Prod.fst heq
    simp only at this
    omega
  have hend := hi.region_le (x + s1, s2) (List.mem_append_left _ h2) hp2
  simp only at hend
  have hlive : ∀ y, cover s.live y ≤ 1 := by
    intro y
    have := hi.covers y
    rw [cover_append] at this
    split_ifs at this <;> omega
  obtain ⟨tA, hrA, hiA, hcA, hlA, huA, hsA⟩ :=
    AllocSim.two_frees s hi hc x q1 (x + s1) q2 (by rw [hs1]; exact h1)
      (by rw [hs2]; exact h2) (by rw [hs1, hs2]; exact hne12) (by rw [hs1]; exact hp1)
      (by rw [hs2]; exact hp2)
  obtain ⟨tB, hrB, hiB, hcB, hlB, huB, hsB⟩ :=
    AllocSim.two_frees s hi hc (x + s1) q2 x q1 (by rw [hs2]; exact h2)
      (by rw [hs1]; exact h1) (by rw [hs1, hs2]; exact hne12.symm) (by rw [hs2]; exact hp2)
      (by rw [hs1]; exact hp1)
  rw [hs1, hs2] at hlA hsA hlB hsB
  have key : ∀ t : AllocSim, AllocInv t.a t.live → Coalesced t.a →
      (∀ y, x ≤ y → y < x + s1 + s2 → cover t.live y = 0) → t.a.used ≤ s.a.used →
      (x + s1 + s2 ≠ s.a.used → t.a.used = s.a.used) →
      (x + s1 + s2 ≠ s.a.used →
        ∃ b ∈ t.a.freeBlocks, b.1 ≤ x ∧ x + s1 + s2 ≤ b.1 + b.2 ∧
          ∀ d ∈ t.a.freeBlocks, (∃ y, x ≤ y ∧ y < x + s1 + s2 ∧ inRegion d y) → d = b) ∧
      (x + s1 + s2 = s.a.used → t.a.used ≤ x ∧ ∀ b ∈ t.a.freeBlocks, b.1 + b.2 < t.a.used) := by
    intro t hit hct hcov hut hsame
    constructor
    · intro hnt
      exact hit.free_range_single_block hct x (x + s1 + s2) (by omega)
        (by rw [hsame hnt]; exact hend) hcov
    · intro htl
      have hbelow : ∀ b ∈ t.a.freeBlocks, b.1 + b.2 < t.a.used := by
        intro b hb
        have := hit.region_le b (List.mem_append_right _ hb) (hit.pos b hb)
        have := hct.no_tail b hb
        omega
      refine ⟨?_, hbelow⟩
      by_contra hcon
      have hy := hit.covers (t.a.used - 1)
      rw [cover_append, hcov (t.a.used - 1) (by omega) (by omega), if_pos (by omega)] at hy
      obtain ⟨b, hb, hin⟩ := (cover_pos_iff _ _).1 (show 0 < cover t.a.freeBlocks (t.a.used - 1) by
        omega)
      have := hbelow b hb
      unfold inRegion at hin
      omega
  have hcovA : ∀ y, x ≤ y → y < x + s1 + s2 → cover tA.live y = 0 := by
    intro y hy1 hy2
    have e1 := cover_eraseRegion (x, s1) s.live h1 y
    have e2 := cover_eraseRegion (x + s1, s2) (eraseRegion (x, s1) s.live)
      (mem_eraseRegion_of_ne _ _ _ h2 hne12) y
    have := hlive y
    rw [hlA]
    unfold inRegion at e1 e2
    simp only at e1 e2
    split_ifs at e1 e2 <;> omega
  have hcovB : ∀ y, x ≤ y → y < x + s1 + s2 → cover tB.live y = 0 := by
    intro y hy1 hy2
    have e1 := cover_eraseRegion (x + s1, s2) s.live h2 y
    have e2 := cover_eraseRegion (x, s1) (eraseRegion (x + s1, s2) s.live)
      (mem_eraseRegion_of_ne _ _ _ h1 hne12.symm) y
    have := hlive y
    rw [hlB]
    unfold inRegion at e1 e2
    simp only at e1 e2
    split_ifs at e1 e2 <;> omega
  refine ⟨⟨tA, hrA⟩, ⟨tB, hrB⟩, ?_⟩
  intro t ht
  rcases ht with ht | ht
  · rw [hrA] at ht
    simp only [Option.some.injEq] at ht
    subst ht
    exact key tA hiA hcA hcovA huA (fun hnt => hsA (by omega) hnt)
  · rw [hrB] at ht
    simp only [Option.some.injEq] at ht
    subst ht
    exact key tB hiB hcB hcovB huB (fun hnt => hsB hnt (by omega))

/-- Witness of `adjacent_frees_merge_or_shrink`: three regions of 8 bytes, the
lower two are freed. -/
theorem adjacent_frees_merge_or_shrink_witness :
    (∃ t, (AllocSim.mk ⟨24, 24, 8, none, []⟩ [(16, 8), (8, 8), (0, 8)]).run
        [.free 0 8, .free (0 + 8) 8] = some t) :=
  (adjacent_frees_merge_or_shrink [.alloc 8, .alloc 8, .alloc 8]
    (AllocSim.mk ⟨24, 24, 8, none, []⟩ [(16, 8), (8, 8), (0, 8)])
    (by decide) (by decide) 0 8 8 (by decide) (by decide) (by decide) (by decide)).1

/-- Claim C4 fails as stated: after `alloc 8`, `alloc 16` the two regions
`[0, 8)` and `[8, 24)` are adjacent and outstanding; freeing both, in either
order, leaves an empty free map (and `used = 0`), not a merged block. -/
theorem adjacent_frees_at_tail_leave_no_block :
    AllocSim.fresh.run [.alloc 8, .alloc 16]
      = some (AllocSim.mk ⟨24, 24, 8, none, []⟩ [(8, 16), (0, 8)]) ∧
    (AllocSim.mk ⟨24, 24, 8, none, []⟩ [(8, 16), (0, 8)]).run [.free 0 8, .free 8 16]
      = some (AllocSim.mk ⟨0, 24, 8, none, []⟩ []) ∧
    (AllocSim.mk ⟨24, 24, 8, none, []⟩ [(8, 16), (0, 8)]).run [.free 8 16, .free 0 8]
      = some (AllocSim.mk ⟨0, 24, 8, none, []⟩ []) ∧
    ¬ ∃ b ∈ (AllocSim.mk ⟨0, 24, 8, none, []⟩ []).a.freeBlocks, b.1 ≤ 0 ∧ 24 ≤ b.1 + b.2 := by
  refine ⟨by decide, by decide, by decide, ?_⟩
  rintro ⟨b, hb, _⟩
  cases hb

/-- Witness of `alloc_free_regions_tile_used`: three allocations, then the two
lower regions are freed and coalesce into the block `(0, 16)`. -/
theorem alloc_free_regions_tile_used_witness :
    (([(16, 8)] : List (Nat × Nat)) ++ [(0, 16)]).Pairwise regionsDisjoint ∧
      ∀ x, x < 24 ↔ ∃ r ∈ ([(16, 8)] : List (Nat × Nat)) ++ [(0, 16)], inRegion r x :=
  alloc_free_regions_tile_used
    [.alloc 8, .alloc 5, .alloc 8, .free 0 8, .free 8 5]
    (AllocSim.mk ⟨24, 24, 8, none, [(0, 16)]⟩ [(16, 8)])
    (by decide) (by decide)

/-- Claim C2 fails as stated when `used` wraps around `2 ^ 64`: after two
allocations of `2 ^ 63` bytes the outstanding regions are `[0, 2 ^ 63)` and
`[2 ^ 63, 2 ^ 64)` while `used = 0`, so their union is not `[0, used)`. -/
theorem regions_tile_fails_on_wraparound :
    AllocSim.fresh.run [.alloc (2 ^ 63), .alloc (2 ^ 63)]
      = some (AllocSim.mk ⟨0, 2 ^ 63, 8, none, []⟩ [(2 ^ 63, 2 ^ 63), (0, 2 ^ 63)]) ∧
    ¬ (∀ x, x < 0 ↔
        ∃ r ∈ ([(2 ^ 63, 2 ^ 63), (0, 2 ^ 63)] : List (Nat × Nat)) ++ [], inRegion r x) := by
  refine ⟨by decide, ?_⟩
  intro h
  have := (h 0).2 ⟨(0, 2 ^ 63), by simp, by unfold inRegion; norm_num⟩
  omega

/-- Witness of `alloc_free_sum_le_used_peak_max`. -/
theorem alloc_free_sum_le_used_peak_max_witness :
    sizeSum [(16, 8)] ≤ 24 :=
  (alloc_free_sum_le_used_peak_max
    [.alloc 8, .alloc 5, .alloc 8, .free 0 8, .free 8 5]
    (AllocSim.mk ⟨24, 24, 8, none, [(0, 16)]⟩ [(16, 8)])
    (by decide) (by decide)).1

/-- Claim C3 fails as stated when `used` wraps around `2 ^ 64`: after
`alloc (2 ^ 64 - 8)` and `alloc 16`, both sizes multiples of the alignment,
the outstanding sizes sum to `2 ^ 64 + 8` while `used = 8`. -/
theorem live_sum_exceeds_used_on_wraparound :
    AllocSim.fresh.run [.alloc (2 ^ 64 - 8), .alloc 16]
      = some (AllocSim.mk ⟨8, 2 ^ 64 - 8, 8, none, []⟩ [(2 ^ 64 - 8, 16), (0, 2 ^ 64 - 8)]) ∧
    ¬ sizeSum [(2 ^ 64 - 8, 16), (0, 2 ^ 64 - 8)] ≤ 8 := by
  refine ⟨by decide, by decide⟩

/-! ### Topological sort -/

theorem producersFirst_nil (g : GraphObj) : ProducersFirst g [] := by
  intro pre op post h
  cases pre <;> cases h

theorem producersFirst_snoc (g : GraphObj) (l : List Nat) (op : Nat)
    (hl : ProducersFirst g l)
    (hop : ∀ t ∈ (g.opAt op).inputs, ∀ p, (g.tensorAt t).source = some p → p ∈ l) :
    ProducersFirst g (l ++ [op]) := by
  intro pre x post h t ht p hp
  rcases List.append_eq_append_iff.1 h with ⟨a', h1, h2⟩ | ⟨c', h1, h2⟩
  · -- pre = l ++ a', [op] = a' ++ x :: post
    cases a' with
    | nil =>
      simp only [List.nil_append, List.cons.injEq] at h2
      rw [h1, List.append_nil]
      exact hop t (by rw [h2.1]; exact ht) p hp
    | cons y ys =>
      simp only [List.cons_append, List.cons.injEq] at h2
      have := h2.2
      cases ys <;> cases this
  · -- l = pre ++ c', x :: post = c' ++ [op]
    cases c' with
    | nil =>
      simp only [List.nil_append, List.cons.injEq] at h2
      rw [List.append_nil] at h1
      rw [← h1]
      exact hop t (by rw [← h2.1]; exact ht) p hp
    | cons y ys =>
      simp only [List.cons_append, List.cons.injEq] at h2
      rw [← h2.1] at h1
      exact hl pre x ys h1 t ht p hp

theorem topoReady_sources (g : GraphObj) (flags : List Nat) (op : Nat)
    (h : topoReady g flags op = true) :
    op ∉ flags ∧ ∀ t ∈ (g.opAt op).inputs, ∀ p, (g.tensorAt t).source = some p → p ∈ flags := by
  unfold topoReady at h
  simp only [Bool.and_eq_true, Bool.not_eq_true', List.all_eq_true] at h
  refine ⟨?_, ?_⟩
  · intro hin
    have := h.1
    simp [hin] at this
  · intro t ht p hp
    have := h.2 t ht
    rw [hp] at this
    simpa using this

theorem topoPass_inv (g : GraphObj) :
    ∀ (l : List Nat) (sorted flags : List Nat) (m : Bool), TopoInv g sorted flags →
      TopoInv g (topoPass g l (sorted, flags, m)).1 (topoPass g l (sorted, flags, m)).2.1 := by
  intro l
  induction l with
  | nil => intro sorted flags m h; exact h
  | cons op rest ih =>
    intro sorted flags m h
    simp only [topoPass]
    split_ifs with hr
    · apply ih
      obtain ⟨_, hsrc⟩ := topoReady_sources g flags op hr
      refine ⟨?_, ?_⟩
      · intro x
        simp only [List.mem_cons, List.mem_append, List.mem_singleton, h.flags_eq]
        tauto
      · exact producersFirst_snoc g sorted op h.ordered
          (fun t ht p hp => (h.flags_eq p).1 (hsrc t ht p hp))
    · exact ih sorted flags m h

theorem topoPass_length (g : GraphObj) :
    ∀ (l : List Nat) (sorted flags : List Nat) (m : Bool),
      sorted.length ≤ (topoPass g l (sorted, flags, m)).1.length ∧
      ((topoPass g l (sorted, flags, m)).2.2 = true → m = false →
        sorted.length < (topoPass g l (sorted, flags, m)).1.length) ∧
      (m = true → (topoPass g l (sorted, flags, m)).2.2 = true) := by
  intro l
  induction l with
  | nil =>
    intro sorted flags m
    simp only [topoPass]
    refine ⟨le_refl _, ?_, fun h => h⟩
    intro h1 h2
    rw [h2] at h1
    cases h1
  | cons op rest ih =>
    intro sorted flags m
    simp only [topoPass]
    split_ifs with hr
    · have := ih (sorted ++ [op]) (op :: flags) true
      simp only [List.length_append, List.length_singleton] at this
      refine ⟨by omega, fun _ _ => by omega, fun _ => this.2.2 trivial⟩
    · exact ih sorted flags m

theorem topoLoop_inv (g : GraphObj) :
    ∀ (fuel : Nat) (sorted flags res : List Nat), TopoInv g sorted flags →
      topoLoop g fuel sorted flags = some (some res) → ProducersFirst g res := by
  intro fuel
  induction fuel with
  | zero =>
    intro sorted flags res h hl
    unfold topoLoop at hl
    split_ifs at hl
    simp only [Option.some.injEq] at hl
    rw [← hl]
    exact h.ordered
  | succ fuel ih =>
    intro sorted flags res h hl
    unfold topoLoop at hl
    split_ifs at hl
    · simp only at hl
      have hp := topoPass_inv g g.ops sorted flags false h
      rcases hpass : topoPass g g.ops (sorted, flags, false) with ⟨s1, f1, m1⟩
      rw [hpass] at hl hp
      cases m1 with
      | false => simp at hl
      | true => exact ih s1 f1 res hp hl
    · simp only [Option.some.injEq] at hl
      rw [← hl]
      exact h.ordered

/-- The fuel of `topo_sort` never runs out. -/
theorem topoLoop_total (g : GraphObj) :
    ∀ (fuel : Nat) (sorted flags : List Nat), g.ops.length + 1 ≤ fuel + sorted.length →
      topoLoop g fuel sorted flags ≠ none := by
  intro fuel
  induction fuel with
  | zero =>
    intro sorted flags h
    unfold topoLoop
    rw [if_neg (by omega)]
    simp
  | succ fuel ih =>
    intro sorted flags h
    unfold topoLoop
    split_ifs with hlt
    · simp only
      have hlen := topoPass_length g g.ops sorted flags false
      rcases hpass : topoPass g g.ops (sorted, flags, false) with ⟨s1, f1, m1⟩
      rw [hpass] at hlen
      cases m1 with
      | false => simp
      | true =>
        have := hlen.2.1 rfl rfl
        simp only at this ⊢
        exact ih s1 f1 (by omega)
    · simp

theorem topoInv_init (g : GraphObj) : TopoInv g [] [] :=
  ⟨fun _ => Iff.rfl, producersFirst_nil g⟩

theorem GraphObj.topo_sort_total (g : GraphObj) : ∃ r, g.topo_sort = some r := by
  unfold GraphObj.topo_sort
  split_ifs
  · exact ⟨_, rfl⟩
  · have := topoLoop_total g (g.ops.length + 1) [] [] (by simp)
    cases h : topoLoop g (g.ops.length + 1) [] [] with
    | none => exact absurd h this
    | some r =>
      cases r with
      | none => exact ⟨_, rfl⟩
      | some l => exact ⟨_, rfl⟩

theorem producersFirst_index (g : GraphObj) (l : List Nat) (h : ProducersFirst g l)
    (i : Nat) (hi : i < l.length) (t : Nat) (ht : t ∈ (g.opAt (l.get ⟨i, hi⟩)).inputs)
    (p : Nat) (hp : (g.tensorAt t).source = some p) :
    ∃ j, ∃ hj : j < l.length, j < i ∧ l.get ⟨j, hj⟩ = p := by
  have hsplit : l = l.take i ++ l.get ⟨i, hi⟩ :: l.drop (i + 1) := by
    rw [List.get_eq_getElem, List.getElem_cons_drop, List.take_append_drop]
  have hmem := h _ _ _ hsplit t ht p hp
  obtain ⟨j, hj, hjp⟩ := List.getElem_of_mem hmem
  have hj' : j < i := by
    rw [List.length_take] at hj
    omega
  refine ⟨j, by omega, hj', ?_⟩
  rw [← hjp, List.getElem_take, List.get_eq_getElem]

/-- Claim C5: when `topo_sort` returns true (on a graph whose cached flag, if
set, belongs to an order that lists producers first), every operator that
produces an input tensor of the operator at index `i` of the resulting order
is at a strictly smaller index. -/
theorem topo_sort_places_predecessors_first (g g1 : GraphObj)
    (hcache : g.sorted = true → ProducersFirst g g.ops)
    (h : g.topo_sort = some (true, g1)) :
    ∀ (i : Nat) (hi : i < g1.ops.length), ∀ t ∈ (g1.opAt (g1.ops.get ⟨i, hi⟩)).inputs,
      ∀ p, (g1.tensorAt t).source = some p →
        ∃ j, ∃ hj : j < g1.ops.length, j < i ∧ g1.ops.get ⟨j, hj⟩ = p := by
  have key : ProducersFirst g1 g1.ops := by
    unfold GraphObj.topo_sort at h
    split_ifs at h with hs
    · simp only [Option.some.injEq, Prod.mk.injEq, true_and] at h
      rw [← h]
      exact hcache hs
    · cases hl : topoLoop g (g.ops.length + 1) [] [] with
      | none => rw [hl] at h; cases h
      | some r =>
        rw [hl] at h
        cases r with
        | none => simp at h
        | some l =>
          simp only [Option.some.injEq, Prod.mk.injEq, true_and] at h
          rw [← h]
          exact topoLoop_inv g _ [] [] l (topoInv_init g) hl
  intro i hi t ht p hp
  exact producersFirst_index g1 g1.ops key i hi t ht p hp

/-- Witness of `topo_sort_places_predecessors_first`: the chain listed as
`[op1, op0]` is sorted to `[op0, op1]`, and the producer `op0` of the input of
`op1` (index 1) is at index 0. -/
theorem topo_sort_places_predecessors_first_witness :
    ∃ j, ∃ hj : j < [0, 1].length, j < 1 ∧ [0, 1].get ⟨j, hj⟩ = 0 :=
  topo_sort_places_predecessors_first chainGraph
    { chainGraph with ops := [0, 1], sorted := true }
    (fun h => by cases h) rfl 1 (by decide) 1 (by decide) 0 rfl

/-- Claim C6: when `topo_sort` returns false the graph is the one before the
call: the operator list is the same, in the same order, and the cached flag is
still false (as it was, since a set flag makes the call return true). -/
theorem topo_sort_false_leaves_graph (g g1 : GraphObj)
    (h : g.topo_sort = some (false, g1)) :
    g1 = g ∧ g1.ops = g.ops ∧ g1.sorted = false ∧ g.sorted = false := by
  unfold GraphObj.topo_sort at h
  split_ifs at h with hs
  · simp at h
  · cases hl : topoLoop g (g.ops.length + 1) [] [] with
    | none => rw [hl] at h; cases h
    | some r =>
      rw [hl] at h
      cases r with
      | some l => simp at h
      | none =>
        simp only [Option.some.injEq, Prod.mk.injEq, true_and] at h
        subst h
        refine ⟨rfl, rfl, ?_, ?_⟩ <;> simpa using hs

/-- Witness of `topo_sort_false_leaves_graph`: an operator that consumes its
own output is never placed, and the call returns false. -/
theorem topo_sort_false_leaves_graph_witness :
    selfLoopGraph = selfLoopGraph ∧ selfLoopGraph.ops = selfLoopGraph.ops ∧
      selfLoopGraph.sorted = false ∧ selfLoopGraph.sorted = false :=
  topo_sort_false_leaves_graph selfLoopGraph selfLoopGraph rfl

/-! ### Memory planning -/

theorem AllocInv.perm {a : Allocator} {l1 l2 : List (Nat × Nat)} (hp : List.Perm l1 l2)
    (h : AllocInv a l1) : AllocInv a l2 := by
  refine ⟨h.ptr_none, h.used_lt, h.used_le_peak, h.sorted, h.pos, ?_, ?_⟩
  · intro x
    rw [← h.covers x, cover_append, cover_append, cover_perm hp]
  · rw [← h.sum_eq, sizeSum_append, sizeSum_append, sizeSum_perm hp]

theorem regionsDisjoint_symm {r1 r2 : Nat × Nat} (h : regionsDisjoint r1 r2) :
    regionsDisjoint r2 r1 :=
  fun x hx => h x ⟨hx.2, hx.1⟩

theorem regionOf_emplace_ne (g : GraphObj) (om : RefMap) (t off x : Nat) (hx : x ≠ t) :
    regionOf g (om.emplace t off) x = regionOf g om x := by
  unfold regionOf RefMap.emplace
  simp [hx]

theorem regionOf_emplace_some (g : GraphObj) (om : RefMap) (t off x : Nat)
    (h : (om x).isSome) : regionOf g (om.emplace t off) x = regionOf g om x := by
  unfold regionOf RefMap.emplace
  by_cases hx : x = t
  · subst hx
    cases hox : om x with
    | none => rw [hox] at h; cases h
    | some w => simp [hox]
  · simp [hx]

theorem emplace_isSome (om : RefMap) (t off x : Nat) :
    ((om.emplace t off) x).isSome = ((om x).isSome || decide (x = t)) := by
  unfold RefMap.emplace
  by_cases hx : x = t
  · subst hx
    cases om x <;> simp
  · simp [hx]

/-- One allocation of pass 1 for the tensor `t`. -/
theorem PlanInv.alloc_step {g : GraphObj} {done : List Nat} {budget : Nat} {st : PlanState}
    {outs : List Nat} {leaks : List (Nat × Nat)} (h : PlanInv g done budget st outs leaks)
    (t off : Nat) (a1 : Allocator) (budget1 : Nat)
    (hb : g.allocator.getAlignedSize (g.tensorAt t).bytes + budget1 ≤ budget)
    (hal : st.allocator.alloc (g.tensorAt t).bytes = some (off, a1))
    (hnew : (st.offsetMap t).isNone → (∀ op ∈ done, t ∉ (g.opAt op).outputs) ∧
      ((∃ t1, isFreed g st t1) → (g.tensorAt t).source.isSome ∨ t ∉ g.tensors)) :
    ∃ outs1 leaks1,
      PlanInv g done budget1 ⟨a1, st.offsetMap.emplace t off, st.remainingUses⟩ outs1 leaks1 := by
  have hg : st.allocator.getAlignedSize (g.tensorAt t).bytes
      = g.allocator.getAlignedSize (g.tensorAt t).bytes :=
    getAlignedSize_congr _ _ h.align _
  have hfit := h.fit
  obtain ⟨hi1, hal1, hu1, _, _⟩ := Allocator.alloc_inv st.allocator a1 _ _ off h.inv
    (by rw [hg]; omega) hal
  rw [hg] at hi1 hu1
  have hfreed : ∀ x, isFreed g ⟨a1, st.offsetMap.emplace t off, st.remainingUses⟩ x
      ↔ isFreed g st x := fun x => Iff.rfl
  have hmap : outs.map (regionOf g (st.offsetMap.emplace t off))
      = outs.map (regionOf g st.offsetMap) := by
    apply List.map_congr_left
    intro x hx
    exact regionOf_emplace_some g _ t off x ((h.outs_iff x).1 hx).1
  have htiles := hi1.tiles.1
  cases hot : st.offsetMap t with
  | some w =>
    -- the tensor has an offset already: the new region leaks
    have hkeep : ∀ x, (st.offsetMap.emplace t off) x = st.offsetMap x := by
      intro x
      unfold RefMap.emplace
      by_cases hx : x = t
      · subst hx; simp [hot]
      · simp [hx]
    have hreg : ∀ x, regionOf g (st.offsetMap.emplace t off) x = regionOf g st.offsetMap x := by
      intro x
      unfold regionOf
      rw [hkeep]
    refine ⟨outs, (off, g.allocator.getAlignedSize (g.tensorAt t).bytes) :: leaks,
      ⟨?_, hal1.trans h.align, ?_, h.nodup, ?_, ?_, ?_, ?_⟩⟩
    · show AllocInv a1 (outs.map (regionOf g (st.offsetMap.emplace t off)) ++ _)
      rw [hmap]
      exact AllocInv.perm (List.perm_middle.symm) hi1
    · show a1.used + budget1 < sizeModulus
      omega
    · intro x
      show x ∈ outs ↔ ((st.offsetMap.emplace t off) x).isSome ∧ _
      rw [hkeep, hfreed]
      exact h.outs_iff x
    · intro t1 t2 hne h1 h2
      show regionsDisjoint (regionOf g (st.offsetMap.emplace t off) t1)
        (regionOf g (st.offsetMap.emplace t off) t2) ∨ _
      rw [hreg, hreg]
      have h1' : (st.offsetMap t1).isSome := by rw [← hkeep]; exact h1
      have h2' : (st.offsetMap t2).isSome := by rw [← hkeep]; exact h2
      exact h.sep t1 t2 hne h1' h2'
    · intro op hop out hout
      show ((st.offsetMap.emplace t off) out).isSome
      rw [hkeep]
      exact h.produced op hop out hout
    · intro x hx
      show ((st.offsetMap.emplace t off) x).isSome
      rw [hkeep]
      exact h.freed_has x hx
  | none =>
    obtain ⟨hnout, hnsrc⟩ := hnew (by rw [hot]; rfl)
    have htn : t ∉ outs := fun ht => by
      have := ((h.outs_iff t).1 ht).1
      rw [hot] at this
      cases this
    have hregt : regionOf g (st.offsetMap.emplace t off) t
        = (off, g.allocator.getAlignedSize (g.tensorAt t).bytes) := by
      unfold regionOf RefMap.emplace
      simp [hot]
    have htfree : ¬ isFreed g st t := fun hf => by
      have := h.freed_has t hf
      rw [hot] at this
      cases this
    have hdisj : ∀ x ∈ outs, regionsDisjoint
        (off, g.allocator.getAlignedSize (g.tensorAt t).bytes) (regionOf g st.offsetMap x) := by
      intro x hx
      have := (List.pairwise_cons.1 htiles).1 (regionOf g st.offsetMap x)
        (List.mem_append_left _ (List.mem_append_left _ (List.mem_map_of_mem _ hx)))
      exact this
    have hother : ∀ x, x ≠ t → (st.offsetMap x).isSome →
        regionsDisjoint (off, g.allocator.getAlignedSize (g.tensorAt t).bytes)
          (regionOf g st.offsetMap x) ∨
        FreedBefore g done ⟨a1, st.offsetMap.emplace t off, st.remainingUses⟩ x t := by
      intro x hx hsx
      by_cases hxo : x ∈ outs
      · exact Or.inl (hdisj x hxo)
      · have hxf : isFreed g st x := by
          by_contra hcon
          exact hxo ((h.outs_iff x).2 ⟨hsx, hcon⟩)
        exact Or.inr ⟨hxf, hnsrc ⟨x, hxf⟩, done, [], (List.append_nil _).symm, hnout,
          fun op hop => by cases hop⟩
    refine ⟨t :: outs, leaks, ⟨?_, hal1.trans h.align, ?_, List.nodup_cons.2 ⟨htn, h.nodup⟩,
      ?_, ?_, ?_, ?_⟩⟩
    · show AllocInv a1 ((t :: outs).map (regionOf g (st.offsetMap.emplace t off)) ++ _)
      rw [List.map_cons, hmap, hregt]
      exact hi1
    · show a1.used + budget1 < sizeModulus
      omega
    · intro x
      show x ∈ t :: outs ↔ ((st.offsetMap.emplace t off) x).isSome ∧ _
      rw [hfreed, emplace_isSome, List.mem_cons, h.outs_iff x]
      by_cases hx : x = t
      · subst hx
        simp only [hot, Option.isSome_none, Bool.false_or, decide_True, true_and, true_or,
          true_iff]
        exact htfree
      · simp [hx]
    · intro t1 t2 hne h1 h2
      show regionsDisjoint (regionOf g (st.offsetMap.emplace t off) t1)
        (regionOf g (st.offsetMap.emplace t off) t2) ∨ _
      rw [emplace_isSome] at h1 h2
      by_cases ht1 : t1 = t
      · have ht2 : t2 ≠ t := fun e => hne (ht1.trans e.symm)
        simp only [ht2, decide_False, Bool.or_false] at h2
        rw [ht1, hregt, regionOf_emplace_ne g _ t off t2 ht2]
        rcases hother t2 ht2 h2 with hd | hf
        · exact Or.inl hd
        · exact Or.inr (Or.inr hf)
      · simp only [ht1, decide_False, Bool.or_false] at h1
        rw [regionOf_emplace_ne g _ t off t1 ht1]
        by_cases ht2 : t2 = t
        · rw [ht2, hregt]
          rcases hother t1 ht1 h1 with hd | hf
          · exact Or.inl (regionsDisjoint_symm hd)
          · exact Or.inr (Or.inl hf)
        · simp only [ht2, decide_False, Bool.or_false] at h2
          rw [regionOf_emplace_ne g _ t off t2 ht2]
          exact h.sep t1 t2 hne h1 h2
    · intro op hop out hout
      show ((st.offsetMap.emplace t off) out).isSome
      rw [emplace_isSome, h.produced op hop out hout]
      rfl
    · intro x hx
      show ((st.offsetMap.emplace t off) x).isSome
      rw [emplace_isSome, h.freed_has x hx]
      rfl

theorem PlanInv.weaken {g : GraphObj} {done : List Nat} {budget : Nat} {st : PlanState}
    {outs : List Nat} {leaks : List (Nat × Nat)} (h : PlanInv g done budget st outs leaks)
    (budget1 : Nat) (hb : budget1 ≤ budget) : PlanInv g done budget1 st outs leaks :=
  ⟨h.inv, h.align, by have := h.fit; omega, h.nodup, h.outs_iff, h.sep, h.produced, h.freed_has⟩

theorem nodup_perm_filter_ne (l : List Nat) (x : Nat) (hn : l.Nodup) (hx : x ∈ l) :
    List.Perm l (x :: l.filter fun y => decide (y ≠ x)) := by
  induction l with
  | nil => cases hx
  | cons y ys ih =>
    have hn' := List.nodup_cons.1 hn
    by_cases hyx : y = x
    · subst hyx
      have : (List.filter (fun z => decide (z ≠ y)) (y :: ys)) = ys := by
        rw [List.filter_cons_of_neg (by simp)]
        apply List.filter_eq_self.2
        intro z hz
        have : z ≠ y := fun e => hn'.1 (e ▸ hz)
        simpa using this
      rw [this]
    · rcases List.mem_cons.1 hx with h1 | h1
      · exact absurd h1.symm hyx
      · rw [List.filter_cons_of_pos (by simpa using hyx)]
        exact (List.Perm.cons y (ih hn'.2 h1)).trans (List.Perm.swap x y _)

theorem isFreed_assign_pos (g : GraphObj) (st : PlanState) (a1 : Allocator) (tp c x : Nat)
    (hc : c ≠ 0) (hold : st.remainingUses tp = some (c + 1)) :
    isFreed g ⟨a1, st.offsetMap, st.remainingUses.assign tp c⟩ x ↔ isFreed g st x := by
  unfold isFreed RefMap.assign
  by_cases hx : x = tp
  · subst hx
    simp [hold, hc]
  · simp [hx]

theorem isFreed_assign_zero (g : GraphObj) (st : PlanState) (a1 : Allocator) (tp x : Nat)
    (hpin : isPinned g tp = false) :
    isFreed g ⟨a1, st.offsetMap, st.remainingUses.assign tp 0⟩ x ↔ (isFreed g st x ∨ x = tp) := by
  unfold isFreed RefMap.assign
  by_cases hx : x = tp
  · subst hx
    simp [hpin]
  · simp [hx]

/-- The loop over the inputs of an operator keeps the invariant; none of the
inputs was freed before the loop, and what was freed stays freed. -/
theorem planConsume_inv (g : GraphObj) (done : List Nat) (budget : Nat) :
    ∀ (l : List Nat) (st st1 : PlanState) (outs : List Nat) (leaks : List (Nat × Nat)),
      PlanInv g done budget st outs leaks → planConsume g l st = some st1 →
      (∃ outs1 leaks1, PlanInv g done budget st1 outs1 leaks1) ∧
        st1.offsetMap = st.offsetMap ∧ (∀ t ∈ l, ¬ isFreed g st t) ∧
        (∀ t, isFreed g st t → isFreed g st1 t) := by
  intro l
  induction l with
  | nil =>
    intro st st1 outs leaks h hrun
    simp only [planConsume, Option.some.injEq] at hrun
    subst hrun
    exact ⟨⟨outs, leaks, h⟩, rfl, fun t ht => (by cases ht), fun t ht => ht⟩
  | cons tp rest ih =>
    intro st st1 outs leaks h hrun
    simp only [planConsume] at hrun
    by_cases hpin : isPinned g tp = true
    · rw [if_pos hpin] at hrun
      obtain ⟨h1, h2, h3, h4⟩ := ih st st1 outs leaks h hrun
      refine ⟨h1, h2, ?_, h4⟩
      intro t ht
      rcases List.mem_cons.1 ht with e | e
      · rw [e]
        intro hf
        rw [hf.1] at hpin
        cases hpin
      · exact h3 t e
    · rw [if_neg hpin] at hrun
      have hpin' : isPinned g tp = false := by simpa using hpin
      cases hrem : st.remainingUses tp with
      | none => rw [hrem] at hrun; cases hrun
      | some c0 =>
        rw [hrem] at hrun
        cases c0 with
        | zero => cases hrun
        | succ c =>
          simp only at hrun
          have htp_not : ¬ isFreed g st tp := by
            intro hf
            rw [hf.2] at hrem
            cases hrem
          by_cases hc : c = 0
          · rw [if_pos hc] at hrun
            cases hom : st.offsetMap tp with
            | none => rw [hom] at hrun; cases hrun
            | some off =>
              rw [hom] at hrun
              simp only at hrun
              cases hfr : st.allocator.free off (g.tensorAt tp).bytes with
              | none => rw [hfr] at hrun; cases hrun
              | some a1 =>
                rw [hfr] at hrun
                simp only at hrun
                subst hc
                have htp_in : tp ∈ outs := (h.outs_iff tp).2 ⟨by rw [hom]; rfl, htp_not⟩
                have hg : st.allocator.getAlignedSize (g.tensorAt tp).bytes
                    = g.allocator.getAlignedSize (g.tensorAt tp).bytes :=
                  getAlignedSize_congr _ _ h.align _
                have hreg : regionOf g st.offsetMap tp
                    = (off, st.allocator.getAlignedSize (g.tensorAt tp).bytes) := by
                  unfold regionOf
                  rw [hom, hg]
                  rfl
                have hRmem : (off, st.allocator.getAlignedSize (g.tensorAt tp).bytes)
                    ∈ outs.map (regionOf g st.offsetMap) ++ leaks := by
                  rw [← hreg]
                  exact List.mem_append_left _ (List.mem_map_of_mem _ htp_in)
                obtain ⟨hi1, hal1, hu1, _⟩ := Allocator.free_inv st.allocator a1 _ off _ h.inv
                  hRmem hfr
                have hperm1 := eraseRegion_perm _ _ hRmem
                have hperm2 : List.Perm (outs.map (regionOf g st.offsetMap) ++ leaks)
                    ((off, st.allocator.getAlignedSize (g.tensorAt tp).bytes) ::
                      ((outs.filter fun y => decide (y ≠ tp)).map (regionOf g st.offsetMap)
                        ++ leaks)) := by
                  have := (nodup_perm_filter_ne outs tp h.nodup htp_in).map
                    (regionOf g st.offsetMap)
                  rw [List.map_cons, hreg] at this
                  exact (List.Perm.append_right leaks this)
                have hperm3 := (hperm1.symm.trans hperm2).cons_inv
                have hfz := isFreed_assign_zero g st a1 tp
                have hstep : PlanInv g done budget
                    ⟨a1, st.offsetMap, st.remainingUses.assign tp 0⟩
                    (outs.filter fun y => decide (y ≠ tp)) leaks := by
                  refine ⟨AllocInv.perm hperm3 hi1, hal1.trans h.align, ?_,
                    List.Nodup.filter _ h.nodup, ?_, ?_, h.produced, ?_⟩
                  · have := h.fit
                    show a1.used + budget < sizeModulus
                    omega
                  · intro x
                    rw [hfz x hpin', List.mem_filter, h.outs_iff x]
                    simp only [ne_eq, decide_not, Bool.not_eq_true', decide_eq_false_iff_not]
                    tauto
                  · intro t1 t2 hne h1 h2
                    rcases h.sep t1 t2 hne h1 h2 with hd | hf | hf
                    · exact Or.inl hd
                    · exact Or.inr (Or.inl ⟨(hfz t1 hpin').2 (Or.inl hf.1), hf.2⟩)
                    · exact Or.inr (Or.inr ⟨(hfz t2 hpin').2 (Or.inl hf.1), hf.2⟩)
                  · intro x hx
                    rcases (hfz x hpin').1 hx with e | e
                    · exact h.freed_has x e
                    · show (st.offsetMap x).isSome
                      rw [e, hom]
                      rfl
                obtain ⟨h1, h2, h3, h4⟩ := ih _ st1 _ _ hstep hrun
                refine ⟨h1, h2, ?_, ?_⟩
                · intro t ht
                  rcases List.mem_cons.1 ht with e | e
                  · rw [e]; exact htp_not
                  · intro hf
                    exact h3 t e ((hfz t hpin').2 (Or.inl hf))
                · intro t ht
                  exact h4 t ((hfz t hpin').2 (Or.inl ht))
          · rw [if_neg hc] at hrun
            have hfp := isFreed_assign_pos g st st.allocator tp c
            have hstep : PlanInv g done budget
                ⟨st.allocator, st.offsetMap, st.remainingUses.assign tp c⟩ outs leaks := by
              refine ⟨h.inv, h.align, h.fit, h.nodup, ?_, ?_, h.produced, ?_⟩
              · intro x
                rw [hfp x hc hrem]
                exact h.outs_iff x
              · intro t1 t2 hne h1 h2
                rcases h.sep t1 t2 hne h1 h2 with hd | hf | hf
                · exact Or.inl hd
                · exact Or.inr (Or.inl ⟨(hfp t1 hc hrem).2 hf.1, hf.2⟩)
                · exact Or.inr (Or.inr ⟨(hfp t2 hc hrem).2 hf.1, hf.2⟩)
              · intro x hx
                exact h.freed_has x ((hfp x hc hrem).1 hx)
            obtain ⟨h1, h2, h3, h4⟩ := ih _ st1 _ _ hstep hrun
            refine ⟨h1, h2, ?_, ?_⟩
            · intro t ht
              rcases List.mem_cons.1 ht with e | e
              · rw [e]; exact htp_not
              · intro hf
                exact h3 t e ((hfp t hc hrem).2 hf)
            · intro t ht
              exact h4 t ((hfp t hc hrem).2 ht)

/-- The loop over the outputs of an operator keeps the invariant and gives an
offset to each output. -/
theorem planOutputs_inv (g : GraphObj) (done : List Nat) :
    ∀ (l : List Nat) (budget : Nat) (st st1 : PlanState) (outs : List Nat)
      (leaks : List (Nat × Nat)),
      PlanInv g done (outputsBytes g l + budget) st outs leaks →
      (∀ t ∈ g.tensors, (g.tensorAt t).source = none → (st.offsetMap t).isSome) →
      planOutputs g l st = some st1 →
      (∃ outs1 leaks1, PlanInv g done budget st1 outs1 leaks1) ∧
        st1.remainingUses = st.remainingUses ∧
        (∀ t, (st.offsetMap t).isSome → (st1.offsetMap t).isSome) ∧
        (∀ t ∈ l, (st1.offsetMap t).isSome) := by
  intro l
  induction l with
  | nil =>
    intro budget st st1 outs leaks h _ hrun
    simp only [planOutputs, Option.some.injEq] at hrun
    subst hrun
    exact ⟨⟨outs, leaks, h.weaken budget (by omega)⟩, rfl, fun t ht => ht,
      fun t ht => (by cases ht)⟩
  | cons out rest ih =>
    intro budget st st1 outs leaks h hsrc hrun
    simp only [planOutputs] at hrun
    have hsplit : outputsBytes g (out :: rest)
        = g.allocator.getAlignedSize (g.tensorAt out).bytes + outputsBytes g rest := by
      simp [outputsBytes]
    by_cases hnone : (st.offsetMap out).isNone = true
    · rw [if_pos hnone] at hrun
      cases hal : st.allocator.alloc (g.tensorAt out).bytes with
      | none => rw [hal] at hrun; cases hrun
      | some r =>
        obtain ⟨off, a1⟩ := r
        rw [hal] at hrun
        simp only at hrun
        obtain ⟨outs1, leaks1, h1⟩ := h.alloc_step out off a1 (outputsBytes g rest + budget)
          (by rw [hsplit]; omega) hal (fun _ => by
            refine ⟨?_, ?_⟩
            · intro op hop hin
              have := h.produced op hop out hin
              rw [Option.isNone_iff_eq_none.1 hnone] at this
              cases this
            · intro _
              by_cases hs : (g.tensorAt out).source.isSome = true
              · exact Or.inl hs
              · right
                intro hmem
                have hs' : (g.tensorAt out).source = none := by
                  cases hso : (g.tensorAt out).source with
                  | none => rfl
                  | some p => rw [hso] at hs; exact absurd rfl hs
                have := hsrc out hmem hs'
                rw [Option.isNone_iff_eq_none.1 hnone] at this
                cases this)
        obtain ⟨h2, h3, h4, h5⟩ := ih budget _ st1 outs1 leaks1 h1
          (fun t ht hs => by
            show ((st.offsetMap.emplace out off) t).isSome
            rw [emplace_isSome, hsrc t ht hs]
            rfl) hrun
        refine ⟨h2, h3, ?_, ?_⟩
        · intro t ht
          apply h4
          show ((st.offsetMap.emplace out off) t).isSome
          rw [emplace_isSome, ht]
          rfl
        · intro t ht
          rcases List.mem_cons.1 ht with e | e
          · apply h4
            show ((st.offsetMap.emplace out off) t).isSome
            rw [emplace_isSome, e]
            simp
          · exact h5 t e
    · rw [if_neg hnone] at hrun
      obtain ⟨h2, h3, h4, h5⟩ := ih budget st st1 outs leaks
        (h.weaken _ (by rw [hsplit]; omega)) hsrc hrun
      refine ⟨h2, h3, h4, ?_⟩
      intro t ht
      rcases List.mem_cons.1 ht with e | e
      · apply h4
        rw [e]
        cases ho : st.offsetMap out with
        | none => rw [ho] at hnone; exact absurd rfl hnone
        | some w => rfl
      · exact h5 t e

/-- The loop that allocates the graph inputs keeps the invariant, as long as
no tensor has been freed. -/
theorem planInputs_inv (g : GraphObj) :
    ∀ (l : List Nat) (budget : Nat) (st st1 : PlanState) (outs : List Nat)
      (leaks : List (Nat × Nat)),
      PlanInv g [] (inputsBytes g l + budget) st outs leaks →
      (∀ t, ¬ isFreed g st t) →
      planInputs g l st = some st1 →
      (∃ outs1 leaks1, PlanInv g [] budget st1 outs1 leaks1) ∧
        st1.remainingUses = st.remainingUses ∧
        (∀ t, (st.offsetMap t).isSome → (st1.offsetMap t).isSome) ∧
        (∀ t ∈ l, (g.tensorAt t).source = none → (st1.offsetMap t).isSome) := by
  intro l
  induction l with
  | nil =>
    intro budget st st1 outs leaks h _ hrun
    simp only [planInputs, Option.some.injEq] at hrun
    subst hrun
    exact ⟨⟨outs, leaks, h.weaken budget (by omega)⟩, rfl, fun t ht => ht,
      fun t ht => (by cases ht)⟩
  | cons t rest ih =>
    intro budget st st1 outs leaks h hnf hrun
    simp only [planInputs] at hrun
    by_cases hsrc : (g.tensorAt t).source.isNone = true
    · rw [if_pos hsrc] at hrun
      have hsplit : inputsBytes g (t :: rest)
          = g.allocator.getAlignedSize (g.tensorAt t).bytes + inputsBytes g rest := by
        simp [inputsBytes, outputsBytes, List.filter_cons, hsrc]
      cases hal : st.allocator.alloc (g.tensorAt t).bytes with
      | none => rw [hal] at hrun; cases hrun
      | some r =>
        obtain ⟨off, a1⟩ := r
        rw [hal] at hrun
        simp only at hrun
        obtain ⟨outs1, leaks1, h1⟩ := h.alloc_step t off a1 (inputsBytes g rest + budget)
          (by rw [hsplit]; omega) hal (fun _ =>
            ⟨fun op hop => (by cases hop), fun hex => absurd hex.choose_spec (hnf _)⟩)
        obtain ⟨h2, h3, h4, h5⟩ := ih budget _ st1 outs1 leaks1 h1 hnf hrun
        refine ⟨h2, h3, ?_, ?_⟩
        · intro x hx
          apply h4
          show ((st.offsetMap.emplace t off) x).isSome
          rw [emplace_isSome, hx]
          rfl
        · intro x hx hs
          rcases List.mem_cons.1 hx with e | e
          · apply h4
            show ((st.offsetMap.emplace t off) x).isSome
            rw [emplace_isSome, e]
            simp
          · exact h5 x e hs
    · rw [if_neg hsrc] at hrun
      have hsplit : inputsBytes g (t :: rest) = inputsBytes g rest := by
        simp [inputsBytes, List.filter_cons, hsrc]
      obtain ⟨h2, h3, h4, h5⟩ := ih budget st st1 outs leaks
        (h.weaken _ (by rw [hsplit])) hnf hrun
      refine ⟨h2, h3, h4, ?_⟩
      intro x hx hs
      rcases List.mem_cons.1 hx with e | e
      · rw [e] at hs
        rw [hs] at hsrc
        exact absurd rfl hsrc
      · exact h5 x e hs

/-- The loop over the operators keeps the invariant. -/
theorem planOps_inv (g : GraphObj) :
    ∀ (l done : List Nat) (budget : Nat) (st st1 : PlanState) (outs : List Nat)
      (leaks : List (Nat × Nat)),
      PlanInv g done (opsBytes g l + budget) st outs leaks →
      (∀ t ∈ g.tensors, (g.tensorAt t).source = none → (st.offsetMap t).isSome) →
      planOps g l st = some st1 →
      (∃ outs1 leaks1, PlanInv g (done ++ l) budget st1 outs1 leaks1) ∧
        (∀ t, (st.offsetMap t).isSome → (st1.offsetMap t).isSome) := by
  intro l
  induction l with
  | nil =>
    intro done budget st st1 outs leaks h _ hrun
    simp only [planOps, Option.some.injEq] at hrun
    subst hrun
    rw [List.append_nil]
    exact ⟨⟨outs, leaks, h.weaken budget (by omega)⟩, fun t ht => ht⟩
  | cons op rest ih =>
    intro done budget st st1 outs leaks h hsrc hrun
    simp only [planOps] at hrun
    have hsplit : opsBytes g (op :: rest)
        = outputsBytes g (g.opAt op).outputs + opsBytes g rest := by
      simp [opsBytes]
    cases ho : planOutputs g (g.opAt op).outputs st with
    | none => rw [ho] at hrun; cases hrun
    | some sa =>
      rw [ho] at hrun
      simp only at hrun
      cases hc : planConsume g (g.opAt op).inputs sa with
      | none => rw [hc] at hrun; cases hrun
      | some sb =>
        rw [hc] at hrun
        simp only at hrun
        obtain ⟨⟨outsA, leaksA, hA⟩, _, hmonoA, hprodA⟩ :=
          planOutputs_inv g done (g.opAt op).outputs (opsBytes g rest + budget) st sa outs leaks
            (by rw [hsplit, Nat.add_assoc] at h; exact h) hsrc ho
        obtain ⟨⟨outsB, leaksB, hB⟩, homB, hnfB, hmonoB⟩ :=
          planConsume_inv g done _ (g.opAt op).inputs sa sb outsA leaksA hA hc
        have hB' : PlanInv g (done ++ [op]) (opsBytes g rest + budget) sb outsB leaksB := by
          refine ⟨hB.inv, hB.align, hB.fit, hB.nodup, hB.outs_iff, ?_, ?_, hB.freed_has⟩
          · intro t1 t2 hne h1 h2
            rw [homB] at h1 h2 ⊢
            have lift : ∀ x y, FreedBefore g done sa x y →
                FreedBefore g (done ++ [op]) sb x y := by
              rintro x y ⟨hf, hs, d1, d2, hd, hd1, hd2⟩
              refine ⟨hmonoB x hf, hs, d1, d2 ++ [op], by rw [hd, List.append_assoc], hd1, ?_⟩
              intro o ho'
              rcases List.mem_append.1 ho' with e | e
              · exact hd2 o e
              · rw [List.mem_singleton.1 e]
                intro hin
                exact hnfB x hin hf
            rcases hA.sep t1 t2 hne h1 h2 with hd | hf | hf
            · exact Or.inl hd
            · exact Or.inr (Or.inl (lift _ _ hf))
            · exact Or.inr (Or.inr (lift _ _ hf))
          · intro o ho' out hout
            rw [homB]
            rcases List.mem_append.1 ho' with e | e
            · exact hA.produced o e out hout
            · rw [List.mem_singleton.1 e] at hout
              exact hprodA out hout
        obtain ⟨h2, h3⟩ := ih (done ++ [op]) budget sb st1 outsB leaksB hB'
          (fun t ht hs => by rw [homB]; exact hmonoA t (hsrc t ht hs)) hrun
        rw [List.append_assoc] at h2
        refine ⟨h2, ?_⟩
        intro t ht
        apply h3
        rw [homB]
        exact hmonoA t ht

theorem topoPass_members (g : GraphObj) :
    ∀ (l : List Nat) (sorted flags : List Nat) (m : Bool), (∀ x ∈ l, x ∈ g.ops) →
      (∀ x, x ∈ flags ↔ x ∈ sorted) → sorted.Nodup → (∀ x ∈ sorted, x ∈ g.ops) →
      (∀ x, x ∈ (topoPass g l (sorted, flags, m)).2.1 ↔ x ∈ (topoPass g l (sorted, flags, m)).1) ∧
      (topoPass g l (sorted, flags, m)).1.Nodup ∧
      (∀ x ∈ (topoPass g l (sorted, flags, m)).1, x ∈ g.ops) := by
  intro l
  induction l with
  | nil => intro sorted flags m _ h1 h2 h3; exact ⟨h1, h2, h3⟩
  | cons op rest ih =>
    intro sorted flags m hl h1 h2 h3
    simp only [topoPass]
    have hrest : ∀ x ∈ rest, x ∈ g.ops := fun x hx => hl x (List.mem_cons_of_mem _ hx)
    split_ifs with hr
    · obtain ⟨hnot, _⟩ := topoReady_sources g flags op hr
      apply ih _ _ _ hrest
      · intro x
        simp only [List.mem_cons, List.mem_append, List.mem_singleton, h1]
        tauto
      · rw [List.nodup_append]
        refine ⟨h2, List.nodup_singleton _, ?_⟩
        intro x hx hx'
        rw [List.mem_singleton.1 hx'] at hx
        exact hnot ((h1 op).2 hx)
      · intro x hx
        rcases List.mem_append.1 hx with e | e
        · exact h3 x e
        · rw [List.mem_singleton.1 e]
          exact hl op (List.mem_cons_self _ _)
    · exact ih sorted flags m hrest h1 h2 h3

theorem topoLoop_perm (g : GraphObj) :
    ∀ (fuel : Nat) (sorted flags res : List Nat), (∀ x, x ∈ flags ↔ x ∈ sorted) →
      sorted.Nodup → (∀ x ∈ sorted, x ∈ g.ops) →
      topoLoop g fuel sorted flags = some (some res) → List.Perm res g.ops := by
  intro fuel
  have hexit : ∀ sorted : List Nat, sorted.Nodup → (∀ x ∈ sorted, x ∈ g.ops) →
      ¬ sorted.length < g.ops.length → List.Perm sorted g.ops := by
    intro sorted h2 h3 hlen
    exact (List.subperm_of_subset h2 h3).perm_of_length_le (by omega)
  induction fuel with
  | zero =>
    intro sorted flags res h1 h2 h3 hl
    unfold topoLoop at hl
    split_ifs at hl with hlt
    simp only [Option.some.injEq] at hl
    rw [← hl]
    exact hexit sorted h2 h3 hlt
  | succ fuel ih =>
    intro sorted flags res h1 h2 h3 hl
    unfold topoLoop at hl
    split_ifs at hl with hlt
    · simp only at hl
      have hp := topoPass_members g g.ops sorted flags false (fun x hx => hx) h1 h2 h3
      rcases hpass : topoPass g g.ops (sorted, flags, false) with ⟨s1, f1, m1⟩
      rw [hpass] at hl hp
      cases m1 with
      | false => simp at hl
      | true => exact ih s1 f1 res hp.1 hp.2.1 hp.2.2 hl
    · simp only [Option.some.injEq] at hl
      rw [← hl]
      exact hexit sorted h2 h3 hlt

/-- What `topo_sort` changes when it returns true: the order of the operator
list, which stays a permutation of the list before, and the flag. -/
theorem GraphObj.topo_sort_true_shape (g g1 : GraphObj) (h : g.topo_sort = some (true, g1)) :
    List.Perm g1.ops g.ops ∧ g1.tensors = g.tensors ∧ g1.tensorAt = g.tensorAt ∧
      g1.opAt = g.opAt ∧ g1.allocator = g.allocator := by
  unfold GraphObj.topo_sort at h
  split_ifs at h with hs
  · simp only [Option.some.injEq, Prod.mk.injEq, true_and] at h
    rw [← h]
    exact ⟨List.Perm.refl _, rfl, rfl, rfl, rfl⟩
  · cases hl : topoLoop g (g.ops.length + 1) [] [] with
    | none => rw [hl] at h; cases h
    | some r =>
      rw [hl] at h
      cases r with
      | none => simp at h
      | some l =>
        simp only [Option.some.injEq, Prod.mk.injEq, true_and] at h
        rw [← h]
        exact ⟨topoLoop_perm g _ [] [] l (fun _ => Iff.rfl) List.nodup_nil
          (fun x hx => by cases hx) hl, rfl, rfl, rfl, rfl⟩

theorem initialUses_zero (g : GraphObj) :
    ∀ (l : List Nat) (m : RefMap) (t : Nat), initialUses g l m t = some 0 →
      m t = some 0 ∨ (t ∈ l ∧ (g.tensorAt t).targets.length = 0) := by
  intro l
  induction l with
  | nil => intro m t h; exact Or.inl h
  | cons x xs ih =>
    intro m t h
    simp only [initialUses] at h
    rcases ih _ t h with h1 | h1
    · unfold RefMap.emplace at h1
      by_cases hx : t = x
      · subst hx
        simp only [↓reduceIte] at h1
        cases hm : m t with
        | none =>
          rw [hm] at h1
          simp only [Option.some.injEq] at h1
          exact Or.inr ⟨List.mem_cons_self _ _, h1⟩
        | some w =>
          rw [hm] at h1
          exact Or.inl h1
      · simp only [hx, ↓reduceIte] at h1
        exact Or.inl h1
    · exact Or.inr ⟨List.mem_cons_of_mem _ h1.1, h1.2⟩

theorem not_isFreed_initial (g : GraphObj) (a : Allocator) (om : RefMap) (t : Nat) :
    ¬ isFreed g ⟨a, om, initialUses g g.tensors fun _ => none⟩ t := by
  rintro ⟨hpin, hz⟩
  rcases initialUses_zero g g.tensors _ t hz with h1 | ⟨hmem, hlen⟩
  · cases h1
  · unfold isPinned at hpin
    have h2 : g.tensors.contains t = true := by simpa using hmem
    have h3 : (g.tensorAt t).targets.isEmpty = true := by
      rw [List.isEmpty_iff]
      exact List.length_eq_zero.1 hlen
    rw [h2, h3] at hpin
    simp at hpin

/-- Pass 1 from a fresh allocator ends in a state that satisfies the invariant
for the whole operator list. -/
theorem planMemory_inv (g : GraphObj) (st : PlanState) (hfresh : g.allocator = Allocator.init)
    (hfit : planBytes g < sizeModulus) (hrun : planMemory g = some st) :
    (∃ outs leaks, PlanInv g g.ops 0 st outs leaks) ∧
      (∀ t ∈ g.tensors, (g.tensorAt t).source = none → (st.offsetMap t).isSome) := by
  unfold planMemory at hrun
  cases hin : planInputs g g.tensors
      ⟨g.allocator, fun _ => none, initialUses g g.tensors fun _ => none⟩ with
  | none => rw [hin] at hrun; cases hrun
  | some sa =>
    rw [hin] at hrun
    simp only at hrun
    have h0 : PlanInv g [] (inputsBytes g g.tensors + opsBytes g g.ops)
        ⟨g.allocator, fun _ => none, initialUses g g.tensors fun _ => none⟩ [] [] := by
      refine ⟨?_, rfl, ?_, List.nodup_nil, ?_, ?_, ?_, ?_⟩
      · show AllocInv g.allocator ([] ++ [])
        rw [hfresh]
        exact AllocInv.at_init
      · show g.allocator.used + _ < sizeModulus
        rw [hfresh]
        unfold planBytes at hfit
        show 0 + _ < sizeModulus
        omega
      · intro t
        simp
      · intro t1 t2 _ h1
        cases h1
      · intro op hop
        cases hop
      · intro t ht
        exact absurd ht (not_isFreed_initial g _ _ t)
    obtain ⟨⟨outsA, leaksA, hA⟩, hremA, _, hsrcA⟩ :=
      planInputs_inv g g.tensors (opsBytes g g.ops) _ sa [] [] h0
        (not_isFreed_initial g _ _) hin
    obtain ⟨⟨outsB, leaksB, hB⟩, hmonoB⟩ :=
      planOps_inv g g.ops [] 0 sa st outsA leaksA (by rw [Nat.add_zero]; exact hA) hsrcA hrun
    rw [List.nil_append] at hB
    exact ⟨⟨outsB, leaksB, hB⟩, fun t ht hs => hmonoB t (hsrcA t ht hs)⟩

theorem bindBlobs_fields (om : RefMap) (base : Nat) :
    ∀ (l : List Nat) (ts : Nat → TensorObj) (t : Nat),
      (bindBlobs om base l ts t).source = (ts t).source ∧
      (bindBlobs om base l ts t).targets = (ts t).targets ∧
      (bindBlobs om base l ts t).bytes = (ts t).bytes := by
  intro l
  induction l with
  | nil => intro ts t; exact ⟨rfl, rfl, rfl⟩
  | cons x xs ih =>
    intro ts t
    simp only [bindBlobs]
    cases hx : om x with
    | none => exact ih ts t
    | some off =>
      simp only
      have := ih (fun y => if y = x then { ts x with data := some (base + off) } else ts y) t
      by_cases hy : t = x
      · subst hy
        simpa using this
      · simpa [hy] using this

theorem bindBlobs_data (om : RefMap) (base : Nat) :
    ∀ (l : List Nat) (ts : Nat → TensorObj) (t off : Nat), om t = some off →
      (t ∈ l ∨ (ts t).data = some (base + off)) →
      (bindBlobs om base l ts t).data = some (base + off) := by
  intro l
  induction l with
  | nil =>
    intro ts t off _ h
    rcases h with h | h
    · cases h
    · exact h
  | cons x xs ih =>
    intro ts t off hom h
    simp only [bindBlobs]
    by_cases hy : t = x
    · subst hy
      rw [hom]
      simp only
      apply ih _ t off hom
      right
      simp
    · have h' : t ∈ xs ∨ (ts t).data = some (base + off) := by
        rcases h with h | h
        · rcases List.mem_cons.1 h with e | e
          · exact absurd e hy
          · exact Or.inl e
        · exact Or.inr h
      cases hx : om x with
      | none => exact ih ts t off hom h'
      | some offx =>
        simp only
        apply ih _ t off hom
        rcases h' with e | e
        · exact Or.inl e
        · right
          simp [hy, e]

theorem liveEnd_le_of_split (g : GraphObj) (t : Nat) (d1 d2 : List Nat)
    (hsrc : (g.tensorAt t).source.isSome = true) (htg : (g.tensorAt t).targets.isEmpty = false)
    (hops : g.ops = d1 ++ d2) (hd2 : ∀ op ∈ d2, t ∉ (g.opAt op).inputs) :
    liveEnd g t ≤ d1.length := by
  unfold liveEnd
  have hs : (g.tensorAt t).source.isNone = false := by
    cases h : (g.tensorAt t).source with
    | none => rw [h] at hsrc; cases hsrc
    | some p => rfl
  rw [hs, htg]
  simp only [Bool.or_self, Bool.false_eq_true, ↓reduceIte]
  cases hl : (consumerIndices g t).getLast? with
  | none => exact Nat.zero_le _
  | some i =>
    simp only
    have hmem : i ∈ consumerIndices g t := List.mem_of_mem_getLast? hl
    unfold consumerIndices at hmem
    rw [List.mem_filter, List.mem_range] at hmem
    obtain ⟨hi, hin⟩ := hmem
    by_contra hcon
    have hge : d1.length ≤ i := by omega
    rw [hops, List.length_append] at hi
    have hget : g.ops.getD i 0 ∈ d2 := by
      rw [hops, List.getD_append_right _ _ _ _ hge,
        List.getD_eq_getElem _ _ (by omega : i - d1.length < d2.length)]
      exact List.getElem_mem _
    have := hd2 _ hget
    simp only [List.contains_eq_any_beq, List.any_eq_true, beq_iff_eq] at hin
    obtain ⟨x, hx, hxe⟩ := hin
    rw [← hxe] at hx
    exact this hx

theorem liveStart_gt_of_split (g : GraphObj) (t p : Nat) (d1 d2 : List Nat)
    (hsrc : (g.tensorAt t).source = some p) (hops : g.ops = d1 ++ d2) (hp : p ∉ d1) :
    d1.length < liveStart g t := by
  unfold liveStart
  rw [hsrc]
  simp only
  rw [hops, List.indexOf_append_of_not_mem hp]
  omega

theorem opsBytes_perm (g : GraphObj) {l1 l2 : List Nat} (h : List.Perm l1 l2) :
    opsBytes g l1 = opsBytes g l2 :=
  (h.map _).sum_eq

/-- Claim C1 (amended): let `dataMalloc` succeed on a graph with a fresh
allocator in which the source of every tensor is an operator of the graph that
lists the tensor among its outputs, and whose planned bytes (aligned sizes of
the graph inputs and of all operator outputs) sum to less than `2 ^ 64`.  Then
every two different tensors of the graph whose live ranges overlap are bound
to addresses `base + off1`, `base + off2` whose ranges
`[off, off + aligned size)` are disjoint. -/
theorem dataMalloc_live_ranges_disjoint (g g1 : GraphObj) (base : Nat)
    (hfresh : g.allocator = Allocator.init)
    (hvalid : ∀ t ∈ g.tensors, ∀ p, (g.tensorAt t).source = some p →
      p ∈ g.ops ∧ t ∈ (g.opAt p).outputs)
    (hfit : planBytes g < sizeModulus)
    (hrun : g.dataMalloc base = some g1) :
    ∀ t1 ∈ g1.tensors, ∀ t2 ∈ g1.tensors, t1 ≠ t2 →
      liveStart g1 t1 ≤ liveEnd g1 t2 → liveStart g1 t2 ≤ liveEnd g1 t1 →
      ∃ off1 off2, (g1.tensorAt t1).data = some (base + off1) ∧
        (g1.tensorAt t2).data = some (base + off2) ∧
        regionsDisjoint (off1, Allocator.init.getAlignedSize (g1.tensorAt t1).bytes)
          (off2, Allocator.init.getAlignedSize (g1.tensorAt t2).bytes) := by
  unfold GraphObj.dataMalloc at hrun
  cases hts : g.topo_sort with
  | none => rw [hts] at hrun; cases hrun
  | some r =>
    obtain ⟨b, G⟩ := r
    rw [hts] at hrun
    cases b with
    | false => cases hrun
    | true =>
      simp only at hrun
      cases hpm : planMemory G with
      | none => rw [hpm] at hrun; cases hrun
      | some st =>
        rw [hpm] at hrun
        simp only [Option.some.injEq] at hrun
        obtain ⟨hperm, hten, htat, hoat, hall⟩ := GraphObj.topo_sort_true_shape g G hts
        have hGfresh : G.allocator = Allocator.init := hall.trans hfresh
        have hGfit : planBytes G < sizeModulus := by
          have : planBytes G = planBytes g := by
            unfold planBytes inputsBytes outputsBytes
            rw [opsBytes_perm G hperm]
            unfold opsBytes outputsBytes
            rw [hten, htat, hoat, hall]
          rw [this]
          exact hfit
        obtain ⟨⟨outs, leaks, hinv⟩, hsrcs⟩ := planMemory_inv G st hGfresh hGfit hpm
        -- every tensor of the graph has an offset
        have hhas : ∀ t ∈ G.tensors, (st.offsetMap t).isSome := by
          intro t ht
          cases hs : (G.tensorAt t).source with
          | none => exact hsrcs t ht hs
          | some p =>
            have := hvalid t (hten ▸ ht) p (by rw [← htat]; exact hs)
            exact hinv.produced p (hperm.mem_iff.2 this.1) t (by rw [hoat]; exact this.2)
        subst hrun
        intro t1 ht1 t2 ht2 hne hov1 hov2
        have ht1' : t1 ∈ G.tensors := ht1
        have ht2' : t2 ∈ G.tensors := ht2
        obtain ⟨off1, ho1⟩ := Option.isSome_iff_exists.1 (hhas t1 ht1')
        obtain ⟨off2, ho2⟩ := Option.isSome_iff_exists.1 (hhas t2 ht2')
        have hf1 := bindBlobs_fields st.offsetMap base G.tensors G.tensorAt t1
        have hf2 := bindBlobs_fields st.offsetMap base G.tensors G.tensorAt t2
        refine ⟨off1, off2,
          bindBlobs_data st.offsetMap base G.tensors G.tensorAt t1 off1 ho1 (Or.inl ht1'),
          bindBlobs_data st.offsetMap base G.tensors G.tensorAt t2 off2 ho2 (Or.inl ht2'), ?_⟩
        show regionsDisjoint
          (off1, Allocator.init.getAlignedSize
            (bindBlobs st.offsetMap base G.tensors G.tensorAt t1).bytes)
          (off2, Allocator.init.getAlignedSize
            (bindBlobs st.offsetMap base G.tensors G.tensorAt t2).bytes)
        rw [hf1.2.2, hf2.2.2]
        have hr1 : regionOf G st.offsetMap t1
            = (off1, Allocator.init.getAlignedSize (G.tensorAt t1).bytes) := by
          unfold regionOf
          rw [ho1, hGfresh]
          rfl
        have hr2 : regionOf G st.offsetMap t2
            = (off2, Allocator.init.getAlignedSize (G.tensorAt t2).bytes) := by
          unfold regionOf
          rw [ho2, hGfresh]
          rfl
        -- the live ranges of a pair in which one tensor was freed before the other
        -- was allocated do not overlap
        have hcontra : ∀ x y xo, x ∈ G.tensors → y ∈ G.tensors → FreedBefore G G.ops st x y →
            (liveStart ⟨G.tensors, G.ops, G.sorted, xo,
                bindBlobs st.offsetMap base G.tensors G.tensorAt, G.opAt⟩ y
              ≤ liveEnd ⟨G.tensors, G.ops, G.sorted, xo,
                bindBlobs st.offsetMap base G.tensors G.tensorAt, G.opAt⟩ x) → False := by
          rintro x y xo hx hy ⟨⟨hpin, _⟩, hsy, d1, d2, hd, hd1, hd2⟩ hle
          have hfx := bindBlobs_fields st.offsetMap base G.tensors G.tensorAt x
          have hfy := bindBlobs_fields st.offsetMap base G.tensors G.tensorAt y
          unfold isPinned at hpin
          have hc : G.tensors.contains x = true := by simpa using hx
          rw [hc] at hpin
          simp only [Bool.true_and, Bool.or_eq_false_iff] at hpin
          have hxs : (G.tensorAt x).source.isSome = true := by
            cases h : (G.tensorAt x).source with
            | none => rw [h] at hpin; simp at hpin
            | some p => rfl
          have hys : (G.tensorAt y).source.isSome = true := by
            rcases hsy with h | h
            · exact h
            · exact absurd hy h
          obtain ⟨p, hp⟩ := Option.isSome_iff_exists.1 hys
          have hv := hvalid y (hten ▸ hy) p (by rw [← htat]; exact hp)
          have hpd1 : p ∉ d1 := fun hin => hd1 p hin (by rw [hoat]; exact hv.2)
          have h1 := liveEnd_le_of_split ⟨G.tensors, G.ops, G.sorted, xo,
            bindBlobs st.offsetMap base G.tensors G.tensorAt, G.opAt⟩ x d1 d2
            (by show (bindBlobs st.offsetMap base G.tensors G.tensorAt x).source.isSome = true
                rw [hfx.1]; exact hxs)
            (by show (bindBlobs st.offsetMap base G.tensors G.tensorAt x).targets.isEmpty = false
                rw [hfx.2.1]; exact hpin.2)
            hd hd2
          have h2 := liveStart_gt_of_split ⟨G.tensors, G.ops, G.sorted, xo,
            bindBlobs st.offsetMap base G.tensors G.tensorAt, G.opAt⟩ y p d1 d2
            (by show (bindBlobs st.offsetMap base G.tensors G.tensorAt y).source = some p
                rw [hfy.1]; exact hp)
            hd hpd1
          omega
        rcases hinv.sep t1 t2 hne (hhas t1 ht1') (hhas t2 ht2') with hd | hf | hf
        · rw [hr1, hr2] at hd
          exact hd
        · exact absurd hov2 (fun hle => hcontra t1 t2 _ ht1' ht2' hf hle)
        · exact absurd hov1 (fun hle => hcontra t2 t1 _ ht2' ht1' hf hle)

/-- Witness of `dataMalloc_live_ranges_disjoint`: in the chain of four tensors
the input `t0` and the intermediate `t1` are live together and get disjoint
ranges. -/
theorem dataMalloc_live_ranges_disjoint_witness :
    ∃ off1 off2, (chain4Planned.tensorAt 0).data = some (1000 + off1) ∧
      (chain4Planned.tensorAt 1).data = some (1000 + off2) ∧
      regionsDisjoint (off1, Allocator.init.getAlignedSize (chain4Planned.tensorAt 0).bytes)
        (off2, Allocator.init.getAlignedSize (chain4Planned.tensorAt 1).bytes) :=
  dataMalloc_live_ranges_disjoint chain4 chain4Planned 1000 rfl
    (by
      intro t ht p hp
      simp only [chain4, List.mem_cons, List.mem_singleton, List.not_mem_nil, or_false] at ht
      rcases ht with rfl | rfl | rfl | rfl <;>
        simp [chain4, plainTensor, plainOp] at hp ⊢ <;> subst hp <;> simp)
    (by decide) rfl 0 (by decide) 1 (by decide) (by decide) (by decide) (by decide)

/-- Claim C1 fails as stated when `used` wraps around `2 ^ 64`: the two graph
inputs of `hugeGraph` take `[0, 2 ^ 63)` and `[2 ^ 63, 2 ^ 64)`, `used` is `0`
again, and the output of the operator is placed at offset `0`, inside the
range of the first input, while all three tensors are live to the end. -/
theorem dataMalloc_overlap_on_wraparound :
    (hugeGraph.dataMalloc 0).map (fun g1 =>
        ((g1.tensorAt 0).data, (g1.tensorAt 2).data, (g1.tensorAt 0).bytes,
          (g1.tensorAt 2).bytes, liveStart g1 0, liveEnd g1 0, liveStart g1 2, liveEnd g1 2))
      = some (some 0, some 0, 2 ^ 63, 8, 0, 2, 1, 2) ∧
    ¬ regionsDisjoint (0, Allocator.init.getAlignedSize (2 ^ 63))
        (0, Allocator.init.getAlignedSize 8) := by
  refine ⟨by rfl, ?_⟩
  intro h
  exact h 0 ⟨by unfold inRegion; decide, by unfold inRegion; decide⟩

/-! ### The optimizer on the two rewrite patterns -/

theorem heapFun_heapSet {α : Type} (k : Nat) (v : α) (d : Nat → α) (l : List (Nat × α))
    (x : Nat) : heapFun (heapSet k v l) d x = if x = k then v else heapFun l d x := by
  induction l with
  | nil => rfl
  | cons e r ih =>
    unfold heapSet
    by_cases h : k = e.1
    · rw [if_pos h]
      unfold heapFun
      by_cases hx : x = k
      · rw [if_pos hx, if_pos hx]
      · have : ¬ x = e.1 := fun he => hx (he.trans h.symm)
        rw [if_neg hx, if_neg hx, if_neg this]
    · rw [if_neg h]
      unfold heapFun
      rw [ih]
      by_cases hx : x = k
      · have : ¬ x = e.1 := fun he => h (hx.symm.trans he)
        simp only [if_pos hx, if_neg this]
      · simp only [if_neg hx]

theorem heapFun_nil {α : Type} (d : Nat → α) (k : Nat) : heapFun [] d k = d k := rfl

theorem heapFun_cons {α : Type} (e : Nat × α) (r : List (Nat × α)) (d : Nat → α) (k : Nat) :
    heapFun (e :: r) d k = if k = e.1 then e.2 else heapFun r d k := rfl

theorem GraphObj.setTensor_heap (T O : List Nat) (s : Bool) (a : Allocator)
    (tl : List (Nat × TensorObj)) (dT : Nat → TensorObj) (oA : Nat → OperatorObj) (t : Nat)
    (v : TensorObj) :
    GraphObj.setTensor ⟨T, O, s, a, heapFun tl dT, oA⟩ t v =
      ⟨T, O, s, a, heapFun (heapSet t v tl) dT, oA⟩ := by
  unfold GraphObj.setTensor
  congr
  funext x
  exact (heapFun_heapSet t v dT tl x).symm

theorem GraphObj.setOp_heap (T O : List Nat) (s : Bool) (a : Allocator)
    (tA : Nat → TensorObj) (ol : List (Nat × OperatorObj)) (dO : Nat → OperatorObj) (o : Nat)
    (v : OperatorObj) :
    GraphObj.setOp ⟨T, O, s, a, tA, heapFun ol dO⟩ o v =
      ⟨T, O, s, a, tA, heapFun (heapSet o v ol) dO⟩ := by
  unfold GraphObj.setOp
  congr
  funext x
  exact (heapFun_heapSet o v dO ol x).symm

theorem is_swap_last_two_iff (perm : List Int) (r : Nat) :
    is_swap_last_two perm r = true ↔ SwapsLastTwo perm r := by
  unfold is_swap_last_two SwapsLastTwo
  by_cases h1 : r < 2
  · simp [h1]
  · by_cases h2 : perm.length = r
    · simp only [h1, h2, ↓reduceIte, ne_eq, not_true_eq_false]
      by_cases h3 : ((List.range (r - 2)).any fun i => decide (perm.getD i 0 ≠ (i : Int))) = true
      · simp only [h3, ↓reduceIte, Bool.false_eq_true, false_iff]
        simp only [List.any_eq_true, List.mem_range, decide_eq_true_eq] at h3
        obtain ⟨i, hi, hne⟩ := h3
        intro hcon
        exact hne (hcon.2.2.1 i hi)
      · simp only [h3, Bool.false_eq_true, ↓reduceIte, Bool.and_eq_true, beq_iff_eq]
        simp only [List.any_eq_true, List.mem_range, decide_eq_true_eq, not_exists, not_and,
          not_not] at h3
        constructor
        · intro h
          exact ⟨by omega, trivial, h3, h.1, h.2⟩
        · intro h
          exact ⟨h.2.2.2.1, h.2.2.2.2⟩
    · simp [h1, h2]

theorem InversePerms.swap_of_swap {p q : List Int} {r : Nat} (h : InversePerms p q r)
    (hq : is_swap_last_two q r = true) : is_swap_last_two p r = true := by
  rw [is_swap_last_two_iff] at hq ⊢
  obtain ⟨hr, hql, hfix, hq1, hq2⟩ := hq
  obtain ⟨hpl, _, hinv⟩ := h
  refine ⟨hr, hpl, ?_, ?_, ?_⟩
  · intro i hi
    have := (hinv i (by omega)).2.2.2
    rw [hfix i hi] at this
    simpa using this
  · have := (hinv (r - 1) (by omega)).2.2.2
    rw [hq2] at this
    have e : ((r : Int) - 2).toNat = r - 2 := by omega
    rw [e] at this
    rw [this]
    omega
  · have := (hinv (r - 2) (by omega)).2.2.2
    rw [hq1] at this
    have e : ((r : Int) - 1).toNat = r - 1 := by omega
    rw [e] at this
    rw [this]
    omega

theorem getD_set_self (l : List Int) (k : Nat) (v d : Int) (h : k < l.length) :
    (l.set k v).getD k d = v := by
  rw [List.getD_eq_getElem?_getD, List.getElem?_set_eq h]
  rfl

theorem getD_set_ne (l : List Int) (k j : Nat) (v d : Int) (h : k ≠ j) :
    (l.set k v).getD j d = l.getD j d := by
  rw [List.getD_eq_getElem?_getD, List.getD_eq_getElem?_getD, List.getElem?_set_ne h]

theorem inversePermLoop_spec (p : List Int) (r : Nat)
    (hp : ∀ i : Nat, i < r → 0 ≤ p.getD i 0 ∧ p.getD i 0 < r)
    (hinj : ∀ i j : Nat, i < r → j < r → p.getD i 0 = p.getD j 0 → i = j) :
    ∀ (l : List Nat) (inv : List Int), l.Nodup → (∀ i ∈ l, i < r) → inv.length = r →
      ∃ inv1, inversePermLoop p r l inv = some inv1 ∧ inv1.length = r ∧
        (∀ i ∈ l, inv1.getD (p.getD i 0).toNat 0 = (i : Int)) ∧
        (∀ j : Nat, j < r → (∀ i ∈ l, (p.getD i 0).toNat ≠ j) → inv1.getD j 0 = inv.getD j 0) := by
  intro l
  induction l with
  | nil =>
    intro inv _ _ hlen
    exact ⟨inv, rfl, hlen, fun i hi => (by cases hi), fun j _ _ => rfl⟩
  | cons i rest ih =>
    intro inv hnd hlt hlen
    have hi := hlt i (List.mem_cons_self _ _)
    have hnd' := List.nodup_cons.1 hnd
    simp only [inversePermLoop]
    rw [if_pos (hp i hi)]
    obtain ⟨inv1, h1, h2, h3, h4⟩ := ih (inv.set (p.getD i 0).toNat (i : Int)) hnd'.2
      (fun x hx => hlt x (List.mem_cons_of_mem _ hx)) (by simp [hlen])
    have hpi : (p.getD i 0).toNat < r := by
      have := hp i hi
      omega
    refine ⟨inv1, h1, h2, ?_, ?_⟩
    · intro x hx
      rcases List.mem_cons.1 hx with e | e
      · rw [e]
        rw [h4 _ hpi]
        · exact getD_set_self _ _ _ _ (by rw [hlen]; exact hpi)
        · intro y hy heq
          have hyr := hlt y (List.mem_cons_of_mem _ hy)
          have h5 := hp y hyr
          have h6 := hp i hi
          have : y = i := hinj y i hyr hi (by omega)
          rw [this] at hy
          exact hnd'.1 hy
      · exact h3 x e
    · intro j hj hne
      rw [h4 j hj (fun y hy => hne y (List.mem_cons_of_mem _ hy))]
      have hji : (p.getD i 0).toNat ≠ j := hne i (List.mem_cons_self _ _)
      exact getD_set_ne _ _ _ _ _ hji

theorem InversePerms.is_inverse_perm_true {p q : List Int} {r : Nat} (h : InversePerms p q r) :
    is_inverse_perm p q r = some true := by
  obtain ⟨hpl, hql, hinv⟩ := h
  unfold is_inverse_perm
  rw [if_neg (by simp [hpl, hql])]
  have hp : ∀ i : Nat, i < r → 0 ≤ p.getD i 0 ∧ p.getD i 0 < r :=
    fun i hi => ⟨(hinv i hi).1.1, (hinv i hi).1.2.1⟩
  have hinj : ∀ i j : Nat, i < r → j < r → p.getD i 0 = p.getD j 0 → i = j := by
    intro i j hi hj heq
    have h1 := (hinv i hi).1.2.2
    have h2 := (hinv j hj).1.2.2
    rw [heq, h2] at h1
    omega
  obtain ⟨inv1, h1, h2, h3, _⟩ := inversePermLoop_spec p r hp hinj (List.range r)
    (List.replicate r (-1)) (List.nodup_range r) (fun i hi => List.mem_range.1 hi) (by simp)
  rw [h1]
  simp only [Option.some.injEq, List.all_eq_true, List.mem_range, beq_iff_eq]
  intro j hj
  obtain ⟨hq0, hq1, hq2⟩ := (hinv j hj).2
  have hqj : (q.getD j 0).toNat < r := by omega
  have := h3 (q.getD j 0).toNat (List.mem_range.2 hqj)
  rw [hq2] at this
  simp only [Int.toNat_ofNat] at this
  rw [this]
  omega

theorem inversePerms_cycle : InversePerms [1, 2, 0] [2, 0, 1] 3 := by
  refine ⟨rfl, rfl, ?_⟩
  intro i hi
  interval_cases i <;> decide

theorem tripleTransposeGraph_heap :
    tripleTransposeGraph =
      ⟨[0, 1, 2, 3, 4], [0, 1, 2, 3], false, Allocator.init,
        heapFun [(0, ⟨0, [2, 3, 4], 96, none, [0], none⟩),
          (1, ⟨1, [4, 2, 3], 96, some 0, [1], none⟩),
          (2, ⟨2, [2, 3, 4], 96, some 1, [2], none⟩),
          (3, ⟨3, [4, 2, 3], 96, some 2, [3], none⟩)]
          (fun _ => ⟨4, [4, 2, 3], 96, some 3, [], none⟩),
        heapFun [(0, ⟨OpType.Transpose, [0], [1], [], [1], false, false, [2, 0, 1]⟩),
          (1, ⟨OpType.Transpose, [1], [2], [0], [2], false, false, [1, 2, 0]⟩),
          (2, ⟨OpType.Transpose, [2], [3], [1], [3], false, false, [2, 0, 1]⟩)]
          (fun _ => ⟨OpType.Other, [3], [4], [2], [], false, false, []⟩)⟩ :=
  rfl

/-- Claim C9 fails inside a larger graph: in `tripleTransposeGraph` the chain
`t1 -> Transpose(p) (operator 1) -> t2 -> Transpose(q) (operator 2) -> t3 ->
operator 3` satisfies the conditions of the claim (`q` is the inverse of `p`,
`t2` feeds only operator 2, `t3` has a consumer), but `optimize` removes
operators 0 and 1 instead: operator 2 and tensor 3 remain, operator 3 still
consumes tensor 3, and `X = t1` is no longer a tensor of the graph. -/
theorem inverse_pair_survives_after_inverse_producer :
    InversePerms (tripleTransposeGraph.opAt 1).transposePermute
        (tripleTransposeGraph.opAt 2).transposePermute 3 ∧
      (tripleTransposeGraph.opAt 1).type = OpType.Transpose ∧
      (tripleTransposeGraph.opAt 2).type = OpType.Transpose ∧
      (tripleTransposeGraph.opAt 1).inputs = [1] ∧ (tripleTransposeGraph.opAt 1).outputs = [2] ∧
      (tripleTransposeGraph.opAt 2).inputs = [2] ∧ (tripleTransposeGraph.opAt 2).outputs = [3] ∧
      (tripleTransposeGraph.tensorAt 2).targets = [2] ∧
      (tripleTransposeGraph.tensorAt 3).targets = [3] ∧
      ∃ g1, tripleTransposeGraph.optimize = Outcome.done g1 ∧ g1.ops = [2, 3] ∧
        g1.tensors = [0, 3, 4] ∧ (g1.opAt 3).inputs = [3] ∧
        (g1.opAt 2).type = OpType.Transpose := by
  refine ⟨inversePerms_cycle, rfl, rfl, rfl, rfl, rfl, rfl, rfl, rfl, ?_⟩
  have h1 : is_inverse_perm [2, 0, 1] [1, 2, 0] 3 = some true := by decide
  rw [tripleTransposeGraph_heap]
  simp [GraphObj.optimize, GraphObj.topo_sort, topoLoop, topoPass, topoReady,
    optimizeLoop, fusePass, fuseStep, removePairs, inversePairAt, h1,
    GraphObj.replaceInput, GraphObj.removeTarget, GraphObj.addTarget, GraphObj.setOp_heap,
    GraphObj.setTensor_heap, GraphObj.removePredecessors, GraphObj.removeSuccessors,
    GraphObj.addSuccessors, GraphObj.addPredecessors, GraphObj.detach_op,
    GraphObj.resetSource, GraphObj.cleanup_dangling_tensors, rewireConsumer,
    heapFun_nil, heapFun_cons, heapSet]

/-- Claim C11, with the failure of the broadcast made explicit:
`MatmulObj::inferShape` on the inputs `A`, `B` fails when a rank is below 2 or
the contraction dimensions differ; otherwise its result is that of the
broadcast of the batch axes: a failure when the broadcast fails, and else the
single shape `broadcast ++ [m, n]` with `m`, `n`, `k` recorded. -/
theorem matmul_inferShape_batch_broadcast (A B : Shape) (transA transB : Bool) :
    let m := if transA then A.getD (A.length - 1) 0 else A.getD (A.length - 2) 0
    let kA := if transA then A.getD (A.length - 2) 0 else A.getD (A.length - 1) 0
    let kB := if transB then B.getD (B.length - 1) 0 else B.getD (B.length - 2) 0
    let n := if transB then B.getD (B.length - 2) 0 else B.getD (B.length - 1) 0
    (A.length < 2 ∨ B.length < 2 ∨ kA ≠ kB →
      MatmulObj.inferShape transA transB [A, B] = none) ∧
    (2 ≤ A.length ∧ 2 ≤ B.length ∧ kA = kB →
      MatmulObj.inferShape transA transB [A, B] =
        (infer_broadcast (A.take (A.length - 2)) (B.take (B.length - 2))).map
          fun out => ([out ++ [m, n]], ⟨m, n, kA⟩)) := by
  intro m kA kB n
  constructor
  · intro h
    unfold MatmulObj.inferShape
    simp only [List.length_cons, List.length_nil, Nat.reduceAdd, ↓reduceIte, List.getD_cons_zero,
      List.getD_cons_succ]
    by_cases hr : 2 ≤ A.length ∧ 2 ≤ B.length
    · rw [if_pos hr]
      have hk : kA ≠ kB := by
        rcases h with h | h | h
        · omega
        · omega
        · exact h
      rw [if_neg hk]
    · rw [if_neg hr]
  · rintro ⟨hA, hB, hk⟩
    unfold MatmulObj.inferShape
    simp only [List.length_cons, List.length_nil, Nat.reduceAdd, ↓reduceIte, List.getD_cons_zero,
      List.getD_cons_succ]
    rw [if_pos ⟨hA, hB⟩, if_pos hk]
    have e1 : (if 2 < A.length then A.take (A.length - 2) else []) = A.take (A.length - 2) := by
      split_ifs with h
      · rfl
      · have : A.length - 2 = 0 := by omega
        rw [this, List.take_zero]
    have e2 : (if 2 < B.length then B.take (B.length - 2) else []) = B.take (B.length - 2) := by
      split_ifs with h
      · rfl
      · have : B.length - 2 = 0 := by omega
        rw [this, List.take_zero]
    simp only [e1, e2]
    cases infer_broadcast (A.take (A.length - 2)) (B.take (B.length - 2)) with
    | none => rfl
    | some out => simp [m, n, kA]

/-- Claim C11 fails when the batch axes cannot be broadcast: on `[2, 3, 4]` and
`[3, 4, 5]` both ranks are 3 and the contraction dimensions are both 4, but
the inference fails instead of returning a shape. -/
theorem matmul_inferShape_fails_on_batch_mismatch :
    2 ≤ ([2, 3, 4] : Shape).length ∧ 2 ≤ ([3, 4, 5] : Shape).length ∧
      ([2, 3, 4] : Shape).getD 2 0 = ([3, 4, 5] : Shape).getD 1 0 ∧
      MatmulObj.inferShape false false [[2, 3, 4], [3, 4, 5]] = none := by
  decide

theorem transposeLoop_some (perm : List Int) (S : Shape) (r : Nat) :
    ∀ (l : List Nat) (seen : List Int) (out : Shape) (res : List Int × Shape),
      seen.length = r → l.Nodup →
      transposeLoop perm S r l (seen, out) = some res →
        (∀ i ∈ l, 0 ≤ perm.getD i 0 ∧ perm.getD i 0 < r) ∧
        (∀ i ∈ l, seen.getD (perm.getD i 0).toNat 0 = 0) ∧
        (∀ i ∈ l, ∀ j ∈ l, perm.getD i 0 = perm.getD j 0 → i = j) := by
  intro l
  induction l with
  | nil =>
    intro seen out res _ _ _
    exact ⟨fun i hi => (by cases hi), fun i hi => (by cases hi), fun i hi => (by cases hi)⟩
  | cons a rest ih =>
    intro seen out res hlen hnd h
    have hnd' := List.nodup_cons.1 hnd
    simp only [transposeLoop] at h
    split_ifs at h with h1 h2
    have hk : (perm.getD a 0).toNat < seen.length := by omega
    rw [getD_set_self _ _ _ _ hk] at h2
    have hz : seen.getD (perm.getD a 0).toNat 0 = 0 := by omega
    obtain ⟨r1, r2, r3⟩ := ih _ _ _ (by rw [List.length_set]; exact hlen) hnd'.2 h
    have hne : ∀ j ∈ rest, perm.getD j 0 ≠ perm.getD a 0 := by
      intro j hj heq
      have := r2 j hj
      rw [heq, getD_set_self _ _ _ _ hk] at this
      omega
    refine ⟨?_, ?_, ?_⟩
    · intro i hi
      rcases List.mem_cons.1 hi with e | e
      · rw [e]; exact h1
      · exact r1 i e
    · intro i hi
      rcases List.mem_cons.1 hi with e | e
      · rw [e]; exact hz
      · have := r2 i e
        rw [getD_set_ne] at this
        · exact this
        · intro hc
          have h3 := r1 i e
          exact hne i e (by omega)
    · intro i hi j hj heq
      rcases List.mem_cons.1 hi with e | e <;> rcases List.mem_cons.1 hj with f | f
      · rw [e, f]
      · rw [e] at heq
        exact absurd heq.symm (hne j f)
      · rw [f] at heq
        exact absurd heq (hne i e)
      · exact r3 i e j f heq

theorem transposeLoop_total (perm : List Int) (S : Shape) (r : Nat) :
    ∀ (l : List Nat) (seen : List Int) (out : Shape),
      seen.length = r → out.length = r → l.Nodup → (∀ i ∈ l, i < r) →
      (∀ i ∈ l, 0 ≤ perm.getD i 0 ∧ perm.getD i 0 < r) →
      (∀ i ∈ l, seen.getD (perm.getD i 0).toNat 0 = 0) →
      (∀ i ∈ l, ∀ j ∈ l, perm.getD i 0 = perm.getD j 0 → i = j) →
      ∃ seen1 out1, transposeLoop perm S r l (seen, out) = some (seen1, out1) ∧
        out1.length = r ∧ (∀ i ∈ l, out1.getD i 0 = S.getD (perm.getD i 0).toNat 0) ∧
        (∀ j, j ∉ l → out1.getD j 0 = out.getD j 0) := by
  intro l
  induction l with
  | nil =>
    intro seen out _ hout _ _ _ _ _
    exact ⟨seen, out, rfl, hout, fun i hi => (by cases hi), fun j _ => rfl⟩
  | cons a rest ih =>
    intro seen out hlen hout hnd hlt hrange hzero hinj
    have hnd' := List.nodup_cons.1 hnd
    have ha := hrange a (List.mem_cons_self _ _)
    have hk : (perm.getD a 0).toNat < seen.length := by omega
    simp only [transposeLoop]
    rw [if_pos ha, getD_set_self _ _ _ _ hk, hzero a (List.mem_cons_self _ _)]
    simp only [zero_add, ↓reduceIte]
    obtain ⟨seen1, out1, e1, e2, e3, e4⟩ := ih
      (seen.set (perm.getD a 0).toNat (0 + 1))
      (out.set a (S.getD (perm.getD a 0).toNat 0))
      (by rw [List.length_set]; exact hlen) (by rw [List.length_set]; exact hout) hnd'.2
      (fun i hi => hlt i (List.mem_cons_of_mem _ hi))
      (fun i hi => hrange i (List.mem_cons_of_mem _ hi))
      (by
        intro i hi
        rw [getD_set_ne]
        · exact hzero i (List.mem_cons_of_mem _ hi)
        · intro hc
          have h3 := hrange i (List.mem_cons_of_mem _ hi)
          have : a = i := hinj a (List.mem_cons_self _ _) i (List.mem_cons_of_mem _ hi)
            (by omega)
          rw [← this] at hi
          exact hnd'.1 hi)
      (fun i hi j hj => hinj i (List.mem_cons_of_mem _ hi) j (List.mem_cons_of_mem _ hj))
    simp only [zero_add] at e1
    refine ⟨seen1, out1, e1, e2, ?_, ?_⟩
    · intro i hi
      rcases List.mem_cons.1 hi with e | e
      · rw [e, e4 a hnd'.1]
        exact getD_set_self _ _ _ _ (by rw [hout]; exact hlt a (List.mem_cons_self _ _))
      · exact e3 i e
    · intro j hj
      rw [e4 j (fun hc => hj (List.mem_cons_of_mem _ hc))]
      exact getD_set_ne _ _ _ _ _ (fun hc => hj (hc ▸ List.mem_cons_self _ _))

/-- Claim C12: `TransposeObj::inferShape` with a supplied (non-empty)
permutation `perm` on an input of rank `r` fails when the length of `perm`
differs from `r`, when an entry is outside `[0, r)`, or when an entry is
repeated; otherwise it returns one shape of rank `r` whose dimension `i` is
the input's dimension `perm[i]`. -/
theorem transpose_inferShape_permutes (perm : List Int) (S : Shape) (hsup : perm ≠ []) :
    ((perm.length ≠ S.length ∨
        (∃ i, i < S.length ∧ ¬ (0 ≤ perm.getD i 0 ∧ perm.getD i 0 < S.length)) ∨
        (∃ i j, i < j ∧ j < S.length ∧ perm.getD i 0 = perm.getD j 0)) →
      TransposeObj.inferShape perm S = none) ∧
    (¬ (perm.length ≠ S.length ∨
        (∃ i, i < S.length ∧ ¬ (0 ≤ perm.getD i 0 ∧ perm.getD i 0 < S.length)) ∨
        (∃ i j, i < j ∧ j < S.length ∧ perm.getD i 0 = perm.getD j 0)) →
      ∃ out, TransposeObj.inferShape perm S = some [out] ∧ out.length = S.length ∧
        ∀ i, i < S.length → out.getD i 0 = S.getD (perm.getD i 0).toNat 0) := by
  have hne : perm.isEmpty = false := by
    cases perm with
    | nil => exact absurd rfl hsup
    | cons a l => rfl
  constructor
  · intro h
    unfold TransposeObj.inferShape
    simp only [hne, Bool.false_eq_true, ↓reduceIte]
    by_cases hl : perm.length = S.length
    · rw [if_pos hl]
      cases hloop : transposeLoop perm S S.length (List.range S.length)
          (List.replicate S.length 0, S) with
      | none => rfl
      | some res =>
        exfalso
        obtain ⟨r1, _, r3⟩ := transposeLoop_some perm S S.length _ _ _ res (by simp)
          (List.nodup_range _) hloop
        rcases h with h | ⟨i, hi, hbad⟩ | ⟨i, j, hij, hj, heq⟩
        · exact h hl
        · exact hbad (r1 i (List.mem_range.2 hi))
        · have := r3 i (List.mem_range.2 (by omega)) j (List.mem_range.2 hj) heq
          omega
    · rw [if_neg hl]
  · intro h
    have hl : perm.length = S.length := by
      by_contra hc
      exact h (Or.inl hc)
    have hrange : ∀ i, i < S.length → 0 ≤ perm.getD i 0 ∧ perm.getD i 0 < S.length := by
      intro i hi
      by_contra hc
      exact h (Or.inr (Or.inl ⟨i, hi, hc⟩))
    have hinj : ∀ i j, i < j → j < S.length → perm.getD i 0 = perm.getD j 0 → False :=
      fun i j hij hj heq => h (Or.inr (Or.inr ⟨i, j, hij, hj, heq⟩))
    unfold TransposeObj.inferShape
    simp only [hne, Bool.false_eq_true, ↓reduceIte]
    rw [if_pos hl]
    obtain ⟨seen1, out1, e1, e2, e3, _⟩ := transposeLoop_total perm S S.length
      (List.range S.length) (List.replicate S.length 0) S (by simp) rfl (List.nodup_range _)
      (fun i hi => List.mem_range.1 hi)
      (fun i hi => hrange i (List.mem_range.1 hi))
      (by
        intro i hi
        have := hrange i (List.mem_range.1 hi)
        rw [List.getD_eq_getElem?_getD, List.getElem?_replicate]
        split_ifs <;> rfl)
      (by
        intro i hi j hj heq
        have hi' := List.mem_range.1 hi
        have hj' := List.mem_range.1 hj
        by_contra hc
        rcases Nat.lt_or_gt_of_ne hc with hlt | hlt
        · exact hinj i j hlt hj' heq
        · exact hinj j i hlt hi' heq.symm)
    rw [e1]
    exact ⟨out1, rfl, e2, fun i hi => e3 i (List.mem_range.2 hi)⟩

/-- Witness of `transpose_inferShape_permutes`: the permutation `[1, 2, 0]` on
the shape `[2, 3, 4]`. -/
theorem transpose_inferShape_permutes_witness :
    (([1, 2, 0] : List Int).length ≠ ([2, 3, 4] : Shape).length ∨
        (∃ i, i < ([2, 3, 4] : Shape).length ∧
          ¬ (0 ≤ ([1, 2, 0] : List Int).getD i 0 ∧
            ([1, 2, 0] : List Int).getD i 0 < ([2, 3, 4] : Shape).length)) ∨
        (∃ i j, i < j ∧ j < ([2, 3, 4] : Shape).length ∧
          ([1, 2, 0] : List Int).getD i 0 = ([1, 2, 0] : List Int).getD j 0) →
      TransposeObj.inferShape [1, 2, 0] [2, 3, 4] = none) ∧
    (¬ (([1, 2, 0] : List Int).length ≠ ([2, 3, 4] : Shape).length ∨
        (∃ i, i < ([2, 3, 4] : Shape).length ∧
          ¬ (0 ≤ ([1, 2, 0] : List Int).getD i 0 ∧
            ([1, 2, 0] : List Int).getD i 0 < ([2, 3, 4] : Shape).length)) ∨
        (∃ i j, i < j ∧ j < ([2, 3, 4] : Shape).length ∧
          ([1, 2, 0] : List Int).getD i 0 = ([1, 2, 0] : List Int).getD j 0)) →
      ∃ out, TransposeObj.inferShape [1, 2, 0] [2, 3, 4] = some [out] ∧
        out.length = ([2, 3, 4] : Shape).length ∧
        ∀ i, i < ([2, 3, 4] : Shape).length →
          out.getD i 0 = ([2, 3, 4] : Shape).getD (([1, 2, 0] : List Int).getD i 0).toNat 0) :=
  transpose_inferShape_permutes [1, 2, 0] [2, 3, 4] (by decide)

/-- Claim C13 at the input shape `[2, 3]`: whatever the initial value of the
member `transposePermute` and whatever `checkValid` accepts, a Transpose
constructed with an empty permutation does not infer the reversed shape
`[3, 2]`.  The constructor writes `transposePermute[i] = i`: outside the vector
when the member is shorter than the rank, and the identity permutation
otherwise. -/
theorem transpose_empty_permutation_not_reversed (checkValid : List Int → Bool)
    (member0 : List Int) :
    TransposeObj.constructAndInfer checkValid member0 [] [2, 3] ≠ some [[3, 2]] := by
  unfold TransposeObj.constructAndInfer TransposeObj.construct
  simp only [List.isEmpty_nil, ↓reduceIte, List.length_cons, List.length_nil, Nat.reduceAdd]
  have hr : List.range 2 = [0, 1] := by decide
  rw [hr]
  match member0 with
  | [] => simp [identityFill, vectorAssign]
  | [a] => simp [identityFill, vectorAssign]
  | [a, b] =>
    simp only [identityFill, vectorAssign, List.length_cons, List.length_nil, Nat.reduceAdd,
      Nat.ofNat_pos, ↓reduceIte, List.set_cons_zero, Nat.one_lt_ofNat, List.set_cons_succ]
    cases checkValid [((0 : Nat) : Int), ((1 : Nat) : Int)] with
    | false => simp
    | true =>
      simp only [↓reduceIte]
      decide
  | a :: b :: c :: rest =>
    simp only [identityFill, vectorAssign, List.length_cons, Nat.zero_lt_succ, ↓reduceIte,
      List.set_cons_zero, Nat.succ_lt_succ_iff, List.set_cons_succ]
    cases checkValid _ with
    | false => simp
    | true => simp [TransposeObj.inferShape]

/-- When the member `transposePermute` starts empty, the constructor with an
empty permutation on an input of rank 2 accesses the vector out of range. -/
theorem transpose_construct_empty_member (checkValid : List Int → Bool) :
    TransposeObj.construct checkValid [] 2 [] = none := by
  simp [TransposeObj.construct, identityFill, vectorAssign, List.range, List.range.loop]

/-- Claim C14 as amended: `Allocator::free` fails (assertion) exactly when the
real buffer has been materialized, when the aligned size is zero, or when the
aligned region ends beyond `used`; in every other case it returns a new state,
whether or not the region is currently allocated. -/
theorem free_fails_iff_bounds (a : Allocator) (addr size : Nat) :
    a.free addr size = none ↔
      a.ptr.isSome = true ∨ a.getAlignedSize size = 0 ∨
        a.used < (addr + a.getAlignedSize size) % sizeModulus := by
  unfold Allocator.free
  by_cases h1 : a.ptr.isSome = true
  · simp [h1]
  · rw [if_neg h1]
    simp only
    by_cases h2 : 0 < a.getAlignedSize size
    · by_cases h3 : (addr + a.getAlignedSize size) % sizeModulus ≤ a.used
      · simp only [h2, h3, not_true_eq_false, ↓reduceIte]
        have e : ¬ (a.getAlignedSize size = 0) := by omega
        have e3 : ¬ (a.used < (addr + a.getAlignedSize size) % sizeModulus) := by omega
        simp only [h1, e, e3, or_self, iff_false]
        split_ifs <;> simp
      · simp only [h2, h3, not_true_eq_false, not_false_eq_true, ↓reduceIte, true_iff]
        exact Or.inr (Or.inr (by omega))
    · simp only [h2, not_false_eq_true, ↓reduceIte, true_iff]
      exact Or.inr (Or.inl (by omega))

/-- Claim C14 fails as stated: after three allocations of 8 bytes and the
release of `[8, 16)` and `[0, 8)`, the free map is `{0: 16}` and only
`[16, 24)` is allocated.  A second `free(8, 8)` of the region that was already
freed does not fail: it returns and inserts the block `(8, 8)` into the map. -/
theorem double_free_is_not_detected :
    AllocSim.fresh.run [.alloc 8, .alloc 8, .alloc 8, .free 8 8, .free 0 8]
      = some (AllocSim.mk ⟨24, 24, 8, none, [(0, 16)]⟩ [(16, 8)]) ∧
    (8, 8) ∉ ([(16, 8)] : List (Nat × Nat)) ∧
    Allocator.free ⟨24, 24, 8, none, [(0, 16)]⟩ 8 8
      = some ⟨24, 24, 8, none, [(0, 16), (8, 8)]⟩ := by
  refine ⟨by decide, by decide, by decide⟩

/-- The result of the best-fit scan is a block that fits, of the least size
among the blocks that fit, and the first such block. -/
theorem allocScan_best (size : Nat) :
    ∀ (fb : FreeBlocks) (bs bz : Nat) (found : Bool) (rs rz : Nat), KeysSorted fb →
      (found = true → size ≤ bz ∧ ∀ e ∈ fb, bs < e.1) →
      allocScan size fb (bs, bz, found) = (rs, rz, true) →
        ((found = true ∧ (rs, rz) = (bs, bz)) ∨
          ((rs, rz) ∈ fb ∧ size ≤ rz ∧ (found = true → rz < bz))) ∧
        (∀ e ∈ fb, size ≤ e.2 → rz < e.2 ∨ (rz = e.2 ∧ rs ≤ e.1)) := by
  intro fb
  induction fb with
  | nil =>
    intro bs bz found rs rz _ _ h
    simp only [allocScan, Prod.mk.injEq] at h
    refine ⟨Or.inl ⟨h.2.2, ?_⟩, fun e he => (by cases he)⟩
    rw [h.1, h.2.1]
  | cons d rest ih =>
    intro bs bz found rs rz hs hinit h
    obtain ⟨start, blk⟩ := d
    have hp := List.pairwise_cons.1 hs
    simp only [allocScan] at h
    split_ifs at h with h1 h2 h3
    · -- the block is too small
      obtain ⟨r1, r2⟩ := ih bs bz found rs rz hp.2
        (fun hf => ⟨(hinit hf).1, fun e he => (hinit hf).2 e (List.mem_cons_of_mem _ he)⟩) h
      refine ⟨?_, ?_⟩
      · rcases r1 with r1 | r1
        · exact Or.inl r1
        · exact Or.inr ⟨List.mem_cons_of_mem _ r1.1, r1.2⟩
      · intro e he hfit
        rcases List.mem_cons.1 he with e1 | e1
        · rw [e1] at hfit
          simp only at hfit
          omega
        · exact r2 e e1 hfit
    · -- an exact fit: the scan stops
      simp only [Prod.mk.injEq, and_true] at h
      obtain ⟨e1, e2⟩ := h
      subst e1
      subst e2
      refine ⟨Or.inr ⟨List.mem_cons_self _ _, by omega, ?_⟩, ?_⟩
      · intro hf
        simp only [hf, Bool.not_true, Bool.false_or, decide_eq_true_eq] at h2
        exact h2
      · intro e he hfit
        rcases List.mem_cons.1 he with e1 | e1
        · rw [e1]
          exact Or.inr ⟨rfl, le_refl _⟩
        · have := hp.1 e e1
          simp only at this
          omega
    · -- a better block: the scan goes on with it
      obtain ⟨r1, r2⟩ := ih start blk true rs rz hp.2
        (fun _ => ⟨by omega, fun e he => hp.1 e he⟩) h
      have hbetter : found = true → blk < bz := by
        intro hf
        simp only [hf, Bool.not_true, Bool.false_or, decide_eq_true_eq] at h2
        exact h2
      refine ⟨?_, ?_⟩
      · rcases r1 with r1 | r1
        · simp only [Prod.mk.injEq, true_and] at r1
          refine Or.inr ⟨?_, by omega, ?_⟩
          · rw [r1.1, r1.2]
            exact List.mem_cons_self _ _
          · intro hf
            have := hbetter hf
            omega
        · refine Or.inr ⟨List.mem_cons_of_mem _ r1.1, r1.2.1, ?_⟩
          intro hf
          have := hbetter hf
          have := r1.2.2 rfl
          omega
      · intro e he hfit
        rcases List.mem_cons.1 he with e1 | e1
        · rw [e1]
          simp only
          rcases r1 with r1 | r1
          · simp only [Prod.mk.injEq, true_and] at r1
            exact Or.inr ⟨r1.2, by omega⟩
          · exact Or.inl (r1.2.2 rfl)
        · exact r2 e e1 hfit
    · -- the block fits but is not better
      have hf : found = true := by
        cases found with
        | false => simp at h2
        | true => rfl
      have hge : bz ≤ blk := by
        simp only [hf, Bool.not_true, Bool.false_or, decide_eq_true_eq] at h2
        omega
      obtain ⟨r1, r2⟩ := ih bs bz found rs rz hp.2
        (fun hf => ⟨(hinit hf).1, fun e he => (hinit hf).2 e (List.mem_cons_of_mem _ he)⟩) h
      refine ⟨?_, ?_⟩
      · rcases r1 with r1 | r1
        · exact Or.inl r1
        · exact Or.inr ⟨List.mem_cons_of_mem _ r1.1, r1.2⟩
      · intro e he hfit
        rcases List.mem_cons.1 he with e1 | e1
        · rw [e1]
          simp only
          rcases r1 with r1 | r1
          · simp only [Prod.mk.injEq] at r1
            have := (hinit hf).2 (start, blk) (List.mem_cons_self _ _)
            simp only at this
            omega
          · have := r1.2.2 hf
            omega
        · exact r2 e e1 hfit

/-- Claim C15 (amended): in a well-formed state of the allocator (the invariant
`AllocInv` that every state reached without wrap-around satisfies), when some
free block has a size of at least the aligned size `s` of the request, `alloc`
returns the start of a block that fits, of the least size among the blocks
that fit and with the lowest start among those of that size; the block is
removed from the map, the remainder `(start + s, size - s)` is inserted when
the block is larger than `s`, and `used` and `peak` are unchanged. -/
theorem alloc_best_fit (a : Allocator) (live : List (Nat × Nat)) (size : Nat)
    (h : AllocInv a live) (hfit : ∃ e ∈ a.freeBlocks, a.getAlignedSize size ≤ e.2) :
    ∃ off bz a1, a.alloc size = some (off, a1) ∧ (off, bz) ∈ a.freeBlocks ∧
      a.getAlignedSize size ≤ bz ∧
      (∀ e ∈ a.freeBlocks, a.getAlignedSize size ≤ e.2 → bz < e.2 ∨ (bz = e.2 ∧ off ≤ e.1)) ∧
      (∀ e, e ∈ a1.freeBlocks ↔
        (e ∈ a.freeBlocks ∧ e ≠ (off, bz)) ∨
          (a.getAlignedSize size < bz ∧
            e = (off + a.getAlignedSize size, bz - a.getAlignedSize size))) ∧
      KeysSorted a1.freeBlocks ∧ a1.used = a.used ∧ a1.peak = a.peak := by
  unfold Allocator.alloc
  rw [h.ptr_none]
  simp only [Option.isSome_none, Bool.false_eq_true, ↓reduceIte]
  generalize hsz : a.getAlignedSize size = s at hfit ⊢
  rcases hscan : allocScan s a.freeBlocks (0, 0, false) with ⟨bs, bz, found⟩
  cases found with
  | false =>
    exfalso
    obtain ⟨e, he, hle⟩ := hfit
    have := (allocScan_not_found s _ _ _ _ hscan).2 e he
    omega
  | true =>
    obtain ⟨r1, r2⟩ := allocScan_best s a.freeBlocks 0 0 false bs bz h.sorted
      (fun hf => by cases hf) hscan
    simp only [Bool.false_eq_true, false_and, false_or, false_implies, and_true] at r1
    obtain ⟨hmem, hle⟩ := r1
    have hend := h.region_le (bs, bz) (List.mem_append_right _ hmem) (h.pos _ hmem)
    have hbz := h.pos _ hmem
    simp only at hend hbz
    have hul := h.used_lt
    have hfind : (mapFind bs a.freeBlocks).isNone = false := by
      unfold mapFind
      cases hf : List.find? (fun e => decide (e.1 = bs)) a.freeBlocks with
      | none =>
        rw [List.find?_eq_none] at hf
        have := hf _ hmem
        simp at this
      | some v => rfl
    simp only [hfind, Bool.false_eq_true, ↓reduceIte]
    have herase : ∀ e, e ∈ mapErase bs a.freeBlocks ↔ e ∈ a.freeBlocks ∧ e ≠ (bs, bz) := by
      intro e
      rw [mem_mapErase]
      constructor
      · rintro ⟨he, hk⟩
        exact ⟨he, fun hc => hk (by rw [hc])⟩
      · rintro ⟨he, hne⟩
        exact ⟨he, fun hk => hne (h.key_unique e (bs, bz) he hmem hk)⟩
    by_cases heq : bz = s
    · rw [if_pos heq]
      refine ⟨bs, bz, _, rfl, hmem, hle, r2, ?_, mapErase_sorted _ _ h.sorted, rfl, rfl⟩
      intro e
      show e ∈ mapErase bs a.freeBlocks ↔ _
      rw [herase]
      constructor
      · intro he
        exact Or.inl he
      · rintro (he | he)
        · exact he
        · omega
    · rw [if_neg heq]
      have hm1 : (bs + s) % sizeModulus = bs + s := Nat.mod_eq_of_lt (by omega)
      have hm2 : (bz + sizeModulus - s) % sizeModulus = bz - s := by
        have : bz + sizeModulus - s = (bz - s) + sizeModulus := by omega
        rw [this, Nat.add_mod_right]
        exact Nat.mod_eq_of_lt (by omega)
      simp only [hm1, hm2]
      have hce := fun x => h.cover_erase (bs, bz) hmem x
      simp only at hce
      have hfresh : ∀ e ∈ mapErase bs a.freeBlocks, e.1 ≠ bs + s := by
        intro e he hk
        have he' := (mem_mapErase _ _ _).1 he
        have h1 := hce (bs + s)
        have h2 := cover_pos_of_mem (live ++ mapErase bs a.freeBlocks) e (bs + s)
          (List.mem_append_right _ he)
          (by unfold inRegion; have := h.pos e he'.1; omega)
        rw [if_pos (by unfold inRegion; simp only; omega)] at h1
        split_ifs at h1 <;> omega
      have hperm := mapEmplace_perm (bs + s) (bz - s) _ hfresh
      refine ⟨bs, bz, _, rfl, hmem, hle, r2, ?_,
        mapEmplace_sorted _ _ _ (mapErase_sorted _ _ h.sorted), rfl, rfl⟩
      intro e
      show e ∈ mapEmplace (bs + s) (bz - s) (mapErase bs a.freeBlocks) ↔ _
      rw [hperm.mem_iff, List.mem_cons, herase]
      constructor
      · rintro (he | he)
        · exact Or.inr ⟨by omega, he⟩
        · exact Or.inl he
      · rintro (he | he)
        · exact Or.inr he
        · exact Or.inl he.2

/-- Witness of `alloc_best_fit`: after six allocations and the release of
`[0, 16)`, `[24, 32)` and `[40, 48)` the free blocks are `(0, 16)`, `(24, 8)`
and `(40, 8)`, and a request of 8 bytes is served from the block at 24. -/
theorem alloc_best_fit_witness :
    ∃ off bz a1, Allocator.alloc ⟨56, 56, 8, none, [(0, 16), (24, 8), (40, 8)]⟩ 8
        = some (off, a1) ∧
      (off, bz) ∈ [((0 : Nat), (16 : Nat)), (24, 8), (40, 8)] ∧
      Allocator.getAlignedSize ⟨56, 56, 8, none, [(0, 16), (24, 8), (40, 8)]⟩ 8 ≤ bz ∧
      (∀ e ∈ [((0 : Nat), (16 : Nat)), (24, 8), (40, 8)],
        Allocator.getAlignedSize ⟨56, 56, 8, none, [(0, 16), (24, 8), (40, 8)]⟩ 8 ≤ e.2 →
          bz < e.2 ∨ (bz = e.2 ∧ off ≤ e.1)) ∧
      (∀ e, e ∈ a1.freeBlocks ↔
        (e ∈ [((0 : Nat), (16 : Nat)), (24, 8), (40, 8)] ∧ e ≠ (off, bz)) ∨
          (Allocator.getAlignedSize ⟨56, 56, 8, none, [(0, 16), (24, 8), (40, 8)]⟩ 8 < bz ∧
            e = (off + Allocator.getAlignedSize ⟨56, 56, 8, none, [(0, 16), (24, 8), (40, 8)]⟩ 8,
              bz - Allocator.getAlignedSize ⟨56, 56, 8, none, [(0, 16), (24, 8), (40, 8)]⟩ 8))) ∧
      KeysSorted a1.freeBlocks ∧ a1.used = 56 ∧ a1.peak = 56 :=
  alloc_best_fit ⟨56, 56, 8, none, [(0, 16), (24, 8), (40, 8)]⟩ [(48, 8), (32, 8), (16, 8)] 8
    (AllocSim.run_inv
      [.alloc 16, .alloc 8, .alloc 8, .alloc 8, .alloc 8, .alloc 8, .free 0 16, .free 24 8,
        .free 40 8]
      (AllocSim.mk ⟨56, 56, 8, none, [(0, 16), (24, 8), (40, 8)]⟩ [(48, 8), (32, 8), (16, 8)])
      (by decide) (by decide)).1
    ⟨(24, 8), by decide, by decide⟩

/-- Claim C15 fails as stated in a state in which `used` has wrapped around
`2 ^ 64`: the six calls, each `free` of an outstanding region, reach a state
with the free blocks `(0, 2 ^ 64 - 16)` and `(16, 8)`.  A request of 16 bytes
fits the first block only, `alloc` returns its start 0 and erases it, and the
`emplace` of the remainder `(16, 2 ^ 64 - 32)` finds the key 16 in the map and
inserts nothing: the map is left with `(16, 8)`, and the remainder is not a
block of it. -/
theorem alloc_drops_remainder_on_wraparound :
    AllocSim.fresh.run [.alloc (2 ^ 64 - 16), .alloc 32, .alloc 8, .alloc (2 ^ 64 - 32),
        .free 16 8, .free 0 (2 ^ 64 - 16)]
      = some (AllocSim.mk ⟨2 ^ 64 - 8, 2 ^ 64 - 8, 8, none, [(0, 2 ^ 64 - 16), (16, 8)]⟩
          [(24, 2 ^ 64 - 32), (2 ^ 64 - 16, 32)]) ∧
    Allocator.getAlignedSize ⟨2 ^ 64 - 8, 2 ^ 64 - 8, 8, none, [(0, 2 ^ 64 - 16), (16, 8)]⟩ 16
      = 16 ∧
    (∀ e ∈ ([(0, 2 ^ 64 - 16), (16, 8)] : FreeBlocks), 16 ≤ e.2 → e = (0, 2 ^ 64 - 16)) ∧
    Allocator.alloc ⟨2 ^ 64 - 8, 2 ^ 64 - 8, 8, none, [(0, 2 ^ 64 - 16), (16, 8)]⟩ 16
      = some (0, ⟨2 ^ 64 - 8, 2 ^ 64 - 8, 8, none, [(16, 8)]⟩) ∧
    16 < 2 ^ 64 - 16 ∧
    ((0 + 16, 2 ^ 64 - 16 - 16) : Nat × Nat) ∉ ([(16, 8)] : FreeBlocks) := by
  refine ⟨by decide, by decide, by decide, by decide, by norm_num, ?_⟩
  intro h
  simp at h

/-- Claim C16 in `size_t` arithmetic: before the real buffer is materialized,
when no free block has a size of at least the aligned size `s` of the request,
`alloc` returns the current `used`; the new `used` is the old one plus `s`
modulo `2 ^ 64`, which is the old one plus `s` when that sum is below
`2 ^ 64`; the new `peak` is the maximum of the old `peak` and the new `used`;
the free-block map is unchanged. -/
theorem alloc_bumps_when_nothing_fits (a : Allocator) (size : Nat) (hptr : a.ptr = none)
    (hno : ∀ e ∈ a.freeBlocks, e.2 < a.getAlignedSize size) :
    ∃ a1, a.alloc size = some (a.used, a1) ∧
      a1.used = (a.used + a.getAlignedSize size) % sizeModulus ∧
      (a.used + a.getAlignedSize size < sizeModulus →
        a1.used = a.used + a.getAlignedSize size) ∧
      a1.peak = max a.peak a1.used ∧ a1.freeBlocks = a.freeBlocks := by
  unfold Allocator.alloc
  rw [hptr]
  simp only [Option.isSome_none, Bool.false_eq_true, ↓reduceIte]
  rcases hscan : allocScan (a.getAlignedSize size) a.freeBlocks (0, 0, false) with
    ⟨bs, bz, found⟩
  cases found with
  | true =>
    exfalso
    have hmem := allocScan_found _ a.freeBlocks (0, 0, false) bs bz hscan
    simp only [Prod.mk.injEq, Bool.false_eq_true, and_false, false_or] at hmem
    have := hno _ hmem.1
    simp only at this
    omega
  | false =>
    refine ⟨_, rfl, rfl, ?_, ?_, rfl⟩
    · intro hlt
      exact Nat.mod_eq_of_lt hlt
    · show (if (a.used + a.getAlignedSize size) % sizeModulus > a.peak then
          (a.used + a.getAlignedSize size) % sizeModulus else a.peak) =
        max a.peak ((a.used + a.getAlignedSize size) % sizeModulus)
      split_ifs <;> omega

/-- Witness of `alloc_bumps_when_nothing_fits`: a request of 16 bytes when the
only free block has 8 bytes. -/
theorem alloc_bumps_when_nothing_fits_witness :
    ∃ a1, Allocator.alloc ⟨24, 24, 8, none, [(0, 8)]⟩ 16 = some (24, a1) ∧
      a1.used = (24 + Allocator.getAlignedSize ⟨24, 24, 8, none, [(0, 8)]⟩ 16) % sizeModulus ∧
      (24 + Allocator.getAlignedSize ⟨24, 24, 8, none, [(0, 8)]⟩ 16 < sizeModulus →
        a1.used = 24 + Allocator.getAlignedSize ⟨24, 24, 8, none, [(0, 8)]⟩ 16) ∧
      a1.peak = max 24 a1.used ∧ a1.freeBlocks = [(0, 8)] :=
  alloc_bumps_when_nothing_fits ⟨24, 24, 8, none, [(0, 8)]⟩ 16 rfl (by decide)

/-- Claim C16 fails as stated when `used` wraps around `2 ^ 64`: the second of
two allocations of `2 ^ 63` bytes finds no free block and returns the current
`used = 2 ^ 63`, but the new `used` is `0`, not `2 ^ 63 + 2 ^ 63`. -/
theorem alloc_bump_wraps_around :
    Allocator.alloc ⟨2 ^ 63, 2 ^ 63, 8, none, []⟩ (2 ^ 63)
      = some (2 ^ 63, ⟨0, 2 ^ 63, 8, none, []⟩) ∧
    Allocator.getAlignedSize ⟨2 ^ 63, 2 ^ 63, 8, none, []⟩ (2 ^ 63) = 2 ^ 63 ∧
    (0 : Nat) ≠ 2 ^ 63 + 2 ^ 63 ∧
    Allocator.init.alloc (2 ^ 63) = some (0, ⟨2 ^ 63, 2 ^ 63, 8, none, []⟩) := by
  refine ⟨by decide, by decide, by decide, by decide⟩

/-- In a list that lists producers first, a chain of producer-to-consumer
edges leads from an earlier to a later place. -/
theorem producersFirst_transGen (g : GraphObj) (res : List Nat) (h : ProducersFirst g res)
    (a b : Nat) (hab : Relation.TransGen (producerEdge g) a b) :
    ∀ pre post, res = pre ++ b :: post → a ∈ pre := by
  induction hab with
  | single e =>
    intro pre post hsplit
    obtain ⟨_, _, t, ht, hp⟩ := e
    exact h pre _ post hsplit t ht a hp
  | @tail c d _ e ih =>
    intro pre post hsplit
    obtain ⟨_, _, t, ht, hp⟩ := e
    have hc : c ∈ pre := h pre d post hsplit t ht c hp
    obtain ⟨s1, s2, hs⟩ := List.append_of_mem hc
    have := ih s1 (s2 ++ d :: post) (by rw [hsplit, hs]; simp)
    rw [hs]
    exact List.mem_append_left _ this

theorem acyclic_of_producersFirst (g : GraphObj) (res : List Nat) (h : ProducersFirst g res)
    (hperm : List.Perm res g.ops) (hnd : g.ops.Nodup) : Acyclic g := by
  intro op hcyc
  have hop : op ∈ g.ops := by
    cases hcyc with
    | single e => exact e.2.1
    | tail _ e => exact e.2.1
  have hres : op ∈ res := hperm.mem_iff.2 hop
  obtain ⟨s1, s2, hs⟩ := List.append_of_mem hres
  have hin := producersFirst_transGen g res h op op hcyc s1 s2 hs
  have hnd' : res.Nodup := hperm.nodup_iff.2 hnd
  rw [hs] at hnd'
  have := (List.nodup_append.1 hnd').2.2
  exact this hin (List.mem_cons_self _ _)

/-- In a finite non-empty set in which every element has a predecessor, the
relation has a cycle. -/
theorem exists_cycle_of_predecessors (r : Nat → Nat → Prop) (U : List Nat) (x0 : Nat)
    (hx0 : x0 ∈ U) (h : ∀ x ∈ U, ∃ p ∈ U, r p x) : ∃ x, Relation.TransGen r x x := by
  by_contra hno
  have hirr : ∀ x, ¬ Relation.TransGen r x x := fun x hx => hno ⟨x, hx⟩
  let R : { x // x ∈ U } → { x // x ∈ U } → Prop := fun a b => Relation.TransGen r a.1 b.1
  haveI : IsTrans { x // x ∈ U } R := ⟨fun a b c hab hbc => Relation.TransGen.trans hab hbc⟩
  haveI : IsIrrefl { x // x ∈ U } R := ⟨fun a ha => hirr a.1 ha⟩
  have wf : WellFounded R := Finite.wellFounded_of_trans_of_irrefl R
  obtain ⟨m, _, hmin⟩ := wf.has_min Set.univ ⟨⟨x0, hx0⟩, trivial⟩
  obtain ⟨p, hp, hr⟩ := h m.1 m.2
  exact hmin ⟨p, hp⟩ trivial (Relation.TransGen.single hr)

theorem topoPass_unmodified (g : GraphObj) :
    ∀ (l : List Nat) (sorted flags s1 f1 : List Nat),
      topoPass g l (sorted, flags, false) = (s1, f1, false) →
        ∀ op ∈ l, topoReady g flags op = false := by
  intro l
  induction l with
  | nil => intro _ _ _ _ _ op hop; cases hop
  | cons x rest ih =>
    intro sorted flags s1 f1 h op hop
    simp only [topoPass] at h
    by_cases hr : topoReady g flags x = true
    · rw [if_pos hr] at h
      have := (topoPass_length g rest (sorted ++ [x]) (x :: flags) true).2.2 rfl
      rw [h] at this
      cases this
    · rw [if_neg hr] at h
      rcases List.mem_cons.1 hop with e | e
      · rw [e]
        simpa using hr
      · exact ih sorted flags s1 f1 h op e

/-- When the loop of `topo_sort` returns false, some pass over a state with
operators left has found no operator ready. -/
theorem topoLoop_false_state (g : GraphObj) :
    ∀ (fuel : Nat) (sorted flags : List Nat), (∀ x, x ∈ flags ↔ x ∈ sorted) →
      sorted.Nodup → (∀ x ∈ sorted, x ∈ g.ops) →
      topoLoop g fuel sorted flags = some none →
      ∃ s f : List Nat, (∀ x, x ∈ f ↔ x ∈ s) ∧ s.Nodup ∧ (∀ x ∈ s, x ∈ g.ops) ∧
        s.length < g.ops.length ∧ ∀ op ∈ g.ops, topoReady g f op = false := by
  intro fuel
  induction fuel with
  | zero =>
    intro sorted flags _ _ _ hl
    unfold topoLoop at hl
    split_ifs at hl
    cases hl
  | succ fuel ih =>
    intro sorted flags h1 h2 h3 hl
    unfold topoLoop at hl
    split_ifs at hl with hlt
    swap
    · cases hl
    simp only at hl
    have hp := topoPass_members g g.ops sorted flags false (fun x hx => hx) h1 h2 h3
    rcases hpass : topoPass g g.ops (sorted, flags, false) with ⟨s1, f1, m1⟩
    rw [hpass] at hl hp
    cases m1 with
    | false =>
      exact ⟨sorted, flags, h1, h2, h3, hlt, topoPass_unmodified g g.ops sorted flags s1 f1 hpass⟩
    | true => exact ih s1 f1 hp.1 hp.2.1 hp.2.2 hl

theorem not_ready_has_pending_producer (g : GraphObj) (flags : List Nat) (op : Nat)
    (hop : op ∉ flags) (h : topoReady g flags op = false) :
    ∃ t ∈ (g.opAt op).inputs, ∃ p, (g.tensorAt t).source = some p ∧ p ∉ flags := by
  unfold topoReady at h
  have h1 : flags.contains op = false := by simpa using hop
  rw [h1] at h
  simp only [Bool.not_false, Bool.true_and] at h
  rw [List.all_eq_false] at h
  obtain ⟨t, ht, hbad⟩ := h
  refine ⟨t, ht, ?_⟩
  cases hsrc : (g.tensorAt t).source with
  | none => rw [hsrc] at hbad; simp at hbad
  | some p =>
    rw [hsrc] at hbad
    exact ⟨p, rfl, by simpa using hbad⟩

/-- Claim C20: on a graph whose operators are pairwise distinct and in which
the producer of every input tensor is an operator of the graph, `topo_sort`
called with the flag `sorted` false returns, and it returns true exactly when
the producer-to-consumer relation between the operators has no cycle. -/
theorem topo_sort_true_iff_acyclic (g : GraphObj) (hs : g.sorted = false) (hnd : g.ops.Nodup)
    (hprod : ∀ op ∈ g.ops, ∀ t ∈ (g.opAt op).inputs, ∀ p,
      (g.tensorAt t).source = some p → p ∈ g.ops) :
    ∃ b g1, g.topo_sort = some (b, g1) ∧ (b = true ↔ Acyclic g) := by
  unfold GraphObj.topo_sort
  rw [hs]
  simp only [Bool.false_eq_true, ↓reduceIte]
  have htot := topoLoop_total g (g.ops.length + 1) [] [] (by simp)
  cases hl : topoLoop g (g.ops.length + 1) [] [] with
  | none => exact absurd hl htot
  | some r =>
    cases r with
    | some res =>
      refine ⟨true, _, rfl, ?_⟩
      simp only [true_iff]
      exact acyclic_of_producersFirst g res (topoLoop_inv g _ [] [] res (topoInv_init g) hl)
        (topoLoop_perm g _ [] [] res (fun _ => Iff.rfl) List.nodup_nil
          (fun x hx => by cases hx) hl) hnd
    | none =>
      refine ⟨false, _, rfl, ?_⟩
      simp only [Bool.false_eq_true, false_iff]
      intro hac
      obtain ⟨s, f, h1, h2, h3, hlt, hnr⟩ := topoLoop_false_state g _ [] []
        (fun _ => Iff.rfl) List.nodup_nil (fun x hx => by cases hx) hl
      have hex : ∃ x ∈ g.ops, x ∉ s := by
        by_contra hc
        simp only [not_exists, not_and, not_not] at hc
        have := (List.subperm_of_subset hnd hc).length_le
        omega
      obtain ⟨x0, hx0, hx0s⟩ := hex
      obtain ⟨x, hx⟩ := exists_cycle_of_predecessors (producerEdge g)
        (g.ops.filter fun x => decide (x ∉ s)) x0
        (List.mem_filter.2 ⟨hx0, by simpa using hx0s⟩)
        (by
          intro x hx
          have hx' := List.mem_filter.1 hx
          have hxs : x ∉ s := by simpa using hx'.2
          obtain ⟨t, ht, p, hp, hpf⟩ := not_ready_has_pending_producer g f x
            (fun hc => hxs ((h1 x).1 hc)) (hnr x hx'.1)
          have hpo := hprod x hx'.1 t ht p hp
          refine ⟨p, List.mem_filter.2 ⟨hpo, ?_⟩, hpo, hx'.1, t, ht, hp⟩
          have : p ∉ s := fun hc => hpf ((h1 p).2 hc)
          simpa using this)
      exact hac x hx

/-- Witness of `topo_sort_true_iff_acyclic`: the chain of two operators. -/
theorem topo_sort_true_iff_acyclic_witness :
    ∃ b g1, chainGraph.topo_sort = some (b, g1) ∧ (b = true ↔ Acyclic chainGraph) :=
  topo_sort_true_iff_acyclic chainGraph rfl (by decide) (by
    intro op hop t ht p hp
    have hop' : op = 1 ∨ op = 0 := by simpa [chainGraph] using hop
    rcases hop' with e | e <;> subst e <;>
      simp [chainGraph, plainOp, plainTensor] at ht hp ⊢ <;> subst ht <;>
      simp at hp ⊢ <;> omega)

theorem SameFrame.frame_refl (h : GraphObj) : SameFrame h h := ⟨rfl, fun _ => ⟨rfl, rfl⟩⟩

theorem SameFrame.frame_trans {a b c : GraphObj} (h1 : SameFrame a b) (h2 : SameFrame b c) :
    SameFrame a c :=
  ⟨h1.1.trans h2.1, fun x => ⟨(h1.2 x).1.trans (h2.2 x).1, (h1.2 x).2.trans (h2.2 x).2⟩⟩

theorem linkSuccessor_fold (op : Nat) :
    ∀ (L : List Nat) (k : GraphObj),
      SameFrame (L.foldl (linkSuccessor op) k) k ∧
      (L.foldl (linkSuccessor op) k).tensorAt = k.tensorAt ∧
      (∀ P Q, P ∈ ((L.foldl (linkSuccessor op) k).opAt Q).predecessors ↔
        P ∈ (k.opAt Q).predecessors ∨ (P = op ∧ Q ∈ L)) ∧
      (∀ P Q, Q ∈ ((L.foldl (linkSuccessor op) k).opAt P).successors ↔
        Q ∈ (k.opAt P).successors ∨ (P = op ∧ Q ∈ L)) := by
  intro L
  induction L with
  | nil => intro k; simp [SameFrame.frame_refl]
  | cons s rest ih =>
    intro k
    rw [List.foldl_cons]
    obtain ⟨f, t, p, q⟩ := ih (linkSuccessor op k s)
    have hf : SameFrame (linkSuccessor op k s) k := by
      refine ⟨rfl, fun x => ?_⟩
      simp only [linkSuccessor, GraphObj.addSuccessors, GraphObj.addPredecessors, GraphObj.setOp]
      split_ifs <;> simp_all
    refine ⟨f.frame_trans hf, t.trans rfl, ?_, ?_⟩
    · intro P Q
      rw [p]
      simp only [linkSuccessor, GraphObj.addSuccessors, GraphObj.addPredecessors, GraphObj.setOp,
        List.mem_cons]
      split_ifs <;> simp_all
    · intro P Q
      rw [q]
      simp only [linkSuccessor, GraphObj.addSuccessors, GraphObj.addPredecessors, GraphObj.setOp,
        List.mem_cons]
      split_ifs <;> simp_all <;> tauto

theorem connectOutput_spec (op : Nat) (g : GraphObj) (t : Nat) :
    SameFrame (connectOutput op g t) g ∧
    (∀ x, ((connectOutput op g t).tensorAt x).targets = (g.tensorAt x).targets) ∧
    (∀ x, ((connectOutput op g t).tensorAt x).source =
      if x = t then some op else (g.tensorAt x).source) ∧
    (∀ P Q, P ∈ ((connectOutput op g t).opAt Q).predecessors ↔
      P ∈ (g.opAt Q).predecessors ∨ (P = op ∧ Q ∈ (g.tensorAt t).targets)) ∧
    (∀ P Q, Q ∈ ((connectOutput op g t).opAt P).successors ↔
      Q ∈ (g.opAt P).successors ∨ (P = op ∧ Q ∈ (g.tensorAt t).targets)) := by
  unfold connectOutput
  simp only
  obtain ⟨f, ht, p, q⟩ := linkSuccessor_fold op ((g.setSource t op).tensorAt t).targets
    (g.setSource t op)
  have htg : ((g.setSource t op).tensorAt t).targets = (g.tensorAt t).targets := by
    simp [GraphObj.setSource, GraphObj.setTensor]
  refine ⟨f.frame_trans ⟨rfl, fun _ => ⟨rfl, rfl⟩⟩, ?_, ?_, ?_, ?_⟩
  · intro x
    rw [ht]
    simp only [GraphObj.setSource, GraphObj.setTensor]
    split_ifs with hx
    · rw [hx]
    · rfl
  · intro x
    rw [ht]
    simp only [GraphObj.setSource, GraphObj.setTensor]
    split_ifs <;> rfl
  · intro P Q
    rw [p, htg]
    rfl
  · intro P Q
    rw [q, htg]
    rfl

theorem connectOutput_fold (op : Nat) :
    ∀ (O : List Nat) (h : GraphObj),
      SameFrame (O.foldl (connectOutput op) h) h ∧
      (∀ x, ((O.foldl (connectOutput op) h).tensorAt x).targets = (h.tensorAt x).targets) ∧
      (∀ x, (x ∈ O → ((O.foldl (connectOutput op) h).tensorAt x).source = some op) ∧
        (x ∉ O → ((O.foldl (connectOutput op) h).tensorAt x).source = (h.tensorAt x).source)) ∧
      (∀ P Q, P ∈ ((O.foldl (connectOutput op) h).opAt Q).predecessors ↔
        P ∈ (h.opAt Q).predecessors ∨ (P = op ∧ ∃ t ∈ O, Q ∈ (h.tensorAt t).targets)) ∧
      (∀ P Q, Q ∈ ((O.foldl (connectOutput op) h).opAt P).successors ↔
        Q ∈ (h.opAt P).successors ∨ (P = op ∧ ∃ t ∈ O, Q ∈ (h.tensorAt t).targets)) := by
  intro O
  induction O with
  | nil => intro h; simp [SameFrame.frame_refl]
  | cons t rest ih =>
    intro h
    rw [List.foldl_cons]
    obtain ⟨f, tg, src, p, q⟩ := ih (connectOutput op h t)
    obtain ⟨f1, tg1, src1, p1, q1⟩ := connectOutput_spec op h t
    refine ⟨f.frame_trans f1, fun x => (tg x).trans (tg1 x), ?_, ?_, ?_⟩
    · intro x
      refine ⟨?_, ?_⟩
      · intro hx
        by_cases hr : x ∈ rest
        · exact (src x).1 hr
        · rw [(src x).2 hr, src1 x]
          rcases List.mem_cons.1 hx with e | e
          · rw [if_pos e]
          · exact absurd e hr
      · intro hx
        rw [(src x).2 (fun hc => hx (List.mem_cons_of_mem _ hc)), src1 x,
          if_neg (fun hc : x = t => hx (hc ▸ List.mem_cons_self _ _))]
    · intro P Q
      rw [p, p1]
      simp only [tg1, List.mem_cons, exists_eq_or_imp]
      tauto
    · intro P Q
      rw [q, q1]
      simp only [tg1, List.mem_cons, exists_eq_or_imp]
      tauto

theorem connectInput_spec (op : Nat) (g : GraphObj) (t : Nat) :
    SameFrame (connectInput op g t) g ∧
    (∀ x, ((connectInput op g t).tensorAt x).source = (g.tensorAt x).source) ∧
    (∀ x Q, Q ∈ ((connectInput op g t).tensorAt x).targets ↔
      Q ∈ (g.tensorAt x).targets ∨ (Q = op ∧ x = t)) ∧
    (∀ P Q, P ∈ ((connectInput op g t).opAt Q).predecessors ↔
      P ∈ (g.opAt Q).predecessors ∨ (Q = op ∧ (g.tensorAt t).source = some P)) ∧
    (∀ P Q, Q ∈ ((connectInput op g t).opAt P).successors ↔
      Q ∈ (g.opAt P).successors ∨ (Q = op ∧ (g.tensorAt t).source = some P)) := by
  unfold connectInput
  simp only
  have hsrc : ((g.addTarget t op).tensorAt t).source = (g.tensorAt t).source := by
    simp [GraphObj.addTarget, GraphObj.setTensor]
  rw [hsrc]
  cases hs : (g.tensorAt t).source with
  | none =>
    simp only
    refine ⟨⟨rfl, fun _ => ⟨rfl, rfl⟩⟩, ?_, ?_, ?_, ?_⟩
    · intro x
      simp only [GraphObj.addTarget, GraphObj.setTensor]
      split_ifs with hx
      · rw [hx]
      · rfl
    · intro x Q
      simp only [GraphObj.addTarget, GraphObj.setTensor]
      split_ifs with hx
      · rw [hx]
        simp
      · simp [hx]
    · intro P Q
      simp [GraphObj.addTarget, GraphObj.setTensor]
    · intro P Q
      simp [GraphObj.addTarget, GraphObj.setTensor]
  | some pred =>
    simp only
    refine ⟨⟨rfl, fun x => ?_⟩, ?_, ?_, ?_, ?_⟩
    · simp only [GraphObj.addSuccessors, GraphObj.addPredecessors, GraphObj.setOp,
        GraphObj.addTarget, GraphObj.setTensor]
      split_ifs <;> simp_all
    · intro x
      simp only [GraphObj.addSuccessors, GraphObj.addPredecessors, GraphObj.setOp,
        GraphObj.addTarget, GraphObj.setTensor]
      split_ifs with hx
      · rw [hx]
      · rfl
    · intro x Q
      simp only [GraphObj.addSuccessors, GraphObj.addPredecessors, GraphObj.setOp,
        GraphObj.addTarget, GraphObj.setTensor]
      split_ifs with hx
      · rw [hx]
        simp
      · simp [hx]
    · intro P Q
      simp only [GraphObj.addSuccessors, GraphObj.addPredecessors, GraphObj.setOp,
        GraphObj.addTarget, GraphObj.setTensor, Option.some.injEq]
      split_ifs <;> simp_all <;> tauto
    · intro P Q
      simp only [GraphObj.addSuccessors, GraphObj.addPredecessors, GraphObj.setOp,
        GraphObj.addTarget, GraphObj.setTensor, Option.some.injEq]
      split_ifs <;> simp_all <;> tauto

theorem connectInput_fold (op : Nat) :
    ∀ (I : List Nat) (h : GraphObj),
      SameFrame (I.foldl (connectInput op) h) h ∧
      (∀ x, ((I.foldl (connectInput op) h).tensorAt x).source = (h.tensorAt x).source) ∧
      (∀ x Q, Q ∈ ((I.foldl (connectInput op) h).tensorAt x).targets ↔
        Q ∈ (h.tensorAt x).targets ∨ (Q = op ∧ x ∈ I)) ∧
      (∀ P Q, P ∈ ((I.foldl (connectInput op) h).opAt Q).predecessors ↔
        P ∈ (h.opAt Q).predecessors ∨ (Q = op ∧ ∃ t ∈ I, (h.tensorAt t).source = some P)) ∧
      (∀ P Q, Q ∈ ((I.foldl (connectInput op) h).opAt P).successors ↔
        Q ∈ (h.opAt P).successors ∨ (Q = op ∧ ∃ t ∈ I, (h.tensorAt t).source = some P)) := by
  intro I
  induction I with
  | nil => intro h; simp [SameFrame.frame_refl]
  | cons t rest ih =>
    intro h
    rw [List.foldl_cons]
    obtain ⟨f, src, tg, p, q⟩ := ih (connectInput op h t)
    obtain ⟨f1, src1, tg1, p1, q1⟩ := connectInput_spec op h t
    refine ⟨f.frame_trans f1, fun x => (src x).trans (src1 x), ?_, ?_, ?_⟩
    · intro x Q
      rw [tg, tg1]
      simp only [List.mem_cons]
      tauto
    · intro P Q
      rw [p, p1]
      simp only [src1, List.mem_cons, exists_eq_or_imp]
      tauto
    · intro P Q
      rw [q, q1]
      simp only [src1, List.mem_cons, exists_eq_or_imp]
      tauto

theorem GraphObj.addOperatorAndConnect_spec (g : GraphObj) (op : Nat) :
    (g.addOperatorAndConnect op).ops = g.ops ++ [op] ∧
    (∀ x, ((g.addOperatorAndConnect op).opAt x).inputs = (g.opAt x).inputs ∧
      ((g.addOperatorAndConnect op).opAt x).outputs = (g.opAt x).outputs) ∧
    (∀ x, (x ∈ (g.opAt op).outputs →
        ((g.addOperatorAndConnect op).tensorAt x).source = some op) ∧
      (x ∉ (g.opAt op).outputs →
        ((g.addOperatorAndConnect op).tensorAt x).source = (g.tensorAt x).source)) ∧
    (∀ x Q, Q ∈ ((g.addOperatorAndConnect op).tensorAt x).targets ↔
      Q ∈ (g.tensorAt x).targets ∨ (Q = op ∧ x ∈ (g.opAt op).inputs)) ∧
    (∀ P Q, P ∈ ((g.addOperatorAndConnect op).opAt Q).predecessors ↔
      P ∈ (g.opAt Q).predecessors ∨
        (Q = op ∧ ∃ t ∈ (g.opAt op).inputs, (g.tensorAt t).source = some P) ∨
        (P = op ∧ ∃ t ∈ (g.opAt op).outputs,
          Q ∈ (g.tensorAt t).targets ∨ (Q = op ∧ t ∈ (g.opAt op).inputs))) ∧
    (∀ P Q, Q ∈ ((g.addOperatorAndConnect op).opAt P).successors ↔
      Q ∈ (g.opAt P).successors ∨
        (Q = op ∧ ∃ t ∈ (g.opAt op).inputs, (g.tensorAt t).source = some P) ∨
        (P = op ∧ ∃ t ∈ (g.opAt op).outputs,
          Q ∈ (g.tensorAt t).targets ∨ (Q = op ∧ t ∈ (g.opAt op).inputs))) := by
  obtain ⟨g0, hg0⟩ : ∃ g0 : GraphObj, g0 = { g with sorted := false, ops := g.ops ++ [op] } :=
    ⟨_, rfl⟩
  have hdef : g.addOperatorAndConnect op =
      List.foldl (connectOutput op) (List.foldl (connectInput op) g0 (g0.opAt op).inputs)
        ((List.foldl (connectInput op) g0 (g0.opAt op).inputs).opAt op).outputs := by
    rw [hg0]
    rfl
  rw [hdef]
  have e1 : g0.opAt = g.opAt := by rw [hg0]
  have e2 : g0.tensorAt = g.tensorAt := by rw [hg0]
  have e3 : g0.ops = g.ops ++ [op] := by rw [hg0]
  clear hdef hg0
  obtain ⟨f1, src1, tg1, p1, q1⟩ := connectInput_fold op (g0.opAt op).inputs g0
  generalize List.foldl (connectInput op) g0 (g0.opAt op).inputs = g1 at f1 src1 tg1 p1 q1 ⊢
  obtain ⟨f2, tg2, src2, p2, q2⟩ := connectOutput_fold op (g1.opAt op).outputs g1
  have ho : (g1.opAt op).outputs = (g.opAt op).outputs := by rw [(f1.2 op).2, e1]
  rw [ho] at f2 tg2 src2 p2 q2 ⊢
  rw [e1] at p1 q1 tg1
  rw [e2] at src1 tg1 p1 q1
  refine ⟨?_, ?_, ?_, ?_, ?_, ?_⟩
  · rw [f2.1, f1.1, e3]
  · intro x
    rw [(f2.2 x).1, (f2.2 x).2, (f1.2 x).1, (f1.2 x).2, e1]
    exact ⟨rfl, rfl⟩
  · intro x
    refine ⟨(src2 x).1, fun hx => ?_⟩
    rw [(src2 x).2 hx, src1]
  · intro x Q
    rw [tg2, tg1]
  · intro P Q
    rw [p2, p1, or_assoc]
    simp only [tg1]
  · intro P Q
    rw [q2, q1, or_assoc]
    simp only [tg1]

theorem EdgesDerived.step {g g0 : GraphObj} {done : List Nat} (h : EdgesDerived g g0 done)
    (op : Nat)
    (huniq : ∀ p ∈ done, ∀ t, t ∈ (g0.opAt p).outputs → t ∈ (g0.opAt op).outputs → p = op) :
    EdgesDerived (g.addOperatorAndConnect op) g0 (done ++ [op]) := by
  obtain ⟨s1, s2, s3, s4, s5, s6⟩ := GraphObj.addOperatorAndConnect_spec g op
  have hin : ∀ x, (g.opAt x).inputs = (g0.opAt x).inputs := fun x => (h.frame.2 x).1
  have hout : ∀ x, (g.opAt x).outputs = (g0.opAt x).outputs := fun x => (h.frame.2 x).2
  have hops : g.ops = done := h.frame.1
  simp only [hin, hout] at s3 s4 s5 s6
  refine ⟨⟨?_, fun x => ?_⟩, ?_, ?_, ?_, ?_⟩
  · rw [s1, hops]
  · rw [(s2 x).1, (s2 x).2, hin, hout]
    exact ⟨rfl, rfl⟩
  · intro t P
    by_cases ht : t ∈ (g0.opAt op).outputs
    · rw [(s3 t).1 ht]
      simp only [Option.some.injEq, List.mem_append, List.mem_singleton]
      constructor
      · intro e
        rw [← e]
        exact ⟨Or.inr rfl, ht⟩
      · rintro ⟨hP | hP, hPt⟩
        · exact (huniq P hP t hPt ht).symm
        · exact hP.symm
    · rw [(s3 t).2 ht, h.src]
      simp only [List.mem_append, List.mem_singleton]
      constructor
      · rintro ⟨hP, hPt⟩
        exact ⟨Or.inl hP, hPt⟩
      · rintro ⟨hP | hP, hPt⟩
        · exact ⟨hP, hPt⟩
        · rw [hP] at hPt
          exact absurd hPt ht
  · intro t Q
    rw [s4, h.tgt]
    simp only [List.mem_append, List.mem_singleton]
    constructor
    · rintro (⟨hQ, hQt⟩ | ⟨hQ, hQt⟩)
      · exact ⟨Or.inl hQ, hQt⟩
      · rw [hQ]
        exact ⟨Or.inr rfl, hQt⟩
    · rintro ⟨hQ | hQ, hQt⟩
      · exact Or.inl ⟨hQ, hQt⟩
      · rw [hQ] at hQt
        exact Or.inr ⟨hQ, hQt⟩
  · intro P Q
    rw [s5, h.pred]
    simp only [h.src, h.tgt, List.mem_append, List.mem_singleton, Feeds]
    constructor
    · rintro (⟨hP, hQ, t, ht1, ht2⟩ | ⟨hQ, t, ht, hP, hPt⟩ | ⟨hP, t, ht, ⟨hQ, hQt⟩ | ⟨hQ, hQt⟩⟩)
      · exact ⟨Or.inl hP, Or.inl hQ, t, ht1, ht2⟩
      · rw [hQ]
        exact ⟨Or.inl hP, Or.inr rfl, t, hPt, ht⟩
      · rw [hP]
        exact ⟨Or.inr rfl, Or.inl hQ, t, ht, hQt⟩
      · rw [hP, hQ]
        exact ⟨Or.inr rfl, Or.inr rfl, t, ht, hQt⟩
    · rintro ⟨hP | hP, hQ | hQ, t, ht1, ht2⟩
      · exact Or.inl ⟨hP, hQ, t, ht1, ht2⟩
      · rw [hQ] at ht2
        exact Or.inr (Or.inl ⟨hQ, t, ht2, hP, ht1⟩)
      · rw [hP] at ht1
        exact Or.inr (Or.inr ⟨hP, t, ht1, Or.inl ⟨hQ, ht2⟩⟩)
      · rw [hP] at ht1
        rw [hQ] at ht2
        exact Or.inr (Or.inr ⟨hP, t, ht1, Or.inr ⟨hQ, ht2⟩⟩)
  · intro P Q
    rw [s6, h.succ]
    simp only [h.src, h.tgt, List.mem_append, List.mem_singleton, Feeds]
    constructor
    · rintro (⟨hP, hQ, t, ht1, ht2⟩ | ⟨hQ, t, ht, hP, hPt⟩ | ⟨hP, t, ht, ⟨hQ, hQt⟩ | ⟨hQ, hQt⟩⟩)
      · exact ⟨Or.inl hP, Or.inl hQ, t, ht1, ht2⟩
      · rw [hQ]
        exact ⟨Or.inl hP, Or.inr rfl, t, hPt, ht⟩
      · rw [hP]
        exact ⟨Or.inr rfl, Or.inl hQ, t, ht, hQt⟩
      · rw [hP, hQ]
        exact ⟨Or.inr rfl, Or.inr rfl, t, ht, hQt⟩
    · rintro ⟨hP | hP, hQ | hQ, t, ht1, ht2⟩
      · exact Or.inl ⟨hP, hQ, t, ht1, ht2⟩
      · rw [hQ] at ht2
        exact Or.inr (Or.inl ⟨hQ, t, ht2, hP, ht1⟩)
      · rw [hP] at ht1
        exact Or.inr (Or.inr ⟨hP, t, ht1, Or.inl ⟨hQ, ht2⟩⟩)
      · rw [hP] at ht1
        rw [hQ] at ht2
        exact Or.inr (Or.inr ⟨hP, t, ht1, Or.inr ⟨hQ, ht2⟩⟩)

theorem EdgesDerived.of_unconnected (g0 : GraphObj) (h0 : Unconnected g0) :
    EdgesDerived g0 g0 [] := by
  obtain ⟨hops, ht, ho⟩ := h0
  refine ⟨⟨hops, fun _ => ⟨rfl, rfl⟩⟩, ?_, ?_, ?_, ?_⟩
  · intro t P
    rw [(ht t).1]
    simp
  · intro t Q
    rw [(ht t).2]
    simp
  · intro P Q
    rw [(ho Q).1]
    simp
  · intro P Q
    rw [(ho P).2]
    simp

theorem EdgesDerived.fold (g0 : GraphObj) :
    ∀ (l done : List Nat) (g : GraphObj), EdgesDerived g g0 done →
      (∀ p ∈ done ++ l, ∀ q ∈ done ++ l, ∀ t, t ∈ (g0.opAt p).outputs →
        t ∈ (g0.opAt q).outputs → p = q) →
      EdgesDerived (l.foldl GraphObj.addOperatorAndConnect g) g0 (done ++ l) := by
  intro l
  induction l with
  | nil =>
    intro done g h _
    rw [List.append_nil]
    exact h
  | cons op rest ih =>
    intro done g h hu
    rw [List.foldl_cons]
    have e : done ++ op :: rest = (done ++ [op]) ++ rest := by simp
    rw [e] at hu ⊢
    apply ih (done ++ [op]) _ _ hu
    apply h.step op
    intro p hp t h1 h2
    exact hu p (List.mem_append_left _ (List.mem_append_left _ hp)) op
      (List.mem_append_left _ (List.mem_append_right _ (List.mem_singleton_self _))) t h1 h2

/-- Claim C17: starting from a graph without operators whose tensors and
operators are unconnected, after the calls of `addOperatorAndConnect` for the
operators `l`, no tensor being an output of two of them, the graph lists the
operators `l`; `P` is a predecessor of `Q`, and `Q` a successor of `P`, exactly
when both are operators of the graph and some output of `P` is an input of
`Q`; the source of a tensor is the operator of the graph that has it as an
output, and its targets are the operators of the graph that have it as an
input. -/
theorem addOperatorAndConnect_derives_edges (g0 : GraphObj) (l : List Nat)
    (h0 : Unconnected g0)
    (huniq : ∀ p ∈ l, ∀ q ∈ l, ∀ t, t ∈ (g0.opAt p).outputs → t ∈ (g0.opAt q).outputs → p = q) :
    ∃ g, g = l.foldl GraphObj.addOperatorAndConnect g0 ∧ g.ops = l ∧
      (∀ P Q, P ∈ (g.opAt Q).predecessors ↔ P ∈ g.ops ∧ Q ∈ g.ops ∧ Feeds g P Q) ∧
      (∀ P Q, Q ∈ (g.opAt P).successors ↔ P ∈ g.ops ∧ Q ∈ g.ops ∧ Feeds g P Q) ∧
      (∀ t P, (g.tensorAt t).source = some P ↔ P ∈ g.ops ∧ t ∈ (g.opAt P).outputs) ∧
      (∀ t Q, Q ∈ (g.tensorAt t).targets ↔ Q ∈ g.ops ∧ t ∈ (g.opAt Q).inputs) := by
  have h := EdgesDerived.fold g0 l [] g0 (EdgesDerived.of_unconnected g0 h0)
    (by simpa using huniq)
  rw [List.nil_append] at h
  refine ⟨_, rfl, h.frame.1, ?_, ?_, ?_, ?_⟩
  · intro P Q
    rw [h.pred, h.frame.1]
    simp only [Feeds, (h.frame.2 _).1, (h.frame.2 _).2]
  · intro P Q
    rw [h.succ, h.frame.1]
    simp only [Feeds, (h.frame.2 _).1, (h.frame.2 _).2]
  · intro t P
    rw [h.src, h.frame.1, (h.frame.2 P).2]
  · intro t Q
    rw [h.tgt, h.frame.1, (h.frame.2 Q).1]

theorem looseGraph_unconnected : Unconnected looseGraph := by
  refine ⟨rfl, fun _ => ⟨rfl, rfl⟩, fun o => ?_⟩
  unfold looseGraph plainOp
  simp only
  split_ifs <;> exact ⟨rfl, rfl⟩

/-- Witness of `addOperatorAndConnect_derives_edges`: the consumer (operator
1) is added before the producer (operator 0) of its input tensor 1. -/
theorem addOperatorAndConnect_derives_edges_witness :
    ∃ g, g = [1, 0].foldl GraphObj.addOperatorAndConnect looseGraph ∧ g.ops = [1, 0] ∧
      (∀ P Q, P ∈ (g.opAt Q).predecessors ↔ P ∈ g.ops ∧ Q ∈ g.ops ∧ Feeds g P Q) ∧
      (∀ P Q, Q ∈ (g.opAt P).successors ↔ P ∈ g.ops ∧ Q ∈ g.ops ∧ Feeds g P Q) ∧
      (∀ t P, (g.tensorAt t).source = some P ↔ P ∈ g.ops ∧ t ∈ (g.opAt P).outputs) ∧
      (∀ t Q, Q ∈ (g.tensorAt t).targets ↔ Q ∈ g.ops ∧ t ∈ (g.opAt Q).inputs) :=
  addOperatorAndConnect_derives_edges looseGraph [1, 0] looseGraph_unconnected (by
    intro p hp q hq t h1 h2
    have hp' : p = 1 ∨ p = 0 := by simpa using hp
    have hq' : q = 1 ∨ q = 0 := by simpa using hq
    rcases hp' with e | e <;> rcases hq' with f | f <;> subst e <;> subst f <;>
      simp [looseGraph, plainOp] at h1 h2 ⊢ <;> omega)

theorem SameButShapes.shapes_refl (g : GraphObj) : SameButShapes g g :=
  ⟨rfl, rfl, rfl, fun _ => ⟨rfl, rfl, rfl⟩⟩

theorem SameButShapes.shapes_trans {a b c : GraphObj} (h1 : SameButShapes a b)
    (h2 : SameButShapes b c) : SameButShapes a c :=
  ⟨h2.1.trans h1.1, h2.2.1.trans h1.2.1, h2.2.2.1.trans h1.2.2.1, fun t =>
    ⟨(h2.2.2.2 t).1.trans (h1.2.2.2 t).1, (h2.2.2.2 t).2.1.trans (h1.2.2.2 t).2.1,
      (h2.2.2.2 t).2.2.trans (h1.2.2.2 t).2.2⟩⟩

theorem SameButShapes.setShape (bytesOf : TensorObj → Shape → Nat) (g : GraphObj) (t : Nat)
    (s : Shape) : SameButShapes g (g.setShape bytesOf t s) := by
  refine ⟨rfl, rfl, rfl, fun x => ?_⟩
  simp only [GraphObj.setShape, GraphObj.setTensor]
  split_ifs with hx
  · rw [hx]
    exact ⟨rfl, rfl, rfl⟩
  · exact ⟨rfl, rfl, rfl⟩

theorem ShapeReady.transfer {g h : GraphObj} (hr : ShapeReady g) (hs : SameButShapes g h) :
    ShapeReady h := by
  obtain ⟨e1, e2, e3, e4⟩ := hs
  refine ⟨?_, ?_, ?_, ?_, ?_, ?_⟩
  · intro t1 h1 t2 h2 hf
    rw [e2] at h1 h2
    rw [(e4 t1).1, (e4 t2).1] at hf
    exact hr.fuid_unique t1 h1 t2 h2 hf
  · intro op hop t ht
    rw [e1] at hop
    rw [e3] at ht
    rw [e2]
    exact hr.out_mem op hop t ht
  · intro op hop t ht
    rw [e1] at hop
    rw [e3] at ht
    rw [(e4 t).2.1]
    exact hr.out_source op hop t ht
  · intro op hop
    rw [e1] at hop
    rw [e3]
    exact hr.out_nodup op hop
  · rw [e1]
    exact hr.ops_nodup
  · rw [e1]
    intro pre op post hsplit t ht p hp
    rw [e3] at ht
    rw [(e4 t).2.1] at hp
    exact hr.ordered pre op post hsplit t ht p hp

theorem GraphObj.getTensor_of_mem (g : GraphObj)
    (hu : ∀ t1 ∈ g.tensors, ∀ t2 ∈ g.tensors,
      (g.tensorAt t1).fuid = (g.tensorAt t2).fuid → t1 = t2)
    (t : Nat) (ht : t ∈ g.tensors) : g.getTensor (g.tensorAt t).fuid = some t := by
  unfold GraphObj.getTensor
  cases hf : g.tensors.find? (fun x => decide ((g.tensorAt x).fuid = (g.tensorAt t).fuid)) with
  | none =>
    rw [List.find?_eq_none] at hf
    have := hf t ht
    simp at this
  | some x =>
    have hx := List.find?_some hf
    have hm := List.mem_of_find?_eq_some hf
    simp only [decide_eq_true_eq] at hx
    rw [hu x hm t ht hx]

theorem setShape_shape_self (bytesOf : TensorObj → Shape → Nat) (g : GraphObj) (t : Nat)
    (s : Shape) : ((g.setShape bytesOf t s).tensorAt t).shape = s := by
  simp [GraphObj.setShape, GraphObj.setTensor]

theorem setShape_shape_ne (bytesOf : TensorObj → Shape → Nat) (g : GraphObj) (t x : Nat)
    (s : Shape) (h : x ≠ t) :
    ((g.setShape bytesOf t s).tensorAt x).shape = (g.tensorAt x).shape := by
  simp [GraphObj.setShape, GraphObj.setTensor, h]

/-- The inner loop of `shape_infer` returns, and writes the shape of every
pair to its tensor, when the tensors of the pairs are distinct tensors of the
graph and the Fuids are unique. -/
theorem rewriteShapes_spec (bytesOf : TensorObj → Shape → Nat) :
    ∀ (pairs : List (Shape × Nat)) (g : GraphObj),
      (∀ t1 ∈ g.tensors, ∀ t2 ∈ g.tensors,
        (g.tensorAt t1).fuid = (g.tensorAt t2).fuid → t1 = t2) →
      (pairs.map fun p => p.2).Nodup → (∀ p ∈ pairs, p.2 ∈ g.tensors) →
      ∃ g1, rewriteShapes bytesOf pairs g = some g1 ∧ SameButShapes g g1 ∧
        (∀ p ∈ pairs, (g1.tensorAt p.2).shape = p.1) ∧
        (∀ t, t ∉ pairs.map (fun p => p.2) → (g1.tensorAt t).shape = (g.tensorAt t).shape) := by
  intro pairs
  induction pairs with
  | nil =>
    intro g _ _ _
    exact ⟨g, rfl, SameButShapes.shapes_refl g, fun p hp => (by cases hp), fun _ _ => rfl⟩
  | cons p rest ih =>
    intro g hu hnd hmem
    obtain ⟨newShape, out⟩ := p
    have hnd' := List.nodup_cons.1 (by simpa using hnd : (out :: rest.map fun p => p.2).Nodup)
    have hout : out ∈ g.tensors := hmem (newShape, out) (List.mem_cons_self _ _)
    simp only [rewriteShapes]
    by_cases hne : newShape ≠ (g.tensorAt out).shape
    · rw [if_pos hne, g.getTensor_of_mem hu out hout]
      simp only
      have hs := SameButShapes.setShape bytesOf g out newShape
      obtain ⟨g1, e1, e2, e3, e4⟩ := ih (g.setShape bytesOf out newShape)
        (by
          intro t1 h1 t2 h2 hf
          rw [(hs.2.2.2 t1).1, (hs.2.2.2 t2).1] at hf
          exact hu t1 h1 t2 h2 hf)
        hnd'.2 (fun q hq => hmem q (List.mem_cons_of_mem _ hq))
      refine ⟨g1, e1, hs.shapes_trans e2, ?_, ?_⟩
      · intro q hq
        rcases List.mem_cons.1 hq with e | e
        · rw [e]
          simp only
          rw [e4 out hnd'.1]
          exact setShape_shape_self bytesOf g out newShape
        · exact e3 q e
      · intro t ht
        simp only [List.map_cons, List.mem_cons, not_or] at ht
        rw [e4 t ht.2]
        exact setShape_shape_ne bytesOf g out t newShape ht.1
    · rw [if_neg hne]
      obtain ⟨g1, e1, e2, e3, e4⟩ := ih g hu hnd'.2
        (fun q hq => hmem q (List.mem_cons_of_mem _ hq))
      refine ⟨g1, e1, e2, ?_, ?_⟩
      · intro q hq
        rcases List.mem_cons.1 hq with e | e
        · rw [e]
          simp only
          rw [e4 out hnd'.1]
          simp only [ne_eq, not_not] at hne
          exact hne.symm
        · exact e3 q e
      · intro t ht
        simp only [List.map_cons, List.mem_cons, not_or] at ht
        exact e4 t ht.2

theorem GraphObj.inferShapeOp_congr (infer : OperatorObj → List Shape → Option (List Shape))
    (g h : GraphObj) (op : Nat) (ho : h.opAt = g.opAt)
    (hs : ∀ t ∈ (g.opAt op).inputs, (h.tensorAt t).shape = (g.tensorAt t).shape) :
    h.inferShapeOp infer op = g.inferShapeOp infer op := by
  unfold GraphObj.inferShapeOp
  rw [ho]
  congr 1
  exact List.map_congr_left hs

/-- One iteration of the loop of `shape_infer`, when it does not fail: the
outputs of the operator have the inferred shapes, and no other shape has
changed. -/
theorem shapeInferOp_spec (infer : OperatorObj → List Shape → Option (List Shape))
    (bytesOf : TensorObj → Shape → Nat) (g g1 : GraphObj) (op : Nat) (hr : ShapeReady g)
    (hop : op ∈ g.ops) (h : shapeInferOp infer bytesOf g op = some g1) :
    SameButShapes g g1 ∧
      g.inferShapeOp infer op = some ((g.opAt op).outputs.map fun t => (g1.tensorAt t).shape) ∧
      (∀ t, t ∉ (g.opAt op).outputs → (g1.tensorAt t).shape = (g.tensorAt t).shape) := by
  unfold shapeInferOp at h
  cases hans : g.inferShapeOp infer op with
  | none => rw [hans] at h; cases h
  | some ans =>
    rw [hans] at h
    simp only at h
    split_ifs at h with hlen
    have hsnd : (ans.zip (g.opAt op).outputs).map (fun p => p.2) = (g.opAt op).outputs := by
      rw [← List.unzip_snd, List.unzip_zip_right (le_of_eq hlen.symm)]
    have hfst : (ans.zip (g.opAt op).outputs).map (fun p => p.1) = ans := by
      rw [← List.unzip_fst, List.unzip_zip_left (le_of_eq hlen)]
    obtain ⟨g2, e1, e2, e3, e4⟩ := rewriteShapes_spec bytesOf (ans.zip (g.opAt op).outputs) g
      hr.fuid_unique (by rw [hsnd]; exact hr.out_nodup op hop)
      (by
        intro p hp
        apply hr.out_mem op hop
        rw [← hsnd]
        exact List.mem_map_of_mem _ hp)
    rw [e1] at h
    simp only [Option.some.injEq] at h
    subst h
    refine ⟨e2, ?_, ?_⟩
    · congr 1
      rw [← hsnd, List.map_map]
      conv_lhs => rw [← hfst]
      apply List.map_congr_left
      intro p hp
      exact (e3 p hp).symm
    · intro t ht
      exact e4 t (by rw [hsnd]; exact ht)

/-- In a topological order no operator consumes an output of itself or of an
operator listed after it. -/
theorem ShapeReady.input_not_later_output {g : GraphObj} (hr : ShapeReady g)
    (done rest : List Nat) (op : Nat) (hsplit : g.ops = done ++ op :: rest) (op' : Nat)
    (hop' : op' ∈ done ++ [op]) (t : Nat) (ht : t ∈ (g.opAt op').inputs) :
    t ∉ (g.opAt op).outputs := by
  intro hout
  have hop : op ∈ g.ops := by
    rw [hsplit]
    exact List.mem_append_right _ (List.mem_cons_self _ _)
  have hsrc := hr.out_source op hop t hout
  have hnd := hr.ops_nodup
  rw [hsplit] at hnd
  have hnotin : op ∉ done := by
    intro hc
    exact (List.nodup_append.1 hnd).2.2 hc (List.mem_cons_self _ _)
  rcases List.mem_append.1 hop' with e | e
  · obtain ⟨d1, d2, hd⟩ := List.append_of_mem e
    have hs2 : g.ops = d1 ++ op' :: (d2 ++ op :: rest) := by
      rw [hsplit, hd]
      simp
    have := hr.ordered d1 op' (d2 ++ op :: rest) hs2 t ht op hsrc
    apply hnotin
    rw [hd]
    exact List.mem_append_left _ this
  · rw [List.mem_singleton.1 e] at ht
    exact hnotin (hr.ordered done op rest hsplit t ht op hsrc)

theorem shapeInferLoop_spec (infer : OperatorObj → List Shape → Option (List Shape))
    (bytesOf : TensorObj → Shape → Nat) (g0 : GraphObj) (hr : ShapeReady g0) :
    ∀ (rest done : List Nat) (g gF : GraphObj), g0.ops = done ++ rest → SameButShapes g0 g →
      (∀ op ∈ done, g.inferShapeOp infer op =
        some ((g0.opAt op).outputs.map fun t => (g.tensorAt t).shape)) →
      shapeInferLoop infer bytesOf rest g = some gF →
      SameButShapes g0 gF ∧
        ∀ op ∈ g0.ops, gF.inferShapeOp infer op =
          some ((g0.opAt op).outputs.map fun t => (gF.tensorAt t).shape) := by
  intro rest
  induction rest with
  | nil =>
    intro done g gF hsplit hs hdone hrun
    simp only [shapeInferLoop, Option.some.injEq] at hrun
    subst hrun
    rw [List.append_nil] at hsplit
    rw [hsplit]
    exact ⟨hs, hdone⟩
  | cons op rest ih =>
    intro done g gF hsplit hs hdone hrun
    simp only [shapeInferLoop] at hrun
    cases hstep : shapeInferOp infer bytesOf g op with
    | none => rw [hstep] at hrun; cases hrun
    | some g1 =>
      rw [hstep] at hrun
      simp only at hrun
      have hrg : ShapeReady g := hr.transfer hs
      have hopsg : g.ops = done ++ op :: rest := by rw [hs.1, hsplit]
      have hop : op ∈ g.ops := by
        rw [hopsg]
        exact List.mem_append_right _ (List.mem_cons_self _ _)
      have hoA : g.opAt = g0.opAt := hs.2.2.1
      obtain ⟨s1, s2, s3⟩ := shapeInferOp_spec infer bytesOf g g1 op hrg hop hstep
      have hnotin : op ∉ done := by
        have hnd := hrg.ops_nodup
        rw [hopsg] at hnd
        intro hc
        exact (List.nodup_append.1 hnd).2.2 hc (List.mem_cons_self _ _)
      apply ih (done ++ [op]) g1 gF (by rw [hsplit]; simp) (hs.shapes_trans s1) _ hrun
      intro op' hop'
      have hin : ∀ t ∈ (g.opAt op').inputs, (g1.tensorAt t).shape = (g.tensorAt t).shape :=
        fun t ht => s3 t (hrg.input_not_later_output done rest op hopsg op' hop' t ht)
      rw [GraphObj.inferShapeOp_congr infer g g1 op' s1.2.2.1 hin]
      rcases List.mem_append.1 hop' with e | e
      · rw [hdone op' e]
        congr 1
        apply List.map_congr_left
        intro t ht
        symm
        apply s3
        intro hc
        have h1 := hrg.out_source op hop t hc
        have hop'g : op' ∈ g.ops := by
          rw [hopsg]
          exact List.mem_append_left _ e
        rw [← hoA] at ht
        have h2 := hrg.out_source op' hop'g t ht
        rw [h1] at h2
        simp only [Option.some.injEq] at h2
        rw [h2] at hnotin
        exact hnotin e
      · rw [List.mem_singleton.1 e, s2, hoA]

/-- Claim C19: on a graph that is ready for shape inference (unique Fuids,
every output a tensor of the graph with that operator as its source, operators
distinct and in topological order), when `shape_infer` completes, every
operator's inference function, applied to the shapes that its input tensors
have at the end of the pass, returns the shapes that its output tensors have
at the end of the pass; nothing but shapes and byte sizes has changed. -/
theorem shape_infer_outputs_match (infer : OperatorObj → List Shape → Option (List Shape))
    (bytesOf : TensorObj → Shape → Nat) (g g1 : GraphObj) (hr : ShapeReady g)
    (hrun : g.shape_infer infer bytesOf = some g1) :
    SameButShapes g g1 ∧
      ∀ op ∈ g.ops, g1.inferShapeOp infer op =
        some ((g1.opAt op).outputs.map fun t => (g1.tensorAt t).shape) := by
  obtain ⟨h1, h2⟩ := shapeInferLoop_spec infer bytesOf g hr g.ops [] g g1 rfl
    (SameButShapes.shapes_refl g) (fun op hop => by cases hop) hrun
  refine ⟨h1, fun op hop => ?_⟩
  rw [h2 op hop, h1.2.2.1]

/-- On a graph that is ready for shape inference, an iteration of the loop of
`shape_infer` fails only when the inference of the operator fails or returns a
number of shapes other than the number of outputs. -/
theorem shapeInferOp_eq_none_iff (infer : OperatorObj → List Shape → Option (List Shape))
    (bytesOf : TensorObj → Shape → Nat) (g : GraphObj) (op : Nat) (hr : ShapeReady g)
    (hop : op ∈ g.ops) :
    shapeInferOp infer bytesOf g op = none ↔
      g.inferShapeOp infer op = none ∨
        ∃ ans, g.inferShapeOp infer op = some ans ∧ ans.length ≠ (g.opAt op).outputs.length := by
  unfold shapeInferOp
  cases hans : g.inferShapeOp infer op with
  | none => simp
  | some ans =>
    simp only [false_or, Option.some.injEq, exists_eq_left']
    by_cases hlen : ans.length = (g.opAt op).outputs.length
    · rw [if_pos hlen]
      have hsnd : (ans.zip (g.opAt op).outputs).map (fun p => p.2) = (g.opAt op).outputs := by
        rw [← List.unzip_snd, List.unzip_zip_right (le_of_eq hlen.symm)]
      obtain ⟨g2, e1, _⟩ := rewriteShapes_spec bytesOf (ans.zip (g.opAt op).outputs) g
        hr.fuid_unique (by rw [hsnd]; exact hr.out_nodup op hop)
        (by
          intro p hp
          apply hr.out_mem op hop
          rw [← hsnd]
          exact List.mem_map_of_mem _ hp)
      rw [e1]
      simp [hlen]
    · rw [if_neg hlen]
      simp [hlen]

theorem staleShapesGraph_ready : ShapeReady staleShapesGraph := by
  refine ⟨by decide, by decide, by decide, by decide, by decide, ?_⟩
  have h0 : ProducersFirst staleShapesGraph ([] ++ [0]) :=
    producersFirst_snoc _ [] 0 (producersFirst_nil _) (by
      intro t ht p hp
      simp [staleShapesGraph] at ht
      subst ht
      simp [staleShapesGraph] at hp)
  exact producersFirst_snoc _ _ 1 h0 (by
    intro t ht p hp
    simp [staleShapesGraph] at ht
    rcases ht with e | e <;> subst e <;> simp [staleShapesGraph] at hp
    subst hp
    simp)

/-- Witness of `shape_infer_outputs_match`: in `staleShapesGraph` the pass
writes the shape `[3, 2]` to the output of the Transpose and then `[3, 5]` to
the output of the Matmul, which consumes it. -/
theorem shape_infer_outputs_match_witness :
    SameButShapes staleShapesGraph inferredShapesGraph ∧
      ∀ op ∈ staleShapesGraph.ops, inferredShapesGraph.inferShapeOp noOtherInfer op =
        some ((inferredShapesGraph.opAt op).outputs.map fun t =>
          (inferredShapesGraph.tensorAt t).shape) :=
  shape_infer_outputs_match noOtherInfer eightBytesPerElement staleShapesGraph
    inferredShapesGraph staleShapesGraph_ready rfl

/-! ### The free map holds no adjacent and no overlapping blocks -/

/-- Claim C21 (amended): for every sequence of `alloc` and `free` calls on a
fresh allocator in which each `free` releases one outstanding region, no
assertion fails, and the aligned sizes of the `alloc` calls sum to less than
`2 ^ 64`, any two free blocks `[s1, s1 + n1)` and `[s2, s2 + n2)` with
`s1 < s2` satisfy `s1 + n1 < s2`, and the keys of the map are pairwise
different.  The statement holds after every call, a prefix of such a sequence
being such a sequence. -/
theorem free_blocks_never_adjacent_or_overlapping (calls : List AllocCall) (s : AllocSim)
    (hrun : AllocSim.fresh.run calls = some s)
    (hfit : totalRequested Allocator.init calls < sizeModulus) :
    (∀ e ∈ s.a.freeBlocks, ∀ d ∈ s.a.freeBlocks, e.1 < d.1 → e.1 + e.2 < d.1) ∧
      ∀ e ∈ s.a.freeBlocks, ∀ d ∈ s.a.freeBlocks, e.1 = d.1 → e = d := by
  obtain ⟨hi, _, _⟩ := AllocSim.run_inv calls s hrun hfit
  have hc := AllocSim.run_coalesced calls s hrun hfit
  refine ⟨?_, fun e he d hd h => keysSorted_key_unique _ hi.sorted e d he hd h⟩
  intro e he d hd hlt
  have hadj := hc.non_adj e he d hd
  have hpos := hi.pos d hd
  by_contra hcon
  have hin1 : inRegion e d.1 := ⟨le_of_lt hlt, by omega⟩
  have hin2 : inRegion d d.1 := ⟨le_refl _, by omega⟩
  have hne : e ≠ d := fun h => by rw [h] at hlt; omega
  have hdis := hi.tiles.1
  rw [List.pairwise_append] at hdis
  have hpw := hdis.2.1
  have hsym : ∀ r1 r2 : Nat × Nat, regionsDisjoint r1 r2 → regionsDisjoint r2 r1 :=
    fun r1 r2 h x hx => h x ⟨hx.2, hx.1⟩
  exact List.Pairwise.forall (fun r1 r2 h => hsym r1 r2 h) hpw he hd hne d.1 ⟨hin1, hin2⟩

/-- Witness of `free_blocks_never_adjacent_or_overlapping`: after three
allocations the two lower regions are freed and coalesce into one block. -/
theorem free_blocks_never_adjacent_or_overlapping_witness :
    (∀ e ∈ ([(0, 16)] : FreeBlocks), ∀ d ∈ ([(0, 16)] : FreeBlocks),
        e.1 < d.1 → e.1 + e.2 < d.1) ∧
      ∀ e ∈ ([(0, 16)] : FreeBlocks), ∀ d ∈ ([(0, 16)] : FreeBlocks), e.1 = d.1 → e = d :=
  free_blocks_never_adjacent_or_overlapping
    [.alloc 8, .alloc 5, .alloc 8, .free 0 8, .free 8 5]
    (AllocSim.mk ⟨24, 24, 8, none, [(0, 16)]⟩ [(16, 8)])
    (by decide) (by decide)

/-- Claim C21 fails as stated when `used` wraps around `2 ^ 64`: the second
allocation of the sequence wraps `used` to 16, the later allocations lie over
the first region, and after the two `free` calls, each of an outstanding
region, the map holds the blocks `[0, 2 ^ 64 - 16)` and `[16, 24)`, which
overlap. -/
theorem free_blocks_overlap_on_wraparound :
    AllocSim.fresh.run [.alloc (2 ^ 64 - 16), .alloc 32, .alloc 8, .alloc (2 ^ 64 - 32),
        .free 16 8, .free 0 (2 ^ 64 - 16)]
      = some (AllocSim.mk ⟨2 ^ 64 - 8, 2 ^ 64 - 8, 8, none, [(0, 2 ^ 64 - 16), (16, 8)]⟩
          [(24, 2 ^ 64 - 32), (2 ^ 64 - 16, 32)]) ∧
    ¬ (∀ e ∈ ([(0, 2 ^ 64 - 16), (16, 8)] : FreeBlocks),
        ∀ d ∈ ([(0, 2 ^ 64 - 16), (16, 8)] : FreeBlocks), e.1 < d.1 → e.1 + e.2 < d.1) := by
  refine ⟨by decide, ?_⟩
  intro h
  have := h (0, 2 ^ 64 - 16) (by simp) (16, 8) (by simp) (by norm_num)
  norm_num at this


/-! ### Freeing the tail -/

theorem FreeChain.mono {fb fb1 : FreeBlocks} (hsub : ∀ e ∈ fb, e ∈ fb1) {lo : Nat} :
    ∀ (run : List (Nat × Nat)) (hi : Nat), FreeChain fb lo hi run → FreeChain fb1 lo hi run := by
  intro run
  induction run with
  | nil => intro hi h; exact h
  | cons b rest ih =>
    intro hi h
    exact ⟨hsub b h.1, h.2.1, ih b.1 h.2.2⟩

theorem FreeChain.ends_above {fb : FreeBlocks} {lo : Nat} :
    ∀ (run : List (Nat × Nat)) (hi : Nat), FreeChain fb lo hi run →
      lo ≤ hi ∧ ∀ e ∈ run, lo ≤ e.1 ∧ e.1 + e.2 ≤ hi := by
  intro run
  induction run with
  | nil =>
    intro hi h
    exact ⟨le_of_eq h, fun e he => (by cases he)⟩
  | cons b rest ih =>
    intro hi h
    obtain ⟨h1, h2, h3⟩ := h
    obtain ⟨i1, i2⟩ := ih b.1 h3
    refine ⟨by omega, ?_⟩
    intro e he
    rcases List.mem_cons.1 he with e1 | e1
    · rw [e1]
      exact ⟨i1, le_of_eq h2⟩
    · have := i2 e e1
      omega

/-- The tail loop of `free` erases a chain of free blocks that ends at `used`
and keeps the other blocks. -/
theorem freeShrink_chain (fuel : Nat) :
    ∀ (a : Allocator) (live : List (Nat × Nat)), AllocInv a live →
      a.freeBlocks.length ≤ fuel →
      ∃ run, FreeChain a.freeBlocks (freeShrink fuel a.used a.freeBlocks).1 a.used run ∧
        ∀ e, e ∈ (freeShrink fuel a.used a.freeBlocks).2 ↔ e ∈ a.freeBlocks ∧ e ∉ run := by
  induction fuel with
  | zero =>
    intro a live h hlen
    have : a.freeBlocks = [] := List.length_eq_zero.1 (by omega)
    rw [this]
    exact ⟨[], rfl, fun e => by simp [freeShrink]⟩
  | succ fuel ih =>
    intro a live h hlen
    have hstop : ∃ run, FreeChain a.freeBlocks (a.used, a.freeBlocks).1 a.used run ∧
        ∀ e, e ∈ (a.used, a.freeBlocks).2 ↔ e ∈ a.freeBlocks ∧ e ∉ run :=
      ⟨[], rfl, fun e => by simp⟩
    unfold freeShrink
    split_ifs with hemp
    · exact hstop
    · cases hb : mapBeforeUpperBound a.used a.freeBlocks with
      | none => exact hstop
      | some p =>
        obtain ⟨start, blk⟩ := p
        have hmem := mapBeforeUpperBound_some _ _ _ hb
        have hend := h.region_le (start, blk) (List.mem_append_right _ hmem.1) (h.pos _ hmem.1)
        have hul := h.used_lt
        simp only at hend
        have hmod : (start + blk) % sizeModulus = start + blk := Nat.mod_eq_of_lt (by omega)
        simp only [hmod]
        split_ifs with hne
        · exact hstop
        · have hne' : start + blk = a.used := by
            by_contra hc
            exact hne hc
          have hinv := h.shrink_step (start, blk) hmem.1 hne'
          have hlen' : (mapErase start a.freeBlocks).length < a.freeBlocks.length :=
            mapErase_length_lt _ h.sorted (start, blk) hmem.1
          obtain ⟨run, r1, r2⟩ :=
            ih _ live hinv (by show (mapErase start a.freeBlocks).length ≤ fuel; omega)
          simp only at r1 r2
          refine ⟨(start, blk) :: run, ⟨hmem.1, hne', ?_⟩, ?_⟩
          · exact FreeChain.mono (fun e he => ((mem_mapErase _ _ _).1 he).1) run start r1
          · intro e
            rw [r2 e, mem_mapErase, List.mem_cons, not_or]
            constructor
            · rintro ⟨⟨h1, h2⟩, h3⟩
              exact ⟨h1, ⟨fun hc => h2 (by rw [hc]), h3⟩⟩
            · rintro ⟨h1, h2, h3⟩
              refine ⟨⟨h1, fun hc => h2 ?_⟩, h3⟩
              exact keysSorted_key_unique _ h.sorted e (start, blk) h1 hmem.1 hc

/-- Claim C22: in a state that satisfies the allocator's invariant, let
`free(addr, size)` release an outstanding region whose aligned range ends at
`used`.  The call passes its assertions when the aligned size is positive, and
when it does, there is a chain `run` of free blocks of the old map, the first
ending at `addr`, each further one ending where the one before starts, such
that the new `used` is the start of the last one (`addr` when the chain is
empty); no block of the old map ends at the new `used`, so the chain is
maximal; the new map holds the blocks of the old map that are not in the chain;
no block of the new map ends at the new `used`; and `peak` is unchanged. -/
theorem free_tail_shrinks_through_free_run (a : Allocator) (live : List (Nat × Nat))
    (addr size : Nat) (h : AllocInv a live) (hR : (addr, a.getAlignedSize size) ∈ live)
    (htail : addr + a.getAlignedSize size = a.used) :
    (0 < a.getAlignedSize size → ∃ a1, a.free addr size = some a1) ∧
    ∀ a1, a.free addr size = some a1 →
      ∃ run, FreeChain a.freeBlocks a1.used addr run ∧
        (∀ e ∈ a.freeBlocks, e.1 + e.2 ≠ a1.used) ∧
        (∀ e, e ∈ a1.freeBlocks ↔ e ∈ a.freeBlocks ∧ e ∉ run) ∧
        (∀ e ∈ a1.freeBlocks, e.1 + e.2 ≠ a1.used) ∧ a1.peak = a.peak := by
  refine ⟨fun hpos => Allocator.free_succeeds a live addr size h hR hpos, ?_⟩
  intro a1 hfr
  obtain ⟨hpos, ha1⟩ := Allocator.free_tail_shape a a1 live addr size h hR htail hfr
  have hinv := h.drop_tail addr _ hR hpos htail
  obtain ⟨run, r1, r2⟩ := freeShrink_chain a.freeBlocks.length _ _ hinv (le_refl _)
  have hnt := (freeShrink_no_tail a.freeBlocks.length _ _ hinv (le_refl _)).2
  simp only at r1 r2 hnt
  rw [ha1]
  refine ⟨run, r1, ?_, r2, hnt, rfl⟩
  intro e he heq
  by_cases hrun : e ∈ run
  · have h1 := (FreeChain.ends_above run addr r1).2 e hrun
    have h2 := h.pos e he
    simp only at heq
    omega
  · exact hnt e ((r2 e).2 ⟨he, hrun⟩) heq

/-- Witness of `free_tail_shrinks_through_free_run`: with the regions
`[0, 8)` and `[16, 24)` outstanding and the block `[8, 16)` free, the release
of `[16, 24)` takes `used` from 24 down to 8. -/
theorem free_tail_shrinks_through_free_run_witness :
    (0 < Allocator.getAlignedSize ⟨24, 24, 8, none, [(8, 8)]⟩ 8 →
      ∃ a1, Allocator.free ⟨24, 24, 8, none, [(8, 8)]⟩ 16 8 = some a1) ∧
    ∀ a1, Allocator.free ⟨24, 24, 8, none, [(8, 8)]⟩ 16 8 = some a1 →
      ∃ run, FreeChain [(8, 8)] a1.used 16 run ∧
        (∀ e ∈ ([(8, 8)] : FreeBlocks), e.1 + e.2 ≠ a1.used) ∧
        (∀ e, e ∈ a1.freeBlocks ↔ e ∈ ([(8, 8)] : FreeBlocks) ∧ e ∉ run) ∧
        (∀ e ∈ a1.freeBlocks, e.1 + e.2 ≠ a1.used) ∧ a1.peak = 24 :=
  free_tail_shrinks_through_free_run ⟨24, 24, 8, none, [(8, 8)]⟩ [(16, 8), (0, 8)] 16 8
    (AllocSim.run_inv [.alloc 8, .alloc 8, .alloc 8, .free 8 8]
      (AllocSim.mk ⟨24, 24, 8, none, [(8, 8)]⟩ [(16, 8), (0, 8)]) (by decide) (by decide)).1
    (by decide) (by decide)


/-! ### The inverse check of rule 1 -/

theorem ValidPerm.surjective {p : List Int} {r : Nat} (h : ValidPerm p r) (j : Nat)
    (hj : j < r) : ∃ i : Nat, i < r ∧ p.getD i 0 = (j : Int) := by
  obtain ⟨_, hr, hinj⟩ := h
  let f : Fin r → Fin r := fun i => ⟨(p.getD i.1 0).toNat, by
    have := hr i.1 i.2
    omega⟩
  have hf : Function.Injective f := by
    intro a b hab
    have h1 := hr a.1 a.2
    have h2 := hr b.1 b.2
    have h3 : (p.getD a.1 0).toNat = (p.getD b.1 0).toNat := congrArg Fin.val hab
    exact Fin.ext (hinj a.1 b.1 a.2 b.2 (by omega))
  obtain ⟨i, hi⟩ := (Finite.injective_iff_surjective.1 hf) ⟨j, hj⟩
  refine ⟨i.1, i.2, ?_⟩
  have h1 := hr i.1 i.2
  have h3 : (p.getD i.1 0).toNat = j := congrArg Fin.val hi
  omega

theorem ValidPerm.inverse_of_left {p q : List Int} {r : Nat} (hp : ValidPerm p r)
    (hq : ValidPerm q r) (h : ∀ i : Nat, i < r → q.getD (p.getD i 0).toNat 0 = (i : Int)) :
    InversePerms p q r := by
  refine ⟨hp.1, hq.1, fun i hi => ⟨⟨(hp.2.1 i hi).1, (hp.2.1 i hi).2, h i hi⟩,
    (hq.2.1 i hi).1, (hq.2.1 i hi).2, ?_⟩⟩
  obtain ⟨k, hk, hpk⟩ := hp.surjective i hi
  have := h k hk
  rw [hpk] at this
  simp only [Int.toNat_ofNat] at this
  rw [this]
  simpa using hpk

theorem is_inverse_perm_true_left (p q : List Int) (r : Nat) (hp : ValidPerm p r)
    (h : is_inverse_perm p q r = some true) :
    ∀ i : Nat, i < r → q.getD (p.getD i 0).toNat 0 = (i : Int) := by
  unfold is_inverse_perm at h
  split_ifs at h with hl
  · cases h
  obtain ⟨inv1, h1, _, h3, _⟩ := inversePermLoop_spec p r hp.2.1 hp.2.2 (List.range r)
    (List.replicate r (-1)) (List.nodup_range r) (fun i hi => List.mem_range.1 hi) (by simp)
  rw [h1] at h
  simp only [Option.some.injEq, List.all_eq_true, List.mem_range, beq_iff_eq] at h
  intro i hi
  have hpi := hp.2.1 i hi
  rw [← h (p.getD i 0).toNat (by omega)]
  exact h3 i (List.mem_range.2 hi)

theorem is_inverse_perm_total (p q : List Int) (r : Nat) (hp : ValidPerm p r) :
    ∃ b, is_inverse_perm p q r = some b := by
  unfold is_inverse_perm
  split_ifs with hl
  · exact ⟨_, rfl⟩
  · obtain ⟨inv1, h1, _⟩ := inversePermLoop_spec p r hp.2.1 hp.2.2 (List.range r)
      (List.replicate r (-1)) (List.nodup_range r) (fun i hi => List.mem_range.1 hi) (by simp)
    rw [h1]
    exact ⟨_, rfl⟩

theorem ValidPerm.inferShape {p : List Int} {r : Nat} (hp : ValidPerm p r) (S : Shape)
    (hS : S.length = r) :
    ∃ out, TransposeObj.inferShape p S = some [out] ∧ out.length = r ∧
      ∀ i : Nat, i < r → out.getD i 0 = S.getD (p.getD i 0).toNat 0 := by
  obtain ⟨hl, hrange, hinj⟩ := hp
  have hperm : (if p.isEmpty then
      (List.range S.length).map fun i : Nat => (S.length : Int) - 1 - (i : Int) else p) = p := by
    split_ifs with he
    · have hp0 : p = [] := List.isEmpty_iff.1 he
      rw [hp0] at hl ⊢
      rw [hS, ← hl]
      rfl
    · rfl
  unfold TransposeObj.inferShape
  simp only [hperm]
  rw [if_pos (by rw [hl, hS])]
  obtain ⟨seen1, out1, e1, e2, e3, _⟩ := transposeLoop_total p S S.length
    (List.range S.length) (List.replicate S.length 0) S (by simp) rfl (List.nodup_range _)
    (fun i hi => List.mem_range.1 hi)
    (fun i hi => by rw [hS]; exact hrange i (by rw [← hS]; exact List.mem_range.1 hi))
    (by
      intro i hi
      rw [List.getD_eq_getElem?_getD, List.getElem?_replicate]
      split_ifs <;> rfl)
    (fun i hi j hj heq => hinj i j (by rw [← hS]; exact List.mem_range.1 hi)
      (by rw [← hS]; exact List.mem_range.1 hj) heq)
  rw [e1]
  exact ⟨out1, rfl, by rw [e2, hS], fun i hi => e3 i (List.mem_range.2 (by rw [hS]; exact hi))⟩

theorem shape_ext_getD (A B : Shape) (hl : A.length = B.length)
    (h : ∀ i : Nat, i < A.length → A.getD i 0 = B.getD i 0) : A = B := by
  apply List.ext_getElem hl
  intro i h1 h2
  have := h i h1
  rw [List.getD_eq_getElem _ _ h1, List.getD_eq_getElem _ _ h2] at this
  exact this

/-- Claim C25: for permutations `p` and `q` of `[0, r)`, the inverse check of
rule 1 returns a value (its assertion does not fail), it returns true if and
only if `q[p[i]] = i` for every `i < r`, and whenever it returns true,
`TransposeObj::inferShape` with `p` followed by `TransposeObj::inferShape`
with `q` takes every shape of rank `r` to itself. -/
theorem inverse_check_accepts_iff_identity (p q : List Int) (r : Nat) (hp : ValidPerm p r)
    (hq : ValidPerm q r) :
    (∃ b, is_inverse_perm p q r = some b) ∧
    (is_inverse_perm p q r = some true ↔
      ∀ i : Nat, i < r → q.getD (p.getD i 0).toNat 0 = (i : Int)) ∧
    (is_inverse_perm p q r = some true →
      ∀ S : Shape, S.length = r →
        ∃ S1, TransposeObj.inferShape p S = some [S1] ∧
          TransposeObj.inferShape q S1 = some [S]) := by
  refine ⟨is_inverse_perm_total p q r hp, ⟨is_inverse_perm_true_left p q r hp,
    fun h => (hp.inverse_of_left hq h).is_inverse_perm_true⟩, ?_⟩
  intro hacc S hS
  have hinv := hp.inverse_of_left hq (is_inverse_perm_true_left p q r hp hacc)
  obtain ⟨S1, e1, l1, v1⟩ := hp.inferShape S hS
  obtain ⟨S2, e2, l2, v2⟩ := hq.inferShape S1 l1
  refine ⟨S1, e1, ?_⟩
  rw [e2]
  have : S2 = S := by
    apply shape_ext_getD S2 S (by rw [l2, hS])
    intro i hi
    rw [l2] at hi
    obtain ⟨hq0, hq1, hq2⟩ := (hinv.2.2 i hi).2
    rw [v2 i hi, v1 (q.getD i 0).toNat (by omega), hq2]
    simp
  rw [this]

/-- Witness of `inverse_check_accepts_iff_identity`: the cycle `[1, 2, 0]` and
its inverse `[2, 0, 1]` on three axes. -/
theorem inverse_check_accepts_iff_identity_witness :
    (∃ b, is_inverse_perm [1, 2, 0] [2, 0, 1] 3 = some b) ∧
    (is_inverse_perm [1, 2, 0] [2, 0, 1] 3 = some true ↔
      ∀ i : Nat, i < 3 →
        ([2, 0, 1] : List Int).getD (([1, 2, 0] : List Int).getD i 0).toNat 0 = (i : Int)) ∧
    (is_inverse_perm [1, 2, 0] [2, 0, 1] 3 = some true →
      ∀ S : Shape, S.length = 3 →
        ∃ S1, TransposeObj.inferShape [1, 2, 0] S = some [S1] ∧
          TransposeObj.inferShape [2, 0, 1] S1 = some [S]) :=
  inverse_check_accepts_iff_identity [1, 2, 0] [2, 0, 1] 3
    ⟨rfl, fun i hi => by interval_cases i <;> decide,
      fun i j hi hj => by interval_cases i <;> interval_cases j <;> decide⟩
    ⟨rfl, fun i hi => by interval_cases i <;> decide,
      fun i j hi hj => by interval_cases i <;> interval_cases j <;> decide⟩


/-! ### The order of `topo_sort` is a rearrangement -/

/-- Claim C26: whenever `topo_sort` returns true, the operator list of the
resulting graph is a permutation of the operator list before the call (every
operator occurs in both lists the same number of times), and the operators
themselves and the tensors are the ones before the call. -/
theorem topo_sort_true_permutes_ops (g g1 : GraphObj) (h : g.topo_sort = some (true, g1)) :
    List.Perm g1.ops g.ops ∧ (∀ o, g1.ops.count o = g.ops.count o) ∧
      g1.ops.length = g.ops.length ∧ g1.opAt = g.opAt ∧ g1.tensors = g.tensors := by
  obtain ⟨hp, ht, _, ho, _⟩ := GraphObj.topo_sort_true_shape g g1 h
  exact ⟨hp, fun o => hp.count_eq o, hp.length_eq, ho, ht⟩

/-- Witness of `topo_sort_true_permutes_ops`: the chain listed as `[op1, op0]`
is sorted to `[op0, op1]`. -/
theorem topo_sort_true_permutes_ops_witness :
    List.Perm [0, 1] chainGraph.ops ∧ (∀ o, [0, 1].count o = chainGraph.ops.count o) ∧
      [0, 1].length = chainGraph.ops.length ∧ chainGraph.opAt = chainGraph.opAt ∧
      chainGraph.tensors = chainGraph.tensors :=
  topo_sort_true_permutes_ops chainGraph { chainGraph with ops := [0, 1], sorted := true } rfl

/-! ### Pass 1 of `dataMalloc` returns, and its offsets stay below `peak` -/

theorem Allocator.alloc_succeeds (a : Allocator) (live : List (Nat × Nat)) (size : Nat)
    (h : AllocInv a live) : ∃ off a1, a.alloc size = some (off, a1) := by
  unfold Allocator.alloc
  rw [h.ptr_none]
  simp only [Option.isSome_none, Bool.false_eq_true, ↓reduceIte]
  rcases hscan : allocScan (a.getAlignedSize size) a.freeBlocks (0, 0, false) with
    ⟨bs, bz, found⟩
  cases found with
  | false => exact ⟨_, _, rfl⟩
  | true =>
    have hmem := allocScan_found _ a.freeBlocks (0, 0, false) bs bz hscan
    simp only [Prod.mk.injEq, Bool.false_eq_true, and_false, false_or] at hmem
    have hfind : (mapFind bs a.freeBlocks).isNone = false := by
      cases hf : mapFind bs a.freeBlocks with
      | some e => rfl
      | none =>
        unfold mapFind at hf
        rw [List.find?_eq_none] at hf
        have := hf (bs, bz) hmem.1
        simp at this
    simp only [hfind, Bool.false_eq_true, ↓reduceIte]
    split_ifs <;> exact ⟨_, _, rfl⟩

theorem getAlignedSize_pos (a : Allocator) (ha : a.alignment = 8) (b : Nat) (hb : 0 < b)
    (hle : b + 8 ≤ sizeModulus) : 0 < a.getAlignedSize b ∧ b ≤ a.getAlignedSize b := by
  unfold Allocator.getAlignedSize
  rw [ha]
  unfold sizeModulus at *
  have h1 : (b + 2 ^ 64 - 1) % 2 ^ 64 = b - 1 := by
    have : b + 2 ^ 64 - 1 = (b - 1) + 2 ^ 64 := by omega
    rw [this, Nat.add_mod_right]
    exact Nat.mod_eq_of_lt (by omega)
  rw [h1]
  have h2 : ((b - 1) / 8 + 1) * 8 < 2 ^ 64 := by omega
  rw [Nat.mod_eq_of_lt h2]
  omega

/-- One allocation of pass 1 keeps the assigned ranges below `peak`. -/
theorem OffsetsBelowPeak.peak_step {g : GraphObj} {done : List Nat} {budget : Nat}
    {st : PlanState} {outs : List Nat} {leaks : List (Nat × Nat)}
    (h : PlanInv g done budget st outs leaks) (hp : OffsetsBelowPeak g st) (t off : Nat)
    (a1 : Allocator) (hb : g.allocator.getAlignedSize (g.tensorAt t).bytes ≤ budget)
    (hal : st.allocator.alloc (g.tensorAt t).bytes = some (off, a1))
    (hpos : t ∈ g.tensors → 0 < g.allocator.getAlignedSize (g.tensorAt t).bytes) :
    OffsetsBelowPeak g ⟨a1, st.offsetMap.emplace t off, st.remainingUses⟩ := by
  have hg : st.allocator.getAlignedSize (g.tensorAt t).bytes
      = g.allocator.getAlignedSize (g.tensorAt t).bytes :=
    getAlignedSize_congr _ _ h.align _
  have hfit := h.fit
  obtain ⟨hi1, _, _, hpk, _⟩ := Allocator.alloc_inv st.allocator a1 _ _ off h.inv
    (by rw [hg]; omega) hal
  intro x hx o ho
  simp only [RefMap.emplace] at ho
  by_cases hxt : x = t
  · rw [if_pos hxt] at ho
    rw [hxt] at hx ⊢
    cases hold : st.offsetMap t with
    | none =>
      rw [hold] at ho
      simp only [Option.some.injEq] at ho
      rw [← ho]
      have := hi1.region_le (off, st.allocator.getAlignedSize (g.tensorAt t).bytes)
        (List.mem_append_left _ (List.mem_cons_self _ _)) (by rw [hg]; exact hpos hx)
      have h2 := hi1.used_le_peak
      simp only at this
      rw [hg] at this
      show off + _ ≤ a1.peak
      omega
    | some w =>
      rw [hold] at ho
      simp only [Option.some.injEq] at ho
      have := hp t hx w hold
      rw [← ho]
      show w + _ ≤ a1.peak
      omega
  · rw [if_neg hxt] at ho
    have := hp x hx o ho
    show o + _ ≤ a1.peak
    omega

theorem planInputs_good (g : GraphObj)
    (hsz : ∀ t ∈ g.tensors, 0 < g.allocator.getAlignedSize (g.tensorAt t).bytes) :
    ∀ (l : List Nat) (budget : Nat) (st : PlanState) (outs : List Nat)
      (leaks : List (Nat × Nat)),
      PlanInv g [] (inputsBytes g l + budget) st outs leaks →
      (∀ t, ¬ isFreed g st t) → OffsetsBelowPeak g st →
      ∃ st1, planInputs g l st = some st1 ∧ OffsetsBelowPeak g st1 := by
  intro l
  induction l with
  | nil =>
    intro budget st outs leaks _ _ hp
    exact ⟨st, rfl, hp⟩
  | cons t rest ih =>
    intro budget st outs leaks h hnf hp
    simp only [planInputs]
    by_cases hsrc : (g.tensorAt t).source.isNone = true
    · rw [if_pos hsrc]
      have hsplit : inputsBytes g (t :: rest)
          = g.allocator.getAlignedSize (g.tensorAt t).bytes + inputsBytes g rest := by
        simp [inputsBytes, outputsBytes, List.filter_cons, hsrc]
      obtain ⟨off, a1, hal⟩ := Allocator.alloc_succeeds st.allocator _ (g.tensorAt t).bytes h.inv
      rw [hal]
      simp only
      obtain ⟨outs1, leaks1, h1⟩ := h.alloc_step t off a1 (inputsBytes g rest + budget)
        (by rw [hsplit]; omega) hal (fun _ =>
          ⟨fun op hop => (by cases hop), fun hex => absurd hex.choose_spec (hnf _)⟩)
      have hp1 := OffsetsBelowPeak.peak_step h hp t off a1 (by rw [hsplit]; omega) hal (hsz t)
      exact ih budget _ outs1 leaks1 h1 hnf hp1
    · rw [if_neg hsrc]
      have hsplit : inputsBytes g (t :: rest) = inputsBytes g rest := by
        simp [inputsBytes, List.filter_cons, hsrc]
      exact ih budget st outs leaks (h.weaken _ (by rw [hsplit])) hnf hp

theorem planOutputs_good (g : GraphObj) (done : List Nat)
    (hsz : ∀ t ∈ g.tensors, 0 < g.allocator.getAlignedSize (g.tensorAt t).bytes) :
    ∀ (l : List Nat) (budget : Nat) (st : PlanState) (outs : List Nat)
      (leaks : List (Nat × Nat)),
      PlanInv g done (outputsBytes g l + budget) st outs leaks →
      (∀ t ∈ g.tensors, (g.tensorAt t).source = none → (st.offsetMap t).isSome) →
      OffsetsBelowPeak g st →
      ∃ st1, planOutputs g l st = some st1 ∧ OffsetsBelowPeak g st1 := by
  intro l
  induction l with
  | nil =>
    intro budget st outs leaks _ _ hp
    exact ⟨st, rfl, hp⟩
  | cons out rest ih =>
    intro budget st outs leaks h hsrc hp
    have hsplit : outputsBytes g (out :: rest) + budget
        = outputsBytes g [out] + (outputsBytes g rest + budget) := by
      simp [outputsBytes]
      omega
    have hone : outputsBytes g [out] = g.allocator.getAlignedSize (g.tensorAt out).bytes := by
      simp [outputsBytes]
    simp only [planOutputs]
    by_cases hnone : (st.offsetMap out).isNone = true
    · rw [if_pos hnone]
      obtain ⟨off, a1, hal⟩ :=
        Allocator.alloc_succeeds st.allocator _ (g.tensorAt out).bytes h.inv
      rw [hal]
      simp only
      have hstep : planOutputs g [out] st
          = some ⟨a1, st.offsetMap.emplace out off, st.remainingUses⟩ := by
        simp only [planOutputs]
        rw [if_pos hnone, hal]
      obtain ⟨⟨outs1, leaks1, h1⟩, _, hmono, _⟩ :=
        planOutputs_inv g done [out] (outputsBytes g rest + budget) st _ outs leaks
          (by rw [← hsplit]; exact h) hsrc hstep
      have hp1 := OffsetsBelowPeak.peak_step h hp out off a1 (by rw [hsplit, hone]; omega) hal
        (hsz out)
      exact ih budget _ outs1 leaks1 h1 (fun t ht hs => hmono t (hsrc t ht hs)) hp1
    · rw [if_neg hnone]
      exact ih budget st outs leaks (h.weaken _ (by rw [hsplit]; omega)) hsrc hp


theorem isPinned_false_source (g : GraphObj) (t : Nat) (ht : t ∈ g.tensors)
    (hpin : isPinned g t = false) : ∃ p, (g.tensorAt t).source = some p := by
  unfold isPinned at hpin
  have hc : g.tensors.contains t = true := by simpa using ht
  rw [hc] at hpin
  simp only [Bool.true_and, Bool.or_eq_false_iff] at hpin
  cases h : (g.tensorAt t).source with
  | none => rw [h] at hpin; simp at hpin
  | some p => exact ⟨p, rfl⟩

theorem planConsume_good (g : GraphObj) (done : List Nat) (budget : Nat) (rest : List Nat)
    (hsz : ∀ t ∈ g.tensors, 0 < g.allocator.getAlignedSize (g.tensorAt t).bytes) :
    ∀ (l : List Nat) (st : PlanState) (outs : List Nat) (leaks : List (Nat × Nat)),
      PlanInv g done budget st outs leaks →
      UsesCovered g st (fun t => l.count t + useCount g rest t) →
      (∀ tp ∈ l, tp ∈ g.tensors) →
      (∀ tp ∈ l, isPinned g tp = false → (st.offsetMap tp).isSome) →
      OffsetsBelowPeak g st →
      ∃ st1, planConsume g l st = some st1 ∧ OffsetsBelowPeak g st1 ∧
        UsesCovered g st1 (fun t => useCount g rest t) := by
  intro l
  induction l with
  | nil =>
    intro st outs leaks _ hu _ _ hp
    refine ⟨st, rfl, hp, ?_⟩
    intro t ht
    obtain ⟨c, hc, hle⟩ := hu t ht
    exact ⟨c, hc, by simpa using hle⟩
  | cons tp l' ih =>
    intro st outs leaks h hu hmem hoff hp
    have hmem' : ∀ x ∈ l', x ∈ g.tensors := fun x hx => hmem x (List.mem_cons_of_mem _ hx)
    by_cases hpin : isPinned g tp = true
    · simp only [planConsume, hpin, ↓reduceIte]
      apply ih st outs leaks h _ hmem' (fun x hx => hoff x (List.mem_cons_of_mem _ hx)) hp
      intro t ht
      obtain ⟨c, hc, hle⟩ := hu t ht
      refine ⟨c, hc, ?_⟩
      simp only [List.count_cons] at hle
      show l'.count t + useCount g rest t ≤ c
      omega
    · have hpin' : isPinned g tp = false := by simpa using hpin
      have htp := hmem tp (List.mem_cons_self _ _)
      obtain ⟨c, hc, hle⟩ := hu tp htp
      simp only [List.count_cons_self] at hle
      obtain ⟨c', rfl⟩ : ∃ c', c = c' + 1 := ⟨c - 1, by omega⟩
      -- the state after the visit of `tp`
      have hnext : ∀ a1 : Allocator,
          UsesCovered g ⟨a1, st.offsetMap, st.remainingUses.assign tp c'⟩
            (fun t => l'.count t + useCount g rest t) := by
        intro a1 t ht
        by_cases hx : t = tp
        · subst hx
          refine ⟨c', by simp [RefMap.assign], ?_⟩
          show l'.count t + useCount g rest t ≤ c'
          omega
        · obtain ⟨d, hd, hdl⟩ := hu t ht
          refine ⟨d, by simpa [RefMap.assign, hx] using hd, ?_⟩
          simp only [List.count_cons] at hdl
          have : (tp == t) = false := by simpa using fun e : tp = t => hx e.symm
          rw [this] at hdl
          simp only [Bool.false_eq_true, ↓reduceIte, add_zero] at hdl
          exact hdl
      simp only [planConsume, hpin', Bool.false_eq_true, ↓reduceIte, hc]
      by_cases hz : c' = 0
      · rw [if_pos hz]
        obtain ⟨off, ho⟩ := Option.isSome_iff_exists.1 (hoff tp (List.mem_cons_self _ _) hpin')
        rw [ho]
        simp only
        have hnotfreed : ¬ isFreed g st tp := by
          rintro ⟨_, hf⟩
          rw [hc] at hf
          simp at hf
        have hin : tp ∈ outs := (h.outs_iff tp).2 ⟨by rw [ho]; rfl, hnotfreed⟩
        have hg : st.allocator.getAlignedSize (g.tensorAt tp).bytes
            = g.allocator.getAlignedSize (g.tensorAt tp).bytes :=
          getAlignedSize_congr _ _ h.align _
        have hreg : (off, st.allocator.getAlignedSize (g.tensorAt tp).bytes)
            ∈ outs.map (regionOf g st.offsetMap) ++ leaks := by
          apply List.mem_append_left
          apply List.mem_map.2
          refine ⟨tp, hin, ?_⟩
          unfold regionOf
          rw [ho, hg]
          rfl
        obtain ⟨a1, hfr⟩ := Allocator.free_succeeds st.allocator _ off (g.tensorAt tp).bytes
          h.inv hreg (by rw [hg]; exact hsz tp htp)
        rw [hfr]
        simp only
        have hstep : planConsume g [tp] st
            = some ⟨a1, st.offsetMap, st.remainingUses.assign tp c'⟩ := by
          simp only [planConsume, hpin', Bool.false_eq_true, ↓reduceIte, hc]
          rw [if_pos hz, ho]
          simp only
          rw [hfr]
        obtain ⟨⟨outs1, leaks1, h1⟩, _, _, _⟩ :=
          planConsume_inv g done budget [tp] st _ outs leaks h hstep
        have hp1 : OffsetsBelowPeak g ⟨a1, st.offsetMap, st.remainingUses.assign tp c'⟩ := by
          intro x hx o hxo
          have := hp x hx o hxo
          have hpk := Allocator.free_peak st.allocator a1 off _ hfr
          show o + _ ≤ a1.peak
          omega
        exact ih _ outs1 leaks1 h1 (hnext a1) hmem'
          (fun x hx => hoff x (List.mem_cons_of_mem _ hx)) hp1
      · rw [if_neg hz]
        have hstep : planConsume g [tp] st
            = some ⟨st.allocator, st.offsetMap, st.remainingUses.assign tp c'⟩ := by
          simp only [planConsume, hpin', Bool.false_eq_true, ↓reduceIte, hc]
          rw [if_neg hz]
        obtain ⟨⟨outs1, leaks1, h1⟩, _, _, _⟩ :=
          planConsume_inv g done budget [tp] st _ outs leaks h hstep
        exact ih _ outs1 leaks1 h1 (hnext st.allocator) hmem'
          (fun x hx => hoff x (List.mem_cons_of_mem _ hx)) hp

theorem planOps_good (g : GraphObj)
    (hsz : ∀ t ∈ g.tensors, 0 < g.allocator.getAlignedSize (g.tensorAt t).bytes)
    (hsv : ∀ t ∈ g.tensors, ∀ p, (g.tensorAt t).source = some p → t ∈ (g.opAt p).outputs) :
    ∀ (l done : List Nat) (budget : Nat) (st : PlanState) (outs : List Nat)
      (leaks : List (Nat × Nat)),
      PlanInv g done (opsBytes g l + budget) st outs leaks →
      (∀ t ∈ g.tensors, (g.tensorAt t).source = none → (st.offsetMap t).isSome) →
      UsesCovered g st (useCount g l) → OffsetsBelowPeak g st →
      ProducersFirst g (done ++ l) →
      (∀ op ∈ l, ∀ t ∈ (g.opAt op).inputs, t ∈ g.tensors) →
      ∃ st1, planOps g l st = some st1 ∧ OffsetsBelowPeak g st1 := by
  intro l
  induction l with
  | nil =>
    intro done budget st outs leaks _ _ _ hp _ _
    exact ⟨st, rfl, hp⟩
  | cons op rest ih =>
    intro done budget st outs leaks h hsrc hu hp hord hin
    have hsplit : opsBytes g (op :: rest)
        = outputsBytes g (g.opAt op).outputs + opsBytes g rest := by
      simp [opsBytes]
    obtain ⟨sa, ho, hpa⟩ := planOutputs_good g done hsz (g.opAt op).outputs
      (opsBytes g rest + budget) st outs leaks
      (by rw [hsplit, Nat.add_assoc] at h; exact h) hsrc hp
    obtain ⟨⟨outsA, leaksA, hA⟩, hremA, hmonoA, hprodA⟩ :=
      planOutputs_inv g done (g.opAt op).outputs (opsBytes g rest + budget) st sa outs leaks
        (by rw [hsplit, Nat.add_assoc] at h; exact h) hsrc ho
    have huA : UsesCovered g sa
        (fun t => (g.opAt op).inputs.count t + useCount g rest t) := by
      intro t ht
      obtain ⟨c, hc, hle⟩ := hu t ht
      refine ⟨c, by rw [hremA]; exact hc, ?_⟩
      simpa [useCount] using hle
    have hoffA : ∀ tp ∈ (g.opAt op).inputs, isPinned g tp = false →
        (sa.offsetMap tp).isSome := by
      intro tp htp hpin
      have hmem := hin op (List.mem_cons_self _ _) tp htp
      obtain ⟨p, hsp⟩ := isPinned_false_source g tp hmem hpin
      have hpd : p ∈ done := hord done op rest rfl tp htp p hsp
      exact hmonoA tp (h.produced p hpd tp (hsv tp hmem p hsp))
    obtain ⟨sb, hc, hpb, hub⟩ := planConsume_good g done (opsBytes g rest + budget) rest hsz
      (g.opAt op).inputs sa outsA leaksA hA huA (hin op (List.mem_cons_self _ _)) hoffA hpa
    have hstep : planOps g [op] st = some sb := by
      simp only [planOps]
      rw [ho]
      simp only
      rw [hc]
    have hone : opsBytes g [op] + (opsBytes g rest + budget)
        = opsBytes g (op :: rest) + budget := by
      simp [opsBytes]
      omega
    obtain ⟨⟨outsB, leaksB, hB⟩, hmonoB⟩ :=
      planOps_inv g [op] done (opsBytes g rest + budget) st sb outs leaks
        (by rw [hone]; exact h) hsrc hstep
    simp only [planOps]
    rw [ho]
    simp only
    rw [hc]
    simp only
    exact ih (done ++ [op]) budget sb outsB leaksB hB
      (fun t ht hs => hmonoB t (hsrc t ht hs)) hub hpb
      (by rw [List.append_assoc]; exact hord)
      (fun o ho' => hin o (List.mem_cons_of_mem _ ho'))

theorem initialUses_mem (g : GraphObj) :
    ∀ (l : List Nat) (m : RefMap),
      (∀ x, m x = none ∨ m x = some (g.tensorAt x).targets.length) →
      ∀ t, (t ∈ l ∨ (m t).isSome) →
        initialUses g l m t = some (g.tensorAt t).targets.length := by
  intro l
  induction l with
  | nil =>
    intro m hm t ht
    rcases ht with ht | ht
    · cases ht
    · rcases hm t with h | h
      · rw [h] at ht; cases ht
      · exact h
  | cons x xs ih =>
    intro m hm t ht
    simp only [initialUses]
    apply ih
    · intro y
      unfold RefMap.emplace
      by_cases hy : y = x
      · subst hy
        simp only [↓reduceIte]
        rcases hm y with h | h
        · rw [h]; exact Or.inr rfl
        · rw [h]; exact Or.inr rfl
      · simp only [hy, ↓reduceIte]
        exact hm y
    · by_cases hx : t = x
      · right
        rw [emplace_isSome, hx]
        simp
      · rcases ht with ht | ht
        · rcases List.mem_cons.1 ht with e | e
          · exact absurd e hx
          · exact Or.inl e
        · right
          rw [emplace_isSome, ht]
          rfl


/-- On an acyclic graph `topo_sort` returns true, and the resulting order lists
producers first. -/
theorem GraphObj.topo_sort_of_acyclic (g : GraphObj)
    (hcache : g.sorted = true → ProducersFirst g g.ops) (hnd : g.ops.Nodup)
    (hprod : ∀ op ∈ g.ops, ∀ t ∈ (g.opAt op).inputs, ∀ p,
      (g.tensorAt t).source = some p → p ∈ g.ops)
    (hac : Acyclic g) :
    ∃ g1, g.topo_sort = some (true, g1) ∧ ProducersFirst g1 g1.ops := by
  unfold GraphObj.topo_sort
  by_cases hs : g.sorted = true
  · rw [if_pos hs]
    exact ⟨g, rfl, hcache hs⟩
  rw [if_neg hs]
  have htot := topoLoop_total g (g.ops.length + 1) [] [] (by simp)
  cases hl : topoLoop g (g.ops.length + 1) [] [] with
  | none => exact absurd hl htot
  | some r =>
    cases r with
    | some res =>
      exact ⟨_, rfl, topoLoop_inv g _ [] [] res (topoInv_init g) hl⟩
    | none =>
      exfalso
      obtain ⟨s, f, h1, h2, h3, hlt, hnr⟩ := topoLoop_false_state g _ [] []
        (fun _ => Iff.rfl) List.nodup_nil (fun x hx => by cases hx) hl
      have hex : ∃ x ∈ g.ops, x ∉ s := by
        by_contra hc
        simp only [not_exists, not_and, not_not] at hc
        have := (List.subperm_of_subset hnd hc).length_le
        omega
      obtain ⟨x0, hx0, hx0s⟩ := hex
      obtain ⟨x, hx⟩ := exists_cycle_of_predecessors (producerEdge g)
        (g.ops.filter fun x => decide (x ∉ s)) x0
        (List.mem_filter.2 ⟨hx0, by simpa using hx0s⟩)
        (by
          intro x hx
          have hx' := List.mem_filter.1 hx
          have hxs : x ∉ s := by simpa using hx'.2
          obtain ⟨t, ht, p, hp, hpf⟩ := not_ready_has_pending_producer g f x
            (fun hc => hxs ((h1 x).1 hc)) (hnr x hx'.1)
          have hpo := hprod x hx'.1 t ht p hp
          refine ⟨p, List.mem_filter.2 ⟨hpo, ?_⟩, hpo, hx'.1, t, ht, hp⟩
          have : p ∉ s := fun hc => hpf ((h1 p).2 hc)
          simpa using this)
      exact hac x hx

theorem useCount_perm (g : GraphObj) {l1 l2 : List Nat} (h : List.Perm l1 l2) (t : Nat) :
    useCount g l1 t = useCount g l2 t :=
  (h.map _).sum_eq

/-- Pass 1 of `dataMalloc` returns on a graph that is listed producers first,
every tensor of the graph has an offset, and the assigned ranges end at or
below `peak`. -/
theorem planMemory_good (g : GraphObj) (hfresh : g.allocator = Allocator.init)
    (hfit : planBytes g < sizeModulus)
    (hsz : ∀ t ∈ g.tensors, 0 < g.allocator.getAlignedSize (g.tensorAt t).bytes)
    (hsv : ∀ t ∈ g.tensors, ∀ p, (g.tensorAt t).source = some p →
      p ∈ g.ops ∧ t ∈ (g.opAt p).outputs)
    (hin : ∀ op ∈ g.ops, ∀ t ∈ (g.opAt op).inputs, t ∈ g.tensors)
    (huse : ∀ t ∈ g.tensors, useCount g g.ops t ≤ (g.tensorAt t).targets.length)
    (hord : ProducersFirst g g.ops) :
    ∃ st, planMemory g = some st ∧ OffsetsBelowPeak g st ∧
      ∀ t ∈ g.tensors, (st.offsetMap t).isSome := by
  have h0 : PlanInv g [] (inputsBytes g g.tensors + opsBytes g g.ops)
      ⟨g.allocator, fun _ => none, initialUses g g.tensors fun _ => none⟩ [] [] := by
    refine ⟨?_, rfl, ?_, List.nodup_nil, ?_, ?_, ?_, ?_⟩
    · show AllocInv g.allocator ([] ++ [])
      rw [hfresh]
      exact AllocInv.at_init
    · show g.allocator.used + _ < sizeModulus
      rw [hfresh]
      unfold planBytes at hfit
      show 0 + _ < sizeModulus
      omega
    · intro t
      simp
    · intro t1 t2 _ h1
      cases h1
    · intro op hop
      cases hop
    · intro t ht
      exact absurd ht (not_isFreed_initial g _ _ t)
  have hp0 : OffsetsBelowPeak g
      ⟨g.allocator, fun _ => none, initialUses g g.tensors fun _ => none⟩ := by
    intro t _ off ho
    cases ho
  obtain ⟨sa, hia, hpa⟩ := planInputs_good g hsz g.tensors (opsBytes g g.ops) _ [] [] h0
    (not_isFreed_initial g _ _) hp0
  obtain ⟨⟨outsA, leaksA, hA⟩, hremA, _, hsrcA⟩ :=
    planInputs_inv g g.tensors (opsBytes g g.ops) _ sa [] [] h0
      (not_isFreed_initial g _ _) hia
  have huA : UsesCovered g sa (useCount g g.ops) := by
    intro t ht
    refine ⟨(g.tensorAt t).targets.length, ?_, huse t ht⟩
    rw [hremA]
    exact initialUses_mem g g.tensors _ (fun _ => Or.inl rfl) t (Or.inl ht)
  obtain ⟨st, hst, hpst⟩ := planOps_good g hsz (fun t ht p hp => (hsv t ht p hp).2) g.ops [] 0
    sa outsA leaksA (by rw [Nat.add_zero]; exact hA) hsrcA huA hpa
    (by rw [List.nil_append]; exact hord) hin
  obtain ⟨⟨outsB, leaksB, hB⟩, hmonoB⟩ :=
    planOps_inv g g.ops [] 0 sa st outsA leaksA (by rw [Nat.add_zero]; exact hA) hsrcA hst
  rw [List.nil_append] at hB
  refine ⟨st, ?_, hpst, ?_⟩
  · unfold planMemory
    rw [hia]
    exact hst
  · intro t ht
    cases hs : (g.tensorAt t).source with
    | none => exact hmonoB t (hsrcA t ht hs)
    | some p =>
      have := hsv t ht p hs
      exact hB.produced p this.1 t this.2

/-- Claim C27 (amended): on an acyclic graph that `dataMalloc` can plan (see
`PlanReady`: a valid graph with a fresh allocator, whose tensors list a target
for each use, with positive byte sizes whose aligned values and their sum stay
below `2 ^ 64`), `dataMalloc` returns; it binds every tensor of the graph to an
address `base + off`, and the range `[off, off + aligned size)`, the aligned
size being at least the byte size, ends at or below `peak`, the size of the
arena. -/
theorem dataMalloc_ranges_inside_peak (g : GraphObj) (base : Nat) (hr : PlanReady g)
    (hac : Acyclic g) :
    ∃ g1, g.dataMalloc base = some g1 ∧ g1.tensors = g.tensors ∧
      g1.allocator.ptr = some base ∧
      ∀ t ∈ g.tensors, ∃ off, (g1.tensorAt t).data = some (base + off) ∧
        (g1.tensorAt t).bytes = (g.tensorAt t).bytes ∧
        (g1.tensorAt t).bytes ≤ Allocator.init.getAlignedSize (g1.tensorAt t).bytes ∧
        off + Allocator.init.getAlignedSize (g1.tensorAt t).bytes ≤ g1.allocator.peak := by
  obtain ⟨G, hts, hord⟩ := GraphObj.topo_sort_of_acyclic g hr.cache hr.ops_nodup
    (fun op hop t ht p hp => (hr.source_valid t (hr.inputs_valid op hop t ht) p hp).1) hac
  obtain ⟨hperm, hten, htat, hoat, hall⟩ := GraphObj.topo_sort_true_shape g G hts
  have hGfresh : G.allocator = Allocator.init := hall.trans hr.fresh
  have hGfit : planBytes G < sizeModulus := by
    have : planBytes G = planBytes g := by
      unfold planBytes inputsBytes outputsBytes
      rw [opsBytes_perm G hperm]
      unfold opsBytes outputsBytes
      rw [hten, htat, hoat, hall]
    rw [this]
    exact hr.fits
  have hpos : ∀ t ∈ g.tensors, 0 < Allocator.init.getAlignedSize (g.tensorAt t).bytes ∧
      (g.tensorAt t).bytes ≤ Allocator.init.getAlignedSize (g.tensorAt t).bytes :=
    fun t ht => getAlignedSize_pos Allocator.init rfl _ (hr.bytes_pos t ht).1
      (hr.bytes_pos t ht).2
  obtain ⟨st, hpm, hpk, hhas⟩ := planMemory_good G hGfresh hGfit
    (by
      intro t ht
      rw [hGfresh, htat]
      exact (hpos t (hten ▸ ht)).1)
    (by
      intro t ht p hp
      rw [htat] at hp
      have := hr.source_valid t (hten ▸ ht) p hp
      rw [hoat]
      exact ⟨hperm.mem_iff.2 this.1, this.2⟩)
    (by
      intro op hop t ht
      rw [hoat] at ht
      rw [hten]
      exact hr.inputs_valid op (hperm.mem_iff.1 hop) t ht)
    (by
      intro t ht
      rw [useCount_perm G hperm, htat]
      have := hr.uses t (hten ▸ ht)
      unfold useCount at this ⊢
      rw [hoat]
      exact this)
    hord
  have hptr : st.allocator.ptr = none := by
    obtain ⟨⟨outs, leaks, hinv⟩, _⟩ := planMemory_inv G st hGfresh hGfit hpm
    exact hinv.inv.ptr_none
  have hrun : g.dataMalloc base = some { G with
      allocator := { st.allocator with ptr := some base },
      tensorAt := bindBlobs st.offsetMap base G.tensors G.tensorAt } := by
    unfold GraphObj.dataMalloc
    rw [hts]
    simp only
    rw [hpm]
    simp only [hptr]
  refine ⟨_, hrun, hten, rfl, ?_⟩
  · intro t ht
    have ht' : t ∈ G.tensors := by rw [hten]; exact ht
    obtain ⟨off, ho⟩ := Option.isSome_iff_exists.1 (hhas t ht')
    have hf := bindBlobs_fields st.offsetMap base G.tensors G.tensorAt t
    have hb := hpk t ht' off ho
    rw [hGfresh] at hb
    refine ⟨off, bindBlobs_data st.offsetMap base G.tensors G.tensorAt t off ho (Or.inl ht'),
      ?_, ?_, ?_⟩
    · show (bindBlobs st.offsetMap base G.tensors G.tensorAt t).bytes = _
      rw [hf.2.2, htat]
    · show (bindBlobs st.offsetMap base G.tensors G.tensorAt t).bytes ≤
        Allocator.init.getAlignedSize (bindBlobs st.offsetMap base G.tensors G.tensorAt t).bytes
      rw [hf.2.2, htat]
      exact (hpos t ht).2
    · show off + Allocator.init.getAlignedSize
        (bindBlobs st.offsetMap base G.tensors G.tensorAt t).bytes ≤ st.allocator.peak
      rw [hf.2.2]
      exact hb


/-- A graph that `topo_sort` sorts, starting without a cached order, has no
cycle. -/
theorem acyclic_of_topo_sort (g g1 : GraphObj) (hs : g.sorted = false) (hnd : g.ops.Nodup)
    (h : g.topo_sort = some (true, g1)) : Acyclic g := by
  unfold GraphObj.topo_sort at h
  rw [hs] at h
  simp only [Bool.false_eq_true, ↓reduceIte] at h
  cases hl : topoLoop g (g.ops.length + 1) [] [] with
  | none => rw [hl] at h; cases h
  | some r =>
    rw [hl] at h
    cases r with
    | none => simp at h
    | some res =>
      exact acyclic_of_producersFirst g res (topoLoop_inv g _ [] [] res (topoInv_init g) hl)
        (topoLoop_perm g _ [] [] res (fun _ => Iff.rfl) List.nodup_nil
          (fun x hx => by cases hx) hl) hnd

theorem linkedChain_planReady : PlanReady linkedChain := by
  refine ⟨rfl, (fun h => by cases h), (by decide), ?_, (by decide), (by decide), (by decide),
    (by decide)⟩
  intro t ht p hp
  simp only [linkedChain, List.mem_cons, List.mem_singleton, List.not_mem_nil, or_false] at ht
  rcases ht with rfl | rfl | rfl <;> simp [linkedChain] at hp ⊢ <;> subst hp <;> simp

/-- Witness of `dataMalloc_ranges_inside_peak`: the chain of three tensors. -/
theorem dataMalloc_ranges_inside_peak_witness :
    ∃ g1, linkedChain.dataMalloc 1000 = some g1 ∧ g1.tensors = linkedChain.tensors ∧
      g1.allocator.ptr = some 1000 ∧
      ∀ t ∈ linkedChain.tensors, ∃ off, (g1.tensorAt t).data = some (1000 + off) ∧
        (g1.tensorAt t).bytes = (linkedChain.tensorAt t).bytes ∧
        (g1.tensorAt t).bytes ≤ Allocator.init.getAlignedSize (g1.tensorAt t).bytes ∧
        off + Allocator.init.getAlignedSize (g1.tensorAt t).bytes ≤ g1.allocator.peak :=
  dataMalloc_ranges_inside_peak linkedChain 1000 linkedChain_planReady
    (acyclic_of_topo_sort linkedChain { linkedChain with sorted := true } rfl (by decide) rfl)

/-- Claim C27 fails as stated in two ways.  On `hugeGraph` (valid, acyclic,
byte sizes `2 ^ 63`, `2 ^ 63` and 8) `used` wraps around `2 ^ 64`: the second
input is bound to the range `[2 ^ 63, 2 ^ 64)` while `peak` is `2 ^ 63`.  On
`doubleUseGraph` (valid, acyclic, 8 bytes per tensor), where an operator has
the same tensor as both inputs and the tensor lists the operator once, the
second visit of the input finds no remaining use, and `dataMalloc` fails its
assertion `it->second > 0`. -/
theorem dataMalloc_leaves_peak_or_fails :
    hugeGraph.checkValid = true ∧ Acyclic hugeGraph ∧
    (hugeGraph.dataMalloc 0).map (fun g1 =>
        ((g1.tensorAt 1).data, (g1.tensorAt 1).bytes, g1.allocator.peak))
      = some (some (2 ^ 63), 2 ^ 63, 2 ^ 63) ∧
    ¬ (2 ^ 63 + Allocator.init.getAlignedSize (2 ^ 63) ≤ 2 ^ 63) ∧
    doubleUseGraph.checkValid = true ∧ Acyclic doubleUseGraph ∧
    doubleUseGraph.dataMalloc 0 = none := by
  refine ⟨by decide,
    acyclic_of_topo_sort hugeGraph { hugeGraph with sorted := true } rfl (by decide) rfl,
    by rfl, by decide, by decide,
    acyclic_of_topo_sort doubleUseGraph { doubleUseGraph with sorted := true } rfl
      (by decide) rfl,
    by rfl⟩

/-! ### How the mutators of the optimizer change the graph -/

theorem addTarget_frame (g : GraphObj) (t o : Nat) :
    (g.addTarget t o).ops = g.ops ∧ (g.addTarget t o).tensors = g.tensors ∧
      (g.addTarget t o).opAt = g.opAt ∧
      ∀ x, ((g.addTarget t o).tensorAt x).source = (g.tensorAt x).source ∧
        ((g.addTarget t o).tensorAt x).fuid = (g.tensorAt x).fuid := by
  refine ⟨rfl, rfl, rfl, fun x => ?_⟩
  simp only [GraphObj.addTarget, GraphObj.setTensor]
  split_ifs with h
  · rw [h]
    exact ⟨rfl, rfl⟩
  · exact ⟨rfl, rfl⟩

theorem addTarget_targets (g : GraphObj) (t o x : Nat) :
    ((g.addTarget t o).tensorAt x).targets =
      if x = t then (g.tensorAt x).targets ++ [o] else (g.tensorAt x).targets := by
  simp only [GraphObj.addTarget, GraphObj.setTensor]
  split_ifs with h
  · rw [h]
  · rfl

theorem removeTarget_frame (g : GraphObj) (t o : Nat) :
    (g.removeTarget t o).ops = g.ops ∧ (g.removeTarget t o).tensors = g.tensors ∧
      (g.removeTarget t o).opAt = g.opAt ∧
      ∀ x, ((g.removeTarget t o).tensorAt x).source = (g.tensorAt x).source ∧
        ((g.removeTarget t o).tensorAt x).fuid = (g.tensorAt x).fuid := by
  refine ⟨rfl, rfl, rfl, fun x => ?_⟩
  simp only [GraphObj.removeTarget, GraphObj.setTensor]
  split_ifs with h
  · rw [h]
    exact ⟨rfl, rfl⟩
  · exact ⟨rfl, rfl⟩

theorem removeTarget_targets (g : GraphObj) (t o x : Nat) :
    ((g.removeTarget t o).tensorAt x).targets =
      if x = t then (g.tensorAt x).targets.filter (fun q => q ≠ o)
      else (g.tensorAt x).targets := by
  simp only [GraphObj.removeTarget, GraphObj.setTensor]
  split_ifs with h
  · rw [h]
  · rfl

theorem resetSource_frame (g : GraphObj) (t : Nat) :
    (g.resetSource t).ops = g.ops ∧ (g.resetSource t).tensors = g.tensors ∧
      (g.resetSource t).opAt = g.opAt ∧
      ∀ x, ((g.resetSource t).tensorAt x).targets = (g.tensorAt x).targets ∧
        ((g.resetSource t).tensorAt x).fuid = (g.tensorAt x).fuid := by
  refine ⟨rfl, rfl, rfl, fun x => ?_⟩
  simp only [GraphObj.resetSource, GraphObj.setTensor]
  split_ifs with h
  · rw [h]
    exact ⟨rfl, rfl⟩
  · exact ⟨rfl, rfl⟩

theorem resetSource_source (g : GraphObj) (t x : Nat) :
    ((g.resetSource t).tensorAt x).source = if x = t then none else (g.tensorAt x).source := by
  simp only [GraphObj.resetSource, GraphObj.setTensor]
  split_ifs <;> rfl

theorem opUpdate_frame (g : GraphObj) (o : Nat) (v : OperatorObj) :
    (g.setOp o v).ops = g.ops ∧ (g.setOp o v).tensors = g.tensors ∧
      (g.setOp o v).tensorAt = g.tensorAt ∧
      ∀ x, (g.setOp o v).opAt x = if x = o then v else g.opAt x :=
  ⟨rfl, rfl, rfl, fun _ => rfl⟩

theorem removeSuccessors_spec (g : GraphObj) (o s : Nat) :
    SameWiring g (g.removeSuccessors o s) ∧
      (∀ x, ((g.removeSuccessors o s).opAt x).predecessors = (g.opAt x).predecessors) ∧
      ∀ x, ((g.removeSuccessors o s).opAt x).successors =
        if x = o then (g.opAt x).successors.filter (fun q => q ≠ s)
        else (g.opAt x).successors := by
  refine ⟨⟨rfl, rfl, rfl, fun x => ?_⟩, fun x => ?_, fun x => ?_⟩ <;>
    simp only [GraphObj.removeSuccessors, GraphObj.setOp] <;> split_ifs with h <;>
    first | rfl | (rw [h]; exact ⟨rfl, rfl, rfl, rfl⟩) | (rw [h]) | exact ⟨rfl, rfl, rfl, rfl⟩

theorem removePredecessors_spec (g : GraphObj) (o p : Nat) :
    SameWiring g (g.removePredecessors o p) ∧
      (∀ x, ((g.removePredecessors o p).opAt x).successors = (g.opAt x).successors) ∧
      ∀ x, ((g.removePredecessors o p).opAt x).predecessors =
        if x = o then (g.opAt x).predecessors.filter (fun q => q ≠ p)
        else (g.opAt x).predecessors := by
  refine ⟨⟨rfl, rfl, rfl, fun x => ?_⟩, fun x => ?_, fun x => ?_⟩ <;>
    simp only [GraphObj.removePredecessors, GraphObj.setOp] <;> split_ifs with h <;>
    first | rfl | (rw [h]; exact ⟨rfl, rfl, rfl, rfl⟩) | (rw [h]) | exact ⟨rfl, rfl, rfl, rfl⟩

theorem addSuccessors_spec (g : GraphObj) (o s : Nat) :
    SameWiring g (g.addSuccessors o s) ∧
      (∀ x, ((g.addSuccessors o s).opAt x).predecessors = (g.opAt x).predecessors) ∧
      ∀ x, ((g.addSuccessors o s).opAt x).successors =
        if x = o then (g.opAt x).successors ++ [s] else (g.opAt x).successors := by
  refine ⟨⟨rfl, rfl, rfl, fun x => ?_⟩, fun x => ?_, fun x => ?_⟩ <;>
    simp only [GraphObj.addSuccessors, GraphObj.setOp] <;> split_ifs with h <;>
    first | rfl | (rw [h]; exact ⟨rfl, rfl, rfl, rfl⟩) | (rw [h]) | exact ⟨rfl, rfl, rfl, rfl⟩

theorem addPredecessors_spec (g : GraphObj) (o p : Nat) :
    SameWiring g (g.addPredecessors o p) ∧
      (∀ x, ((g.addPredecessors o p).opAt x).successors = (g.opAt x).successors) ∧
      ∀ x, ((g.addPredecessors o p).opAt x).predecessors =
        if x = o then (g.opAt x).predecessors ++ [p] else (g.opAt x).predecessors := by
  refine ⟨⟨rfl, rfl, rfl, fun x => ?_⟩, fun x => ?_, fun x => ?_⟩ <;>
    simp only [GraphObj.addPredecessors, GraphObj.setOp] <;> split_ifs with h <;>
    first | rfl | (rw [h]; exact ⟨rfl, rfl, rfl, rfl⟩) | (rw [h]) | exact ⟨rfl, rfl, rfl, rfl⟩

theorem replaceInput_spec (g : GraphObj) (o t1 t2 : Nat) :
    (g.replaceInput o t1 t2).ops = g.ops ∧ (g.replaceInput o t1 t2).tensors = g.tensors ∧
      (g.replaceInput o t1 t2).tensorAt = g.tensorAt ∧
      ∀ x, ((g.replaceInput o t1 t2).opAt x).outputs = (g.opAt x).outputs ∧
        ((g.replaceInput o t1 t2).opAt x).predecessors = (g.opAt x).predecessors ∧
        ((g.replaceInput o t1 t2).opAt x).successors = (g.opAt x).successors ∧
        ((g.replaceInput o t1 t2).opAt x).type = (g.opAt x).type ∧
        ((g.replaceInput o t1 t2).opAt x).transposePermute = (g.opAt x).transposePermute ∧
        ((g.replaceInput o t1 t2).opAt x).inputs =
          if x = o then (g.opAt x).inputs.map (fun t => if t = t1 then t2 else t)
          else (g.opAt x).inputs := by
  refine ⟨rfl, rfl, rfl, fun x => ?_⟩
  simp only [GraphObj.replaceInput, GraphObj.setOp]
  split_ifs with h
  · rw [h]
    exact ⟨rfl, rfl, rfl, rfl, rfl, rfl⟩
  · exact ⟨rfl, rfl, rfl, rfl, rfl, rfl⟩

theorem SameWiring.wiring_refl (g : GraphObj) : SameWiring g g :=
  ⟨rfl, rfl, rfl, fun _ => ⟨rfl, rfl, rfl, rfl⟩⟩

theorem SameWiring.wiring_trans {a b c : GraphObj} (h1 : SameWiring a b)
    (h2 : SameWiring b c) : SameWiring a c :=
  ⟨h2.1.trans h1.1, h2.2.1.trans h1.2.1, h2.2.2.1.trans h1.2.2.1, fun x =>
    ⟨(h2.2.2.2 x).1.trans (h1.2.2.2 x).1, (h2.2.2.2 x).2.1.trans (h1.2.2.2 x).2.1,
      (h2.2.2.2 x).2.2.1.trans (h1.2.2.2 x).2.2.1,
      (h2.2.2.2 x).2.2.2.trans (h1.2.2.2 x).2.2.2⟩⟩

/-! ### The lambda `detach_op` -/

theorem detach_targets_fold (op : Nat) :
    ∀ (l : List Nat) (g : GraphObj),
      (l.foldl (fun h tin => h.removeTarget tin op) g).ops = g.ops ∧
      (l.foldl (fun h tin => h.removeTarget tin op) g).tensors = g.tensors ∧
      (l.foldl (fun h tin => h.removeTarget tin op) g).opAt = g.opAt ∧
      ∀ x, ((l.foldl (fun h tin => h.removeTarget tin op) g).tensorAt x).source =
          (g.tensorAt x).source ∧
        ((l.foldl (fun h tin => h.removeTarget tin op) g).tensorAt x).fuid =
          (g.tensorAt x).fuid ∧
        ∀ Q, Q ∈ ((l.foldl (fun h tin => h.removeTarget tin op) g).tensorAt x).targets ↔
          Q ∈ (g.tensorAt x).targets ∧ ¬ (Q = op ∧ x ∈ l) := by
  intro l
  induction l with
  | nil => intro g; simp
  | cons a rest ih =>
    intro g
    rw [List.foldl_cons]
    obtain ⟨h1, h2, h3, h4⟩ := ih (g.removeTarget a op)
    obtain ⟨f1, f2, f3, f4⟩ := removeTarget_frame g a op
    refine ⟨h1.trans f1, h2.trans f2, h3.trans f3, fun x => ?_⟩
    refine ⟨(h4 x).1.trans (f4 x).1, (h4 x).2.1.trans (f4 x).2, fun Q => ?_⟩
    rw [(h4 x).2.2 Q, removeTarget_targets]
    split_ifs with hx
    · simp only [List.mem_filter, decide_eq_true_eq, List.mem_cons, hx, true_or, and_true]
      tauto
    · simp only [List.mem_cons, hx, false_or]

theorem detach_sources_fold (op : Nat) :
    ∀ (l : List Nat) (g : GraphObj),
      (l.foldl (fun h out => if (h.tensorAt out).source = some op then h.resetSource out
        else h) g).ops = g.ops ∧
      (l.foldl (fun h out => if (h.tensorAt out).source = some op then h.resetSource out
        else h) g).tensors = g.tensors ∧
      (l.foldl (fun h out => if (h.tensorAt out).source = some op then h.resetSource out
        else h) g).opAt = g.opAt ∧
      ∀ x, ((l.foldl (fun h out => if (h.tensorAt out).source = some op then h.resetSource out
          else h) g).tensorAt x).targets = (g.tensorAt x).targets ∧
        ((l.foldl (fun h out => if (h.tensorAt out).source = some op then h.resetSource out
          else h) g).tensorAt x).fuid = (g.tensorAt x).fuid ∧
        ((l.foldl (fun h out => if (h.tensorAt out).source = some op then h.resetSource out
          else h) g).tensorAt x).source =
          if x ∈ l ∧ (g.tensorAt x).source = some op then none else (g.tensorAt x).source := by
  intro l
  induction l with
  | nil => intro g; simp
  | cons a rest ih =>
    intro g
    rw [List.foldl_cons]
    by_cases hs : (g.tensorAt a).source = some op
    · rw [if_pos hs]
      obtain ⟨h1, h2, h3, h4⟩ := ih (g.resetSource a)
      obtain ⟨f1, f2, f3, f4⟩ := resetSource_frame g a
      refine ⟨h1.trans f1, h2.trans f2, h3.trans f3, fun x => ?_⟩
      refine ⟨(h4 x).1.trans (f4 x).1, (h4 x).2.1.trans (f4 x).2, ?_⟩
      rw [(h4 x).2.2, resetSource_source]
      by_cases hx : x = a
      · subst hx
        simp [hs]
      · simp [hx]
    · rw [if_neg hs]
      obtain ⟨h1, h2, h3, h4⟩ := ih g
      refine ⟨h1, h2, h3, fun x => ⟨(h4 x).1, (h4 x).2.1, ?_⟩⟩
      rw [(h4 x).2.2]
      by_cases hx : x = a
      · subst hx
        simp [hs]
      · simp [hx]

theorem detach_successors_fold (op : Nat) :
    ∀ (l : List Nat) (g : GraphObj),
      SameWiring g (l.foldl (fun h pred => h.removeSuccessors pred op) g) ∧
      (∀ x, ((l.foldl (fun h pred => h.removeSuccessors pred op) g).opAt x).predecessors =
        (g.opAt x).predecessors) ∧
      ∀ x Q, Q ∈ ((l.foldl (fun h pred => h.removeSuccessors pred op) g).opAt x).successors ↔
        Q ∈ (g.opAt x).successors ∧ ¬ (Q = op ∧ x ∈ l) := by
  intro l
  induction l with
  | nil => intro g; simp [SameWiring.wiring_refl]
  | cons a rest ih =>
    intro g
    rw [List.foldl_cons]
    obtain ⟨h1, h2, h3⟩ := ih (g.removeSuccessors a op)
    obtain ⟨f1, f2, f3⟩ := removeSuccessors_spec g a op
    refine ⟨f1.wiring_trans h1, fun x => (h2 x).trans (f2 x), fun x Q => ?_⟩
    rw [h3 x Q, f3]
    split_ifs with hx
    · simp only [List.mem_filter, decide_eq_true_eq, List.mem_cons, hx, true_or, and_true]
      tauto
    · simp only [List.mem_cons, hx, false_or]

theorem detach_predecessors_fold (op : Nat) :
    ∀ (l : List Nat) (g : GraphObj),
      SameWiring g (l.foldl (fun h succ => h.removePredecessors succ op) g) ∧
      (∀ x, ((l.foldl (fun h succ => h.removePredecessors succ op) g).opAt x).successors =
        (g.opAt x).successors) ∧
      ∀ x P, P ∈ ((l.foldl (fun h succ => h.removePredecessors succ op) g).opAt x).predecessors ↔
        P ∈ (g.opAt x).predecessors ∧ ¬ (P = op ∧ x ∈ l) := by
  intro l
  induction l with
  | nil => intro g; simp [SameWiring.wiring_refl]
  | cons a rest ih =>
    intro g
    rw [List.foldl_cons]
    obtain ⟨h1, h2, h3⟩ := ih (g.removePredecessors a op)
    obtain ⟨f1, f2, f3⟩ := removePredecessors_spec g a op
    refine ⟨f1.wiring_trans h1, fun x => (h2 x).trans (f2 x), fun x P => ?_⟩
    rw [h3 x P, f3]
    split_ifs with hx
    · simp only [List.mem_filter, decide_eq_true_eq, List.mem_cons, hx, true_or, and_true]
      tauto
    · simp only [List.mem_cons, hx, false_or]

/-- What `detach_op` does: it removes `op` from the targets of its inputs,
resets the source of the outputs that it produces, removes `op` from the
successors of its predecessors and from the predecessors of its successors,
and clears its own predecessors and successors. -/
theorem detach_op_spec (g : GraphObj) (op : Nat) :
    (g.detach_op op).ops = g.ops ∧ (g.detach_op op).tensors = g.tensors ∧
    (∀ x, ((g.detach_op op).opAt x).inputs = (g.opAt x).inputs ∧
      ((g.detach_op op).opAt x).outputs = (g.opAt x).outputs ∧
      ((g.detach_op op).opAt x).type = (g.opAt x).type ∧
      ((g.detach_op op).opAt x).transposePermute = (g.opAt x).transposePermute) ∧
    (∀ x, ((g.detach_op op).tensorAt x).fuid = (g.tensorAt x).fuid) ∧
    (∀ x Q, Q ∈ ((g.detach_op op).tensorAt x).targets ↔
      Q ∈ (g.tensorAt x).targets ∧ ¬ (Q = op ∧ x ∈ (g.opAt op).inputs)) ∧
    (∀ x, ((g.detach_op op).tensorAt x).source =
      if x ∈ (g.opAt op).outputs ∧ (g.tensorAt x).source = some op then none
      else (g.tensorAt x).source) ∧
    (∀ x P, P ∈ ((g.detach_op op).opAt x).predecessors ↔
      x ≠ op ∧ P ∈ (g.opAt x).predecessors ∧ ¬ (P = op ∧ x ∈ (g.opAt op).successors)) ∧
    (∀ x Q, Q ∈ ((g.detach_op op).opAt x).successors ↔
      x ≠ op ∧ Q ∈ (g.opAt x).successors ∧ ¬ (Q = op ∧ x ∈ (g.opAt op).predecessors)) := by
  obtain ⟨a1, a2, a3, a4⟩ := detach_targets_fold op (g.opAt op).inputs g
  generalize hg1 : (g.opAt op).inputs.foldl (fun h tin => h.removeTarget tin op) g = g1
    at a1 a2 a3 a4
  obtain ⟨b1, b2, b3, b4⟩ := detach_sources_fold op (g1.opAt op).outputs g1
  generalize hg2 : (g1.opAt op).outputs.foldl (fun h out =>
    if (h.tensorAt out).source = some op then h.resetSource out else h) g1 = g2
    at b1 b2 b3 b4
  obtain ⟨c1, c2, c3⟩ := detach_successors_fold op (g2.opAt op).predecessors g2
  generalize hg3 : (g2.opAt op).predecessors.foldl (fun h pred => h.removeSuccessors pred op)
    g2 = g3 at c1 c2 c3
  obtain ⟨d1, d2, d3⟩ := detach_predecessors_fold op (g3.opAt op).successors g3
  generalize hg4 : (g3.opAt op).successors.foldl (fun h succ => h.removePredecessors succ op)
    g3 = g4 at d1 d2 d3
  have hdef : g.detach_op op =
      g4.setOp op { g4.opAt op with predecessors := [], successors := [] } := by
    rw [← hg4, ← hg3, ← hg2, ← hg1]
    rfl
  rw [hdef]
  have hop2 : g2.opAt = g.opAt := b3.trans a3
  have hten : g4.tensorAt = g2.tensorAt := d1.2.2.1.trans c1.2.2.1
  refine ⟨?_, ?_, ?_, ?_, ?_, ?_, ?_, ?_⟩
  · exact ((d1.1.trans c1.1).trans b1).trans a1
  · exact ((d1.2.1.trans c1.2.1).trans b2).trans a2
  · intro x
    have e1 := d1.2.2.2 x
    have e2 := c1.2.2.2 x
    simp only [GraphObj.setOp]
    split_ifs with hx
    · subst hx
      simp only
      rw [e1.1, e1.2.1, e1.2.2.1, e1.2.2.2, e2.1, e2.2.1, e2.2.2.1, e2.2.2.2, hop2]
      exact ⟨rfl, rfl, rfl, rfl⟩
    · rw [e1.1, e1.2.1, e1.2.2.1, e1.2.2.2, e2.1, e2.2.1, e2.2.2.1, e2.2.2.2, hop2]
      exact ⟨rfl, rfl, rfl, rfl⟩
  · intro x
    show (g4.tensorAt x).fuid = _
    rw [hten, (b4 x).2.1, (a4 x).2.1]
  · intro x Q
    show Q ∈ (g4.tensorAt x).targets ↔ _
    rw [hten, (b4 x).1, (a4 x).2.2 Q]
  · intro x
    show (g4.tensorAt x).source = _
    rw [hten, (b4 x).2.2, a3, (a4 x).1]
  · intro x P
    simp only [GraphObj.setOp]
    split_ifs with hx
    · simp [hx]
    · rw [d3 x P, c2 x, hop2]
      have hs : x ∈ (g3.opAt op).successors ↔ x ∈ (g.opAt op).successors := by
        rw [c3 op x, hop2]
        constructor
        · intro h
          exact h.1
        · intro h
          exact ⟨h, fun hc => hx hc.1⟩
      rw [hs]
      simp only [ne_eq, hx, not_false_eq_true, true_and]
  · intro x Q
    simp only [GraphObj.setOp]
    split_ifs with hx
    · simp [hx]
    · rw [d2 x, c3 x Q, hop2]
      simp only [ne_eq, hx, not_false_eq_true, true_and]


/-! ### The rewiring of a consumer -/

theorem rewireConsumer_spec (g : GraphObj) (op tin pred orig : Nat) :
    Rewired g (rewireConsumer pred tin orig g op) pred tin orig op := by
  -- the three tensor-side steps
  obtain ⟨r1, r2, r3, r4⟩ := replaceInput_spec g op tin orig
  generalize hga : g.replaceInput op tin orig = ga at r1 r2 r3 r4
  obtain ⟨s1, s2, s3, s4⟩ := removeTarget_frame ga tin op
  have s5 := removeTarget_targets ga tin op
  generalize hgb : ga.removeTarget tin op = gb at s1 s2 s3 s4 s5
  obtain ⟨t1, t2, t3, t4⟩ := addTarget_frame gb orig op
  have t5 := addTarget_targets gb orig op
  generalize hgc : gb.addTarget orig op = gc at t1 t2 t3 t4 t5
  -- the operator-side steps
  obtain ⟨u1, u2, u3⟩ := removePredecessors_spec gc op pred
  generalize hgd : gc.removePredecessors op pred = gd at u1 u2 u3
  obtain ⟨v1, v2, v3⟩ := removeSuccessors_spec gd pred op
  generalize hge : gd.removeSuccessors pred op = ge at v1 v2 v3
  have hsrc : (ge.tensorAt orig).source = (g.tensorAt orig).source := by
    rw [v1.2.2.1, u1.2.2.1, (t4 orig).1, (s4 orig).1, r3]
  have hten : ∀ x, (ge.tensorAt x).fuid = (g.tensorAt x).fuid ∧
      (ge.tensorAt x).source = (g.tensorAt x).source ∧
      ∀ Q, Q ∈ (ge.tensorAt x).targets ↔
        (Q ∈ (g.tensorAt x).targets ∧ ¬ (x = tin ∧ Q = op)) ∨ (x = orig ∧ Q = op) := by
    intro x
    rw [v1.2.2.1, u1.2.2.1]
    refine ⟨by rw [(t4 x).2, (s4 x).2, r3], by rw [(t4 x).1, (s4 x).1, r3], fun Q => ?_⟩
    rw [t5, s5, r3]
    by_cases h1 : x = orig
    · subst h1
      by_cases h2 : x = tin
      · subst h2
        simp only [↓reduceIte, List.mem_append, List.mem_filter, decide_eq_true_eq,
          List.mem_singleton, true_and]
      · simp only [↓reduceIte, h2, List.mem_append, List.mem_singleton, false_and,
          not_false_eq_true, and_true, true_and]
    · by_cases h2 : x = tin
      · subst h2
        simp only [↓reduceIte, h1, List.mem_filter, decide_eq_true_eq, true_and, false_and,
          or_false]
      · simp only [↓reduceIte, h1, h2, false_and, not_false_eq_true, and_true, or_false]
  have hops : ∀ x, (ge.opAt x).outputs = (g.opAt x).outputs ∧
      (ge.opAt x).type = (g.opAt x).type ∧
      (ge.opAt x).transposePermute = (g.opAt x).transposePermute ∧
      (ge.opAt x).inputs = (if x = op then (g.opAt x).inputs.map
        (fun t => if t = tin then orig else t) else (g.opAt x).inputs) ∧
      (∀ P, P ∈ (ge.opAt x).predecessors ↔
        P ∈ (g.opAt x).predecessors ∧ ¬ (x = op ∧ P = pred)) ∧
      (∀ Q, Q ∈ (ge.opAt x).successors ↔
        Q ∈ (g.opAt x).successors ∧ ¬ (x = pred ∧ Q = op)) := by
    intro x
    have e1 := v1.2.2.2 x
    have e2 := u1.2.2.2 x
    have hopc : gc.opAt = ga.opAt := t3.trans s3
    refine ⟨?_, ?_, ?_, ?_, ?_, ?_⟩
    · rw [e1.2.1, e2.2.1, hopc, (r4 x).1]
    · rw [e1.2.2.1, e2.2.2.1, hopc, (r4 x).2.2.2.1]
    · rw [e1.2.2.2, e2.2.2.2, hopc, (r4 x).2.2.2.2.1]
    · rw [e1.1, e2.1, hopc, (r4 x).2.2.2.2.2]
    · intro P
      rw [v2 x, u3 x, hopc, (r4 x).2.1]
      split_ifs with hx
      · simp [hx, List.mem_filter]
      · simp [hx]
    · intro Q
      rw [v3 x, u2 x, hopc, (r4 x).2.2.1]
      split_ifs with hx
      · simp [hx, List.mem_filter]
      · simp [hx]
  have hlists : ge.ops = g.ops ∧ ge.tensors = g.tensors :=
    ⟨(((v1.1.trans u1.1).trans t1).trans s1).trans r1,
      (((v1.2.1.trans u1.2.1).trans t2).trans s2).trans r2⟩
  -- the links to the producer of `orig`, and the flag
  have key : ∀ gf : GraphObj,
      gf = (match (ge.tensorAt orig).source with
        | none => ge
        | some origPred => (ge.addSuccessors origPred op).addPredecessors op origPred) →
      gf.ops = g.ops ∧ gf.tensors = g.tensors ∧ gf.tensorAt = ge.tensorAt ∧
      (∀ x, (gf.opAt x).outputs = (g.opAt x).outputs ∧
        (gf.opAt x).type = (g.opAt x).type ∧
        (gf.opAt x).transposePermute = (g.opAt x).transposePermute ∧
        (gf.opAt x).inputs = if x = op then (g.opAt x).inputs.map
          (fun t => if t = tin then orig else t) else (g.opAt x).inputs) ∧
      (∀ x P, P ∈ (gf.opAt x).predecessors ↔
        (P ∈ (g.opAt x).predecessors ∧ ¬ (x = op ∧ P = pred)) ∨
          (x = op ∧ (g.tensorAt orig).source = some P)) ∧
      (∀ x Q, Q ∈ (gf.opAt x).successors ↔
        (Q ∈ (g.opAt x).successors ∧ ¬ (x = pred ∧ Q = op)) ∨
          ((g.tensorAt orig).source = some x ∧ Q = op)) := by
    intro gf hgf
    rw [hsrc] at hgf
    cases hso : (g.tensorAt orig).source with
    | none =>
      rw [hso] at hgf
      simp only at hgf
      subst hgf
      refine ⟨hlists.1, hlists.2, rfl, fun x => ⟨(hops x).1, (hops x).2.1, (hops x).2.2.1,
        (hops x).2.2.2.1⟩, fun x P => ?_, fun x Q => ?_⟩
      · rw [(hops x).2.2.2.2.1 P]
        simp
      · rw [(hops x).2.2.2.2.2 Q]
        simp
    | some origPred =>
      rw [hso] at hgf
      simp only at hgf
      obtain ⟨w1, w2, w3⟩ := addSuccessors_spec ge origPred op
      generalize ge.addSuccessors origPred op = gh at w1 w2 w3 hgf
      obtain ⟨y1, y2, y3⟩ := addPredecessors_spec gh op origPred
      rw [← hgf] at y1 y2 y3
      refine ⟨(y1.1.trans w1.1).trans hlists.1, (y1.2.1.trans w1.2.1).trans hlists.2,
        y1.2.2.1.trans w1.2.2.1, fun x => ?_, fun x P => ?_, fun x Q => ?_⟩
      · have e1 := y1.2.2.2 x
        have e2 := w1.2.2.2 x
        rw [e1.1, e1.2.1, e1.2.2.1, e1.2.2.2, e2.1, e2.2.1, e2.2.2.1, e2.2.2.2]
        exact ⟨(hops x).1, (hops x).2.1, (hops x).2.2.1, (hops x).2.2.2.1⟩
      · rw [y3 x]
        split_ifs with hx
        · rw [List.mem_append, w2 x, (hops x).2.2.2.2.1 P]
          simp only [hx, true_and, List.mem_singleton, Option.some.injEq]
          constructor
          · rintro (h | h)
            · exact Or.inl h
            · exact Or.inr h.symm
          · rintro (h | h)
            · exact Or.inl h
            · exact Or.inr h.symm
        · rw [w2 x, (hops x).2.2.2.2.1 P]
          simp only [hx, false_and, not_false_eq_true, and_true, or_false]
      · rw [y2 x, w3 x]
        split_ifs with hx
        · rw [List.mem_append, (hops x).2.2.2.2.2 Q]
          simp only [hx, List.mem_singleton, Option.some.injEq, true_and]
        · rw [(hops x).2.2.2.2.2 Q]
          simp only [Option.some.injEq]
          constructor
          · intro h
            exact Or.inl h
          · rintro (h | h)
            · exact h
            · exact absurd h.1.symm hx
  obtain ⟨gf0, hgf0⟩ : ∃ gf0 : GraphObj, gf0 = (match (ge.tensorAt orig).source with
      | none => ge
      | some origPred => (ge.addSuccessors origPred op).addPredecessors op origPred) :=
    ⟨_, rfl⟩
  obtain ⟨k1, k2, k3, k4, k5, k6⟩ := key gf0 hgf0
  have hdef : rewireConsumer pred tin orig g op = gf0 := by
    subst hgf0 hge hgd hgc hgb hga
    rfl
  rw [hdef]
  exact ⟨k1, k2, fun x => ⟨(k4 x).1, (k4 x).2.1, (k4 x).2.2.1⟩, fun x => (k4 x).2.2.2,
    fun x => by rw [k3]; exact ⟨(hten x).1, (hten x).2.1⟩,
    fun x Q => by rw [k3]; exact (hten x).2.2 Q, k5, k6⟩

theorem Rewired.toggle {g h : GraphObj} {d z x succ : Nat} (r : Rewired g h d z x succ)
    (o : Nat) (v : OperatorObj) (h1 : v.inputs = (h.opAt o).inputs)
    (h2 : v.outputs = (h.opAt o).outputs) (h3 : v.predecessors = (h.opAt o).predecessors)
    (h4 : v.successors = (h.opAt o).successors) (h5 : v.type = (h.opAt o).type)
    (h6 : v.transposePermute = (h.opAt o).transposePermute) :
    Rewired g (h.setOp o v) d z x succ := by
  have key : ∀ y, ((h.setOp o v).opAt y).inputs = (h.opAt y).inputs ∧
      ((h.setOp o v).opAt y).outputs = (h.opAt y).outputs ∧
      ((h.setOp o v).opAt y).predecessors = (h.opAt y).predecessors ∧
      ((h.setOp o v).opAt y).successors = (h.opAt y).successors ∧
      ((h.setOp o v).opAt y).type = (h.opAt y).type ∧
      ((h.setOp o v).opAt y).transposePermute = (h.opAt y).transposePermute := by
    intro y
    simp only [GraphObj.setOp]
    split_ifs with hy
    · rw [hy]
      exact ⟨h1, h2, h3, h4, h5, h6⟩
    · exact ⟨rfl, rfl, rfl, rfl, rfl, rfl⟩
  refine ⟨r.ops_eq, r.tensors_eq, fun y => ?_, fun y => ?_, r.tensors_frame, r.targets_iff,
    fun y P => ?_, fun y Q => ?_⟩
  · rw [(key y).2.1, (key y).2.2.2.2.1, (key y).2.2.2.2.2]
    exact r.ops_frame y
  · rw [(key y).1]
    exact r.inputs_eq y
  · rw [(key y).2.2.1]
    exact r.preds_iff y P
  · rw [(key y).2.2.2.1]
    exact r.succs_iff y Q

theorem detach_op_detached (g : GraphObj) (d : Nat) : Detached g (g.detach_op d) d := by
  obtain ⟨h1, h2, h3, h4, h5, h6, h7, h8⟩ := detach_op_spec g d
  exact ⟨h1, h2, h3, h4, h5, h6, h7, h8⟩


/-! ### The edges stay consistent -/

theorem mem_map_replace (l : List Nat) (z x t : Nat) :
    t ∈ l.map (fun s => if s = z then x else s) ↔ (t ∈ l ∧ t ≠ z) ∨ (t = x ∧ z ∈ l) := by
  rw [List.mem_map]
  constructor
  · rintro ⟨s, hs, rfl⟩
    by_cases h : s = z
    · right
      rw [if_pos h]
      exact ⟨rfl, h ▸ hs⟩
    · left
      rw [if_neg h]
      exact ⟨hs, h⟩
  · rintro (⟨h1, h2⟩ | ⟨h1, h2⟩)
    · exact ⟨t, h1, by simp [h2]⟩
    · exact ⟨z, h2, by simp [h1]⟩

/-- A consumer of the tensor `z`, whose producer `d` is about to be detached,
is rewired to the tensor `x`: the edges stay consistent. -/
theorem EdgesValidG.rewire {g h : GraphObj} {live ghost : Nat → Prop} {d z x succ : Nat}
    (V : EdgesValidG g live ghost) (r : Rewired g h d z x succ) (hd : ghost d)
    (hz : z ∈ g.tensors) (hx : x ∈ g.tensors) (hsrc : (g.tensorAt z).source = some d)
    (hs : live succ ∨ ghost succ)
    (hin : z ∈ (g.opAt succ).inputs ∨ x ∈ (g.opAt succ).inputs) :
    EdgesValidG h live ghost := by
  have hout : ∀ o, (h.opAt o).outputs = (g.opAt o).outputs := fun o => (r.ops_frame o).1
  have hsource : ∀ t, (h.tensorAt t).source = (g.tensorAt t).source :=
    fun t => (r.tensors_frame t).2
  have hinp : ∀ o t, t ∈ (h.opAt o).inputs ↔
      if o = succ then (t ∈ (g.opAt o).inputs ∧ t ≠ z) ∨ (t = x ∧ z ∈ (g.opAt o).inputs)
      else t ∈ (g.opAt o).inputs := by
    intro o t
    rw [r.inputs_eq o]
    split_ifs with ho
    · exact mem_map_replace _ z x t
    · exact Iff.rfl
  -- `x` is an input of `succ` after the step
  have hxin : x ∈ (h.opAt succ).inputs := by
    rw [hinp succ x, if_pos rfl]
    rcases hin with h1 | h1
    · exact Or.inr ⟨rfl, h1⟩
    · by_cases hxz : x = z
      · exact Or.inr ⟨rfl, hxz ▸ h1⟩
      · exact Or.inl ⟨h1, hxz⟩
  -- no live operator produces `z`
  have hnoz : ∀ P, live P → z ∉ (g.opAt P).outputs := by
    intro P hP hzo
    have := (V.src z hz P (V.disjoint P hP)).2 ⟨hP, hzo⟩
    rw [hsrc] at this
    simp only [Option.some.injEq] at this
    exact V.disjoint P hP (this ▸ hd)
  have hfeeds : ∀ P Q, live P → (Feeds h P Q ↔
      if Q = succ then Feeds g P Q ∨ x ∈ (g.opAt P).outputs else Feeds g P Q) := by
    intro P Q hP
    unfold Feeds
    simp only [hout, hinp]
    split_ifs with hQ
    · subst hQ
      constructor
      · rintro ⟨t, ht, (⟨h1, _⟩ | ⟨h1, _⟩)⟩
        · exact Or.inl ⟨t, ht, h1⟩
        · exact Or.inr (h1 ▸ ht)
      · rintro (⟨t, ht, h1⟩ | h1)
        · exact ⟨t, ht, Or.inl ⟨h1, fun e => hnoz P hP (e ▸ ht)⟩⟩
        · refine ⟨x, h1, ?_⟩
          have := (hinp Q x).1 hxin
          rw [if_pos rfl] at this
          exact this
    · exact Iff.rfl
  refine ⟨V.disjoint, ?_, ?_, ?_, ?_, ?_, ?_, ?_, ?_, ?_, ?_, ?_⟩
  · -- src
    intro t ht P hP
    rw [r.tensors_eq] at ht
    rw [hsource, hout]
    exact V.src t ht P hP
  · intro t ht P hP
    rw [r.tensors_eq] at ht
    rw [hsource, hout]
    exact V.src_ghost t ht P hP
  · -- tgt
    intro t ht Q hQ
    rw [r.tensors_eq] at ht
    rw [r.targets_iff, hinp]
    have old := V.tgt t ht Q hQ
    split_ifs with hQs
    · subst hQs
      have hlive : live Q := by
        rcases hs with h1 | h1
        · exact h1
        · exact absurd h1 hQ
      constructor
      · rintro (⟨h1, h2⟩ | ⟨h1, _⟩)
        · have hne : t ≠ z := fun e => h2 ⟨e, rfl⟩
          exact ⟨hlive, Or.inl ⟨(old.1 h1).2, hne⟩⟩
        · subst h1
          have := (hinp Q t).1 hxin
          rw [if_pos rfl] at this
          exact ⟨hlive, this⟩
      · rintro ⟨_, (⟨h1, h2⟩ | ⟨h1, _⟩)⟩
        · exact Or.inl ⟨old.2 ⟨hlive, h1⟩, fun e => h2 e.1⟩
        · exact Or.inr ⟨h1, rfl⟩
    · rw [← old]
      constructor
      · rintro (⟨h1, _⟩ | ⟨_, h1⟩)
        · exact h1
        · exact absurd h1 hQs
      · intro h1
        exact Or.inl ⟨h1, fun e => hQs e.2⟩
  · -- tgt_ghost
    intro t ht Q hQ hmem
    rw [r.tensors_eq] at ht
    rw [r.targets_iff] at hmem
    rw [hinp]
    split_ifs with hQs
    · subst hQs
      rcases hmem with ⟨h1, h2⟩ | ⟨h1, _⟩
      · exact Or.inl ⟨V.tgt_ghost t ht Q hQ h1, fun e => h2 ⟨e, rfl⟩⟩
      · subst h1
        have := (hinp Q t).1 hxin
        rw [if_pos rfl] at this
        exact this
    · rcases hmem with ⟨h1, _⟩ | ⟨_, h1⟩
      · exact V.tgt_ghost t ht Q hQ h1
      · exact absurd h1 hQs
  · -- in_mem
    intro Q hQ t ht
    rw [r.tensors_eq]
    rw [hinp] at ht
    split_ifs at ht with hQs
    · rcases ht with ⟨h1, _⟩ | ⟨h1, _⟩
      · exact V.in_mem Q hQ t h1
      · exact h1 ▸ hx
    · exact V.in_mem Q hQ t ht
  · -- out_mem
    intro Q hQ t ht
    rw [r.tensors_eq]
    rw [hout] at ht
    exact V.out_mem Q hQ t ht
  · -- pred
    intro Q hQ P hP
    rw [r.preds_iff]
    have old := V.pred Q hQ P hP
    constructor
    · rintro (⟨h1, _⟩ | ⟨h1, h2⟩)
      · have := old.1 h1
        refine ⟨this.1, ?_⟩
        rw [hfeeds P Q this.1]
        split_ifs
        · exact Or.inl this.2
        · exact this.2
      · have := (V.src x hx P hP).1 h2
        refine ⟨this.1, ?_⟩
        rw [hfeeds P Q this.1, if_pos h1]
        exact Or.inr this.2
    · rintro ⟨h1, h2⟩
      rw [hfeeds P Q h1] at h2
      have hPd : P ≠ d := fun e => hP (e ▸ hd)
      split_ifs at h2 with hQs
      · rcases h2 with h2 | h2
        · exact Or.inl ⟨old.2 ⟨h1, h2⟩, fun e => hPd e.2⟩
        · exact Or.inr ⟨hQs, (V.src x hx P hP).2 ⟨h1, h2⟩⟩
      · exact Or.inl ⟨old.2 ⟨h1, h2⟩, fun e => hPd e.2⟩
  · -- pred_ghost
    intro Q hQ P hP hmem
    rw [r.preds_iff] at hmem
    rw [r.succs_iff]
    rcases hmem with ⟨h1, h2⟩ | ⟨h1, h2⟩
    · exact Or.inl ⟨V.pred_ghost Q hQ P hP h1, fun e => h2 ⟨e.2, e.1⟩⟩
    · exact Or.inr ⟨h2, h1⟩
  · -- succ
    intro P hP Q hQ
    rw [r.succs_iff]
    have old := V.succ P hP Q hQ
    have hPd : P ≠ d := fun e => V.disjoint P hP (e ▸ hd)
    have hPg : ¬ ghost P := V.disjoint P hP
    constructor
    · rintro (⟨h1, _⟩ | ⟨h1, h2⟩)
      · have := old.1 h1
        refine ⟨this.1, ?_⟩
        rw [hfeeds P Q hP]
        split_ifs
        · exact Or.inl this.2
        · exact this.2
      · have := (V.src x hx P hPg).1 h1
        have hlive : live Q := by
          rcases hs with h3 | h3
          · exact h2 ▸ h3
          · exact absurd (h2 ▸ h3) hQ
        refine ⟨hlive, ?_⟩
        rw [hfeeds P Q hP, if_pos h2]
        exact Or.inr this.2
    · rintro ⟨h1, h2⟩
      rw [hfeeds P Q hP] at h2
      split_ifs at h2 with hQs
      · rcases h2 with h2 | h2
        · exact Or.inl ⟨old.2 ⟨h1, h2⟩, fun e => hPd e.1⟩
        · exact Or.inr ⟨(V.src x hx P hPg).2 ⟨hP, h2⟩, hQs⟩
      · exact Or.inl ⟨old.2 ⟨h1, h2⟩, fun e => hPd e.1⟩
  · -- succ_ghost
    intro P hP Q hQ hmem
    rw [r.succs_iff] at hmem
    rw [r.preds_iff]
    have hPd : P ≠ d := fun e => V.disjoint P hP (e ▸ hd)
    rcases hmem with ⟨h1, _⟩ | ⟨h1, h2⟩
    · exact Or.inl ⟨V.succ_ghost P hP Q hQ h1, fun e => hPd e.2⟩
    · exact Or.inr ⟨h2, h1⟩
  · -- fuid
    intro t1 h1 t2 h2 he
    rw [r.tensors_eq] at h1 h2
    rw [(r.tensors_frame t1).1, (r.tensors_frame t2).1] at he
    exact V.fuid_unique t1 h1 t2 h2 he


/-- A live operator may be moved among the operators that are about to be
detached. -/
theorem EdgesValidG.to_ghost {g : GraphObj} {live ghost : Nat → Prop}
    (V : EdgesValidG g live ghost) (d : Nat) :
    EdgesValidG g (fun P => live P ∧ P ≠ d) (fun P => ghost P ∨ P = d) := by
  by_cases hdl : live d
  swap
  · -- `d` is not live: nothing refers to it beyond what a ghost may do
    by_cases hdg : ghost d
    · have e1 : (fun P => live P ∧ P ≠ d) = live := by
        funext P
        exact propext ⟨fun h => h.1, fun h => ⟨h, fun e => hdl (e ▸ h)⟩⟩
      have e2 : (fun P => ghost P ∨ P = d) = ghost := by
        funext P
        exact propext ⟨fun h => h.elim id (fun e => e ▸ hdg), fun h => Or.inl h⟩
      rw [e1, e2]
      exact V
    · have hlive : ∀ P, live P → P ≠ d := fun P hP e => hdl (e ▸ hP)
      refine ⟨?_, ?_, ?_, ?_, ?_, ?_, ?_, ?_, ?_, ?_, ?_, V.fuid_unique⟩
      · rintro P ⟨h1, h2⟩ (h3 | h3)
        · exact V.disjoint P h1 h3
        · exact h2 h3
      · intro t ht P hP
        have hg : ¬ ghost P := fun e => hP (Or.inl e)
        have hne : P ≠ d := fun e => hP (Or.inr e)
        rw [V.src t ht P hg]
        exact ⟨fun h => ⟨⟨h.1, hne⟩, h.2⟩, fun h => ⟨h.1.1, h.2⟩⟩
      · rintro t ht P (hP | hP) hs
        · exact V.src_ghost t ht P hP hs
        · subst hP
          exact absurd ((V.src t ht P hdg).1 hs).1 hdl
      · intro t ht Q hQ
        have hg : ¬ ghost Q := fun e => hQ (Or.inl e)
        have hne : Q ≠ d := fun e => hQ (Or.inr e)
        rw [V.tgt t ht Q hg]
        exact ⟨fun h => ⟨⟨h.1, hne⟩, h.2⟩, fun h => ⟨h.1.1, h.2⟩⟩
      · rintro t ht Q (hQ | hQ) hs
        · exact V.tgt_ghost t ht Q hQ hs
        · subst hQ
          exact absurd ((V.tgt t ht Q hdg).1 hs).1 hdl
      · exact fun Q hQ => V.in_mem Q hQ.1
      · exact fun Q hQ => V.out_mem Q hQ.1
      · intro Q hQ P hP
        have hg : ¬ ghost P := fun e => hP (Or.inl e)
        have hne : P ≠ d := fun e => hP (Or.inr e)
        rw [V.pred Q hQ.1 P hg]
        exact ⟨fun h => ⟨⟨h.1, hne⟩, h.2⟩, fun h => ⟨h.1.1, h.2⟩⟩
      · rintro Q hQ P (hP | hP) hs
        · exact V.pred_ghost Q hQ.1 P hP hs
        · subst hP
          exact absurd ((V.pred Q hQ.1 P hdg).1 hs).1 hdl
      · intro P hP Q hQ
        have hg : ¬ ghost Q := fun e => hQ (Or.inl e)
        have hne : Q ≠ d := fun e => hQ (Or.inr e)
        rw [V.succ P hP.1 Q hg]
        exact ⟨fun h => ⟨⟨h.1, hne⟩, h.2⟩, fun h => ⟨h.1.1, h.2⟩⟩
      · rintro P hP Q (hQ | hQ) hs
        · exact V.succ_ghost P hP.1 Q hQ hs
        · subst hQ
          exact absurd ((V.succ P hP.1 Q hdg).1 hs).1 hdl
  have hdg : ¬ ghost d := V.disjoint d hdl
  refine ⟨?_, ?_, ?_, ?_, ?_, ?_, ?_, ?_, ?_, ?_, ?_, V.fuid_unique⟩
  · rintro P ⟨h1, h2⟩ (h3 | h3)
    · exact V.disjoint P h1 h3
    · exact h2 h3
  · intro t ht P hP
    have hg : ¬ ghost P := fun e => hP (Or.inl e)
    have hne : P ≠ d := fun e => hP (Or.inr e)
    rw [V.src t ht P hg]
    exact ⟨fun h => ⟨⟨h.1, hne⟩, h.2⟩, fun h => ⟨h.1.1, h.2⟩⟩
  · rintro t ht P (hP | hP) hs
    · exact V.src_ghost t ht P hP hs
    · subst hP
      exact ((V.src t ht P hdg).1 hs).2
  · intro t ht Q hQ
    have hg : ¬ ghost Q := fun e => hQ (Or.inl e)
    have hne : Q ≠ d := fun e => hQ (Or.inr e)
    rw [V.tgt t ht Q hg]
    exact ⟨fun h => ⟨⟨h.1, hne⟩, h.2⟩, fun h => ⟨h.1.1, h.2⟩⟩
  · rintro t ht Q (hQ | hQ) hs
    · exact V.tgt_ghost t ht Q hQ hs
    · subst hQ
      exact ((V.tgt t ht Q hdg).1 hs).2
  · exact fun Q hQ => V.in_mem Q hQ.1
  · exact fun Q hQ => V.out_mem Q hQ.1
  · intro Q hQ P hP
    have hg : ¬ ghost P := fun e => hP (Or.inl e)
    have hne : P ≠ d := fun e => hP (Or.inr e)
    rw [V.pred Q hQ.1 P hg]
    exact ⟨fun h => ⟨⟨h.1, hne⟩, h.2⟩, fun h => ⟨h.1.1, h.2⟩⟩
  · rintro Q hQ P (hP | hP) hs
    · exact V.pred_ghost Q hQ.1 P hP hs
    · subst hP
      have h1 := (V.pred Q hQ.1 P hdg).1 hs
      exact (V.succ P hdl Q (V.disjoint Q hQ.1)).2 ⟨hQ.1, h1.2⟩
  · intro P hP Q hQ
    have hg : ¬ ghost Q := fun e => hQ (Or.inl e)
    have hne : Q ≠ d := fun e => hQ (Or.inr e)
    rw [V.succ P hP.1 Q hg]
    exact ⟨fun h => ⟨⟨h.1, hne⟩, h.2⟩, fun h => ⟨h.1.1, h.2⟩⟩
  · rintro P hP Q (hQ | hQ) hs
    · exact V.succ_ghost P hP.1 Q hQ hs
    · subst hQ
      have h1 := (V.succ P hP.1 Q hdg).1 hs
      exact (V.pred Q hdl P (V.disjoint P hP.1)).2 ⟨hP.1, h1.2⟩

/-- After `detach_op` of an operator that is about to be detached, nothing
refers to it any more. -/
theorem EdgesValidG.detach {g h : GraphObj} {live ghost : Nat → Prop} {d : Nat}
    (V : EdgesValidG g live ghost) (r : Detached g h d) (hd : ¬ live d) :
    EdgesValidG h live (fun P => ghost P ∧ P ≠ d) := by
  have hin : ∀ o, (h.opAt o).inputs = (g.opAt o).inputs := fun o => (r.ops_frame o).1
  have hout : ∀ o, (h.opAt o).outputs = (g.opAt o).outputs := fun o => (r.ops_frame o).2.1
  have hfeeds : ∀ P Q, Feeds h P Q ↔ Feeds g P Q := by
    intro P Q
    unfold Feeds
    rw [hin, hout]
  -- what the old graph says about `d`
  have dsrc : ∀ t ∈ g.tensors, (g.tensorAt t).source = some d → t ∈ (g.opAt d).outputs := by
    intro t ht hs
    by_cases hg : ghost d
    · exact V.src_ghost t ht d hg hs
    · exact ((V.src t ht d hg).1 hs).2
  have dtgt : ∀ t ∈ g.tensors, d ∈ (g.tensorAt t).targets → t ∈ (g.opAt d).inputs := by
    intro t ht hs
    by_cases hg : ghost d
    · exact V.tgt_ghost t ht d hg hs
    · exact ((V.tgt t ht d hg).1 hs).2
  have dpred : ∀ Q, live Q → d ∈ (g.opAt Q).predecessors → Q ∈ (g.opAt d).successors := by
    intro Q hQ hs
    by_cases hg : ghost d
    · exact V.pred_ghost Q hQ d hg hs
    · exact absurd ((V.pred Q hQ d hg).1 hs).1 hd
  have dsucc : ∀ P, live P → d ∈ (g.opAt P).successors → P ∈ (g.opAt d).predecessors := by
    intro P hP hs
    by_cases hg : ghost d
    · exact V.succ_ghost P hP d hg hs
    · exact absurd ((V.succ P hP d hg).1 hs).1 hd
  have hsrc : ∀ t ∈ g.tensors, ∀ P, (h.tensorAt t).source = some P ↔
      (g.tensorAt t).source = some P ∧ P ≠ d := by
    intro t ht P
    rw [r.source_eq]
    split_ifs with hc
    · simp only [false_iff, not_and, not_not]
      intro hs
      rw [hc.2] at hs
      simp only [Option.some.injEq] at hs
      exact hs.symm
    · constructor
      · intro hs
        refine ⟨hs, fun e => hc ⟨?_, e ▸ hs⟩⟩
        exact dsrc t ht (e ▸ hs)
      · exact fun hs => hs.1
  have htgt : ∀ t ∈ g.tensors, ∀ Q, Q ∈ (h.tensorAt t).targets ↔
      Q ∈ (g.tensorAt t).targets ∧ Q ≠ d := by
    intro t ht Q
    rw [r.targets_iff]
    constructor
    · rintro ⟨h1, h2⟩
      exact ⟨h1, fun e => h2 ⟨e, dtgt t ht (e ▸ h1)⟩⟩
    · rintro ⟨h1, h2⟩
      exact ⟨h1, fun e => h2 e.1⟩
  have hpred : ∀ Q, live Q → ∀ P, P ∈ (h.opAt Q).predecessors ↔
      P ∈ (g.opAt Q).predecessors ∧ P ≠ d := by
    intro Q hQ P
    rw [r.preds_iff]
    have hQd : Q ≠ d := fun e => hd (e ▸ hQ)
    constructor
    · rintro ⟨_, h1, h2⟩
      exact ⟨h1, fun e => h2 ⟨e, dpred Q hQ (e ▸ h1)⟩⟩
    · rintro ⟨h1, h2⟩
      exact ⟨hQd, h1, fun e => h2 e.1⟩
  have hsucc : ∀ P, live P → ∀ Q, Q ∈ (h.opAt P).successors ↔
      Q ∈ (g.opAt P).successors ∧ Q ≠ d := by
    intro P hP Q
    rw [r.succs_iff]
    have hPd : P ≠ d := fun e => hd (e ▸ hP)
    constructor
    · rintro ⟨_, h1, h2⟩
      exact ⟨h1, fun e => h2 ⟨e, dsucc P hP (e ▸ h1)⟩⟩
    · rintro ⟨h1, h2⟩
      exact ⟨hPd, h1, fun e => h2 e.1⟩
  refine ⟨fun P hP hg => V.disjoint P hP hg.1, ?_, ?_, ?_, ?_, ?_, ?_, ?_, ?_, ?_, ?_, ?_⟩
  · intro t ht P hP
    rw [r.tensors_eq] at ht
    rw [hsrc t ht, hout]
    by_cases hPd : P = d
    · subst hPd
      exact ⟨fun hc => absurd rfl hc.2, fun hc => absurd hc.1 hd⟩
    · have hg : ¬ ghost P := fun e => hP ⟨e, hPd⟩
      rw [← V.src t ht P hg]
      exact ⟨fun hc => hc.1, fun hc => ⟨hc, hPd⟩⟩
  · intro t ht P hP hs
    rw [r.tensors_eq] at ht
    rw [hout]
    exact V.src_ghost t ht P hP.1 ((hsrc t ht P).1 hs).1
  · intro t ht Q hQ
    rw [r.tensors_eq] at ht
    rw [htgt t ht, hin]
    by_cases hQd : Q = d
    · subst hQd
      exact ⟨fun hc => absurd rfl hc.2, fun hc => absurd hc.1 hd⟩
    · have hg : ¬ ghost Q := fun e => hQ ⟨e, hQd⟩
      rw [← V.tgt t ht Q hg]
      exact ⟨fun hc => hc.1, fun hc => ⟨hc, hQd⟩⟩
  · intro t ht Q hQ hs
    rw [r.tensors_eq] at ht
    rw [hin]
    exact V.tgt_ghost t ht Q hQ.1 ((htgt t ht Q).1 hs).1
  · intro Q hQ t ht
    rw [r.tensors_eq]
    rw [hin] at ht
    exact V.in_mem Q hQ t ht
  · intro Q hQ t ht
    rw [r.tensors_eq]
    rw [hout] at ht
    exact V.out_mem Q hQ t ht
  · intro Q hQ P hP
    rw [hpred Q hQ, hfeeds]
    by_cases hPd : P = d
    · subst hPd
      exact ⟨fun hc => absurd rfl hc.2, fun hc => absurd hc.1 hd⟩
    · have hg : ¬ ghost P := fun e => hP ⟨e, hPd⟩
      rw [← V.pred Q hQ P hg]
      exact ⟨fun hc => hc.1, fun hc => ⟨hc, hPd⟩⟩
  · intro Q hQ P hP hs
    have h1 := (hpred Q hQ P).1 hs
    rw [r.succs_iff]
    refine ⟨hP.2, V.pred_ghost Q hQ P hP.1 h1.1, fun e => hd (e.1 ▸ hQ)⟩
  · intro P hP Q hQ
    rw [hsucc P hP, hfeeds]
    by_cases hQd : Q = d
    · subst hQd
      exact ⟨fun hc => absurd rfl hc.2, fun hc => absurd hc.1 hd⟩
    · have hg : ¬ ghost Q := fun e => hQ ⟨e, hQd⟩
      rw [← V.succ P hP Q hg]
      exact ⟨fun hc => hc.1, fun hc => ⟨hc, hQd⟩⟩
  · intro P hP Q hQ hs
    have h1 := (hsucc P hP Q).1 hs
    rw [r.preds_iff]
    refine ⟨hQ.2, V.succ_ghost P hP Q hQ.1 h1.1, fun e => hd (e.1 ▸ hP)⟩
  · intro t1 h1 t2 h2 he
    rw [r.tensors_eq] at h1 h2
    rw [r.tensors_frame t1, r.tensors_frame t2] at he
    exact V.fuid_unique t1 h1 t2 h2 he

theorem EdgesValidG.congr_sets {g : GraphObj} {live ghost live1 ghost1 : Nat → Prop}
    (V : EdgesValidG g live ghost) (hl : ∀ P, live1 P ↔ live P)
    (hg : ∀ P, ghost1 P ↔ ghost P) : EdgesValidG g live1 ghost1 := by
  have e1 : live1 = live := funext fun P => propext (hl P)
  have e2 : ghost1 = ghost := funext fun P => propext (hg P)
  rw [e1, e2]
  exact V

/-- The edges do not depend on the operator list and the flags of the
graph. -/
theorem EdgesValidG.transfer_edges {g h : GraphObj} {live ghost : Nat → Prop}
    (V : EdgesValidG g live ghost) (ht : h.tensors = g.tensors)
    (hta : h.tensorAt = g.tensorAt)
    (hop : ∀ o, (h.opAt o).inputs = (g.opAt o).inputs ∧
      (h.opAt o).outputs = (g.opAt o).outputs ∧
      (h.opAt o).predecessors = (g.opAt o).predecessors ∧
      (h.opAt o).successors = (g.opAt o).successors) :
    EdgesValidG h live ghost := by
  have hf : ∀ P Q, Feeds h P Q ↔ Feeds g P Q := by
    intro P Q
    unfold Feeds
    rw [(hop P).2.1, (hop Q).1]
  refine ⟨V.disjoint, ?_, ?_, ?_, ?_, ?_, ?_, ?_, ?_, ?_, ?_, ?_⟩
  · intro t h1 P hP
    rw [ht] at h1
    rw [hta, (hop P).2.1]
    exact V.src t h1 P hP
  · intro t h1 P hP
    rw [ht] at h1
    rw [hta, (hop P).2.1]
    exact V.src_ghost t h1 P hP
  · intro t h1 Q hQ
    rw [ht] at h1
    rw [hta, (hop Q).1]
    exact V.tgt t h1 Q hQ
  · intro t h1 Q hQ
    rw [ht] at h1
    rw [hta, (hop Q).1]
    exact V.tgt_ghost t h1 Q hQ
  · intro Q hQ t h1
    rw [ht]
    rw [(hop Q).1] at h1
    exact V.in_mem Q hQ t h1
  · intro Q hQ t h1
    rw [ht]
    rw [(hop Q).2.1] at h1
    exact V.out_mem Q hQ t h1
  · intro Q hQ P hP
    rw [(hop Q).2.2.1, hf]
    exact V.pred Q hQ P hP
  · intro Q hQ P hP
    rw [(hop Q).2.2.1, (hop P).2.2.2]
    exact V.pred_ghost Q hQ P hP
  · intro P hP Q hQ
    rw [(hop P).2.2.2, hf]
    exact V.succ P hP Q hQ
  · intro P hP Q hQ
    rw [(hop P).2.2.2, (hop Q).2.2.1]
    exact V.succ_ghost P hP Q hQ
  · intro t1 h1 t2 h2
    rw [ht] at h1 h2
    rw [hta]
    exact V.fuid_unique t1 h1 t2 h2


/-! ### Rule 2 -/

theorem fuseStep_eq (op inputIdx : Nat) (st : FuseState) :
    fuseStep op inputIdx st =
      match (st.g.opAt op).inputs.get? inputIdx with
      | none => st
      | some tin =>
        match (st.g.tensorAt tin).source with
        | none => st
        | some pred =>
          if st.eraseOps.contains pred || (st.g.opAt pred).type != OpType.Transpose then st
          else if (st.g.tensorAt tin).targets.length ≠ 1 then st
          else if !is_swap_last_two (st.g.opAt pred).transposePermute
              (st.g.tensorAt tin).shape.length then st
          else
            match (st.g.opAt pred).inputs.get? 0 with
            | none => st
            | some orig =>
              if ((toggleTrans (rewireConsumer pred tin orig st.g op) op inputIdx).tensorAt
                  tin).targets.isEmpty then
                ⟨(toggleTrans (rewireConsumer pred tin orig st.g op) op inputIdx).detach_op
                  pred, pred :: st.eraseOps, true⟩
              else ⟨toggleTrans (rewireConsumer pred tin orig st.g op) op inputIdx,
                st.eraseOps, st.changed⟩ := by
  rfl

theorem fuseStep_of_cond (op inputIdx : Nat) (st : FuseState) (tin pred orig : Nat)
    (h : FuseCond st.g st.eraseOps op inputIdx tin pred orig) :
    fuseStep op inputIdx st =
      if ((toggleTrans (rewireConsumer pred tin orig st.g op) op inputIdx).tensorAt
          tin).targets.isEmpty then
        ⟨(toggleTrans (rewireConsumer pred tin orig st.g op) op inputIdx).detach_op
          pred, pred :: st.eraseOps, true⟩
      else ⟨toggleTrans (rewireConsumer pred tin orig st.g op) op inputIdx,
        st.eraseOps, st.changed⟩ := by
  obtain ⟨h1, h2, h3, h4, h5, h6, h7⟩ := h
  rw [fuseStep_eq, h1]
  simp only
  rw [h2]
  simp only
  have hc : (st.eraseOps.contains pred || (st.g.opAt pred).type != OpType.Transpose) = false := by
    simp [h3, h4]
  rw [hc, h6, h7]
  simp only [Bool.false_eq_true, ↓reduceIte, h5, ne_eq, not_true_eq_false, Bool.not_true]

theorem fuseStep_of_not_cond (op inputIdx : Nat) (st : FuseState)
    (h : ¬ ∃ tin pred orig, FuseCond st.g st.eraseOps op inputIdx tin pred orig) :
    fuseStep op inputIdx st = st := by
  rw [fuseStep_eq]
  cases h1 : (st.g.opAt op).inputs.get? inputIdx with
  | none => rfl
  | some tin =>
    simp only
    cases h2 : (st.g.tensorAt tin).source with
    | none => rfl
    | some pred =>
      simp only
      split_ifs with c1 c2 c3
      · rfl
      · rfl
      · rfl
      · cases h7 : (st.g.opAt pred).inputs.get? 0 with
        | none => rfl
        | some orig =>
          exfalso
          apply h
          have c1' : pred ∉ st.eraseOps ∧ (st.g.opAt pred).type = OpType.Transpose := by
            simpa using c1
          refine ⟨tin, pred, orig, h1, h2, c1'.1, c1'.2, ?_, ?_, h7⟩
          · simpa using c2
          · simpa using c3


theorem toggleTrans_rewired {g h : GraphObj} {d z x succ : Nat} (r : Rewired g h d z x succ)
    (op inputIdx : Nat) : Rewired g (toggleTrans h op inputIdx) d z x succ := by
  unfold toggleTrans
  split_ifs
  · exact r.toggle op _ rfl rfl rfl rfl rfl rfl
  · exact r.toggle op _ rfl rfl rfl rfl rfl rfl

theorem mem_of_get?_eq_some {l : List Nat} {i a : Nat} (h : l.get? i = some a) : a ∈ l :=
  List.get?_mem h

theorem eq_of_length_one_mem {l : List Nat} {a b : Nat} (hl : l.length = 1) (ha : a ∈ l)
    (hb : b ∈ l) : a = b := by
  match l, hl with
  | [c], _ =>
    rw [List.mem_singleton] at ha hb
    rw [ha, hb]

/-- A step of rule 2 that passes its tests removes the Transpose: the edges
stay consistent for the remaining operators, and every producer-to-consumer
edge of the new graph is a path of the old one. -/
theorem fuseFire_spec (g : GraphObj) (live : Nat → Prop)
    (V : EdgesValidG g live (fun _ => False)) (op inputIdx tin pred orig : Nat)
    (hop : live op) (hne : op ≠ pred) (htin : tin ∈ (g.opAt op).inputs)
    (hsrc : (g.tensorAt tin).source = some pred) (horig : orig ∈ (g.opAt pred).inputs)
    (hlen : (g.tensorAt tin).targets.length = 1) :
    live pred ∧
    ((toggleTrans (rewireConsumer pred tin orig g op) op inputIdx).tensorAt
      tin).targets.isEmpty = true ∧
    EdgesValidG ((toggleTrans (rewireConsumer pred tin orig g op) op inputIdx).detach_op pred)
      (fun P => live P ∧ P ≠ pred) (fun _ => False) ∧
    ((toggleTrans (rewireConsumer pred tin orig g op) op inputIdx).detach_op pred).ops
      = g.ops ∧
    ((toggleTrans (rewireConsumer pred tin orig g op) op inputIdx).detach_op pred).tensors
      = g.tensors ∧
    Reduced g live
      ((toggleTrans (rewireConsumer pred tin orig g op) op inputIdx).detach_op pred)
      (fun P => live P ∧ P ≠ pred) := by
  have r := toggleTrans_rewired (rewireConsumer_spec g op tin pred orig) op inputIdx
  generalize toggleTrans (rewireConsumer pred tin orig g op) op inputIdx = g4 at r ⊢
  have dt := detach_op_detached g4 pred
  generalize g4.detach_op pred = g5 at dt ⊢
  have hnf : ¬ (fun _ : Nat => False) 0 := fun h => h
  have htin_mem : tin ∈ g.tensors := V.in_mem op hop tin htin
  have hpred : live pred ∧ tin ∈ (g.opAt pred).outputs := (V.src tin htin_mem pred hnf).1 hsrc
  have horig_mem : orig ∈ g.tensors := V.in_mem pred hpred.1 orig horig
  have hop_tgt : op ∈ (g.tensorAt tin).targets := (V.tgt tin htin_mem op hnf).2 ⟨hop, htin⟩
  have hot : orig ≠ tin := by
    intro e
    have : pred ∈ (g.tensorAt tin).targets :=
      (V.tgt tin htin_mem pred hnf).2 ⟨hpred.1, e ▸ horig⟩
    exact hne (eq_of_length_one_mem hlen hop_tgt this)
  refine ⟨hpred.1, ?_, ?_, dt.ops_eq.trans r.ops_eq, dt.tensors_eq.trans r.tensors_eq, ?_⟩
  · rw [List.isEmpty_iff, List.eq_nil_iff_forall_not_mem]
    intro Q hQ
    rcases (r.targets_iff tin Q).1 hQ with ⟨h1, h2⟩ | ⟨h1, _⟩
    · exact h2 ⟨rfl, eq_of_length_one_mem hlen h1 hop_tgt⟩
    · exact hot h1.symm
  · have V1 := V.to_ghost pred
    have V2 := V1.rewire r (Or.inr rfl) htin_mem horig_mem hsrc
      (Or.inl ⟨hop, hne⟩) (Or.inl htin)
    have V3 := V2.detach dt (fun h => h.2 rfl)
    exact V3.congr_sets (fun _ => Iff.rfl) (fun P => by
      constructor
      · intro h
        exact h.elim
      · rintro ⟨h1 | h1, h2⟩
        · exact h1
        · exact h2 h1)
  · refine ⟨?_, fun P hP => hP.1, ?_, ?_⟩
    · intro t ht
      rw [dt.tensors_eq, r.tensors_eq] at ht
      exact ht
    · intro o
      rw [(dt.ops_frame o).2.2.1, (dt.ops_frame o).2.2.2, (r.ops_frame o).2.1,
        (r.ops_frame o).2.2]
      exact ⟨rfl, rfl⟩
    · rintro p q ⟨hp, hq, t, ht, hs⟩
      rw [(dt.ops_frame q).1, r.inputs_eq q] at ht
      have hs' : (g.tensorAt t).source = some p := by
        rw [dt.source_eq] at hs
        split_ifs at hs
        rw [(r.tensors_frame t).2] at hs
        exact hs
      split_ifs at ht with hqs
      · rcases (mem_map_replace _ tin orig t).1 ht with ⟨h1, _⟩ | ⟨h1, _⟩
        · exact Relation.TransGen.single ⟨hp.1, hq.1, t, h1, hs'⟩
        · subst h1
          subst hqs
          exact Relation.TransGen.tail
            (Relation.TransGen.single ⟨hp.1, hpred.1, t, horig, hs'⟩)
            ⟨hpred.1, hop, tin, htin, hsrc⟩
      · exact Relation.TransGen.single ⟨hp.1, hq.1, t, ht, hs'⟩


theorem transGen_of_edges {r s : Nat → Nat → Prop}
    (h : ∀ a b, r a b → Relation.TransGen s a b) :
    ∀ a b, Relation.TransGen r a b → Relation.TransGen s a b := by
  intro a b hab
  induction hab with
  | single e => exact h _ _ e
  | tail _ e ih => exact ih.trans (h _ _ e)

theorem Reduced.reduced_refl (g : GraphObj) (live : Nat → Prop) : Reduced g live g live :=
  ⟨fun _ h => h, fun _ h => h, fun _ => ⟨rfl, rfl⟩, fun _ _ h => Relation.TransGen.single h⟩

theorem Reduced.reduced_trans {g0 g1 g2 : GraphObj} {l0 l1 l2 : Nat → Prop}
    (h1 : Reduced g0 l0 g1 l1) (h2 : Reduced g1 l1 g2 l2) : Reduced g0 l0 g2 l2 :=
  ⟨fun t ht => h1.tensors_sub t (h2.tensors_sub t ht),
    fun P hP => h1.live_sub P (h2.live_sub P hP),
    fun o => ⟨(h2.frame o).1.trans (h1.frame o).1, (h2.frame o).2.trans (h1.frame o).2⟩,
    fun p q e => transGen_of_edges h1.edges p q (h2.edges p q e)⟩

theorem Reduced.congr_live {g0 g1 : GraphObj} {l0 l1 l1' : Nat → Prop}
    (h : Reduced g0 l0 g1 l1) (hl : ∀ P, l1' P ↔ l1 P) : Reduced g0 l0 g1 l1' := by
  have e : l1' = l1 := funext fun P => propext (hl P)
  rw [e]
  exact h

/-- A cycle-free graph stays cycle-free under the rewrites of the optimizer. -/
theorem Reduced.acyclic {g0 g : GraphObj}
    (h : Reduced g0 (fun P => P ∈ g0.ops) g (fun P => P ∈ g.ops)) (hac : Acyclic g0) :
    Acyclic g := by
  intro op hcyc
  exact hac op (transGen_of_edges (fun a b e => h.edges a b e) op op hcyc)

/-- One step of rule 2 keeps the invariant of the scan. -/
theorem fuseStep_inv (g0 : GraphObj) (st : FuseState) (op inputIdx : Nat)
    (hI : FuseInv g0 st) (hop : op ∈ g0.ops) (hne : op ∉ st.eraseOps)
    (hty : (st.g.opAt op).type = OpType.MatMul) :
    FuseInv g0 (fuseStep op inputIdx st) ∧
    ((fuseStep op inputIdx st = st ∧
        ¬ ∃ tin pred orig, FuseCond st.g st.eraseOps op inputIdx tin pred orig) ∨
      ((fuseStep op inputIdx st).changed = true ∧
        ∃ pred, (fuseStep op inputIdx st).eraseOps = pred :: st.eraseOps)) := by
  by_cases hc : ∃ tin pred orig, FuseCond st.g st.eraseOps op inputIdx tin pred orig
  swap
  · rw [fuseStep_of_not_cond op inputIdx st hc]
    exact ⟨hI, Or.inl ⟨rfl, hc⟩⟩
  obtain ⟨tin, pred, orig, hcond⟩ := hc
  rw [fuseStep_of_cond op inputIdx st tin pred orig hcond]
  obtain ⟨h1, h2, h3, h4, h5, h6, h7⟩ := hcond
  have hnp : op ≠ pred := by
    intro e
    rw [← e, hty] at h4
    cases h4
  obtain ⟨f1, f2, f3, f4, f5, f6⟩ := fuseFire_spec st.g
    (fun P => P ∈ g0.ops ∧ P ∉ st.eraseOps) hI.valid op inputIdx tin pred orig ⟨hop, hne⟩ hnp
    (mem_of_get?_eq_some h1) h2 (mem_of_get?_eq_some h7) h5
  rw [if_pos f2]
  have hlive : ∀ P, (P ∈ g0.ops ∧ P ∉ pred :: st.eraseOps) ↔
      ((P ∈ g0.ops ∧ P ∉ st.eraseOps) ∧ P ≠ pred) := by
    intro P
    rw [List.mem_cons, not_or]
    tauto
  refine ⟨⟨f3.congr_sets hlive (fun _ => Iff.rfl), f4.trans hI.ops_eq, f5.trans hI.tensors_eq,
    (hI.reduced.reduced_trans f6).congr_live hlive, ?_, ?_, ?_⟩, Or.inr ⟨rfl, pred, rfl⟩⟩
  · intro e he
    rcases List.mem_cons.1 he with h | h
    · rw [h]
      exact f1.1
    · exact hI.erased e h
  · simp
  · intro h
    cases h

/-- The scan of rule 2 keeps its invariant; when it ends without a change, no
step has passed its tests. -/
theorem fusePass_inv (g0 : GraphObj) :
    ∀ (l : List Nat) (st : FuseState), (∀ op ∈ l, op ∈ g0.ops) → FuseInv g0 st →
      FuseInv g0 (fusePass l st) ∧
      ((fusePass l st).changed = false →
        fusePass l st = st ∧
        ∀ op ∈ l, (st.g.opAt op).type = OpType.MatMul → ∀ inputIdx : Nat, inputIdx < 2 →
          ¬ ∃ tin pred orig, FuseCond st.g st.eraseOps op inputIdx tin pred orig) := by
  intro l
  induction l with
  | nil =>
    intro st _ hI
    exact ⟨hI, fun _ => ⟨rfl, fun op hop => (by cases hop)⟩⟩
  | cons op rest ih =>
    intro st hl hI
    have hrest : ∀ o ∈ rest, o ∈ g0.ops := fun o ho => hl o (List.mem_cons_of_mem _ ho)
    have herase : ∀ s : FuseState, s.changed = false → FuseInv g0 s → s.eraseOps = [] := by
      intro s hs hi
      by_contra hc
      have := hi.changed_iff.2 hc
      rw [hs] at this
      cases this
    simp only [fusePass]
    by_cases he : st.eraseOps.contains op = true
    · rw [if_pos he]
      obtain ⟨i1, i2⟩ := ih st hrest hI
      refine ⟨i1, fun hch => ?_⟩
      obtain ⟨j1, j2⟩ := i2 hch
      refine ⟨j1, ?_⟩
      intro o ho
      rcases List.mem_cons.1 ho with e | e
      · exfalso
        have hst : st.changed = false := by rw [← j1]; exact hch
        rw [herase st hst hI] at he
        simp at he
      · exact j2 o e
    rw [if_neg he]
    by_cases ht : ((st.g.opAt op).type != OpType.MatMul) = true
    · rw [if_pos ht]
      obtain ⟨i1, i2⟩ := ih st hrest hI
      refine ⟨i1, fun hch => ?_⟩
      obtain ⟨j1, j2⟩ := i2 hch
      refine ⟨j1, ?_⟩
      intro o ho hty
      rcases List.mem_cons.1 ho with e | e
      · rw [e] at hty
        rw [hty] at ht
        simp at ht
      · exact j2 o e hty
    rw [if_neg ht]
    have hty : (st.g.opAt op).type = OpType.MatMul := by simpa using ht
    have hne : op ∉ st.eraseOps := by simpa using he
    have hop := hl op (List.mem_cons_self _ _)
    obtain ⟨a1, a2⟩ := fuseStep_inv g0 st op 0 hI hop hne hty
    -- the second step runs on the state after the first
    have hne1 : op ∉ (fuseStep op 0 st).eraseOps := by
      rcases a2 with ⟨e, _⟩ | ⟨_, pred, e⟩
      · rw [e]; exact hne
      · rw [e, List.mem_cons, not_or]
        refine ⟨?_, hne⟩
        intro hp
        -- `pred` is a Transpose and `op` a Matmul
        by_cases hc : ∃ tin pred orig, FuseCond st.g st.eraseOps op 0 tin pred orig
        · obtain ⟨tin, p2, orig, hcond⟩ := hc
          have hfs := fuseStep_of_cond op 0 st tin p2 orig hcond
          obtain ⟨f1, f2, _⟩ := fuseFire_spec st.g
            (fun P => P ∈ g0.ops ∧ P ∉ st.eraseOps) hI.valid op 0 tin p2 orig ⟨hop, hne⟩
            (by
              intro e2
              have := hcond.2.2.2.1
              rw [← e2, hty] at this
              cases this)
            (mem_of_get?_eq_some hcond.1) hcond.2.1 (mem_of_get?_eq_some hcond.2.2.2.2.2.2)
            hcond.2.2.2.2.1
          rw [if_pos f2] at hfs
          rw [hfs] at e
          simp only [List.cons.injEq, and_true] at e
          have := hcond.2.2.2.1
          rw [e, ← hp, hty] at this
          cases this
        · rw [fuseStep_of_not_cond op 0 st hc] at e
          have := congrArg List.length e
          simp at this
    have hty1 : ((fuseStep op 0 st).g.opAt op).type = OpType.MatMul := by
      rw [(a1.reduced.frame op).1, ← (hI.reduced.frame op).1]
      exact hty
    obtain ⟨b1, b2⟩ := fuseStep_inv g0 (fuseStep op 0 st) op 1 a1 hop hne1 hty1
    obtain ⟨i1, i2⟩ := ih _ hrest b1
    refine ⟨i1, fun hch => ?_⟩
    obtain ⟨j1, j2⟩ := i2 hch
    have hb : (fuseStep op 1 (fuseStep op 0 st)).changed = false := by rw [← j1]; exact hch
    have hb2 : fuseStep op 1 (fuseStep op 0 st) = fuseStep op 0 st ∧
        ¬ ∃ tin pred orig, FuseCond (fuseStep op 0 st).g (fuseStep op 0 st).eraseOps op 1
          tin pred orig := by
      rcases b2 with h | ⟨h, _⟩
      · exact h
      · rw [hb] at h
        cases h
    have ha : (fuseStep op 0 st).changed = false := by rw [← hb2.1]; exact hb
    have ha2 : fuseStep op 0 st = st ∧
        ¬ ∃ tin pred orig, FuseCond st.g st.eraseOps op 0 tin pred orig := by
      rcases a2 with h | ⟨h, _⟩
      · exact h
      · rw [ha] at h
        cases h
    have hsame : fuseStep op 1 (fuseStep op 0 st) = st := hb2.1.trans ha2.1
    refine ⟨j1.trans hsame, ?_⟩
    intro o ho hoty idx hidx
    rcases List.mem_cons.1 ho with e | e
    · rw [e]
      have h1 := hb2.2
      rw [ha2.1] at h1
      interval_cases idx
      · exact ha2.2
      · exact h1
    · have := j2 o e
      rw [hsame] at this
      exact this hoty idx hidx


/-! ### Rule 1 -/

theorem cleanup_spec (g : GraphObj) (live : Nat → Prop)
    (V : EdgesValidG g live (fun _ => False)) :
    EdgesValidG g.cleanup_dangling_tensors live (fun _ => False) ∧
    (∀ t ∈ g.cleanup_dangling_tensors.tensors,
      ¬ ((g.cleanup_dangling_tensors.tensorAt t).targets = [] ∧
        (g.cleanup_dangling_tensors.tensorAt t).source = none)) ∧
    (∀ t ∈ g.cleanup_dangling_tensors.tensors, t ∈ g.tensors) := by
  have hmem : ∀ t, t ∈ g.cleanup_dangling_tensors.tensors ↔
      t ∈ g.tensors ∧ ¬ ((g.tensorAt t).targets = [] ∧ (g.tensorAt t).source = none) := by
    intro t
    simp only [GraphObj.cleanup_dangling_tensors, List.mem_filter, Bool.not_eq_true',
      Bool.and_eq_false_imp, List.isEmpty_iff, Option.isNone_iff_eq_none, not_and]
    constructor
    · rintro ⟨h1, h2⟩
      refine ⟨h1, fun h3 h4 => ?_⟩
      have := h2 h3
      rw [h4] at this
      simp at this
    · rintro ⟨h1, h2⟩
      refine ⟨h1, fun h3 => ?_⟩
      cases hs : (g.tensorAt t).source with
      | none => exact absurd hs (h2 h3)
      | some p => rfl
  have hnf : ¬ (fun _ : Nat => False) 0 := fun h => h
  refine ⟨⟨V.disjoint, ?_, ?_, ?_, ?_, ?_, ?_, ?_, ?_, ?_, ?_, ?_⟩, ?_, ?_⟩
  · exact fun t ht P hP => V.src t ((hmem t).1 ht).1 P hP
  · exact fun t ht P hP => V.src_ghost t ((hmem t).1 ht).1 P hP
  · exact fun t ht Q hQ => V.tgt t ((hmem t).1 ht).1 Q hQ
  · exact fun t ht Q hQ => V.tgt_ghost t ((hmem t).1 ht).1 Q hQ
  · intro Q hQ t ht
    have h1 := V.in_mem Q hQ t ht
    refine (hmem t).2 ⟨h1, fun hc => ?_⟩
    have := (V.tgt t h1 Q hnf).2 ⟨hQ, ht⟩
    rw [hc.1] at this
    cases this
  · intro Q hQ t ht
    have h1 := V.out_mem Q hQ t ht
    refine (hmem t).2 ⟨h1, fun hc => ?_⟩
    have := (V.src t h1 Q hnf).2 ⟨hQ, ht⟩
    rw [hc.2] at this
    cases this
  · exact V.pred
  · exact V.pred_ghost
  · exact V.succ
  · exact V.succ_ghost
  · exact fun t1 h1 t2 h2 => V.fuid_unique t1 ((hmem t1).1 h1).1 t2 ((hmem t2).1 h2).1
  · exact fun t ht => ((hmem t).1 ht).2
  · exact fun t ht => ((hmem t).1 ht).1

/-- The loop of rule 1 that rewires the consumers of `z` to `x`. -/
theorem rewireFold_spec (d z x : Nat) (live ghost : Nat → Prop) (hd : ghost d) :
    ∀ (S : List Nat) (g : GraphObj), EdgesValidG g live ghost → z ∈ g.tensors →
      x ∈ g.tensors → (g.tensorAt z).source = some d →
      (∀ s ∈ S, (live s ∨ ghost s) ∧ (z ∈ (g.opAt s).inputs ∨ x ∈ (g.opAt s).inputs)) →
      EdgesValidG (S.foldl (rewireConsumer d z x) g) live ghost ∧
      (S.foldl (rewireConsumer d z x) g).ops = g.ops ∧
      (S.foldl (rewireConsumer d z x) g).tensors = g.tensors ∧
      (∀ o, ((S.foldl (rewireConsumer d z x) g).opAt o).outputs = (g.opAt o).outputs ∧
        ((S.foldl (rewireConsumer d z x) g).opAt o).type = (g.opAt o).type ∧
        ((S.foldl (rewireConsumer d z x) g).opAt o).transposePermute =
          (g.opAt o).transposePermute) ∧
      (∀ t, ((S.foldl (rewireConsumer d z x) g).tensorAt t).source = (g.tensorAt t).source) ∧
      (∀ o t, t ∈ ((S.foldl (rewireConsumer d z x) g).opAt o).inputs →
        t ∈ (g.opAt o).inputs ∨ (t = x ∧ z ∈ (g.opAt o).inputs)) := by
  intro S
  induction S with
  | nil =>
    intro g V _ _ _ _
    exact ⟨V, rfl, rfl, fun _ => ⟨rfl, rfl, rfl⟩, fun _ => rfl, fun _ _ h => Or.inl h⟩
  | cons s rest ih =>
    intro g V hz hx hsrc hS
    rw [List.foldl_cons]
    have r := rewireConsumer_spec g s z d x
    generalize rewireConsumer d z x g s = g1 at r ⊢
    obtain ⟨hs1, hs2⟩ := hS s (List.mem_cons_self _ _)
    have V1 := V.rewire r hd hz hx hsrc hs1 hs2
    have hinp : ∀ o t, t ∈ (g1.opAt o).inputs →
        t ∈ (g.opAt o).inputs ∨ (t = x ∧ z ∈ (g.opAt o).inputs) := by
      intro o t ht
      rw [r.inputs_eq o] at ht
      split_ifs at ht with ho
      · rcases (mem_map_replace _ z x t).1 ht with h | h
        · exact Or.inl h.1
        · exact Or.inr h
      · exact Or.inl ht
    obtain ⟨i1, i2, i3, i4, i5, i6⟩ := ih g1 V1 (by rw [r.tensors_eq]; exact hz)
      (by rw [r.tensors_eq]; exact hx) (by rw [(r.tensors_frame z).2]; exact hsrc)
      (by
        intro s' hs'
        obtain ⟨a1, a2⟩ := hS s' (List.mem_cons_of_mem _ hs')
        refine ⟨a1, ?_⟩
        rw [r.inputs_eq s']
        split_ifs with he
        · right
          rw [mem_map_replace]
          rcases a2 with a2 | a2
          · exact Or.inr ⟨rfl, a2⟩
          · by_cases hxz : x = z
            · exact Or.inr ⟨rfl, hxz ▸ a2⟩
            · exact Or.inl ⟨a2, hxz⟩
        · exact a2)
    refine ⟨i1, i2.trans r.ops_eq, i3.trans r.tensors_eq, fun o => ?_, fun t => ?_,
      fun o t ht => ?_⟩
    · exact ⟨(i4 o).1.trans (r.ops_frame o).1, (i4 o).2.1.trans (r.ops_frame o).2.1,
        (i4 o).2.2.trans (r.ops_frame o).2.2⟩
    · exact (i5 t).trans (r.tensors_frame t).2
    · rcases i6 o t ht with h | ⟨h1, h2⟩
      · exact hinp o t h
      · right
        refine ⟨h1, ?_⟩
        rcases hinp o z h2 with h | ⟨_, h⟩
        · exact h
        · exact h


theorem inversePairAt_of_cond (g : GraphObj) (op1 y op2 z x : Nat)
    (h : PairCond g op1 y op2 z x) :
    inversePairAt g op1 = .done (some (removePair g op1 op2 z x)) := by
  obtain ⟨h1, h2, h3, h4, h5, h6, h7, h8, h9⟩ := h
  unfold inversePairAt
  have e1 : ((g.opAt op1).type != OpType.Transpose) = false := by simp [h1]
  have e2 : ((g.opAt op2).type != OpType.Transpose) = false := by simp [h5]
  have e3 : (g.tensorAt z).targets.isEmpty = false := by
    cases ht : (g.tensorAt z).targets with
    | nil => exact absurd ht h7
    | cons a l => rfl
  rw [e1]
  simp only [Bool.false_eq_true, ↓reduceIte, h2, h3, ne_eq, not_true_eq_false, h4, e2, h6, e3,
    h8, h9]
  rfl

theorem inversePairAt_cases (g : GraphObj) (op1 : Nat) :
    (inversePairAt g op1 = .done none ∧ ¬ ∃ y op2 z x, PairCond g op1 y op2 z x) ∨
    (∃ y op2 z x, PairCond g op1 y op2 z x ∧
      inversePairAt g op1 = .done (some (removePair g op1 op2 z x))) ∨
    (inversePairAt g op1 = .assertFailed ∧
      ∃ y op2, (g.opAt op1).type = OpType.Transpose ∧
        (g.opAt op1).outputs.get? 0 = some y ∧ (g.tensorAt y).targets.get? 0 = some op2 ∧
        (g.opAt op2).type = OpType.Transpose ∧
        is_inverse_perm (g.opAt op1).transposePermute (g.opAt op2).transposePermute
          (g.tensorAt y).shape.length = none) := by
  by_cases hc : ∃ y op2 z x, PairCond g op1 y op2 z x
  · obtain ⟨y, op2, z, x, h⟩ := hc
    exact Or.inr (Or.inl ⟨y, op2, z, x, h, inversePairAt_of_cond g op1 y op2 z x h⟩)
  unfold inversePairAt
  split_ifs with c1
  · exact Or.inl ⟨rfl, hc⟩
  have h1 : (g.opAt op1).type = OpType.Transpose := by simpa using c1
  cases h2 : (g.opAt op1).outputs.get? 0 with
  | none => exact Or.inl ⟨rfl, hc⟩
  | some y =>
    simp only
    split_ifs with c3
    · exact Or.inl ⟨rfl, hc⟩
    have h3 : (g.tensorAt y).targets.length = 1 := by simpa using c3
    cases h4 : (g.tensorAt y).targets.get? 0 with
    | none => exact Or.inl ⟨rfl, hc⟩
    | some op2 =>
      simp only
      split_ifs with c5
      · exact Or.inl ⟨rfl, hc⟩
      have h5 : (g.opAt op2).type = OpType.Transpose := by simpa using c5
      cases h6 : (g.opAt op2).outputs.get? 0 with
      | none => exact Or.inl ⟨rfl, hc⟩
      | some z =>
        simp only
        split_ifs with c7
        · exact Or.inl ⟨rfl, hc⟩
        have h7 : (g.tensorAt z).targets ≠ [] := by
          intro e
          rw [e] at c7
          exact c7 rfl
        cases h8 : (g.opAt op1).inputs.get? 0 with
        | none => exact Or.inl ⟨rfl, hc⟩
        | some x =>
          simp only
          cases h9 : is_inverse_perm (g.opAt op1).transposePermute
              (g.opAt op2).transposePermute (g.tensorAt y).shape.length with
          | none => exact Or.inr (Or.inr ⟨rfl, y, op2, h1, rfl, h4, h5, h9⟩)
          | some b =>
            cases b with
            | false => exact Or.inl ⟨rfl, hc⟩
            | true => exact absurd ⟨y, op2, z, x, h1, h2, h3, h4, h5, h6, h7, h8, h9⟩ hc

/-- The removal of an inverse pair by rule 1 keeps the edges consistent and
leaves no dangling tensor; every producer-to-consumer edge of the new graph is
a path of the old one. -/
theorem removePair_spec (g : GraphObj) (V : EdgesValidG g (fun P => P ∈ g.ops) (fun _ => False))
    (op1 y op2 z x : Nat) (hop1 : op1 ∈ g.ops) (hc : PairCond g op1 y op2 z x) :
    EdgesValidG (removePair g op1 op2 z x) (fun P => P ∈ (removePair g op1 op2 z x).ops)
      (fun _ => False) ∧
    (∀ t ∈ (removePair g op1 op2 z x).tensors,
      ¬ (((removePair g op1 op2 z x).tensorAt t).targets = [] ∧
        ((removePair g op1 op2 z x).tensorAt t).source = none)) ∧
    (removePair g op1 op2 z x).ops = (g.ops.filter fun o => o ≠ op1).filter (fun o => o ≠ op2) ∧
    List.Sublist (removePair g op1 op2 z x).tensors g.tensors ∧
    Reduced g (fun P => P ∈ g.ops) (removePair g op1 op2 z x)
      (fun P => P ∈ (removePair g op1 op2 z x).ops) := by
  obtain ⟨h1, h2, h3, h4, h5, h6, h7, h8, h9⟩ := hc
  have hnf : ¬ (fun _ : Nat => False) 0 := fun h => h
  have hy_out : y ∈ (g.opAt op1).outputs := mem_of_get?_eq_some h2
  have hy : y ∈ g.tensors := V.out_mem op1 hop1 y hy_out
  have hy_src : (g.tensorAt y).source = some op1 := (V.src y hy op1 hnf).2 ⟨hop1, hy_out⟩
  have hop2 : op2 ∈ g.ops ∧ y ∈ (g.opAt op2).inputs :=
    (V.tgt y hy op2 hnf).1 (mem_of_get?_eq_some h4)
  have hz_out : z ∈ (g.opAt op2).outputs := mem_of_get?_eq_some h6
  have hz : z ∈ g.tensors := V.out_mem op2 hop2.1 z hz_out
  have hz_src : (g.tensorAt z).source = some op2 := (V.src z hz op2 hnf).2 ⟨hop2.1, hz_out⟩
  have hx_in : x ∈ (g.opAt op1).inputs := mem_of_get?_eq_some h8
  have hx : x ∈ g.tensors := V.in_mem op1 hop1 x hx_in
  -- the rewiring of the consumers of `z`
  have V1 := V.to_ghost op2
  obtain ⟨V2, f1, f2, f3, f4, f5⟩ := rewireFold_spec op2 z x _ _ (Or.inr rfl)
    (g.tensorAt z).targets g V1 hz hx hz_src (by
      intro s hs
      have := (V.tgt z hz s hnf).1 hs
      refine ⟨?_, Or.inl this.2⟩
      by_cases e : s = op2
      · exact Or.inr (Or.inr e)
      · exact Or.inl ⟨this.1, e⟩)
  -- the two calls of `detach_op`
  have V3 := V2.to_ghost op1
  have d1 := detach_op_detached ((g.tensorAt z).targets.foldl (rewireConsumer op2 z x) g) op1
  generalize hga : (g.tensorAt z).targets.foldl (rewireConsumer op2 z x) g = ga
    at V2 V3 f1 f2 f3 f4 f5 d1
  have V4 := V3.detach d1 (fun h => h.2 rfl)
  have d2 := detach_op_detached (ga.detach_op op1) op2
  generalize hgb : ga.detach_op op1 = gb at V4 d1 d2
  have V5 := V4.detach d2 (fun h => h.1.2 rfl)
  generalize hgc : gb.detach_op op2 = gc at V5 d2
  have hdef : removePair g op1 op2 z x =
      ({ gc with ops := (gc.ops.filter fun o => o ≠ op1).filter fun o => o ≠ op2
        }).cleanup_dangling_tensors := by
    subst hgc hgb hga
    rfl
  have hops : gc.ops = g.ops := (d2.ops_eq.trans d1.ops_eq).trans f1
  have htens : gc.tensors = g.tensors := (d2.tensors_eq.trans d1.tensors_eq).trans f2
  have hlive : ∀ P, P ∈ ((gc.ops.filter fun o => o ≠ op1).filter fun o => o ≠ op2) ↔
      ((P ∈ g.ops ∧ P ≠ op2) ∧ P ≠ op1) := by
    intro P
    rw [hops]
    simp only [List.mem_filter, decide_eq_true_eq]
    tauto
  have V6 : EdgesValidG
      { gc with ops := (gc.ops.filter fun o => o ≠ op1).filter fun o => o ≠ op2 }
      (fun P => P ∈ ((gc.ops.filter fun o => o ≠ op1).filter fun o => o ≠ op2))
      (fun _ => False) := by
    refine (V5.congr_sets hlive (fun P => ?_)).transfer_edges rfl rfl (fun _ => ⟨rfl, rfl, rfl, rfl⟩)
    constructor
    · intro h
      exact h.elim
    · rintro ⟨⟨(h | h) | h, h1⟩, h2⟩
      · exact h
      · exact h2 h
      · exact h1 h
  obtain ⟨V7, c2, c3⟩ := cleanup_spec _ _ V6
  rw [hdef]
  refine ⟨V7, c2, ?_, ?_, ?_⟩
  · show ((gc.ops.filter fun o => o ≠ op1).filter fun o => o ≠ op2) = _
    rw [hops]
  · show List.Sublist (gc.tensors.filter _) g.tensors
    rw [htens]
    exact List.filter_sublist _
  · refine ⟨?_, ?_, ?_, ?_⟩
    · intro t ht
      have := c3 t ht
      rw [← htens]
      exact this
    · intro P hP
      exact ((hlive P).1 hP).1.1
    · intro o
      show (gc.opAt o).type = _ ∧ (gc.opAt o).transposePermute = _
      rw [(d2.ops_frame o).2.2.1, (d2.ops_frame o).2.2.2, (d1.ops_frame o).2.2.1,
        (d1.ops_frame o).2.2.2, (f3 o).2.1, (f3 o).2.2]
      exact ⟨rfl, rfl⟩
    · rintro p q ⟨hp, hq, t, ht, hs⟩
      have hp' := ((hlive p).1 hp).1.1
      have hq' := ((hlive q).1 hq).1.1
      have ht' : t ∈ (ga.opAt q).inputs := by
        have : t ∈ (gc.opAt q).inputs := ht
        rw [(d2.ops_frame q).1, (d1.ops_frame q).1] at this
        exact this
      have hs' : (g.tensorAt t).source = some p := by
        have h0 : (gc.tensorAt t).source = some p := hs
        rw [d2.source_eq] at h0
        split_ifs at h0
        rw [d1.source_eq] at h0
        split_ifs at h0
        rw [f4] at h0
        exact h0
      rcases f5 q t ht' with h | ⟨e1, e2⟩
      · exact Relation.TransGen.single ⟨hp', hq', t, h, hs'⟩
      · subst e1
        exact Relation.TransGen.tail (Relation.TransGen.tail
          (Relation.TransGen.single ⟨hp', hop1, t, hx_in, hs'⟩)
          ⟨hop1, hop2.1, y, hop2.2, hy_src⟩) ⟨hop2.1, hq', z, e2, hz_src⟩


theorem filter_ne_length_lt (l : List Nat) (a : Nat) (h : a ∈ l) :
    (l.filter fun o => o ≠ a).length < l.length := by
  induction l with
  | nil => cases h
  | cons b rest ih =>
    by_cases hb : b = a
    · subst hb
      rw [List.filter_cons_of_neg (by simp)]
      exact Nat.lt_succ_of_le (List.length_filter_le _ _)
    · rw [List.filter_cons_of_pos (by simpa using hb)]
      rcases List.mem_cons.1 h with e | e
      · exact absurd e.symm hb
      · simp only [List.length_cons]
        exact Nat.succ_lt_succ (ih e)

theorem inversePermLoop_total (p : List Int) (rank : Nat) :
    ∀ (l : List Nat) (inv : List Int), (∀ i ∈ l, 0 ≤ p.getD i 0 ∧ p.getD i 0 < rank) →
      ∃ inv1, inversePermLoop p rank l inv = some inv1 := by
  intro l
  induction l with
  | nil => intro inv _; exact ⟨inv, rfl⟩
  | cons i rest ih =>
    intro inv h
    simp only [inversePermLoop]
    rw [if_pos (h i (List.mem_cons_self _ _))]
    exact ih _ (fun j hj => h j (List.mem_cons_of_mem _ hj))

theorem is_inverse_perm_ne_none (p q : List Int) (rank : Nat)
    (h : ∀ i : Nat, i < p.length → 0 ≤ p.getD i 0 ∧ p.getD i 0 < p.length) :
    is_inverse_perm p q rank ≠ none := by
  unfold is_inverse_perm
  split_ifs with hl
  · simp
  · have hp : p.length = rank := by
      by_contra hc
      exact hl (Or.inl hc)
    obtain ⟨inv1, h1⟩ := inversePermLoop_total p rank (List.range rank)
      (List.replicate rank (-1)) (fun i hi => by
        have := h i (by rw [hp]; exact List.mem_range.1 hi)
        rw [hp] at this
        exact this)
    rw [h1]
    simp

theorem Kept.kept_refl (g : GraphObj) (V : EdgesValidG g (fun P => P ∈ g.ops) (fun _ => False))
    (hnd : g.ops.Nodup) : Kept g g :=
  ⟨V, Reduced.reduced_refl g _, hnd, le_refl _, List.Sublist.refl _⟩

theorem Kept.kept_trans {g0 g1 g2 : GraphObj} (h1 : Kept g0 g1) (h2 : Kept g1 g2) : Kept g0 g2 :=
  ⟨h2.valid, h1.reduced.reduced_trans h2.reduced, h2.ops_nodup, le_trans h2.ops_len h1.ops_len,
    h2.tensors_sub.trans h1.tensors_sub⟩

theorem PermsInRange.kept {g0 g : GraphObj} (hp : PermsInRange g0) (h : Kept g0 g) :
    PermsInRange g := by
  intro o ho hty i hi
  rw [(h.reduced.frame o).1] at hty
  rw [(h.reduced.frame o).2] at hi ⊢
  exact hp o (h.reduced.live_sub o ho) hty i hi

/-- The removal of a pair gives a graph with fewer operators. -/
theorem removePair_kept (g : GraphObj) (hk : Kept g g) (op1 y op2 z x : Nat)
    (hop1 : op1 ∈ g.ops) (hc : PairCond g op1 y op2 z x) :
    Kept g (removePair g op1 op2 z x) ∧
      (removePair g op1 op2 z x).ops.length < g.ops.length := by
  obtain ⟨h1, _, h3, h4, h5⟩ := removePair_spec g hk.valid op1 y op2 z x hop1 hc
  have hlen : (removePair g op1 op2 z x).ops.length < g.ops.length := by
    rw [h3]
    exact lt_of_le_of_lt (List.length_filter_le _ _) (filter_ne_length_lt _ _ hop1)
  refine ⟨⟨h1, h5, ?_, le_of_lt hlen, h4⟩, hlen⟩
  rw [h3]
  exact (hk.ops_nodup.filter _).filter _

/-- The loop of rule 1 ends within its fuel; it keeps the edges consistent,
and when it ends without a change, the tests of the rule pass at no operator
from the index `idx` on. -/
theorem removePairs_spec (g0 : GraphObj) (L : Nat) :
    ∀ (fuel : Nat) (g : GraphObj) (idx : Nat) (changed : Bool), Kept g0 g →
      g.ops.length ≤ L → idx ≤ g.ops.length →
      g.ops.length * (L + 1) + (g.ops.length - idx) + 1 ≤ fuel →
      removePairs fuel g idx changed ≠ .outOfFuel ∧
      (∀ g1 c, removePairs fuel g idx changed = .done (g1, c) →
        Kept g0 g1 ∧ g1.ops.length ≤ g.ops.length ∧
        (c = false → changed = false ∧ g1 = g ∧
          ∀ i op1, idx ≤ i → g.ops.get? i = some op1 →
            ¬ ∃ y op2 z x, PairCond g op1 y op2 z x) ∧
        (c = true → changed = true ∨ g1.ops.length < g.ops.length)) ∧
      (PermsInRange g0 → ∃ g1 c, removePairs fuel g idx changed = .done (g1, c)) := by
  intro fuel
  induction fuel with
  | zero =>
    intro g idx changed _ _ _ hf
    omega
  | succ fuel ih =>
    intro g idx changed hk hL hidx hf
    simp only [removePairs]
    cases hget : g.ops.get? idx with
    | none =>
      simp only
      refine ⟨by simp, ?_, fun _ => ⟨g, changed, rfl⟩⟩
      intro g1 c he
      simp only [Outcome.done.injEq, Prod.mk.injEq] at he
      obtain ⟨e1, e2⟩ := he
      subst e1 e2
      refine ⟨hk, le_refl _, ?_, fun h => Or.inl h⟩
      intro hc
      refine ⟨hc, rfl, ?_⟩
      intro i op1 hi hgi
      have h1 : g.ops.length ≤ idx := by
        rw [List.get?_eq_none] at hget
        exact hget
      have h2 : i < g.ops.length := by
        by_contra hcon
        rw [List.get?_eq_none.2 (by omega)] at hgi
        cases hgi
      omega
    | some op1 =>
      simp only
      have hlt : idx < g.ops.length := by
        by_contra hcon
        rw [List.get?_eq_none.2 (by omega)] at hget
        cases hget
      have hop1 : op1 ∈ g.ops := mem_of_get?_eq_some hget
      have hkg : Kept g g := Kept.kept_refl g hk.valid hk.ops_nodup
      rcases inversePairAt_cases g op1 with ⟨e, hno⟩ | ⟨y, op2, z, x, hc, e⟩ |
        ⟨e, y, op2, a1, a2, a3, a4, a5⟩
      · rw [e]
        simp only
        obtain ⟨i1, i2, i3⟩ := ih g (idx + 1) changed hk hL (by omega) (by omega)
        refine ⟨i1, ?_, i3⟩
        intro g1 c he
        obtain ⟨j1, j2, j3, j4⟩ := i2 g1 c he
        refine ⟨j1, j2, ?_, j4⟩
        intro hc
        obtain ⟨k1, k2, k3⟩ := j3 hc
        refine ⟨k1, k2, ?_⟩
        intro i o hi hgi
        by_cases hii : i = idx
        · rw [hii, hget] at hgi
          simp only [Option.some.injEq] at hgi
          rw [← hgi]
          exact hno
        · exact k3 i o (by omega) hgi
      · rw [e]
        simp only
        obtain ⟨b1, b2⟩ := removePair_kept g hkg op1 y op2 z x hop1 hc
        have hmul : (removePair g op1 op2 z x).ops.length * (L + 1) + (L + 1)
            ≤ g.ops.length * (L + 1) := by
          have := Nat.mul_le_mul_right (L + 1) (Nat.succ_le_of_lt b2)
          rw [Nat.succ_mul] at this
          exact this
        obtain ⟨i1, i2, i3⟩ := ih (removePair g op1 op2 z x) 0 true (hk.kept_trans b1)
          (by omega) (by omega) (by omega)
        refine ⟨i1, ?_, i3⟩
        intro g1 c he
        obtain ⟨j1, j2, j3, j4⟩ := i2 g1 c he
        refine ⟨j1, by omega, ?_, ?_⟩
        · intro hc'
          have := (j3 hc').1
          cases this
        · intro _
          exact Or.inr (by omega)
      · rw [e]
        simp only
        refine ⟨by simp, ?_, ?_⟩
        · intro g1 c he
          cases he
        · intro hp
          exfalso
          have hpg := hp.kept hk
          exact is_inverse_perm_ne_none _ _ _ (hpg op1 hop1 a1) a5


/-! ### One pass of the rewrite loop -/

theorem GraphValid.toG {g : GraphObj} (h : GraphValid g) :
    EdgesValidG g (fun P => P ∈ g.ops) (fun _ => False) :=
  ⟨fun _ _ hf => hf, fun t ht P _ => h.src_iff t ht P, fun _ _ _ hf => hf.elim,
    fun t ht Q _ => h.tgt_iff t ht Q, fun _ _ _ hf => hf.elim, h.in_mem, h.out_mem,
    fun Q hQ P _ => h.pred_iff Q hQ P, fun _ _ _ hf => hf.elim,
    fun P hP Q _ => h.succ_iff P hP Q, fun _ _ _ hf => hf.elim, h.fuid_unique⟩

theorem GraphValid.ofG {g : GraphObj} (V : EdgesValidG g (fun P => P ∈ g.ops) (fun _ => False))
    (h1 : g.ops.Nodup) (h2 : g.tensors.Nodup)
    (h3 : ∀ t ∈ g.tensors, ¬ ((g.tensorAt t).targets = [] ∧ (g.tensorAt t).source = none)) :
    GraphValid g :=
  ⟨h1, h2, h3, fun t ht P => V.src t ht P (fun hf => hf), fun t ht Q => V.tgt t ht Q (fun hf => hf),
    V.in_mem, V.out_mem, fun Q hQ P => V.pred Q hQ P (fun hf => hf),
    fun P hP Q => V.succ P hP Q (fun hf => hf), V.fuid_unique⟩

theorem EdgesValidG.producers_live {g : GraphObj} {live : Nat → Prop}
    (V : EdgesValidG g live (fun _ => False)) :
    ∀ op, live op → ∀ t ∈ (g.opAt op).inputs, ∀ p, (g.tensorAt t).source = some p → live p :=
  fun op hop t ht p hp => ((V.src t (V.in_mem op hop t ht) p (fun hf => hf)).1 hp).1

theorem filter_length_lt_of_mem (l : List Nat) (p : Nat → Bool) (e : Nat) (he : e ∈ l)
    (hp : p e = false) : (l.filter p).length < l.length := by
  induction l with
  | nil => cases he
  | cons b rest ih =>
    by_cases hb : p b = true
    · rw [List.filter_cons_of_pos hb]
      rcases List.mem_cons.1 he with h | h
      · rw [h, hb] at hp
        cases hp
      · simp only [List.length_cons]
        exact Nat.succ_lt_succ (ih h)
    · rw [List.filter_cons_of_neg hb]
      exact Nat.lt_succ_of_le (List.length_filter_le _ _)

/-- The graph after the scan of rule 2 and the erasure of the fused
Transposes. -/
theorem fusePass_kept (g : GraphObj) (hv : GraphValid g) (st : FuseState)
    (hst : st = fusePass g.ops ⟨g, [], false⟩) (g1 : GraphObj)
    (hg1 : g1 = if st.eraseOps.isEmpty then st.g
      else { st.g with ops := st.g.ops.filter fun o => !st.eraseOps.contains o }) :
    Kept g g1 ∧ (st.changed = true → g1.ops.length < g.ops.length) ∧
      (st.changed = false → g1 = g ∧ NoFusable g) := by
  have hI0 : FuseInv g ⟨g, [], false⟩ := by
    refine ⟨hv.toG.congr_sets (fun P => by simp) (fun _ => Iff.rfl), rfl, rfl,
      (Reduced.reduced_refl g _).congr_live (fun P => by simp), fun e he => (by cases he), by simp,
      fun _ => rfl⟩
  obtain ⟨hI, hfix⟩ := fusePass_inv g g.ops _ (fun _ h => h) hI0
  rw [← hst] at hI hfix
  by_cases he : st.eraseOps.isEmpty = true
  · rw [if_pos he] at hg1
    have he' : st.eraseOps = [] := List.isEmpty_iff.1 he
    have hlive : ∀ P, P ∈ g1.ops ↔ P ∈ g.ops ∧ P ∉ st.eraseOps := by
      intro P
      rw [hg1, hI.ops_eq, he']
      simp
    refine ⟨⟨hg1 ▸ hI.valid.congr_sets (fun P => by rw [← hg1]; exact hlive P) (fun _ => Iff.rfl),
      hg1 ▸ hI.reduced.congr_live (fun P => by rw [← hg1]; exact hlive P), ?_, ?_, ?_⟩, ?_, ?_⟩
    · rw [hg1, hI.ops_eq]
      exact hv.ops_nodup
    · rw [hg1, hI.ops_eq]
    · rw [hg1, hI.tensors_eq]
    · intro hc
      exact absurd he' (hI.changed_iff.1 hc)
    · intro hc
      obtain ⟨f1, f2⟩ := hfix hc
      refine ⟨by rw [hg1]; exact hI.unchanged hc, ?_⟩
      intro op hop hty idx hidx
      exact f2 op hop hty idx hidx
  · rw [if_neg he] at hg1
    have hne : st.eraseOps ≠ [] := fun e => he (List.isEmpty_iff.2 e)
    have hops : g1.ops = g.ops.filter fun o => !st.eraseOps.contains o := by
      rw [hg1, ← hI.ops_eq]
    have hlive : ∀ P, P ∈ g1.ops ↔ P ∈ g.ops ∧ P ∉ st.eraseOps := by
      intro P
      rw [hops]
      simp
    have hV : EdgesValidG g1 (fun P => P ∈ g1.ops) (fun _ => False) := by
      refine (hI.valid.congr_sets hlive (fun _ => Iff.rfl)).transfer_edges ?_ ?_ ?_
      · rw [hg1]
      · rw [hg1]
      · intro o
        rw [hg1]
        exact ⟨rfl, rfl, rfl, rfl⟩
    have hR : Reduced g (fun P => P ∈ g.ops) g1 (fun P => P ∈ g1.ops) := by
      have h0 := hI.reduced.congr_live hlive
      rw [hg1]
      rw [hg1] at h0
      exact ⟨h0.tensors_sub, h0.live_sub, h0.frame, h0.edges⟩
    have hlen : g1.ops.length < g.ops.length := by
      obtain ⟨e, he2⟩ := List.exists_mem_of_ne_nil _ hne
      rw [hops]
      exact filter_length_lt_of_mem _ _ e (hI.erased e he2) (by simpa using he2)
    refine ⟨⟨hV, hR, ?_, le_of_lt hlen, ?_⟩, fun _ => hlen, ?_⟩
    · rw [hops]
      exact hv.ops_nodup.filter _
    · rw [hg1]
      show List.Sublist st.g.tensors g.tensors
      rw [hI.tensors_eq]
    · intro hc
      exact absurd (hI.changed_iff.2 hne) (by rw [hc]; simp)


/-- The end of a pass that has changed the graph: after `topo_sort` and the
removal of the dangling tensors the invariants of the graph hold. -/
theorem sorted_cleanup_valid (g g2 g3 : GraphObj) (hg : g.tensors.Nodup) (hk : Kept g g2)
    (hts : ({ g2 with sorted := false } : GraphObj).topo_sort = some (true, g3)) :
    GraphValid g3.cleanup_dangling_tensors ∧ Kept g g3.cleanup_dangling_tensors ∧
      g3.cleanup_dangling_tensors.ops.length = g2.ops.length := by
  obtain ⟨hperm, hten, htat, hoat, _⟩ := GraphObj.topo_sort_true_shape _ g3 hts
  have hperm' : List.Perm g3.ops g2.ops := hperm
  have hten' : g3.tensors = g2.tensors := hten
  have htat' : g3.tensorAt = g2.tensorAt := htat
  have hoat' : g3.opAt = g2.opAt := hoat
  have hlive : ∀ P, P ∈ g3.ops ↔ P ∈ g2.ops := fun P => hperm'.mem_iff
  have V3 : EdgesValidG g3 (fun P => P ∈ g3.ops) (fun _ => False) :=
    (hk.valid.congr_sets hlive (fun _ => Iff.rfl)).transfer_edges hten' htat'
      (fun o => by rw [hoat']; exact ⟨rfl, rfl, rfl, rfl⟩)
  obtain ⟨V4, c2, c3⟩ := cleanup_spec g3 _ V3
  have hsub : List.Sublist g3.cleanup_dangling_tensors.tensors g.tensors := by
    have : List.Sublist g3.cleanup_dangling_tensors.tensors g3.tensors :=
      List.filter_sublist _
    rw [hten'] at this
    exact this.trans hk.tensors_sub
  have hnd3 : g3.ops.Nodup := hperm'.nodup_iff.2 hk.ops_nodup
  refine ⟨GraphValid.ofG V4 hnd3 (hsub.nodup hg) c2, ⟨V4, ?_, hnd3, ?_, hsub⟩, hperm'.length_eq⟩
  · refine ⟨fun t ht => hsub.subset ht, fun P hP => hk.reduced.live_sub P ((hlive P).1 hP),
      fun o => ?_, ?_⟩
    · show (g3.opAt o).type = _ ∧ (g3.opAt o).transposePermute = _
      rw [hoat']
      exact hk.reduced.frame o
    · rintro p q ⟨hp, hq, t, ht, hs⟩
      apply hk.reduced.edges p q
      refine ⟨(hlive p).1 hp, (hlive q).1 hq, t, ?_, ?_⟩
      · have : t ∈ (g3.opAt q).inputs := ht
        rw [hoat'] at this
        exact this
      · have : (g3.tensorAt t).source = some p := hs
        rw [htat'] at this
        exact this
  · show g3.ops.length ≤ g.ops.length
    rw [hperm'.length_eq]
    exact hk.ops_len

theorem mem_iff_get?_some (l : List Nat) (a : Nat) : a ∈ l ↔ ∃ i, l.get? i = some a := by
  constructor
  · intro h
    obtain ⟨i, hi, e⟩ := List.mem_iff_getElem.1 h
    exact ⟨i, by rw [List.get?_eq_getElem?, List.getElem?_eq_getElem hi, e]⟩
  · rintro ⟨i, h⟩
    exact List.get?_mem h

/-- One pass of the loop of `optimize` on a valid graph: it ends within its
fuel, it keeps the invariants, a pass that reports a change leaves fewer
operators, and a pass that reports none leaves the graph as it is, with no
rule applicable. -/
theorem optimizePass_spec (g : GraphObj) (hv : GraphValid g) :
    optimizePass g ≠ .outOfFuel ∧
    (∀ g1 c, optimizePass g = .done (g1, c) →
      GraphValid g1 ∧ Kept g g1 ∧ (c = true → g1.ops.length < g.ops.length) ∧
      (c = false → g1 = g ∧ NoFusable g ∧ NoInversePair g)) ∧
    (Acyclic g → PermsInRange g → ∃ g1 c, optimizePass g = .done (g1, c)) := by
  obtain ⟨st, hst⟩ : ∃ st, st = fusePass g.ops ⟨g, [], false⟩ := ⟨_, rfl⟩
  obtain ⟨ga, hga⟩ : ∃ ga : GraphObj, ga = if st.eraseOps.isEmpty then st.g
      else { st.g with ops := st.g.ops.filter fun o => !st.eraseOps.contains o } := ⟨_, rfl⟩
  obtain ⟨k1, k2, k3⟩ := fusePass_kept g hv st hst ga hga
  have hdef : optimizePass g =
      match removePairs ((ga.ops.length + 1) * (ga.ops.length + 1) + 1) ga 0 st.changed with
      | .assertFailed => .assertFailed
      | .outOfFuel => .outOfFuel
      | .done (g2, false) => .done (g2, false)
      | .done (g2, true) =>
        match ({ g2 with sorted := false } : GraphObj).topo_sort with
        | none => .outOfFuel
        | some (false, _) => .assertFailed
        | some (true, g3) => .done (g3.cleanup_dangling_tensors, true) := by
    rw [hga, hst]
    rfl
  rw [hdef]
  have hfuel : ga.ops.length * (ga.ops.length + 1) + (ga.ops.length - 0) + 1
      ≤ (ga.ops.length + 1) * (ga.ops.length + 1) + 1 := by
    rw [Nat.succ_mul]
    omega
  obtain ⟨r1, r2, r3⟩ := removePairs_spec ga ga.ops.length _ ga 0 st.changed
    (Kept.kept_refl ga k1.valid k1.ops_nodup) (le_refl _) (Nat.zero_le _) hfuel
  cases hr : removePairs ((ga.ops.length + 1) * (ga.ops.length + 1) + 1) ga 0 st.changed with
  | outOfFuel => exact absurd hr r1
  | assertFailed =>
    simp only
    refine ⟨by simp, fun g1 c he => (by cases he), fun _ hp => ?_⟩
    obtain ⟨g1, c, he⟩ := r3 (hp.kept k1)
    rw [hr] at he
    cases he
  | done res =>
    obtain ⟨g2, c⟩ := res
    obtain ⟨s1, s2, s3, s4⟩ := r2 g2 c hr
    have hk2 : Kept g g2 := k1.kept_trans s1
    cases c with
    | false =>
      simp only
      obtain ⟨t1, t2, t3⟩ := s3 rfl
      obtain ⟨u1, u2⟩ := k3 t1
      have hg2 : g2 = g := t2.trans u1
      refine ⟨by simp, ?_, fun _ _ => ⟨g2, false, rfl⟩⟩
      intro g1 c he
      simp only [Outcome.done.injEq, Prod.mk.injEq] at he
      obtain ⟨e1, e2⟩ := he
      subst e1 e2
      refine ⟨hg2 ▸ hv, hk2, fun h => (by cases h), fun _ => ⟨hg2, u2, ?_⟩⟩
      intro op1 hop1
      obtain ⟨i, hi⟩ := (mem_iff_get?_some _ _).1 hop1
      rw [← u1] at hi ⊢
      exact t3 i op1 (Nat.zero_le _) hi
    | true =>
      simp only
      have hlen : g2.ops.length < g.ops.length := by
        rcases s4 rfl with h | h
        · have := k2 h
          omega
        · have := k1.ops_len
          omega
      have htot := GraphObj.topo_sort_total ({ g2 with sorted := false } : GraphObj)
      obtain ⟨r, hts⟩ := htot
      rw [hts]
      obtain ⟨b, g3⟩ := r
      cases b with
      | false =>
        simp only
        refine ⟨by simp, fun g1 c he => (by cases he), fun hac _ => ?_⟩
        exfalso
        have hac2 : Acyclic g2 := hk2.reduced.acyclic hac
        obtain ⟨g4, h4, _⟩ := GraphObj.topo_sort_of_acyclic
          ({ g2 with sorted := false } : GraphObj) (fun h => by cases h) hk2.ops_nodup
          (fun op hop t ht p hp => hk2.valid.producers_live op hop t ht p hp) hac2
        rw [hts] at h4
        cases h4
      | true =>
        simp only
        obtain ⟨v1, v2, v3⟩ := sorted_cleanup_valid g g2 g3 hv.tensors_nodup hk2 hts
        refine ⟨by simp, ?_, fun _ _ => ⟨_, true, rfl⟩⟩
        intro g1 c he
        simp only [Outcome.done.injEq, Prod.mk.injEq] at he
        obtain ⟨e1, e2⟩ := he
        subst e1 e2
        exact ⟨v1, v2, fun _ => by rw [v3]; exact hlen, fun h => by cases h⟩


/-! ### The rewrite loop -/

theorem optimizeLoop_succ (fuel : Nat) (g : GraphObj) :
    optimizeLoop (fuel + 1) g =
      match optimizePass g with
      | .assertFailed => .assertFailed
      | .outOfFuel => .outOfFuel
      | .done (g1, false) => .done g1
      | .done (g1, true) => optimizeLoop fuel g1 := by
  simp only [optimizeLoop, optimizePass]
  cases removePairs _ _ 0 _ with
  | assertFailed => rfl
  | outOfFuel => rfl
  | done res =>
    obtain ⟨g2, c⟩ := res
    cases c with
    | false => rfl
    | true =>
      simp only
      cases ({ g2 with sorted := false } : GraphObj).topo_sort with
      | none => rfl
      | some r =>
        obtain ⟨b, g3⟩ := r
        cases b <;> rfl

/-- The loop of `optimize` on a valid graph ends within `ops.size() + 1`
passes; the graph it returns is valid, and no rule applies in it. -/
theorem optimizeLoop_spec :
    ∀ (fuel : Nat) (g : GraphObj), GraphValid g → g.ops.length + 1 ≤ fuel →
      optimizeLoop fuel g ≠ .outOfFuel ∧
      (∀ g1, optimizeLoop fuel g = .done g1 →
        GraphValid g1 ∧ Kept g g1 ∧ NoFusable g1 ∧ NoInversePair g1) ∧
      (Acyclic g → PermsInRange g → ∃ g1, optimizeLoop fuel g = .done g1) := by
  intro fuel
  induction fuel with
  | zero =>
    intro g _ h
    omega
  | succ fuel ih =>
    intro g hv hf
    rw [optimizeLoop_succ]
    obtain ⟨p1, p2, p3⟩ := optimizePass_spec g hv
    cases hp : optimizePass g with
    | outOfFuel => exact absurd hp p1
    | assertFailed =>
      simp only
      refine ⟨by simp, fun g1 he => (by cases he), fun hac hpr => ?_⟩
      obtain ⟨g1, c, he⟩ := p3 hac hpr
      rw [hp] at he
      cases he
    | done res =>
      obtain ⟨g1, c⟩ := res
      obtain ⟨q1, q2, q3, q4⟩ := p2 g1 c hp
      cases c with
      | false =>
        simp only
        obtain ⟨e, n1, n2⟩ := q4 rfl
        refine ⟨by simp, ?_, fun _ _ => ⟨g1, rfl⟩⟩
        intro g2 he
        simp only [Outcome.done.injEq] at he
        subst he
        exact ⟨q1, q2, e ▸ n1, e ▸ n2⟩
      | true =>
        simp only
        have hlen := q3 rfl
        obtain ⟨i1, i2, i3⟩ := ih g1 q1 (by omega)
        refine ⟨i1, ?_, ?_⟩
        · intro g2 he
          obtain ⟨j1, j2, j3, j4⟩ := i2 g2 he
          exact ⟨j1, q2.kept_trans j2, j3, j4⟩
        · intro hac hpr
          exact i3 (q2.reduced.acyclic hac) (hpr.kept q2)

theorem topo_sorted_valid (g g1 : GraphObj) (hv : GraphValid g)
    (hts : g.topo_sort = some (true, g1)) : GraphValid g1 ∧ Kept g g1 := by
  obtain ⟨hperm, hten, htat, hoat, _⟩ := GraphObj.topo_sort_true_shape g g1 hts
  have hlive : ∀ P, P ∈ g1.ops ↔ P ∈ g.ops := fun P => hperm.mem_iff
  have V1 : EdgesValidG g1 (fun P => P ∈ g1.ops) (fun _ => False) :=
    (hv.toG.congr_sets hlive (fun _ => Iff.rfl)).transfer_edges hten htat
      (fun o => by rw [hoat]; exact ⟨rfl, rfl, rfl, rfl⟩)
  have hnd : g1.ops.Nodup := hperm.nodup_iff.2 hv.ops_nodup
  refine ⟨GraphValid.ofG V1 hnd (hten ▸ hv.tensors_nodup) ?_, V1, ?_, hnd,
    le_of_eq hperm.length_eq, by rw [hten]⟩
  · intro t ht
    rw [htat]
    exact hv.no_dangling t (hten ▸ ht)
  · refine ⟨fun t ht => hten ▸ ht, fun P hP => (hlive P).1 hP, fun o => by rw [hoat]; exact ⟨rfl, rfl⟩,
      ?_⟩
    rintro p q ⟨hp, hq, t, ht, hs⟩
    rw [hoat] at ht
    rw [htat] at hs
    exact Relation.TransGen.single ⟨(hlive p).1 hp, (hlive q).1 hq, t, ht, hs⟩

/-- The function `optimize` on a valid graph does not run out of fuel; the
graph it returns is valid, it is cycle-free when the input is, and no rule
applies in it.  On a cycle-free graph whose permutations have their entries in
range no assertion fails. -/
theorem optimize_spec (g : GraphObj) (hv : GraphValid g) :
    g.optimize ≠ .outOfFuel ∧
    (∀ g1, g.optimize = .done g1 →
      GraphValid g1 ∧ Kept g g1 ∧ NoFusable g1 ∧ NoInversePair g1) ∧
    (Acyclic g → PermsInRange g → ∃ g1, g.optimize = .done g1) := by
  unfold GraphObj.optimize
  obtain ⟨r, hts⟩ := GraphObj.topo_sort_total g
  rw [hts]
  obtain ⟨b, g1⟩ := r
  cases b with
  | false =>
    simp only
    refine ⟨by simp, fun g2 he => (by cases he), fun hac _ => ?_⟩
    exfalso
    by_cases hs : g.sorted = true
    · unfold GraphObj.topo_sort at hts
      rw [if_pos hs] at hts
      cases hts
    · have hs' : g.sorted = false := by simpa using hs
      obtain ⟨g4, h4, _⟩ := GraphObj.topo_sort_of_acyclic g
        (fun h => by rw [hs'] at h; cases h) hv.ops_nodup
        (fun op hop t ht p hp => hv.toG.producers_live op hop t ht p hp) hac
      rw [hts] at h4
      cases h4
  | true =>
    simp only
    obtain ⟨v1, k1⟩ := topo_sorted_valid g g1 hv hts
    obtain ⟨i1, i2, i3⟩ := optimizeLoop_spec (g1.ops.length + 1) g1 v1 (le_refl _)
    refine ⟨i1, ?_, ?_⟩
    · intro g2 he
      obtain ⟨j1, j2, j3, j4⟩ := i2 g2 he
      exact ⟨j1, k1.kept_trans j2, j3, j4⟩
    · intro hac hpr
      exact i3 (k1.reduced.acyclic hac) (hpr.kept k1)

/-! ### The invariants of the graph and `checkValid` -/

theorem fuidLoop_true (g : GraphObj) :
    ∀ (l s : List Nat), (∀ t ∈ l, (g.tensorAt t).fuid ∉ s) →
      (l.map fun t => (g.tensorAt t).fuid).Nodup → fuidLoop g l s = true := by
  intro l
  induction l with
  | nil => intro s _ _; rfl
  | cons t rest ih =>
    intro s hs hnd
    simp only [List.map_cons, List.nodup_cons, List.mem_map, not_exists, not_and] at hnd
    simp only [fuidLoop, Bool.and_eq_true, Bool.not_eq_true', List.contains_eq_any_beq,
      List.any_eq_false, beq_iff_eq]
    refine ⟨fun x hx e => hs t (List.mem_cons_self _ _) (e ▸ hx), ih _ ?_ hnd.2⟩
    intro u hu hmem
    rcases List.mem_cons.1 hmem with e | e
    · exact hnd.1 u hu e
    · exact hs u (List.mem_cons_of_mem _ hu) e

/-- A graph that satisfies the invariants passes `checkValid`. -/
theorem GraphValid.checkValid_true {g : GraphObj} (h : GraphValid g) : g.checkValid = true := by
  unfold GraphObj.checkValid
  simp only [Bool.and_eq_true, List.all_eq_true, Bool.not_eq_true', Bool.and_eq_false_imp,
    beq_iff_eq, List.contains_iff_exists_mem_beq, exists_eq_right', Option.isNone_iff_eq_none]
  refine ⟨⟨fun t ht => ⟨⟨?_, ?_⟩, ?_⟩, fun Q hQ => ⟨⟨⟨?_, ?_⟩, ?_⟩, ?_⟩⟩, ?_⟩
  · intro hl
    cases hs : (g.tensorAt t).source with
    | none => exact absurd ⟨List.length_eq_zero.1 hl, hs⟩ (h.no_dangling t ht)
    | some p => simp
  · intro Q hQ
    exact ((h.tgt_iff t ht Q).1 hQ).1
  · cases hs : (g.tensorAt t).source with
    | none => rfl
    | some p =>
      simp only [List.contains_iff_exists_mem_beq, beq_iff_eq, exists_eq_right']
      exact ((h.src_iff t ht p).1 hs).1
  · exact fun t ht => h.in_mem Q hQ t ht
  · exact fun t ht => h.out_mem Q hQ t ht
  · exact fun P hP => ((h.pred_iff Q hQ P).1 hP).1
  · exact fun R hR => ((h.succ_iff Q hQ R).1 hR).1
  · apply fuidLoop_true g g.tensors [] (fun t _ hm => by cases hm)
    exact List.Nodup.map_on (fun x hx y hy e => h.fuid_unique x hx y hy e) h.tensors_nodup

/-- The invariants of the graph, from conditions that range over the lists of
the graph only. -/
theorem GraphValid.of_bounded (g : GraphObj) (h1 : g.ops.Nodup) (h2 : g.tensors.Nodup)
    (h3 : ∀ t ∈ g.tensors, ¬ ((g.tensorAt t).targets = [] ∧ (g.tensorAt t).source = none))
    (s1 : ∀ t ∈ g.tensors, ∀ P ∈ (g.tensorAt t).source, P ∈ g.ops ∧ t ∈ (g.opAt P).outputs)
    (s2 : ∀ t ∈ g.tensors, ∀ P ∈ g.ops, t ∈ (g.opAt P).outputs →
      (g.tensorAt t).source = some P)
    (t1 : ∀ t ∈ g.tensors, ∀ Q ∈ (g.tensorAt t).targets, Q ∈ g.ops ∧ t ∈ (g.opAt Q).inputs)
    (t2 : ∀ t ∈ g.tensors, ∀ Q ∈ g.ops, t ∈ (g.opAt Q).inputs → Q ∈ (g.tensorAt t).targets)
    (m1 : ∀ Q ∈ g.ops, ∀ t ∈ (g.opAt Q).inputs, t ∈ g.tensors)
    (m2 : ∀ Q ∈ g.ops, ∀ t ∈ (g.opAt Q).outputs, t ∈ g.tensors)
    (p1 : ∀ Q ∈ g.ops, ∀ P ∈ (g.opAt Q).predecessors, P ∈ g.ops ∧ Feeds g P Q)
    (p2 : ∀ Q ∈ g.ops, ∀ P ∈ g.ops, Feeds g P Q → P ∈ (g.opAt Q).predecessors)
    (q1 : ∀ P ∈ g.ops, ∀ Q ∈ (g.opAt P).successors, Q ∈ g.ops ∧ Feeds g P Q)
    (q2 : ∀ P ∈ g.ops, ∀ Q ∈ g.ops, Feeds g P Q → Q ∈ (g.opAt P).successors)
    (f : ∀ t1 ∈ g.tensors, ∀ t2 ∈ g.tensors,
      (g.tensorAt t1).fuid = (g.tensorAt t2).fuid → t1 = t2) : GraphValid g :=
  ⟨h1, h2, h3, fun t ht P => ⟨fun hs => s1 t ht P hs, fun hp => s2 t ht P hp.1 hp.2⟩,
    fun t ht Q => ⟨fun hs => t1 t ht Q hs, fun hp => t2 t ht Q hp.1 hp.2⟩, m1, m2,
    fun Q hQ P => ⟨fun hs => p1 Q hQ P hs, fun hp => p2 Q hQ P hp.1 hp.2⟩,
    fun P hP Q => ⟨fun hs => q1 P hP Q hs, fun hp => q2 P hP Q hp.1 hp.2⟩, f⟩

theorem demoGraph_valid : GraphValid demoGraph :=
  GraphValid.of_bounded demoGraph (by decide) (by decide) (by decide) (by decide) (by decide)
    (by decide) (by decide) (by decide) (by decide) (by decide) (by decide) (by decide)
    (by decide) (by decide)

theorem demoGraph_acyclic : Acyclic demoGraph :=
  acyclic_of_topo_sort demoGraph { demoGraph with sorted := true } rfl (by decide) rfl

theorem squareGraph_valid : GraphValid squareGraph :=
  GraphValid.of_bounded squareGraph (by decide) (by decide) (by decide) (by decide) (by decide)
    (by decide) (by decide) (by decide) (by decide) (by decide) (by decide) (by decide)
    (by decide) (by decide)


/-! ### The optimizer keeps the invariants, reaches a fixed point, and ends -/

/-- Claim C18: let the graph satisfy the invariants `GraphValid` and have no
cycle.  The invariants are the conditions of `checkValid` (no tensor without
source and targets, sources and targets among the operators, inputs and outputs
among the tensors, predecessors and successors among the operators, Fuids
unique), each operator listed once, and the edges derived from the inputs and
outputs of the operators: `P` is a predecessor of `Q`, and `Q` a successor of
`P`, exactly when an output of `P` is an input of `Q`, the source of a tensor
is its producer, and its targets are its consumers.  Then `optimize` does not
run out of the fuel of the model, it returns when no permutation of a Transpose
has an entry out of range (the one assertion that can fail is the one of the
inverse check), and every graph it returns satisfies the invariants again,
passes `checkValid`, and has no cycle. -/
theorem optimize_keeps_graph_invariants (g : GraphObj) (hv : GraphValid g) (hac : Acyclic g) :
    g.optimize ≠ .outOfFuel ∧ (PermsInRange g → ∃ g1, g.optimize = .done g1) ∧
      ∀ g1, g.optimize = .done g1 →
        GraphValid g1 ∧ g1.checkValid = true ∧ Acyclic g1 := by
  obtain ⟨h1, h2, h3⟩ := optimize_spec g hv
  refine ⟨h1, h3 hac, fun g1 he => ?_⟩
  obtain ⟨v, k, _, _⟩ := h2 g1 he
  exact ⟨v, v.checkValid_true, k.reduced.acyclic hac⟩

/-- Witness of `optimize_keeps_graph_invariants`: a Transpose that feeds a
Matmul. -/
theorem optimize_keeps_graph_invariants_witness :
    demoGraph.optimize ≠ .outOfFuel ∧
      (PermsInRange demoGraph → ∃ g1, demoGraph.optimize = .done g1) ∧
      ∀ g1, demoGraph.optimize = .done g1 →
        GraphValid g1 ∧ g1.checkValid = true ∧ Acyclic g1 :=
  optimize_keeps_graph_invariants demoGraph demoGraph_valid demoGraph_acyclic

/-- Claim C23 (amended): when `optimize` returns on a valid graph, the tests of
its two rules pass nowhere in the returned graph.  There is no Matmul one of
whose two inputs has as its source a Transpose (with an input) whose
permutation swaps the last two axes of the rank of that tensor, the tensor
having exactly one entry in its target list; and there is no Transpose whose
first output has exactly one entry in its target list, that entry being a
Transpose whose permutation the inverse check accepts at the rank of that
output, and whose own first output has a target. -/
theorem optimize_result_admits_no_rule (g g1 : GraphObj) (hv : GraphValid g)
    (hrun : g.optimize = .done g1) : NoFusable g1 ∧ NoInversePair g1 := by
  obtain ⟨_, h2, _⟩ := optimize_spec g hv
  obtain ⟨_, _, n1, n2⟩ := h2 g1 hrun
  exact ⟨n1, n2⟩

/-- Witness of `optimize_result_admits_no_rule`: after the Transpose has been
fused into the Matmul no rule applies. -/
theorem optimize_result_admits_no_rule_witness :
    NoFusable demoOptimized ∧ NoInversePair demoOptimized :=
  optimize_result_admits_no_rule demoGraph demoOptimized demoGraph_valid rfl

/-- Claim C23 fails as stated: in `squareGraph`, which `addOperatorAndConnect`
builds from its two operators, which is valid and has no cycle, the Matmul has
the output of the Transpose as both inputs.  The tensor lists the Matmul twice
among its targets, so the test `getTargets().size() != 1` of rule 2 skips it,
and `optimize` returns the graph as it is: it still contains a Matmul (operator
1) with an input (tensor 1) produced by a Transpose (operator 0) that swaps the
last two axes, and that Matmul is the only consumer of the tensor. -/
theorem matmul_reading_transpose_twice_is_not_fused :
    (([0, 1].foldl GraphObj.addOperatorAndConnect squareLoose).ops = squareGraph.ops ∧
      (∀ t ∈ squareGraph.tensors,
        ([0, 1].foldl GraphObj.addOperatorAndConnect squareLoose).tensorAt t
          = squareGraph.tensorAt t) ∧
      (∀ o ∈ squareGraph.ops,
        ([0, 1].foldl GraphObj.addOperatorAndConnect squareLoose).opAt o
          = squareGraph.opAt o)) ∧
    GraphValid squareGraph ∧ squareGraph.checkValid = true ∧ Acyclic squareGraph ∧
    squareGraph.optimize = .done { squareGraph with sorted := true } ∧
    1 ∈ squareGraph.ops ∧ (squareGraph.opAt 1).type = OpType.MatMul ∧
    1 ∈ (squareGraph.opAt 1).inputs ∧ (squareGraph.tensorAt 1).source = some 0 ∧
    0 ∈ squareGraph.ops ∧ (squareGraph.opAt 0).type = OpType.Transpose ∧
    SwapsLastTwo (squareGraph.opAt 0).transposePermute (squareGraph.tensorAt 1).shape.length ∧
    (∀ Q ∈ squareGraph.ops, 1 ∈ (squareGraph.opAt Q).inputs → Q = 1) := by
  refine ⟨⟨rfl, by decide, by decide⟩, squareGraph_valid, by decide,
    acyclic_of_topo_sort squareGraph { squareGraph with sorted := true } rfl (by decide) rfl,
    rfl, by decide, rfl, by decide, rfl, by decide, rfl, ?_, by decide⟩
  refine ⟨by decide, rfl, ?_, rfl, rfl⟩
  intro i hi
  have : i < 0 := hi
  omega

/-- Claim C24: on a valid graph without a cycle, `optimize` and its rewrite
loop end within the fuel of the model, which allows `ops.size() + 1` passes of
the loop; `optimize` returns when no permutation of a Transpose has an entry
out of range.  The loop runs `optimizePass` until a pass reports no change, and
a pass on the graph returns a graph that is valid and without a cycle again,
whose operators are operators of the graph before the pass, and that has fewer
operators when the pass reports a change. -/
theorem optimize_loop_terminates (g : GraphObj) (hv : GraphValid g) (hac : Acyclic g) :
    g.optimize ≠ .outOfFuel ∧ optimizeLoop (g.ops.length + 1) g ≠ .outOfFuel ∧
    (PermsInRange g → ∃ g1, g.optimize = .done g1) ∧
    (∀ (fuel : Nat) (k : GraphObj), optimizeLoop (fuel + 1) k =
      match optimizePass k with
      | .assertFailed => .assertFailed
      | .outOfFuel => .outOfFuel
      | .done (g1, false) => .done g1
      | .done (g1, true) => optimizeLoop fuel g1) ∧
    (optimizePass g ≠ .outOfFuel ∧
      ∀ g1 c, optimizePass g = .done (g1, c) →
        GraphValid g1 ∧ Acyclic g1 ∧ (∀ o ∈ g1.ops, o ∈ g.ops) ∧
        g1.ops.length ≤ g.ops.length ∧ (c = true → g1.ops.length < g.ops.length)) := by
  obtain ⟨h1, _, h3⟩ := optimize_spec g hv
  obtain ⟨l1, _, _⟩ := optimizeLoop_spec (g.ops.length + 1) g hv (le_refl _)
  obtain ⟨p1, p2, _⟩ := optimizePass_spec g hv
  refine ⟨h1, l1, h3 hac, optimizeLoop_succ, p1, fun g1 c he => ?_⟩
  obtain ⟨q1, q2, q3, _⟩ := p2 g1 c he
  exact ⟨q1, q2.reduced.acyclic hac, fun o ho => q2.reduced.live_sub o ho, q2.ops_len, q3⟩

/-- Witness of `optimize_loop_terminates`: a Transpose that feeds a Matmul. -/
theorem optimize_loop_terminates_witness :
    demoGraph.optimize ≠ .outOfFuel ∧
    optimizeLoop (demoGraph.ops.length + 1) demoGraph ≠ .outOfFuel ∧
    (PermsInRange demoGraph → ∃ g1, demoGraph.optimize = .done g1) ∧
    (∀ (fuel : Nat) (k : GraphObj), optimizeLoop (fuel + 1) k =
      match optimizePass k with
      | .assertFailed => .assertFailed
      | .outOfFuel => .outOfFuel
      | .done (g1, false) => .done g1
      | .done (g1, true) => optimizeLoop fuel g1) ∧
    (optimizePass demoGraph ≠ .outOfFuel ∧
      ∀ g1 c, optimizePass demoGraph = .done (g1, c) →
        GraphValid g1 ∧ Acyclic g1 ∧ (∀ o ∈ g1.ops, o ∈ demoGraph.ops) ∧
        g1.ops.length ≤ demoGraph.ops.length ∧
        (c = true → g1.ops.length < demoGraph.ops.length)) :=
  optimize_loop_terminates demoGraph demoGraph_valid demoGraph_acyclic

/-! ### The exact effect of the rewiring steps on the tensors and the flags -/

theorem addTarget_shape (g : GraphObj) (t o x : Nat) :
    ((g.addTarget t o).tensorAt x).shape = (g.tensorAt x).shape := by
  simp only [GraphObj.addTarget, GraphObj.setTensor]
  split_ifs with h
  · rw [h]
  · rfl

theorem removeTarget_shape (g : GraphObj) (t o x : Nat) :
    ((g.removeTarget t o).tensorAt x).shape = (g.tensorAt x).shape := by
  simp only [GraphObj.removeTarget, GraphObj.setTensor]
  split_ifs with h
  · rw [h]
  · rfl

theorem resetSource_shape (g : GraphObj) (t x : Nat) :
    ((g.resetSource t).tensorAt x).shape = (g.tensorAt x).shape := by
  simp only [GraphObj.resetSource, GraphObj.setTensor]
  split_ifs with h
  · rw [h]
  · rfl

theorem rewireConsumer_tensorAt_eq (g : GraphObj) (d z x s : Nat) :
    (rewireConsumer d z x g s).tensorAt = ((g.removeTarget z s).addTarget x s).tensorAt := by
  unfold rewireConsumer
  simp only
  split <;> rfl

/-- The targets and the shape of a tensor after the rewiring of the consumer
`s` from `z` to `x`. -/
theorem rewireConsumer_tensorAt (g : GraphObj) (d z x s t : Nat) :
    ((rewireConsumer d z x g s).tensorAt t).shape = (g.tensorAt t).shape ∧
    ((rewireConsumer d z x g s).tensorAt t).targets =
      (if t = x then
        (if t = z then (g.tensorAt t).targets.filter (fun q => q ≠ s)
          else (g.tensorAt t).targets) ++ [s]
      else if t = z then (g.tensorAt t).targets.filter (fun q => q ≠ s)
      else (g.tensorAt t).targets) := by
  rw [rewireConsumer_tensorAt_eq]
  refine ⟨by rw [addTarget_shape, removeTarget_shape], ?_⟩
  rw [addTarget_targets, removeTarget_targets]

/-- The rewiring of a consumer leaves the flags of the operators as they
are. -/
theorem rewireConsumer_flags (g : GraphObj) (d z x s o : Nat) :
    ((rewireConsumer d z x g s).opAt o).transA = (g.opAt o).transA ∧
    ((rewireConsumer d z x g s).opAt o).transB = (g.opAt o).transB := by
  have e1 : ∀ (h : GraphObj) (a b : Nat),
      ((h.addSuccessors a b).opAt o).transA = (h.opAt o).transA ∧
      ((h.addSuccessors a b).opAt o).transB = (h.opAt o).transB := by
    intro h a b
    simp only [GraphObj.addSuccessors, GraphObj.setOp]
    split_ifs with e
    · rw [e]; exact ⟨rfl, rfl⟩
    · exact ⟨rfl, rfl⟩
  have e2 : ∀ (h : GraphObj) (a b : Nat),
      ((h.addPredecessors a b).opAt o).transA = (h.opAt o).transA ∧
      ((h.addPredecessors a b).opAt o).transB = (h.opAt o).transB := by
    intro h a b
    simp only [GraphObj.addPredecessors, GraphObj.setOp]
    split_ifs with e
    · rw [e]; exact ⟨rfl, rfl⟩
    · exact ⟨rfl, rfl⟩
  have e3 : ∀ (h : GraphObj) (a b : Nat),
      ((h.removeSuccessors a b).opAt o).transA = (h.opAt o).transA ∧
      ((h.removeSuccessors a b).opAt o).transB = (h.opAt o).transB := by
    intro h a b
    simp only [GraphObj.removeSuccessors, GraphObj.setOp]
    split_ifs with e
    · rw [e]; exact ⟨rfl, rfl⟩
    · exact ⟨rfl, rfl⟩
  have e4 : ∀ (h : GraphObj) (a b : Nat),
      ((h.removePredecessors a b).opAt o).transA = (h.opAt o).transA ∧
      ((h.removePredecessors a b).opAt o).transB = (h.opAt o).transB := by
    intro h a b
    simp only [GraphObj.removePredecessors, GraphObj.setOp]
    split_ifs with e
    · rw [e]; exact ⟨rfl, rfl⟩
    · exact ⟨rfl, rfl⟩
  have e5 : ∀ (h : GraphObj) (a b c : Nat),
      ((h.replaceInput a b c).opAt o).transA = (h.opAt o).transA ∧
      ((h.replaceInput a b c).opAt o).transB = (h.opAt o).transB := by
    intro h a b c
    simp only [GraphObj.replaceInput, GraphObj.setOp]
    split_ifs with e
    · rw [e]; exact ⟨rfl, rfl⟩
    · exact ⟨rfl, rfl⟩
  have e6 : (((g.replaceInput s z x).removeTarget z s).addTarget x s).opAt
      = (g.replaceInput s z x).opAt := rfl
  unfold rewireConsumer
  simp only
  split
  · rw [(e3 _ _ _).1, (e3 _ _ _).2, (e4 _ _ _).1, (e4 _ _ _).2, e6]
    exact e5 g s z x
  · rw [(e2 _ _ _).1, (e2 _ _ _).2, (e1 _ _ _).1, (e1 _ _ _).2, (e3 _ _ _).1, (e3 _ _ _).2,
      (e4 _ _ _).1, (e4 _ _ _).2, e6]
    exact e5 g s z x

/-- The toggle of a flag changes nothing but that flag. -/
theorem toggleTrans_exact (g : GraphObj) (op inputIdx : Nat) :
    (toggleTrans g op inputIdx).tensorAt = g.tensorAt ∧
    (toggleTrans g op inputIdx).ops = g.ops ∧ (toggleTrans g op inputIdx).tensors = g.tensors ∧
    ∀ o, ((toggleTrans g op inputIdx).opAt o).inputs = (g.opAt o).inputs ∧
      ((toggleTrans g op inputIdx).opAt o).outputs = (g.opAt o).outputs ∧
      ((toggleTrans g op inputIdx).opAt o).type = (g.opAt o).type ∧
      ((toggleTrans g op inputIdx).opAt o).transposePermute = (g.opAt o).transposePermute ∧
      ((toggleTrans g op inputIdx).opAt o).transA =
        (if o = op ∧ inputIdx = 0 then !(g.opAt o).transA else (g.opAt o).transA) ∧
      ((toggleTrans g op inputIdx).opAt o).transB =
        (if o = op ∧ inputIdx ≠ 0 then !(g.opAt o).transB else (g.opAt o).transB) := by
  unfold toggleTrans
  by_cases hi : inputIdx = 0
  · rw [if_pos hi]
    refine ⟨rfl, rfl, rfl, fun o => ?_⟩
    simp only [GraphObj.setOp]
    by_cases ho : o = op
    · subst ho
      simp [hi]
    · simp [ho]
  · rw [if_neg hi]
    refine ⟨rfl, rfl, rfl, fun o => ?_⟩
    simp only [GraphObj.setOp]
    by_cases ho : o = op
    · subst ho
      simp [hi]
    · simp [ho]



theorem SameData.data_refl (g : GraphObj) : SameData g g :=
  ⟨fun _ => ⟨rfl, rfl⟩, fun _ => rfl⟩

theorem SameData.data_trans {a b c : GraphObj} (h1 : SameData a b) (h2 : SameData b c) :
    SameData a c :=
  ⟨fun o => ⟨(h2.1 o).1.trans (h1.1 o).1, (h2.1 o).2.trans (h1.1 o).2⟩,
    fun t => (h2.2 t).trans (h1.2 t)⟩

theorem SameData.of_fields {g h : GraphObj}
    (h1 : ∀ o, (h.opAt o).transA = (g.opAt o).transA ∧ (h.opAt o).transB = (g.opAt o).transB)
    (h2 : h.tensorAt = g.tensorAt) : SameData g h :=
  ⟨h1, fun t => by rw [h2]⟩

theorem SameData.data_foldl {α : Type} (f : GraphObj → α → GraphObj)
    (hf : ∀ h a, SameData h (f h a)) : ∀ (l : List α) (g : GraphObj), SameData g (l.foldl f g) := by
  intro l
  induction l with
  | nil => intro g; exact SameData.data_refl g
  | cons a rest ih =>
    intro g
    exact (hf g a).data_trans (ih (f g a))

theorem removeTarget_sameData (g : GraphObj) (t o : Nat) : SameData g (g.removeTarget t o) :=
  ⟨fun _ => ⟨rfl, rfl⟩, fun x => removeTarget_shape g t o x⟩

theorem resetSource_sameData (g : GraphObj) (t : Nat) : SameData g (g.resetSource t) :=
  ⟨fun _ => ⟨rfl, rfl⟩, fun x => resetSource_shape g t x⟩

theorem removeSuccessors_sameData (g : GraphObj) (a b : Nat) :
    SameData g (g.removeSuccessors a b) := by
  refine SameData.of_fields (fun o => ?_) rfl
  simp only [GraphObj.removeSuccessors, GraphObj.setOp]
  split_ifs with e
  · rw [e]; exact ⟨rfl, rfl⟩
  · exact ⟨rfl, rfl⟩

theorem removePredecessors_sameData (g : GraphObj) (a b : Nat) :
    SameData g (g.removePredecessors a b) := by
  refine SameData.of_fields (fun o => ?_) rfl
  simp only [GraphObj.removePredecessors, GraphObj.setOp]
  split_ifs with e
  · rw [e]; exact ⟨rfl, rfl⟩
  · exact ⟨rfl, rfl⟩

theorem rewireConsumer_sameData (g : GraphObj) (d z x s : Nat) :
    SameData g (rewireConsumer d z x g s) :=
  ⟨fun o => rewireConsumer_flags g d z x s o, fun t => (rewireConsumer_tensorAt g d z x s t).1⟩

/-- The lambda `detach_op` changes no flag and no shape. -/
theorem detach_op_sameData (g : GraphObj) (d : Nat) : SameData g (g.detach_op d) := by
  have s1 := SameData.data_foldl (fun h tin => h.removeTarget tin d)
    (fun h a => removeTarget_sameData h a d) (g.opAt d).inputs g
  generalize hg1 : (g.opAt d).inputs.foldl (fun h tin => h.removeTarget tin d) g = g1 at s1
  have s2 := SameData.data_foldl
    (fun h out => if (h.tensorAt out).source = some d then h.resetSource out else h)
    (fun h a => by
      show SameData h (if (h.tensorAt a).source = some d then h.resetSource a else h)
      split_ifs
      · exact resetSource_sameData h a
      · exact SameData.data_refl h) (g1.opAt d).outputs g1
  generalize hg2 : (g1.opAt d).outputs.foldl
    (fun h out => if (h.tensorAt out).source = some d then h.resetSource out else h) g1 = g2
    at s2
  have s3 := SameData.data_foldl (fun h pred => h.removeSuccessors pred d)
    (fun h a => removeSuccessors_sameData h a d) (g2.opAt d).predecessors g2
  generalize hg3 : (g2.opAt d).predecessors.foldl (fun h pred => h.removeSuccessors pred d) g2
    = g3 at s3
  have s4 := SameData.data_foldl (fun h succ => h.removePredecessors succ d)
    (fun h a => removePredecessors_sameData h a d) (g3.opAt d).successors g3
  generalize hg4 : (g3.opAt d).successors.foldl (fun h succ => h.removePredecessors succ d) g3
    = g4 at s4
  have hdef : g.detach_op d = g4.setOp d { g4.opAt d with predecessors := [], successors := [] } := by
    unfold GraphObj.detach_op
    simp only
    rw [hg1, hg2, hg3, hg4]
  rw [hdef]
  refine (((s1.data_trans s2).data_trans s3).data_trans s4).data_trans ?_
  refine SameData.of_fields (fun o => ?_) rfl
  simp only [GraphObj.setOp]
  split_ifs with e
  · rw [e]; exact ⟨rfl, rfl⟩
  · exact ⟨rfl, rfl⟩

theorem removeTarget_fold_targets (op : Nat) :
    ∀ (l : List Nat) (g : GraphObj) (x : Nat),
      ((l.foldl (fun h tin => h.removeTarget tin op) g).tensorAt x).targets =
        if x ∈ l then (g.tensorAt x).targets.filter (fun q => q ≠ op)
        else (g.tensorAt x).targets := by
  intro l
  induction l with
  | nil => intro g x; simp
  | cons a rest ih =>
    intro g x
    rw [List.foldl_cons, ih, removeTarget_targets]
    by_cases h1 : x = a
    · subst h1
      simp only [↓reduceIte, List.mem_cons, true_or, List.filter_filter, Bool.and_self, ite_self]
    · by_cases h2 : x ∈ rest
      · simp [h1, h2]
      · simp [h1, h2]

/-- The targets of a tensor after `detach_op` of the operator `d`. -/
theorem detach_op_targets (g : GraphObj) (d x : Nat) :
    ((g.detach_op d).tensorAt x).targets =
      if x ∈ (g.opAt d).inputs then (g.tensorAt x).targets.filter (fun q => q ≠ d)
      else (g.tensorAt x).targets := by
  have h1 := removeTarget_fold_targets d (g.opAt d).inputs g x
  obtain ⟨_, _, a3, _⟩ := detach_targets_fold d (g.opAt d).inputs g
  generalize hg1 : (g.opAt d).inputs.foldl (fun h tin => h.removeTarget tin d) g = g1 at h1 a3
  obtain ⟨_, _, b3, b4⟩ := detach_sources_fold d (g1.opAt d).outputs g1
  generalize hg2 : (g1.opAt d).outputs.foldl
    (fun h out => if (h.tensorAt out).source = some d then h.resetSource out else h) g1 = g2
    at b3 b4
  obtain ⟨c1, _, _⟩ := detach_successors_fold d (g2.opAt d).predecessors g2
  generalize hg3 : (g2.opAt d).predecessors.foldl (fun h pred => h.removeSuccessors pred d) g2
    = g3 at c1
  obtain ⟨e1, _, _⟩ := detach_predecessors_fold d (g3.opAt d).successors g3
  generalize hg4 : (g3.opAt d).successors.foldl (fun h succ => h.removePredecessors succ d) g3
    = g4 at e1
  have hdef : g.detach_op d = g4.setOp d { g4.opAt d with predecessors := [], successors := [] } := by
    unfold GraphObj.detach_op
    simp only
    rw [hg1, hg2, hg3, hg4]
  rw [hdef]
  show (g4.tensorAt x).targets = _
  rw [e1.2.2.1, c1.2.2.1, (b4 x).1, h1]



theorem filter_ne_of_not_mem (l : List Nat) (d : Nat) (h : d ∉ l) :
    l.filter (fun q => q ≠ d) = l := by
  rw [List.filter_eq_self]
  intro a ha
  simp only [ne_eq, decide_not, Bool.not_eq_true', decide_eq_false_iff_not]
  intro e
  exact h (e ▸ ha)

/-- The exact effect of a firing of rule 2 on the operators and tensors. -/
theorem fuseFire_exact (g : GraphObj) (op inputIdx tin pred orig : Nat) :
    (fuseFire g op inputIdx tin pred orig).ops = g.ops ∧
    (fuseFire g op inputIdx tin pred orig).tensors = g.tensors ∧
    (∀ o, ((fuseFire g op inputIdx tin pred orig).opAt o).outputs = (g.opAt o).outputs ∧
      ((fuseFire g op inputIdx tin pred orig).opAt o).type = (g.opAt o).type ∧
      ((fuseFire g op inputIdx tin pred orig).opAt o).transposePermute
        = (g.opAt o).transposePermute ∧
      ((fuseFire g op inputIdx tin pred orig).opAt o).inputs =
        (if o = op then (g.opAt o).inputs.map (fun t => if t = tin then orig else t)
          else (g.opAt o).inputs) ∧
      ((fuseFire g op inputIdx tin pred orig).opAt o).transA =
        (if o = op ∧ inputIdx = 0 then !(g.opAt o).transA else (g.opAt o).transA) ∧
      ((fuseFire g op inputIdx tin pred orig).opAt o).transB =
        (if o = op ∧ inputIdx ≠ 0 then !(g.opAt o).transB else (g.opAt o).transB)) ∧
    (∀ t, ((fuseFire g op inputIdx tin pred orig).tensorAt t).shape = (g.tensorAt t).shape ∧
      (((fuseFire g op inputIdx tin pred orig).tensorAt t).source = (g.tensorAt t).source ∨
        ((fuseFire g op inputIdx tin pred orig).tensorAt t).source = none) ∧
      (t ≠ tin → t ≠ orig → pred ∉ (g.tensorAt t).targets →
        ((fuseFire g op inputIdx tin pred orig).tensorAt t).targets = (g.tensorAt t).targets) ∧
      (t = orig → t ≠ tin → op ≠ pred → orig ∈ (g.opAt pred).inputs →
        ((fuseFire g op inputIdx tin pred orig).tensorAt t).targets
          = ((g.tensorAt t).targets ++ [op]).filter (fun q => q ≠ pred))) := by
  have R := rewireConsumer_spec g op tin pred orig
  have RT := rewireConsumer_tensorAt g pred tin orig op
  have RF := rewireConsumer_flags g pred tin orig op
  generalize hga : rewireConsumer pred tin orig g op = ga at R RT RF
  obtain ⟨t1, t2, t3, t4⟩ := toggleTrans_exact ga op inputIdx
  generalize hgb : toggleTrans ga op inputIdx = gb at t1 t2 t3 t4
  obtain ⟨d1, d2, d3, _, _, d6, _, _⟩ := detach_op_spec gb pred
  have DT := detach_op_targets gb pred
  have DS := detach_op_sameData gb pred
  have hdef : fuseFire g op inputIdx tin pred orig = gb.detach_op pred := by
    unfold fuseFire
    rw [hga, hgb]
  rw [hdef]
  refine ⟨(d1.trans t2).trans R.ops_eq, (d2.trans t3).trans R.tensors_eq, fun o => ?_,
    fun t => ?_⟩
  · obtain ⟨a1, a2, a3, a4⟩ := d3 o
    obtain ⟨b1, b2, b3, b4, b5, b6⟩ := t4 o
    obtain ⟨c1, c2, c3⟩ := R.ops_frame o
    refine ⟨(a2.trans b2).trans c1, (a3.trans b3).trans c2, (a4.trans b4).trans c3,
      (a1.trans b1).trans (R.inputs_eq o), ?_, ?_⟩
    · rw [(DS.1 o).1, b5, (RF o).1]
    · rw [(DS.1 o).2, b6, (RF o).2]
  · have hin : (gb.opAt pred).inputs = (ga.opAt pred).inputs := (t4 pred).1
    refine ⟨?_, ?_, ?_, ?_⟩
    · rw [DS.2 t, t1, (RT t).1]
    · rw [d6 t, t1, (R.tensors_frame t).2]
      split_ifs
      · exact Or.inr rfl
      · exact Or.inl rfl
    · intro h1 h2 h3
      rw [DT t, t1, (RT t).2, if_neg h2, if_neg h1]
      split_ifs
      · exact filter_ne_of_not_mem _ _ h3
      · rfl
    · intro h1 h2 h3 h4
      rw [DT t, t1, (RT t).2, if_pos h1, if_neg h2, hin, R.inputs_eq pred, if_neg (Ne.symm h3),
        if_pos (h1 ▸ h4)]



theorem map_replace_idem (l : List Nat) (z x : Nat) :
    (l.map (fun t => if t = z then x else t)).map (fun t => if t = z then x else t)
      = l.map (fun t => if t = z then x else t) := by
  rw [List.map_map]
  apply List.map_congr_left
  intro a _
  simp only [Function.comp]
  by_cases h : a = z
  · rw [if_pos h]
    by_cases h2 : x = z
    · rw [if_pos h2]
    · rw [if_neg h2]
  · rw [if_neg h, if_neg h]

/-- The exact effect of the loop "rewire: replace uses of z with x" of rule 1
over the consumers `S`. -/
theorem rewireFold_exact (d z x : Nat) :
    ∀ (S : List Nat) (g : GraphObj),
      (S.foldl (rewireConsumer d z x) g).ops = g.ops ∧
      (S.foldl (rewireConsumer d z x) g).tensors = g.tensors ∧
      (∀ o, ((S.foldl (rewireConsumer d z x) g).opAt o).outputs = (g.opAt o).outputs ∧
        ((S.foldl (rewireConsumer d z x) g).opAt o).type = (g.opAt o).type ∧
        ((S.foldl (rewireConsumer d z x) g).opAt o).transposePermute
          = (g.opAt o).transposePermute ∧
        ((S.foldl (rewireConsumer d z x) g).opAt o).inputs =
          (if o ∈ S then (g.opAt o).inputs.map (fun t => if t = z then x else t)
            else (g.opAt o).inputs)) ∧
      (∀ t, ((S.foldl (rewireConsumer d z x) g).tensorAt t).source = (g.tensorAt t).source ∧
        (t ≠ z → t ≠ x →
          ((S.foldl (rewireConsumer d z x) g).tensorAt t).targets = (g.tensorAt t).targets)) ∧
      SameData g (S.foldl (rewireConsumer d z x) g) := by
  intro S
  induction S with
  | nil =>
    intro g
    exact ⟨rfl, rfl, fun o => ⟨rfl, rfl, rfl, by simp⟩, fun t => ⟨rfl, fun _ _ => rfl⟩,
      SameData.data_refl g⟩
  | cons s rest ih =>
    intro g
    rw [List.foldl_cons]
    have R := rewireConsumer_spec g s z d x
    have RT := rewireConsumer_tensorAt g d z x s
    have RD := rewireConsumer_sameData g d z x s
    generalize rewireConsumer d z x g s = ga at R RT RD
    obtain ⟨i1, i2, i3, i4, i5⟩ := ih ga
    refine ⟨i1.trans R.ops_eq, i2.trans R.tensors_eq, fun o => ?_, fun t => ?_,
      RD.data_trans i5⟩
    · obtain ⟨a1, a2, a3, a4⟩ := i3 o
      obtain ⟨c1, c2, c3⟩ := R.ops_frame o
      refine ⟨a1.trans c1, a2.trans c2, a3.trans c3, ?_⟩
      rw [a4, R.inputs_eq o]
      by_cases h1 : o = s
      · subst h1
        simp only [↓reduceIte, List.mem_cons, true_or, map_replace_idem, ite_self]
      · by_cases h2 : o ∈ rest
        · simp [h1, h2]
        · simp [h1, h2]
    · obtain ⟨b1, b2⟩ := i4 t
      refine ⟨b1.trans (R.tensors_frame t).2, fun h1 h2 => ?_⟩
      rw [b2 h1 h2, (RT t).2, if_neg h2, if_neg h1]

/-- The exact effect of the removal of a pair of Transposes by rule 1. -/
theorem removePair_exact (g : GraphObj) (op1 op2 z x : Nat) :
    (removePair g op1 op2 z x).ops = (g.ops.filter fun o => o ≠ op1).filter (fun o => o ≠ op2) ∧
    (∀ o, ((removePair g op1 op2 z x).opAt o).outputs = (g.opAt o).outputs ∧
      ((removePair g op1 op2 z x).opAt o).type = (g.opAt o).type ∧
      ((removePair g op1 op2 z x).opAt o).transposePermute = (g.opAt o).transposePermute ∧
      ((removePair g op1 op2 z x).opAt o).inputs =
        (if o ∈ (g.tensorAt z).targets then (g.opAt o).inputs.map (fun t => if t = z then x else t)
          else (g.opAt o).inputs)) ∧
    (∀ t, (((removePair g op1 op2 z x).tensorAt t).source = (g.tensorAt t).source ∨
        ((removePair g op1 op2 z x).tensorAt t).source = none) ∧
      (t ≠ z → t ≠ x → op1 ∉ (g.tensorAt t).targets → op2 ∉ (g.tensorAt t).targets →
        ((removePair g op1 op2 z x).tensorAt t).targets = (g.tensorAt t).targets)) ∧
    SameData g (removePair g op1 op2 z x) := by
  obtain ⟨f1, f2, f3, f4, f5⟩ := rewireFold_exact op2 z x (g.tensorAt z).targets g
  generalize hga : (g.tensorAt z).targets.foldl (rewireConsumer op2 z x) g = ga
    at f1 f2 f3 f4 f5
  obtain ⟨a1, a2, a3, _, _, a6, _, _⟩ := detach_op_spec ga op1
  have AT := detach_op_targets ga op1
  have AD := detach_op_sameData ga op1
  generalize hgb : ga.detach_op op1 = gb at a1 a2 a3 a6 AT AD
  obtain ⟨b1, b2, b3, _, _, b6, _, _⟩ := detach_op_spec gb op2
  have BT := detach_op_targets gb op2
  have BD := detach_op_sameData gb op2
  generalize hgc : gb.detach_op op2 = gc at b1 b2 b3 b6 BT BD
  have hdef : removePair g op1 op2 z x =
      ({ gc with ops := (gc.ops.filter fun o => o ≠ op1).filter fun o => o ≠ op2 } :
        GraphObj).cleanup_dangling_tensors := by
    unfold removePair
    simp only
    rw [hga, hgb, hgc]
  rw [hdef]
  refine ⟨?_, fun o => ?_, fun t => ?_, ?_⟩
  · show (gc.ops.filter fun o => o ≠ op1).filter (fun o => o ≠ op2) = _
    rw [b1, a1, f1]
  · show (gc.opAt o).outputs = _ ∧ (gc.opAt o).type = _ ∧ (gc.opAt o).transposePermute = _ ∧
      (gc.opAt o).inputs = _
    obtain ⟨p1, p2, p3, p4⟩ := b3 o
    obtain ⟨q1, q2, q3, q4⟩ := a3 o
    obtain ⟨r1, r2, r3, r4⟩ := f3 o
    exact ⟨(p2.trans q2).trans r1, (p3.trans q3).trans r2, (p4.trans q4).trans r3,
      (p1.trans q1).trans r4⟩
  · show ((gc.tensorAt t).source = _ ∨ (gc.tensorAt t).source = none) ∧
      (_ → _ → _ → _ → (gc.tensorAt t).targets = _)
    refine ⟨?_, fun h1 h2 h3 h4 => ?_⟩
    · rw [b6 t]
      split_ifs
      · exact Or.inr rfl
      · rw [a6 t]
        split_ifs
        · exact Or.inr rfl
        · exact Or.inl (f4 t).1
    · have e1 : (ga.tensorAt t).targets = (g.tensorAt t).targets := (f4 t).2 h1 h2
      have e2 : (gb.tensorAt t).targets = (g.tensorAt t).targets := by
        rw [AT t, e1]
        split_ifs
        · exact filter_ne_of_not_mem _ _ h3
        · rfl
      rw [BT t, e2]
      split_ifs
      · exact filter_ne_of_not_mem _ _ h4
      · rfl
  · exact (f5.data_trans AD).data_trans BD



/-! ### Properties carried through the optimizer -/

theorem NoCycleOn.of_reduced {g0 g : GraphObj} {l : List Nat}
    (h : Reduced g0 (fun P => P ∈ g0.ops) g (fun P => P ∈ l)) (hac : Acyclic g0) :
    NoCycleOn g l := by
  intro op hcyc
  exact hac op (transGen_of_edges (fun a b e => h.edges a b e) op op hcyc)

theorem filter_not_contains_nil (l : List Nat) :
    l.filter (fun o => !([] : List Nat).contains o) = l := by
  rw [List.filter_eq_self]
  intro a _
  simp

theorem filter_not_contains_cons (l e : List Nat) (p : Nat) :
    l.filter (fun o => !(p :: e).contains o)
      = (l.filter fun o => !e.contains o).filter (fun o => o ≠ p) := by
  rw [List.filter_filter]
  apply List.filter_congr
  intro a _
  by_cases h1 : a = p
  · simp [h1]
  · by_cases h2 : a ∈ e
    · simp [h1, h2]
    · simp [h1, h2]

theorem mem_filter_not_contains (l e : List Nat) (P : Nat) :
    P ∈ l.filter (fun o => !e.contains o) ↔ P ∈ l ∧ P ∉ e := by
  simp

/-- One step of rule 2 carries the property. -/
theorem fuseStep_carry {J : GraphObj → List Nat → Prop} (C : Carried J) (g0 : GraphObj)
    (st : FuseState) (op inputIdx : Nat) (hnd : g0.ops.Nodup) (hac : Acyclic g0)
    (hI : FuseInv g0 st) (hJ : J st.g (g0.ops.filter fun o => !st.eraseOps.contains o))
    (hop : op ∈ g0.ops) (hne : op ∉ st.eraseOps)
    (hty : (st.g.opAt op).type = OpType.MatMul) (hidx : inputIdx < 2) :
    J (fuseStep op inputIdx st).g
      (g0.ops.filter fun o => !(fuseStep op inputIdx st).eraseOps.contains o) := by
  by_cases hc : ∃ tin pred orig, FuseCond st.g st.eraseOps op inputIdx tin pred orig
  swap
  · rw [fuseStep_of_not_cond op inputIdx st hc]
    exact hJ
  obtain ⟨tin, pred, orig, hcond⟩ := hc
  rw [fuseStep_of_cond op inputIdx st tin pred orig hcond]
  obtain ⟨h1, h2, h3, h4, h5, h6, h7⟩ := hcond
  have hnp : op ≠ pred := by
    intro e
    rw [← e, hty] at h4
    cases h4
  obtain ⟨f1, f2, f3, f4, f5, f6⟩ := fuseFire_spec st.g
    (fun P => P ∈ g0.ops ∧ P ∉ st.eraseOps) hI.valid op inputIdx tin pred orig ⟨hop, hne⟩ hnp
    (mem_of_get?_eq_some h1) h2 (mem_of_get?_eq_some h7) h5
  rw [if_pos f2]
  show J (fuseFire st.g op inputIdx tin pred orig)
    (g0.ops.filter fun o => !(pred :: st.eraseOps).contains o)
  rw [filter_not_contains_cons]
  have hl : ∀ P, P ∈ (g0.ops.filter fun o => !st.eraseOps.contains o) ↔
      P ∈ g0.ops ∧ P ∉ st.eraseOps := fun P => mem_filter_not_contains _ _ P
  have hV : EdgesValidG st.g (fun P => P ∈ g0.ops.filter fun o => !st.eraseOps.contains o)
      (fun _ => False) := hI.valid.congr_sets hl (fun _ => Iff.rfl)
  have hN : NoCycleOn st.g (g0.ops.filter fun o => !st.eraseOps.contains o) :=
    NoCycleOn.of_reduced (hI.reduced.congr_live hl) hac
  refine C.fuse st.g _ op inputIdx tin pred orig (hnd.filter _) hV hN hJ
    ((hl op).2 ⟨hop, hne⟩) ((hl pred).2 f1) hty hidx
    ⟨h1, h2, List.not_mem_nil _, h4, h5, h6, h7⟩ ?_
  refine f3.congr_sets (fun P => ?_) (fun _ => Iff.rfl)
  rw [List.mem_filter, hl]
  simp

/-- The scan of rule 2 carries the property. -/
theorem fusePass_carry {J : GraphObj → List Nat → Prop} (C : Carried J) (g0 : GraphObj)
    (hnd : g0.ops.Nodup) (hac : Acyclic g0) :
    ∀ (l : List Nat) (st : FuseState), (∀ op ∈ l, op ∈ g0.ops) → FuseInv g0 st →
      J st.g (g0.ops.filter fun o => !st.eraseOps.contains o) →
      J (fusePass l st).g (g0.ops.filter fun o => !(fusePass l st).eraseOps.contains o) := by
  intro l
  induction l with
  | nil =>
    intro st _ _ hJ
    exact hJ
  | cons op rest ih =>
    intro st hl hI hJ
    have hrest : ∀ o ∈ rest, o ∈ g0.ops := fun o ho => hl o (List.mem_cons_of_mem _ ho)
    simp only [fusePass]
    by_cases he : st.eraseOps.contains op = true
    · rw [if_pos he]
      exact ih st hrest hI hJ
    rw [if_neg he]
    by_cases ht : ((st.g.opAt op).type != OpType.MatMul) = true
    · rw [if_pos ht]
      exact ih st hrest hI hJ
    rw [if_neg ht]
    have hty : (st.g.opAt op).type = OpType.MatMul := by simpa using ht
    have hne : op ∉ st.eraseOps := by simpa using he
    have hop := hl op (List.mem_cons_self _ _)
    obtain ⟨a1, a2⟩ := fuseStep_inv g0 st op 0 hI hop hne hty
    have hty1 : ((fuseStep op 0 st).g.opAt op).type = OpType.MatMul := by
      rw [(a1.reduced.frame op).1, ← (hI.reduced.frame op).1]
      exact hty
    have hne1 : op ∉ (fuseStep op 0 st).eraseOps := by
      intro hmem
      have hlive := a1.erased op hmem
      -- an erased operator is a Transpose
      rcases a2 with ⟨e, _⟩ | ⟨_, pred, e⟩
      · rw [e] at hmem
        exact hne hmem
      · rw [e] at hmem
        rcases List.mem_cons.1 hmem with hp | hp
        · by_cases hc : ∃ tin pred orig, FuseCond st.g st.eraseOps op 0 tin pred orig
          · obtain ⟨tin, p2, orig, hcond⟩ := hc
            have hfs := fuseStep_of_cond op 0 st tin p2 orig hcond
            obtain ⟨f1, f2, _⟩ := fuseFire_spec st.g
              (fun P => P ∈ g0.ops ∧ P ∉ st.eraseOps) hI.valid op 0 tin p2 orig ⟨hop, hne⟩
              (by
                intro e2
                have := hcond.2.2.2.1
                rw [← e2, hty] at this
                cases this)
              (mem_of_get?_eq_some hcond.1) hcond.2.1
              (mem_of_get?_eq_some hcond.2.2.2.2.2.2) hcond.2.2.2.2.1
            rw [if_pos f2] at hfs
            rw [hfs] at e
            simp only [List.cons.injEq, and_true] at e
            have := hcond.2.2.2.1
            rw [e, ← hp, hty] at this
            cases this
          · rw [fuseStep_of_not_cond op 0 st hc] at e
            have := congrArg List.length e
            simp at this
        · exact hne hp
    obtain ⟨b1, _⟩ := fuseStep_inv g0 (fuseStep op 0 st) op 1 a1 hop hne1 hty1
    have j1 := fuseStep_carry C g0 st op 0 hnd hac hI hJ hop hne hty (by omega)
    have j2 := fuseStep_carry C g0 (fuseStep op 0 st) op 1 hnd hac a1 j1 hop hne1 hty1 (by omega)
    exact ih _ hrest b1 j2

theorem split_at_get? :
    ∀ (l : List Nat) (idx a : Nat), l.get? idx = some a →
      ∃ pre post, l = pre ++ a :: post ∧
        ∀ o ∈ pre, ∃ i, i < idx ∧ l.get? i = some o := by
  intro l
  induction l with
  | nil =>
    intro idx a h
    cases h
  | cons b rest ih =>
    intro idx a h
    cases idx with
    | zero =>
      simp only [List.get?_cons_zero, Option.some.injEq] at h
      subst h
      exact ⟨[], rest, rfl, fun o ho => (by cases ho)⟩
    | succ n =>
      simp only [List.get?_cons_succ] at h
      obtain ⟨pre, post, e, hp⟩ := ih n a h
      refine ⟨b :: pre, post, by rw [e]; rfl, ?_⟩
      intro o ho
      rcases List.mem_cons.1 ho with h1 | h1
      · exact ⟨0, Nat.succ_pos _, by rw [h1]; rfl⟩
      · obtain ⟨i, hi, hg⟩ := hp o h1
        exact ⟨i + 1, Nat.succ_lt_succ hi, by simpa using hg⟩

/-- The loop of rule 1 carries the property. -/
theorem removePairs_carry {J : GraphObj → List Nat → Prop} (C : Carried J) (g0 : GraphObj)
    (hac : Acyclic g0) :
    ∀ (fuel : Nat) (g : GraphObj) (idx : Nat) (changed : Bool) (g1 : GraphObj) (c : Bool),
      Kept g0 g → J g g.ops →
      (∀ i o, i < idx → g.ops.get? i = some o → ¬ ∃ y op2 z x, PairCond g o y op2 z x) →
      removePairs fuel g idx changed = .done (g1, c) → J g1 g1.ops := by
  intro fuel
  induction fuel with
  | zero =>
    intro g idx changed g1 c _ _ _ h
    simp only [removePairs] at h
    cases h
  | succ fuel ih =>
    intro g idx changed g1 c hk hJ hscan h
    simp only [removePairs] at h
    cases hget : g.ops.get? idx with
    | none =>
      rw [hget] at h
      simp only [Outcome.done.injEq, Prod.mk.injEq] at h
      rw [← h.1]
      exact hJ
    | some op1 =>
      rw [hget] at h
      simp only at h
      have hop1 : op1 ∈ g.ops := mem_of_get?_eq_some hget
      have hkg : Kept g g := Kept.kept_refl g hk.valid hk.ops_nodup
      rcases inversePairAt_cases g op1 with ⟨e, hno⟩ | ⟨y, op2, z, x, hc, e⟩ | ⟨e, _⟩
      · rw [e] at h
        simp only at h
        refine ih g (idx + 1) changed g1 c hk hJ ?_ h
        intro i o hi hgi
        by_cases hii : i = idx
        · rw [hii, hget] at hgi
          simp only [Option.some.injEq] at hgi
          rw [← hgi]
          exact hno
        · exact hscan i o (by omega) hgi
      · rw [e] at h
        simp only at h
        obtain ⟨b1, _⟩ := removePair_kept g hkg op1 y op2 z x hop1 hc
        obtain ⟨pre, post, hsplit, hpre⟩ := split_at_get? g.ops idx op1 hget
        have hJ1 : J (removePair g op1 op2 z x) (removePair g op1 op2 z x).ops := by
          refine C.pair g pre post op1 y op2 z x hsplit hk.ops_nodup hk.valid
            (NoCycleOn.of_reduced hk.reduced hac) hJ ?_ hc b1.valid
          intro o ho
          obtain ⟨i, hi, hg⟩ := hpre o ho
          exact hscan i o hi hg
        exact ih _ 0 true g1 c (hk.kept_trans b1) hJ1 (fun i o hi _ => by omega) h
      · rw [e] at h
        cases h



theorem producersFirst_congr {g h : GraphObj} (l : List Nat) (h1 : h.tensorAt = g.tensorAt)
    (h2 : h.opAt = g.opAt) (hp : ProducersFirst h l) : ProducersFirst g l := by
  intro pre op post e t ht p hs
  rw [← h2] at ht
  rw [← h1] at hs
  exact hp pre op post e t ht p hs

/-- One pass of the loop of `optimize` carries the property. -/
theorem optimizePass_carry {J : GraphObj → List Nat → Prop} (C : Carried J) (g : GraphObj)
    (hv : GraphValid g) (hac : Acyclic g) (hJ : J g g.ops) (g1 : GraphObj) (c : Bool)
    (h : optimizePass g = .done (g1, c)) : J g1 g1.ops := by
  obtain ⟨st, hst⟩ : ∃ st, st = fusePass g.ops ⟨g, [], false⟩ := ⟨_, rfl⟩
  obtain ⟨ga, hga⟩ : ∃ ga : GraphObj, ga = if st.eraseOps.isEmpty then st.g
      else { st.g with ops := st.g.ops.filter fun o => !st.eraseOps.contains o } := ⟨_, rfl⟩
  obtain ⟨k1, _, _⟩ := fusePass_kept g hv st hst ga hga
  have hdef : optimizePass g =
      match removePairs ((ga.ops.length + 1) * (ga.ops.length + 1) + 1) ga 0 st.changed with
      | .assertFailed => .assertFailed
      | .outOfFuel => .outOfFuel
      | .done (g2, false) => .done (g2, false)
      | .done (g2, true) =>
        match ({ g2 with sorted := false } : GraphObj).topo_sort with
        | none => .outOfFuel
        | some (false, _) => .assertFailed
        | some (true, g3) => .done (g3.cleanup_dangling_tensors, true) := by
    rw [hga, hst]
    rfl
  rw [hdef] at h
  have hI0 : FuseInv g ⟨g, [], false⟩ := by
    refine ⟨hv.toG.congr_sets (fun P => by simp) (fun _ => Iff.rfl), rfl, rfl,
      (Reduced.reduced_refl g _).congr_live (fun P => by simp), fun e he => (by cases he), by simp,
      fun _ => rfl⟩
  have hJ0 : J g (g.ops.filter fun o => !([] : List Nat).contains o) := by
    rw [filter_not_contains_nil]
    exact hJ
  have hJst := fusePass_carry C g hv.ops_nodup hac g.ops _ (fun _ h => h) hI0 hJ0
  obtain ⟨hI, _⟩ := fusePass_inv g g.ops _ (fun _ h => h) hI0
  rw [← hst] at hJst hI
  have hJa : J ga ga.ops := by
    by_cases he : st.eraseOps.isEmpty = true
    · rw [if_pos he] at hga
      have he' : st.eraseOps = [] := List.isEmpty_iff.1 he
      rw [he', filter_not_contains_nil] at hJst
      rw [hga, hI.ops_eq]
      exact hJst
    · rw [if_neg he] at hga
      have hops : ga.ops = g.ops.filter fun o => !st.eraseOps.contains o := by
        rw [hga, ← hI.ops_eq]
      rw [hops]
      refine C.ext st.g ga _ ?_ ?_ hJst
      · rw [hga]
      · rw [hga]
  have haca : Acyclic ga := k1.reduced.acyclic hac
  cases hr : removePairs ((ga.ops.length + 1) * (ga.ops.length + 1) + 1) ga 0 st.changed with
  | outOfFuel =>
    rw [hr] at h
    cases h
  | assertFailed =>
    rw [hr] at h
    cases h
  | done res =>
    obtain ⟨g2, c2⟩ := res
    rw [hr] at h
    have hJ2 : J g2 g2.ops := removePairs_carry C ga haca _ ga 0 st.changed g2 c2
      (Kept.kept_refl ga k1.valid k1.ops_nodup) hJa (fun i o hi _ => by omega) hr
    have hfuel : ga.ops.length * (ga.ops.length + 1) + (ga.ops.length - 0) + 1
        ≤ (ga.ops.length + 1) * (ga.ops.length + 1) + 1 := by
      rw [Nat.succ_mul]
      omega
    obtain ⟨_, r2, _⟩ := removePairs_spec ga ga.ops.length _ ga 0 st.changed
      (Kept.kept_refl ga k1.valid k1.ops_nodup) (le_refl _) (Nat.zero_le _) hfuel
    obtain ⟨s1, _, _, _⟩ := r2 g2 c2 hr
    cases c2 with
    | false =>
      simp only [Outcome.done.injEq, Prod.mk.injEq] at h
      rw [← h.1]
      exact hJ2
    | true =>
      simp only at h
      cases hts : ({ g2 with sorted := false } : GraphObj).topo_sort with
      | none =>
        rw [hts] at h
        cases h
      | some r =>
        obtain ⟨b, g3⟩ := r
        rw [hts] at h
        cases b with
        | false => cases h
        | true =>
          simp only [Outcome.done.injEq, Prod.mk.injEq] at h
          rw [← h.1]
          obtain ⟨hperm, _, htat, hoat, _⟩ := GraphObj.topo_sort_true_shape _ g3 hts
          have hperm' : List.Perm g3.ops g2.ops := hperm
          have htat' : g3.tensorAt = g2.tensorAt := htat
          have hoat' : g3.opAt = g2.opAt := hoat
          have hac2 : Acyclic g2 := s1.reduced.acyclic haca
          obtain ⟨g4, h4, hpf⟩ := GraphObj.topo_sort_of_acyclic
            ({ g2 with sorted := false } : GraphObj) (fun h => by cases h) s1.ops_nodup
            (fun op hop t ht p hp => s1.valid.producers_live op hop t ht p hp) hac2
          rw [hts] at h4
          simp only [Option.some.injEq, Prod.mk.injEq, true_and] at h4
          rw [← h4] at hpf
          have hJ3 : J g2 g3.ops := C.sort g2 g2.ops g3.ops s1.ops_nodup s1.valid hJ2 hperm'
            (producersFirst_congr g3.ops htat' hoat' hpf)
          exact C.ext g2 g3.cleanup_dangling_tensors g3.ops htat' hoat' hJ3

/-- The loop of `optimize` carries the property. -/
theorem optimizeLoop_carry {J : GraphObj → List Nat → Prop} (C : Carried J) :
    ∀ (fuel : Nat) (g g1 : GraphObj), GraphValid g → Acyclic g → J g g.ops →
      optimizeLoop fuel g = .done g1 → J g1 g1.ops := by
  intro fuel
  induction fuel with
  | zero =>
    intro g g1 _ _ _ h
    simp only [optimizeLoop] at h
    cases h
  | succ fuel ih =>
    intro g g1 hv hac hJ h
    rw [optimizeLoop_succ] at h
    obtain ⟨_, p2, _⟩ := optimizePass_spec g hv
    cases hp : optimizePass g with
    | outOfFuel =>
      rw [hp] at h
      cases h
    | assertFailed =>
      rw [hp] at h
      cases h
    | done res =>
      obtain ⟨g2, c⟩ := res
      rw [hp] at h
      obtain ⟨q1, q2, _, _⟩ := p2 g2 c hp
      have hJ2 := optimizePass_carry C g hv hac hJ g2 c hp
      cases c with
      | false =>
        simp only [Outcome.done.injEq] at h
        rw [← h]
        exact hJ2
      | true =>
        simp only at h
        exact ih g2 g1 q1 (q2.reduced.acyclic hac) hJ2 h

/-- The function `optimize` carries the property from the graph after the
first `topo_sort` to the graph it returns. -/
theorem optimize_carry {J : GraphObj → List Nat → Prop} (C : Carried J) (g g1 : GraphObj)
    (hv : GraphValid g) (hac : Acyclic g)
    (hJ : ∀ g2, g.topo_sort = some (true, g2) → J g2 g2.ops)
    (h : g.optimize = .done g1) : J g1 g1.ops := by
  unfold GraphObj.optimize at h
  cases hts : g.topo_sort with
  | none =>
    rw [hts] at h
    cases h
  | some r =>
    obtain ⟨b, g2⟩ := r
    rw [hts] at h
    cases b with
    | false => cases h
    | true =>
      simp only at h
      obtain ⟨v2, k2⟩ := topo_sorted_valid g g2 hv hts
      exact optimizeLoop_carry C _ g2 g1 v2 (k2.reduced.acyclic hac) (hJ g2 hts) h

/-- The first `topo_sort` of `optimize` on a cycle-free graph whose cached flag
is honest returns the objects of the graph with the operators in an order that
puts producers first. -/
theorem topo_sort_first (g g2 : GraphObj) (hv : GraphValid g) (hac : Acyclic g)
    (hcache : g.sorted = true → ProducersFirst g g.ops)
    (hts : g.topo_sort = some (true, g2)) :
    List.Perm g2.ops g.ops ∧ g2.tensorAt = g.tensorAt ∧ g2.opAt = g.opAt ∧
      ProducersFirst g g2.ops := by
  obtain ⟨hperm, _, htat, hoat, _⟩ := GraphObj.topo_sort_true_shape g g2 hts
  obtain ⟨g4, h4, hpf⟩ := GraphObj.topo_sort_of_acyclic g hcache hv.ops_nodup
    (fun op hop t ht p hp => hv.toG.producers_live op hop t ht p hp) hac
  rw [hts] at h4
  simp only [Option.some.injEq, Prod.mk.injEq, true_and] at h4
  rw [← h4] at hpf
  exact ⟨hperm, htat, hoat, producersFirst_congr g2.ops htat hoat hpf⟩



/-! ### A Transpose fused into a Matmul -/

/-- The state `FusionTrack` is carried through `optimize`: rule 2 can fire
once, at the position `i` of the Matmul, and rule 1 never fires. -/
theorem fusionTrack_carried (T M x y i : Nat) (in0 out0 : List Nat) (tA tB : Bool)
    (hin : in0.get? i = some y) (honly : ∀ j, in0.get? j = some y → j = i) :
    Carried (FusionTrack T M x y i in0 out0 tA tB) := by
  refine ⟨?_, ?_, ?_, ?_⟩
  · -- the property reads the objects only
    intro g h l e1 e2 hJ
    unfold FusionTrack at hJ ⊢
    rw [e1, e2]
    exact hJ
  · -- rule 2
    intro g l op inputIdx tin pred orig hnd V _ hJ hop hpred hty hidx hc _
    obtain ⟨j1, j2, j3, j4, j5, j6, j7⟩ := hJ
    obtain ⟨c1, c2, _, c4, c5, c6, c7⟩ := hc
    have hTM : T ≠ M := by
      intro e
      rw [e, j3] at j4
      cases j4
    have hopM : op = M := by
      rcases j1 op hop with e | e
      · rw [e, j4] at hty
        cases hty
      · exact e
    have hpT : pred = T := by
      rcases j1 pred hpred with e | e
      · exact e
      · rw [e, j3] at c4
        cases c4
    subst hopM
    subst hpT
    rcases j7 with ⟨b1, b2, b3, b4, b5, b6, b7⟩ | ⟨b1, _⟩
    swap
    · exact absurd hpred b1
    have htin : tin = y := by
      have h1 := V.in_mem op hop tin (mem_of_get?_eq_some c1)
      have h2 := ((V.src tin h1 pred (fun hf => hf)).1 c2).2
      rw [j6] at h2
      simpa using h2
    subst htin
    have hidx2 : inputIdx = i := honly inputIdx (b2 ▸ c1)
    subst hidx2
    have horig : orig = x := by
      rw [b5] at c7
      simpa using c7.symm
    subst horig
    obtain ⟨_, _, e3, _⟩ := fuseFire_exact g op inputIdx tin pred orig
    obtain ⟨o1, o2, _, o4, o5, o6⟩ := e3 op
    obtain ⟨p1, p2, _, _, _, _⟩ := e3 pred
    refine ⟨?_, ?_, o2.trans j3, p2.trans j4, o1.trans j5, p1.trans j6, Or.inr ⟨?_, ?_, ?_, ?_⟩⟩
    · intro o ho
      exact j1 o (List.mem_filter.1 ho).1
    · exact List.mem_filter.2 ⟨hop, by simpa using Ne.symm hTM⟩
    · intro hmem
      have := (List.mem_filter.1 hmem).2
      simp at this
    · rw [o4, if_pos rfl, b2]
    · rw [o5, b3]
      by_cases h0 : inputIdx = 0
      · simp [h0]
      · simp [h0]
    · rw [o6, b4]
      by_cases h0 : inputIdx = 0
      · simp [h0]
      · simp [h0]
  · -- rule 1
    intro g pre post op1 y1 op2 z1 x1 hsplit _ V _ hJ _ hc _
    exfalso
    obtain ⟨j1, j2, j3, j4, j5, j6, j7⟩ := hJ
    obtain ⟨c1, c2, c3, c4, c5, _⟩ := hc
    have hop1 : op1 ∈ g.ops := by
      rw [hsplit]
      simp
    have h1T : op1 = T := by
      rcases j1 op1 hop1 with e | e
      · exact e
      · rw [e, j3] at c1
        cases c1
    subst h1T
    rcases j7 with ⟨b1, b2, b3, b4, b5, b6, b7⟩ | ⟨b1, _⟩
    swap
    · exact b1 hop1
    rw [j6] at c2
    simp only [List.get?_cons_zero, Option.some.injEq] at c2
    subst c2
    rw [b6] at c4
    simp only [List.get?_cons_zero, Option.some.injEq] at c4
    subst c4
    rw [j3] at c5
    cases c5
  · -- the order of the operators plays no role
    intro g l l1 _ _ hJ hperm _
    obtain ⟨j1, j2, j3, j4, j5, j6, j7⟩ := hJ
    refine ⟨fun o ho => j1 o (hperm.mem_iff.1 ho), hperm.mem_iff.2 j2, j3, j4, j5, j6, ?_⟩
    rcases j7 with ⟨b1, b⟩ | ⟨b1, b⟩
    · exact Or.inl ⟨hperm.mem_iff.2 b1, b⟩
    · exact Or.inr ⟨fun h => b1 (hperm.mem_iff.1 h), b⟩



theorem eq_singleton_of_nodup (l : List Nat) (a : Nat) (hnd : l.Nodup) (ha : a ∈ l)
    (hall : ∀ o ∈ l, o = a) : l = [a] := by
  match l, hnd, ha, hall with
  | [], _, ha, _ => cases ha
  | [b], _, _, hall =>
    rw [hall b (List.mem_cons_self _ _)]
  | b :: c :: rest, hnd, _, hall =>
    exfalso
    have h1 := hall b (List.mem_cons_self _ _)
    have h2 := hall c (List.mem_cons_of_mem _ (List.mem_cons_self _ _))
    rw [List.nodup_cons] at hnd
    apply hnd.1
    rw [h1, ← h2]
    exact List.mem_cons_self _ _

theorem SwapsLastTwo.in_range {perm : List Int} {r : Nat} (h : SwapsLastTwo perm r) :
    ∀ i : Nat, i < perm.length → 0 ≤ perm.getD i 0 ∧ perm.getD i 0 < perm.length := by
  obtain ⟨h1, h2, h3, h4, h5⟩ := h
  intro i hi
  rw [h2] at hi ⊢
  by_cases c1 : i < r - 2
  · rw [h3 i c1]
    omega
  · by_cases c2 : i = r - 2
    · rw [c2, h4]
      omega
    · have c3 : i = r - 1 := by omega
      rw [c3, h5]
      omega

theorem selfProductGraph_valid : GraphValid selfProductGraph :=
  GraphValid.of_bounded selfProductGraph (by decide) (by decide) (by decide) (by decide)
    (by decide) (by decide) (by decide) (by decide) (by decide) (by decide) (by decide)
    (by decide) (by decide) (by decide)

theorem selfProductGraph_acyclic : Acyclic selfProductGraph :=
  acyclic_of_topo_sort selfProductGraph { selfProductGraph with sorted := true } rfl (by decide)
    rfl

/-- Claim C7: let a valid graph without a cycle be made of a Transpose `T`,
from the tensor `x` to the tensor `y`, whose permutation is the identity on all
axes except the last two, which it swaps, and of a Matmul `M` that reads `y` at
the one input position `i`, `y` having `M` as its one target; the other input
of the Matmul is any other tensor, `x` itself included.  Then `optimize`
returns a graph whose only operator is the Matmul: the Transpose and the tensor
`y` are no longer in the graph, the Matmul reads `x` at the position `i` and
its other input as before, the flag of the position `i` (`transA` for 0,
`transB` for 1) is negated and the other flag is unchanged. -/
theorem optimize_fuses_transpose_into_matmul (g : GraphObj) (T M x y i : Nat)
    (hv : GraphValid g) (hac : Acyclic g) (hops : g.ops = [T, M] ∨ g.ops = [M, T])
    (hT : (g.opAt T).type = OpType.Transpose) (hTin : (g.opAt T).inputs = [x])
    (hTout : (g.opAt T).outputs = [y])
    (hswap : SwapsLastTwo (g.opAt T).transposePermute (g.tensorAt y).shape.length)
    (hM : (g.opAt M).type = OpType.MatMul) (hi : i < 2)
    (hMin : (g.opAt M).inputs.get? i = some y)
    (honly : ∀ j, (g.opAt M).inputs.get? j = some y → j = i)
    (htg : (g.tensorAt y).targets = [M]) :
    ∃ g1, g.optimize = .done g1 ∧ g1.ops = [M] ∧ T ∉ g1.ops ∧ y ∉ g1.tensors ∧
      (g1.opAt M).type = OpType.MatMul ∧
      (g1.opAt M).inputs = (g.opAt M).inputs.map (fun t => if t = y then x else t) ∧
      (g1.opAt M).inputs.get? i = some x ∧
      (∀ j, j ≠ i → (g1.opAt M).inputs.get? j = (g.opAt M).inputs.get? j) ∧
      (g1.opAt M).transA = (if i = 0 then !(g.opAt M).transA else (g.opAt M).transA) ∧
      (g1.opAt M).transB = (if i = 0 then (g.opAt M).transB else !(g.opAt M).transB) := by
  have hmem : ∀ o, o ∈ g.ops ↔ o = T ∨ o = M := by
    intro o
    rcases hops with e | e <;> rw [e] <;> simp [or_comm]
  have hTops : T ∈ g.ops := (hmem T).2 (Or.inl rfl)
  have hMops : M ∈ g.ops := (hmem M).2 (Or.inr rfl)
  have hTM : T ≠ M := by
    intro e
    rw [e, hM] at hT
    cases hT
  have hyT : y ∈ g.tensors := hv.out_mem T hTops y (by rw [hTout]; simp)
  have hsy : (g.tensorAt y).source = some T :=
    (hv.src_iff y hyT T).2 ⟨hTops, by rw [hTout]; simp⟩
  have hxy : x ≠ y := by
    intro e
    apply hac T
    exact Relation.TransGen.single ⟨hTops, hTops, x, by rw [hTin]; simp, e ▸ hsy⟩
  have hpr : PermsInRange g := by
    intro o ho hty
    rcases (hmem o).1 ho with e | e
    · rw [e]
      exact hswap.in_range
    · rw [e, hM] at hty
      cases hty
  obtain ⟨_, s2, s3⟩ := optimize_spec g hv
  obtain ⟨g1, hrun⟩ := s3 hac hpr
  obtain ⟨v1, k1, nf, _⟩ := s2 g1 hrun
  have C := fusionTrack_carried T M x y i (g.opAt M).inputs (g.opAt M).outputs
    (g.opAt M).transA (g.opAt M).transB hMin honly
  have hJ := optimize_carry C g g1 hv hac (fun g2 hts => by
    obtain ⟨hperm, _, htat, hoat, _⟩ := GraphObj.topo_sort_true_shape g g2 hts
    unfold FusionTrack
    rw [htat, hoat]
    refine ⟨fun o ho => (hmem o).1 (hperm.mem_iff.1 ho), hperm.mem_iff.2 hMops, hM, hT, rfl,
      hTout, Or.inl ⟨hperm.mem_iff.2 hTops, rfl, rfl, rfl, hTin, htg,
        (is_swap_last_two_iff _ _).2 hswap⟩⟩) hrun
  obtain ⟨j1, j2, j3, j4, j5, j6, j7⟩ := hJ
  refine ⟨g1, hrun, ?_⟩
  rcases j7 with ⟨b1, b2, b3, b4, b5, b6, b7⟩ | ⟨b1, b2, b3, b4⟩
  · -- the tests of rule 2 would pass in the graph returned
    exfalso
    have hy1 : y ∈ g1.tensors := v1.out_mem T b1 y (by rw [j6]; simp)
    have hs1 : (g1.tensorAt y).source = some T :=
      (v1.src_iff y hy1 T).2 ⟨b1, by rw [j6]; simp⟩
    refine nf M j2 j3 i hi ⟨y, T, x, ?_, hs1, List.not_mem_nil _, j4, ?_, b7, ?_⟩
    · rw [b2]
      exact hMin
    · rw [b6]
      rfl
    · rw [b5]
      rfl
  · have hall : ∀ o ∈ g1.ops, o = M := by
      intro o ho
      rcases j1 o ho with e | e
      · exact absurd (e ▸ ho) b1
      · exact e
    have hnoy : y ∉ (g1.opAt M).inputs := by
      rw [b2]
      intro hc
      obtain ⟨a, _, ha⟩ := List.mem_map.1 hc
      by_cases e : a = y
      · rw [if_pos e] at ha
        exact hxy ha
      · rw [if_neg e] at ha
        exact e ha
    refine ⟨eq_singleton_of_nodup _ _ v1.ops_nodup j2 hall, b1, ?_, j3, b2, ?_, ?_, b3, b4⟩
    · intro hy1
      apply v1.no_dangling y hy1
      constructor
      · cases htl : (g1.tensorAt y).targets with
        | nil => rfl
        | cons Q rest =>
          exfalso
          have hQ : Q ∈ (g1.tensorAt y).targets := by rw [htl]; simp
          obtain ⟨q1, q2⟩ := (v1.tgt_iff y hy1 Q).1 hQ
          rw [hall Q q1] at q2
          exact hnoy q2
      · cases hso : (g1.tensorAt y).source with
        | none => rfl
        | some P =>
          exfalso
          obtain ⟨q1, q2⟩ := (v1.src_iff y hy1 P).1 hso
          rw [hall P q1, j5] at q2
          have := (hv.src_iff y hyT M).2 ⟨hMops, q2⟩
          rw [hsy] at this
          simp only [Option.some.injEq] at this
          exact hTM this
    · rw [b2, List.get?_map, hMin]
      simp
    · intro j hj
      rw [b2, List.get?_map]
      cases hg : (g.opAt M).inputs.get? j with
      | none => rfl
      | some a =>
        have hay : a ≠ y := by
          intro e
          rw [e] at hg
          exact hj (honly j hg)
        simp [hay]

/-- Witness of `optimize_fuses_transpose_into_matmul`: the Matmul of the
transposed tensor with the tensor itself. -/
theorem optimize_fuses_transpose_into_matmul_witness :
    ∃ g1, selfProductGraph.optimize = .done g1 ∧ g1.ops = [1] ∧ 0 ∉ g1.ops ∧
      1 ∉ g1.tensors ∧ (g1.opAt 1).type = OpType.MatMul ∧
      (g1.opAt 1).inputs
        = (selfProductGraph.opAt 1).inputs.map (fun t => if t = 1 then 0 else t) ∧
      (g1.opAt 1).inputs.get? 0 = some 0 ∧
      (∀ j, j ≠ 0 → (g1.opAt 1).inputs.get? j = (selfProductGraph.opAt 1).inputs.get? j) ∧
      (g1.opAt 1).transA = (if 0 = 0 then !(selfProductGraph.opAt 1).transA
        else (selfProductGraph.opAt 1).transA) ∧
      (g1.opAt 1).transB = (if 0 = 0 then (selfProductGraph.opAt 1).transB
        else !(selfProductGraph.opAt 1).transB) :=
  optimize_fuses_transpose_into_matmul selfProductGraph 0 1 0 1 0 selfProductGraph_valid
    selfProductGraph_acyclic (Or.inl rfl) rfl rfl rfl
    ((is_swap_last_two_iff _ _).1 (by decide)) rfl (by decide) rfl
    (fun j hj => by
      match j, hj with
      | 0, _ => rfl
      | 1, hj => cases hj
      | j + 2, hj => cases hj) rfl



/-! ### A chain of two inverse Transposes -/

theorem singleton_of_length_get? {l : List Nat} {a : Nat} (hl : l.length = 1)
    (ha : l.get? 0 = some a) : l = [a] := by
  match l, hl, ha with
  | [b], _, ha =>
    simp only [List.get?_cons_zero, Option.some.injEq] at ha
    rw [ha]

theorem before_filter (p : Nat → Bool) {l : List Nat} {a b : Nat}
    (h : ∃ pre post, l = pre ++ a :: post ∧ b ∈ post) (ha : p a = true) (hb : p b = true) :
    ∃ pre post, l.filter p = pre ++ a :: post ∧ b ∈ post := by
  obtain ⟨pre, post, e, hm⟩ := h
  refine ⟨pre.filter p, post.filter p, ?_, List.mem_filter.2 ⟨hm, hb⟩⟩
  rw [e, List.filter_append, List.filter_cons_of_pos ha]

theorem before_unique :
    ∀ (pre : List Nat) (l post pre1 post1 : List Nat) (a b : Nat), l.Nodup →
      l = pre ++ a :: post → b ∈ post → l = pre1 ++ b :: post1 → a ∈ pre1 := by
  intro pre
  induction pre with
  | nil =>
    intro l post pre1 post1 a b hnd e hb e1
    rw [e] at hnd e1
    cases pre1 with
    | nil =>
      simp only [List.nil_append, List.cons.injEq] at e1
      rw [List.nil_append, List.nodup_cons] at hnd
      exact absurd (e1.1 ▸ hb) hnd.1
    | cons c pre2 =>
      simp only [List.nil_append, List.cons_append, List.cons.injEq] at e1
      rw [e1.1]
      exact List.mem_cons_self _ _
  | cons d pre0 ih =>
    intro l post pre1 post1 a b hnd e hb e1
    rw [e] at hnd e1
    cases pre1 with
    | nil =>
      simp only [List.nil_append, List.cons_append, List.cons.injEq] at e1
      rw [List.cons_append, List.nodup_cons] at hnd
      exfalso
      apply hnd.1
      rw [e1.1]
      simp [hb]
    | cons c pre2 =>
      simp only [List.cons_append, List.cons.injEq] at e1
      rw [List.cons_append, List.nodup_cons] at hnd
      exact List.mem_cons_of_mem _ (ih _ post pre2 post1 a b hnd.2 rfl hb e1.2)

theorem get?_map_replace (l : List Nat) (z x i a : Nat) (h : l.get? i = some a) :
    (l.map (fun t => if t = z then x else t)).get? i = some (if a = z then x else a) := by
  rw [List.get?_map, h]
  rfl

/-- A firing of rule 2 keeps what the states of the chain have in common. -/
theorem ChainBase.base_fuse {g0 : GraphObj} {x : Nat} {g : GraphObj} {l : List Nat}
    (B : ChainBase g0 x g l) (op inputIdx tin pred orig : Nat) :
    ChainBase g0 x (fuseFire g op inputIdx tin pred orig) (l.filter fun o => o ≠ pred) := by
  obtain ⟨_, _, e3, e4⟩ := fuseFire_exact g op inputIdx tin pred orig
  refine ⟨fun o => ?_, fun t => (e4 t).1.trans (B.shape t), fun o ho hty => ?_, fun P hP => ?_⟩
  · obtain ⟨a1, a2, a3, _⟩ := e3 o
    obtain ⟨b1, b2, b3⟩ := B.frame o
    exact ⟨a1.trans b1, a2.trans b2, a3.trans b3⟩
  · obtain ⟨a1, a2, _, a4, _⟩ := e3 o
    rw [a2] at hty
    obtain ⟨c1, c2⟩ := B.arity o (List.mem_filter.1 ho).1 hty
    rw [a1, a4]
    refine ⟨?_, c2⟩
    split_ifs
    · rw [List.length_map]
      exact c1
    · exact c1
  · rw [(e3 P).2.1]
    rcases (e4 x).2.1 with h | h
    · exact B.xsrc P (h ▸ hP)
    · rw [h] at hP
      cases hP

/-- The removal of a pair by rule 1 keeps what the states of the chain have in
common. -/
theorem ChainBase.base_pair {g0 : GraphObj} {x : Nat} {g : GraphObj}
    (B : ChainBase g0 x g g.ops) (op1 op2 z1 x1 : Nat) :
    ChainBase g0 x (removePair g op1 op2 z1 x1) (removePair g op1 op2 z1 x1).ops := by
  obtain ⟨e1, e2, e3, e4⟩ := removePair_exact g op1 op2 z1 x1
  refine ⟨fun o => ?_, fun t => (e4.2 t).trans (B.shape t), fun o ho hty => ?_, fun P hP => ?_⟩
  · obtain ⟨a1, a2, a3, _⟩ := e2 o
    obtain ⟨b1, b2, b3⟩ := B.frame o
    exact ⟨a1.trans b1, a2.trans b2, a3.trans b3⟩
  · obtain ⟨a1, a2, _, a4⟩ := e2 o
    rw [a2] at hty
    rw [e1] at ho
    obtain ⟨c1, c2⟩ := B.arity o (List.mem_filter.1 (List.mem_filter.1 ho).1).1 hty
    rw [a1, a4]
    refine ⟨?_, c2⟩
    split_ifs
    · rw [List.length_map]
      exact c1
    · exact c1
  · rw [(e2 P).2.1]
    rcases (e3 x).1 with h | h
    · exact B.xsrc P (h ▸ hP)
    · rw [h] at hP
      cases hP



/-- What the tests of rule 2 say in a graph with consistent edges. -/
theorem fuse_facts {g0 : GraphObj} {x : Nat} {g : GraphObj} {l : List Nat}
    {op inputIdx tin pred orig : Nat} (B : ChainBase g0 x g l)
    (V : EdgesValidG g (fun P => P ∈ l) (fun _ => False)) (hop : op ∈ l) (hpred : pred ∈ l)
    (hc : FuseCond g [] op inputIdx tin pred orig) :
    tin ∈ (g.opAt op).inputs ∧ tin ∈ g.tensors ∧ tin ∈ (g.opAt pred).outputs ∧
      (g.tensorAt tin).targets = [op] ∧ (g.opAt pred).inputs = [orig] ∧ orig ∈ g.tensors := by
  obtain ⟨c1, c2, _, c4, c5, _, c7⟩ := hc
  have h1 : tin ∈ (g.opAt op).inputs := mem_of_get?_eq_some c1
  have h2 : tin ∈ g.tensors := V.in_mem op hop tin h1
  have h3 := ((V.src tin h2 pred (fun hf => hf)).1 c2).2
  have h4 : op ∈ (g.tensorAt tin).targets := (V.tgt tin h2 op (fun hf => hf)).2 ⟨hop, h1⟩
  have h5 : (g.tensorAt tin).targets = [op] := by
    match hl : (g.tensorAt tin).targets, c5, h4 with
    | [b], _, h4 =>
      simp only [List.mem_singleton] at h4
      rw [h4]
  have h6 : (g.opAt pred).inputs = [orig] :=
    singleton_of_length_get? (B.arity pred hpred c4).1 c7
  exact ⟨h1, h2, h3, h5, h6, V.in_mem pred hpred orig (by rw [h6]; simp)⟩

/-- Rule 2 on the intact chain: a firing leaves the chain intact, or it fuses
`T2` into the Matmul that reads `z`. -/
theorem ChainIntact.intact_fuse {g0 : GraphObj} {T1 T2 x y z : Nat} {g : GraphObj} {l : List Nat}
    (S : ChainStatic g0 T1 T2 x y z) (B : ChainBase g0 x g l)
    (A : ChainIntact g0 T1 T2 x y z g l) (op inputIdx tin pred orig : Nat)
    (V : EdgesValidG g (fun P => P ∈ l) (fun _ => False)) (hop : op ∈ l) (hpred : pred ∈ l)
    (hty : (g.opAt op).type = OpType.MatMul) (hidx : inputIdx < 2)
    (hc : FuseCond g [] op inputIdx tin pred orig)
    (V1 : EdgesValidG (fuseFire g op inputIdx tin pred orig)
      (fun P => P ∈ l.filter fun o => o ≠ pred) (fun _ => False)) :
    ChainIntact g0 T1 T2 x y z (fuseFire g op inputIdx tin pred orig)
        (l.filter fun o => o ≠ pred) ∨
      ChainHalf g0 T1 T2 x y z (fuseFire g op inputIdx tin pred orig)
        (l.filter fun o => o ≠ pred) := by
  obtain ⟨a1, a2, a3, a4, a5, a6, a7, a8⟩ := A
  obtain ⟨f1, f2, f3, f4, f5, f6⟩ := fuse_facts B V hop hpred hc
  obtain ⟨c1, c2, _, c4, c5, c6, c7⟩ := hc
  obtain ⟨_, e2, e3, e4⟩ := fuseFire_exact g op inputIdx tin pred orig
  have ty1 : (g.opAt T1).type = OpType.Transpose := (B.frame T1).2.1.trans S.type1
  have ty2 : (g.opAt T2).type = OpType.Transpose := (B.frame T2).2.1.trans S.type2
  have o1 : (g.opAt T1).outputs = [y] := (B.frame T1).1.trans S.out1
  have o2 : (g.opAt T2).outputs = [z] := (B.frame T2).1.trans S.out2
  have hop1 : op ≠ T1 := fun e => by rw [e, ty1] at hty; cases hty
  have hop2 : op ≠ T2 := fun e => by rw [e, ty2] at hty; cases hty
  have hopp : op ≠ pred := fun e => by rw [e, c4] at hty; cases hty
  have hy : y ∈ g.tensors := V.out_mem T1 a1 y (by rw [o1]; simp)
  have hz : z ∈ g.tensors := V.out_mem T2 a2 z (by rw [o2]; simp)
  have sy : (g.tensorAt y).source = some T1 :=
    (V.src y hy T1 (fun hf => hf)).2 ⟨a1, by rw [o1]; simp⟩
  have sz : (g.tensorAt z).source = some T2 :=
    (V.src z hz T2 (fun hf => hf)).2 ⟨a2, by rw [o2]; simp⟩
  have hp1 : pred ≠ T1 := by
    intro e
    rw [e, o1] at f3
    simp only [List.mem_singleton] at f3
    rw [f3, a6] at f4
    simp only [List.cons.injEq, and_true] at f4
    exact hop2 f4.symm
  have in1 : ((fuseFire g op inputIdx tin pred orig).opAt T1).inputs = [x] := by
    rw [(e3 T1).2.2.2.1, if_neg (Ne.symm hop1)]
    exact a4
  have hmemf : ∀ Q, Q ∈ l.filter (fun o => o ≠ pred) ↔ Q ∈ l ∧ Q ≠ pred := by
    intro Q
    simp [List.mem_filter]
  by_cases hp2 : pred = T2
  · -- `T2` is fused into `op`
    right
    subst hp2
    have htin : tin = z := by
      rw [o2] at f3
      simpa using f3
    have horig : orig = y := by
      rw [a5] at f5
      simpa using f5.symm
    subst htin
    subst horig
    refine ⟨(hmemf T1).2 ⟨a1, S.ops_ne⟩, fun h => ((hmemf _).1 h).2 rfl, in1,
      ⟨op, inputIdx, (hmemf op).2 ⟨hop, hopp⟩, (e3 op).2.1.trans hty, hidx, ?_, ?_⟩, ?_, ?_, ?_⟩
    · rw [(e3 op).2.2.2.1, if_pos rfl, get?_map_replace _ _ _ _ _ c1, if_pos rfl]
    · rw [(e4 orig).2.2.2 rfl S.y_ne_z hopp (by rw [f5]; simp), a6]
      simp [Ne.symm hopp, hopp]
    · -- the permutation of `T1` swaps the last two axes as well
      rw [(B.frame pred).2.2, B.shape tin] at c6
      have hq := (is_swap_last_two_iff _ _).1 c6
      have hlen : (g0.tensorAt tin).shape.length = (g0.tensorAt orig).shape.length := by
        rw [← hq.2.1, S.inverse.2.1]
      rw [hlen] at c6
      exact S.inverse.swap_of_swap c6
    · intro Q hQ hzQ
      obtain ⟨q1, q2⟩ := (hmemf Q).1 hQ
      rw [(e3 Q).2.2.2.1] at hzQ
      by_cases hQo : Q = op
      · rw [if_pos hQo] at hzQ
        rcases (mem_map_replace _ _ _ _).1 hzQ with ⟨_, h⟩ | ⟨h, _⟩
        · exact h rfl
        · exact S.y_ne_z h.symm
      · rw [if_neg hQo] at hzQ
        have := (V.tgt tin f2 Q (fun hf => hf)).2 ⟨q1, hzQ⟩
        rw [f4] at this
        simp only [List.mem_singleton] at this
        exact hQo this
    · intro Q hQ i hi
      obtain ⟨q1, q2⟩ := (hmemf Q).1 hQ
      have h1 := a8 Q q1 i hi
      have h2 := (V.tgt tin f2 Q (fun hf => hf)).2 ⟨q1, mem_of_get?_eq_some h1⟩
      rw [f4] at h2
      simp only [List.mem_singleton] at h2
      subst h2
      rw [(e3 Q).2.2.2.1, if_pos rfl, get?_map_replace _ _ _ _ _ h1, if_pos rfl]
  · -- the chain is not touched
    left
    have hytin : y ≠ tin := by
      intro e
      rw [← e, sy] at c2
      simp only [Option.some.injEq] at c2
      exact hp1 c2.symm
    have hztin : z ≠ tin := by
      intro e
      rw [← e, sz] at c2
      simp only [Option.some.injEq] at c2
      exact hp2 c2.symm
    have hyorig : y ≠ orig := by
      intro e
      have := (V.tgt orig f6 pred (fun hf => hf)).2 ⟨hpred, by rw [f5]; simp⟩
      rw [← e, a6] at this
      simp only [List.mem_singleton] at this
      exact hp2 this
    refine ⟨(hmemf T1).2 ⟨a1, Ne.symm hp1⟩, (hmemf T2).2 ⟨a2, Ne.symm hp2⟩,
      before_filter _ a3 (by simpa using Ne.symm hp1) (by simpa using Ne.symm hp2), in1, ?_, ?_,
      ?_, ?_⟩
    · rw [(e3 T2).2.2.2.1, if_neg (Ne.symm hop2)]
      exact a5
    · rw [(e4 y).2.2.1 hytin hyorig (by rw [a6]; simpa using hp2), a6]
    · -- `z` keeps a consumer
      have hz1 : z ∈ (fuseFire g op inputIdx tin pred orig).tensors := by rw [e2]; exact hz
      obtain ⟨Q0, hQ0⟩ := List.exists_mem_of_ne_nil _ a7
      obtain ⟨q1, q2⟩ := (V.tgt z hz Q0 (fun hf => hf)).1 hQ0
      have key : ∃ Q, Q ∈ l.filter (fun o => o ≠ pred) ∧
          z ∈ ((fuseFire g op inputIdx tin pred orig).opAt Q).inputs := by
        by_cases hQp : Q0 = pred
        · rw [hQp, f5] at q2
          simp only [List.mem_singleton] at q2
          refine ⟨op, (hmemf op).2 ⟨hop, hopp⟩, ?_⟩
          rw [(e3 op).2.2.2.1, if_pos rfl]
          exact (mem_map_replace _ _ _ _).2 (Or.inr ⟨q2, f1⟩)
        · refine ⟨Q0, (hmemf Q0).2 ⟨q1, hQp⟩, ?_⟩
          rw [(e3 Q0).2.2.2.1]
          split_ifs
          · exact (mem_map_replace _ _ _ _).2 (Or.inl ⟨q2, hztin⟩)
          · exact q2
      obtain ⟨Q, k1, k2⟩ := key
      have := (V1.tgt z hz1 Q (fun hf => hf)).2 ⟨k1, k2⟩
      intro e
      rw [e] at this
      cases this
    · intro Q hQ i hi
      obtain ⟨q1, q2⟩ := (hmemf Q).1 hQ
      have h1 := a8 Q q1 i hi
      rw [(e3 Q).2.2.2.1]
      split_ifs
      · rw [get?_map_replace _ _ _ _ _ h1, if_neg hztin]
      · exact h1



/-- Rule 2 after `T2` has been fused: a firing leaves the state as it is, or
it fuses `T1` into the same Matmul. -/
theorem ChainHalf.half_fuse {g0 : GraphObj} {T1 T2 x y z : Nat} {g : GraphObj} {l : List Nat}
    (S : ChainStatic g0 T1 T2 x y z) (B : ChainBase g0 x g l)
    (H : ChainHalf g0 T1 T2 x y z g l) (op inputIdx tin pred orig : Nat)
    (V : EdgesValidG g (fun P => P ∈ l) (fun _ => False)) (hop : op ∈ l) (hpred : pred ∈ l)
    (hty : (g.opAt op).type = OpType.MatMul)
    (hc : FuseCond g [] op inputIdx tin pred orig) :
    ChainHalf g0 T1 T2 x y z (fuseFire g op inputIdx tin pred orig)
        (l.filter fun o => o ≠ pred) ∨
      ChainGone g0 T1 T2 x y z (fuseFire g op inputIdx tin pred orig)
        (l.filter fun o => o ≠ pred) := by
  obtain ⟨a1, a2, a3, ⟨M, i, m1, m2, m3, m4, m5⟩, a5, a6, a7⟩ := H
  obtain ⟨f1, f2, f3, f4, f5, f6⟩ := fuse_facts B V hop hpred hc
  obtain ⟨c1, c2, _, c4, c5, c6, c7⟩ := hc
  obtain ⟨_, e2, e3, e4⟩ := fuseFire_exact g op inputIdx tin pred orig
  have ty1 : (g.opAt T1).type = OpType.Transpose := (B.frame T1).2.1.trans S.type1
  have o1 : (g.opAt T1).outputs = [y] := (B.frame T1).1.trans S.out1
  have hop1 : op ≠ T1 := fun e => by rw [e, ty1] at hty; cases hty
  have hopp : op ≠ pred := fun e => by rw [e, c4] at hty; cases hty
  have hMp : M ≠ pred := fun e => by rw [e, c4] at m2; cases m2
  have hy : y ∈ g.tensors := V.out_mem T1 a1 y (by rw [o1]; simp)
  have sy : (g.tensorAt y).source = some T1 :=
    (V.src y hy T1 (fun hf => hf)).2 ⟨a1, by rw [o1]; simp⟩
  have hmemf : ∀ Q, Q ∈ l.filter (fun o => o ≠ pred) ↔ Q ∈ l ∧ Q ≠ pred := by
    intro Q
    simp [List.mem_filter]
  have hT2 : T2 ∉ l.filter (fun o => o ≠ pred) := fun h => a2 ((hmemf T2).1 h).1
  by_cases hp1 : pred = T1
  · -- `T1` is fused into the Matmul
    right
    subst hp1
    have htin : tin = y := by
      rw [o1] at f3
      simpa using f3
    subst htin
    have horig : orig = x := by
      rw [a3] at f5
      simpa using f5.symm
    subst horig
    have hopM : op = M := by
      have : op ∈ (g.tensorAt tin).targets := by rw [f4]; simp
      rw [m5] at this
      simpa using this
    subst hopM
    refine ⟨fun h => ((hmemf _).1 h).2 rfl, hT2, ?_, ?_⟩
    · intro Q hQ
      obtain ⟨q1, q2⟩ := (hmemf Q).1 hQ
      rw [(e3 Q).2.2.2.1]
      by_cases hQo : Q = op
      · rw [if_pos hQo]
        constructor
        · intro h
          rcases (mem_map_replace _ _ _ _).1 h with ⟨_, h⟩ | ⟨h, _⟩
          · exact h rfl
          · exact S.x_ne_y h.symm
        · intro h
          rcases (mem_map_replace _ _ _ _).1 h with ⟨h, _⟩ | ⟨h, _⟩
          · exact a6 Q q1 h
          · exact S.x_ne_z h.symm
      · rw [if_neg hQo]
        refine ⟨fun h => ?_, a6 Q q1⟩
        have := (V.tgt tin f2 Q (fun hf => hf)).2 ⟨q1, h⟩
        rw [f4] at this
        simp only [List.mem_singleton] at this
        exact hQo this
    · intro Q hQ j hj
      obtain ⟨q1, q2⟩ := (hmemf Q).1 hQ
      have h1 := a7 Q q1 j hj
      have h2 := (V.tgt tin f2 Q (fun hf => hf)).2 ⟨q1, mem_of_get?_eq_some h1⟩
      rw [f4] at h2
      simp only [List.mem_singleton] at h2
      subst h2
      rw [(e3 Q).2.2.2.1, if_pos rfl, get?_map_replace _ _ _ _ _ h1, if_pos rfl]
  · -- another Transpose is fused
    left
    have hytin : y ≠ tin := by
      intro e
      rw [← e, sy] at c2
      simp only [Option.some.injEq] at c2
      exact hp1 c2.symm
    have hyorig : y ≠ orig := by
      intro e
      have := (V.tgt orig f6 pred (fun hf => hf)).2 ⟨hpred, by rw [f5]; simp⟩
      rw [← e, m5] at this
      simp only [List.mem_singleton] at this
      exact hMp this.symm
    refine ⟨(hmemf T1).2 ⟨a1, Ne.symm hp1⟩, hT2, ?_,
      ⟨M, i, (hmemf M).2 ⟨m1, hMp⟩, (e3 M).2.1.trans m2, m3, ?_, ?_⟩, a5, ?_, ?_⟩
    · rw [(e3 T1).2.2.2.1, if_neg (Ne.symm hop1)]
      exact a3
    · rw [(e3 M).2.2.2.1]
      split_ifs
      · rw [get?_map_replace _ _ _ _ _ m4, if_neg hytin]
      · exact m4
    · rw [(e4 y).2.2.1 hytin hyorig (by rw [m5]; simpa using Ne.symm hMp), m5]
    · intro Q hQ hzQ
      obtain ⟨q1, q2⟩ := (hmemf Q).1 hQ
      rw [(e3 Q).2.2.2.1] at hzQ
      by_cases hQo : Q = op
      · rw [if_pos hQo] at hzQ
        rcases (mem_map_replace _ _ _ _).1 hzQ with ⟨h, _⟩ | ⟨h, _⟩
        · exact a6 Q q1 h
        · apply a6 pred hpred
          rw [f5, h]
          simp
      · rw [if_neg hQo] at hzQ
        exact a6 Q q1 hzQ
    · intro Q hQ j hj
      obtain ⟨q1, q2⟩ := (hmemf Q).1 hQ
      have h1 := a7 Q q1 j hj
      rw [(e3 Q).2.2.2.1]
      split_ifs
      · rw [get?_map_replace _ _ _ _ _ h1, if_neg hytin]
      · exact h1

/-- Rule 2 after both Transposes are gone. -/
theorem ChainGone.gone_fuse {g0 : GraphObj} {T1 T2 x y z : Nat} {g : GraphObj} {l : List Nat}
    (B : ChainBase g0 x g l)
    (G : ChainGone g0 T1 T2 x y z g l) (op inputIdx tin pred orig : Nat)
    (V : EdgesValidG g (fun P => P ∈ l) (fun _ => False)) (hop : op ∈ l) (hpred : pred ∈ l)
    (hc : FuseCond g [] op inputIdx tin pred orig) :
    ChainGone g0 T1 T2 x y z (fuseFire g op inputIdx tin pred orig)
      (l.filter fun o => o ≠ pred) := by
  obtain ⟨a1, a2, a3, a4⟩ := G
  obtain ⟨f1, f2, f3, f4, f5, f6⟩ := fuse_facts B V hop hpred hc
  obtain ⟨c1, c2, _, c4, c5, c6, c7⟩ := hc
  obtain ⟨_, e2, e3, e4⟩ := fuseFire_exact g op inputIdx tin pred orig
  have hmemf : ∀ Q, Q ∈ l.filter (fun o => o ≠ pred) ↔ Q ∈ l ∧ Q ≠ pred := by
    intro Q
    simp [List.mem_filter]
  have hxtin : x ≠ tin := by
    intro e
    rw [← e] at c2
    exact B.xsrc pred c2 c4
  refine ⟨fun h => a1 ((hmemf T1).1 h).1, fun h => a2 ((hmemf T2).1 h).1, ?_, ?_⟩
  · intro Q hQ
    obtain ⟨q1, q2⟩ := (hmemf Q).1 hQ
    rw [(e3 Q).2.2.2.1]
    by_cases hQo : Q = op
    · rw [if_pos hQo]
      constructor
      · intro h
        rcases (mem_map_replace _ _ _ _).1 h with ⟨h, _⟩ | ⟨h, _⟩
        · exact (a3 Q q1).1 h
        · apply (a3 pred hpred).1
          rw [f5, h]
          simp
      · intro h
        rcases (mem_map_replace _ _ _ _).1 h with ⟨h, _⟩ | ⟨h, _⟩
        · exact (a3 Q q1).2 h
        · apply (a3 pred hpred).2
          rw [f5, h]
          simp
    · rw [if_neg hQo]
      exact a3 Q q1
  · intro Q hQ j hj
    obtain ⟨q1, q2⟩ := (hmemf Q).1 hQ
    have h1 := a4 Q q1 j hj
    rw [(e3 Q).2.2.2.1]
    split_ifs
    · rw [get?_map_replace _ _ _ _ _ h1, if_neg hxtin]
    · exact h1



theorem singleton_of_length_mem {l : List Nat} {a : Nat} (hl : l.length = 1) (ha : a ∈ l) :
    l = [a] := by
  match l, hl, ha with
  | [b], _, ha =>
    simp only [List.mem_singleton] at ha
    rw [ha]

/-- What the tests of rule 1 say in a graph with consistent edges. -/
theorem pair_facts {g0 : GraphObj} {x : Nat} {g : GraphObj} {op1 y1 op2 z1 x1 : Nat}
    (B : ChainBase g0 x g g.ops) (V : EdgesValidG g (fun P => P ∈ g.ops) (fun _ => False))
    (hop1 : op1 ∈ g.ops) (hc : PairCond g op1 y1 op2 z1 x1) :
    (g.opAt op1).outputs = [y1] ∧ (g.opAt op1).inputs = [x1] ∧
      (g.tensorAt y1).targets = [op2] ∧ y1 ∈ g.tensors ∧ op2 ∈ g.ops ∧
      (g.opAt op2).inputs = [y1] ∧ (g.opAt op2).outputs = [z1] ∧ z1 ∈ g.tensors ∧
      (g.tensorAt z1).source = some op2 ∧ (g.tensorAt y1).source = some op1 ∧
      x1 ∈ g.tensors := by
  obtain ⟨c1, c2, c3, c4, c5, c6, _, c8, _⟩ := hc
  have h1 : (g.opAt op1).outputs = [y1] := singleton_of_length_get? (B.arity op1 hop1 c1).2 c2
  have h2 : (g.opAt op1).inputs = [x1] := singleton_of_length_get? (B.arity op1 hop1 c1).1 c8
  have h3 : (g.tensorAt y1).targets = [op2] := singleton_of_length_get? c3 c4
  have h4 : y1 ∈ g.tensors := V.out_mem op1 hop1 y1 (by rw [h1]; simp)
  obtain ⟨h5, h6⟩ := (V.tgt y1 h4 op2 (fun hf => hf)).1 (by rw [h3]; simp)
  have h7 : (g.opAt op2).inputs = [y1] := singleton_of_length_mem (B.arity op2 h5 c5).1 h6
  have h8 : (g.opAt op2).outputs = [z1] := singleton_of_length_get? (B.arity op2 h5 c5).2 c6
  have h9 : z1 ∈ g.tensors := V.out_mem op2 h5 z1 (by rw [h8]; simp)
  exact ⟨h1, h2, h3, h4, h5, h7, h8, h9,
    (V.src z1 h9 op2 (fun hf => hf)).2 ⟨h5, by rw [h8]; simp⟩,
    (V.src y1 h4 op1 (fun hf => hf)).2 ⟨hop1, by rw [h1]; simp⟩,
    V.in_mem op1 hop1 x1 (by rw [h2]; simp)⟩

theorem mem_filter_ne2 (l : List Nat) (a b Q : Nat) :
    Q ∈ (l.filter fun o => o ≠ a).filter (fun o => o ≠ b) ↔ Q ∈ l ∧ Q ≠ a ∧ Q ≠ b := by
  rw [List.mem_filter, List.mem_filter]
  simp only [ne_eq, decide_not, Bool.not_eq_true', decide_eq_false_iff_not, and_assoc]

/-- Rule 1 on the intact chain: the removal of a pair leaves the chain intact,
or the pair is the chain.  The Transpose `T2` is not the first of a pair,
because the scan reaches `T1` before it. -/
theorem ChainIntact.intact_pair {g0 : GraphObj} {T1 T2 x y z : Nat} {g : GraphObj}
    (S : ChainStatic g0 T1 T2 x y z) (B : ChainBase g0 x g g.ops)
    (A : ChainIntact g0 T1 T2 x y z g g.ops) (pre post : List Nat) (op1 y1 op2 z1 x1 : Nat)
    (hsplit : g.ops = pre ++ op1 :: post) (hnd : g.ops.Nodup)
    (V : EdgesValidG g (fun P => P ∈ g.ops) (fun _ => False))
    (hscan : ∀ o ∈ pre, ¬ ∃ y op2 z x, PairCond g o y op2 z x)
    (hc : PairCond g op1 y1 op2 z1 x1)
    (V1 : EdgesValidG (removePair g op1 op2 z1 x1)
      (fun P => P ∈ (removePair g op1 op2 z1 x1).ops) (fun _ => False)) :
    ChainIntact g0 T1 T2 x y z (removePair g op1 op2 z1 x1) (removePair g op1 op2 z1 x1).ops ∨
      ChainGone g0 T1 T2 x y z (removePair g op1 op2 z1 x1)
        (removePair g op1 op2 z1 x1).ops := by
  obtain ⟨a1, a2, a3, a4, a5, a6, a7, a8⟩ := A
  have hop1 : op1 ∈ g.ops := by rw [hsplit]; simp
  obtain ⟨p1, p2, p3, p4, p5, p6, p7, p8, p9, p10, p11⟩ := pair_facts B V hop1 hc
  obtain ⟨c1, _, _, _, c5, _, c7, _, _⟩ := hc
  obtain ⟨e1, e2, e3, _⟩ := removePair_exact g op1 op2 z1 x1
  have ty1 : (g.opAt T1).type = OpType.Transpose := (B.frame T1).2.1.trans S.type1
  have ty2 : (g.opAt T2).type = OpType.Transpose := (B.frame T2).2.1.trans S.type2
  have o1 : (g.opAt T1).outputs = [y] := (B.frame T1).1.trans S.out1
  have o2 : (g.opAt T2).outputs = [z] := (B.frame T2).1.trans S.out2
  have hy : y ∈ g.tensors := V.out_mem T1 a1 y (by rw [o1]; simp)
  have hz : z ∈ g.tensors := V.out_mem T2 a2 z (by rw [o2]; simp)
  have sy : (g.tensorAt y).source = some T1 :=
    (V.src y hy T1 (fun hf => hf)).2 ⟨a1, by rw [o1]; simp⟩
  have sz : (g.tensorAt z).source = some T2 :=
    (V.src z hz T2 (fun hf => hf)).2 ⟨a2, by rw [o2]; simp⟩
  have hmemf : ∀ Q, Q ∈ (removePair g op1 op2 z1 x1).ops ↔ Q ∈ g.ops ∧ Q ≠ op1 ∧ Q ≠ op2 := by
    intro Q
    rw [e1]
    exact mem_filter_ne2 _ _ _ _
  by_cases h1 : op1 = T1
  · -- the pair is the chain
    right
    subst h1
    have hy1 : y1 = y := by
      rw [o1] at p1
      simpa using p1.symm
    subst hy1
    have h2 : op2 = T2 := by
      rw [a6] at p3
      simpa using p3.symm
    subst h2
    have hz1 : z1 = z := by
      rw [o2] at p7
      simpa using p7.symm
    subst hz1
    have hx1 : x1 = x := by
      rw [a4] at p2
      simpa using p2.symm
    subst hx1
    refine ⟨fun h => ((hmemf _).1 h).2.1 rfl, fun h => ((hmemf _).1 h).2.2 rfl, ?_, ?_⟩
    · intro Q hQ
      obtain ⟨q1, q2, q3⟩ := (hmemf Q).1 hQ
      have hny : y1 ∉ (g.opAt Q).inputs := by
        intro h
        have := (V.tgt y1 hy Q (fun hf => hf)).2 ⟨q1, h⟩
        rw [a6] at this
        simp only [List.mem_singleton] at this
        exact q3 this
      rw [(e2 Q).2.2.2]
      split_ifs with hQz
      · constructor
        · intro h
          rcases (mem_map_replace _ _ _ _).1 h with ⟨h, _⟩ | ⟨h, _⟩
          · exact hny h
          · exact S.x_ne_y h.symm
        · intro h
          rcases (mem_map_replace _ _ _ _).1 h with ⟨_, h⟩ | ⟨h, _⟩
          · exact h rfl
          · exact S.x_ne_z h.symm
      · refine ⟨hny, fun h => hQz ?_⟩
        exact (V.tgt z1 hz Q (fun hf => hf)).2 ⟨q1, h⟩
    · intro Q hQ i hi
      obtain ⟨q1, q2, q3⟩ := (hmemf Q).1 hQ
      have h1 := a8 Q q1 i hi
      have h2 := (V.tgt z1 hz Q (fun hf => hf)).2 ⟨q1, mem_of_get?_eq_some h1⟩
      rw [(e2 Q).2.2.2, if_pos h2, get?_map_replace _ _ _ _ _ h1, if_pos rfl]
  · by_cases h2 : op1 = T2
    · -- the scan has passed `T1`, where the tests of the rule pass
      exfalso
      subst h2
      obtain ⟨pre0, post0, hs0, hm0⟩ := a3
      have hT1 : T1 ∈ pre := before_unique pre0 g.ops post0 pre post T1 op1 hnd hs0 hm0 hsplit
      apply hscan T1 hT1
      refine ⟨y, op1, z, x, ty1, by rw [o1]; rfl, by rw [a6]; rfl, by rw [a6]; rfl, ty2,
        by rw [o2]; rfl, a7, by rw [a4]; rfl, ?_⟩
      rw [(B.frame T1).2.2, (B.frame op1).2.2, B.shape y]
      exact S.inverse.is_inverse_perm_true
    · -- another pair
      left
      have h3 : op2 ≠ T1 := by
        intro e
        rw [e, a4] at p6
        simp only [List.cons.injEq, and_true] at p6
        rw [← p6] at p10
        exact B.xsrc op1 p10 c1
      have h4 : op2 ≠ T2 := by
        intro e
        rw [e, a5] at p6
        simp only [List.cons.injEq, and_true] at p6
        rw [← p6, sy] at p10
        simp only [Option.some.injEq] at p10
        exact h1 p10.symm
      have hxz1 : x ≠ z1 := by
        intro e
        rw [← e] at p9
        exact B.xsrc op2 p9 c5
      have hyz1 : y ≠ z1 := by
        intro e
        rw [← e, sy] at p9
        simp only [Option.some.injEq] at p9
        exact h3 p9.symm
      have hzz1 : z ≠ z1 := by
        intro e
        rw [← e, sz] at p9
        simp only [Option.some.injEq] at p9
        exact h4 p9.symm
      have hyx1 : y ≠ x1 := by
        intro e
        have := (V.tgt x1 p11 op1 (fun hf => hf)).2 ⟨hop1, by rw [p2]; simp⟩
        rw [← e, a6] at this
        simp only [List.mem_singleton] at this
        exact h2 this
      have hT1 : T1 ∈ (removePair g op1 op2 z1 x1).ops :=
        (hmemf T1).2 ⟨a1, Ne.symm h1, Ne.symm h3⟩
      have hT2 : T2 ∈ (removePair g op1 op2 z1 x1).ops :=
        (hmemf T2).2 ⟨a2, Ne.symm h2, Ne.symm h4⟩
      refine ⟨hT1, hT2, ?_, ?_, ?_, ?_, ?_, ?_⟩
      · rw [e1]
        exact before_filter _ (before_filter _ a3 (by simpa using Ne.symm h1)
          (by simpa using Ne.symm h2)) (by simpa using Ne.symm h3) (by simpa using Ne.symm h4)
      · rw [(e2 T1).2.2.2, if_neg, a4]
        intro h
        have := ((V.tgt z1 p8 T1 (fun hf => hf)).1 h).2
        rw [a4] at this
        simp only [List.mem_singleton] at this
        exact hxz1 this.symm
      · rw [(e2 T2).2.2.2, if_neg, a5]
        intro h
        have := ((V.tgt z1 p8 T2 (fun hf => hf)).1 h).2
        rw [a5] at this
        simp only [List.mem_singleton] at this
        exact hyz1 this.symm
      · rw [(e3 y).2 hyz1 hyx1 (by rw [a6]; simpa using h2) (by rw [a6]; simpa using h4), a6]
      · -- `z` keeps a consumer
        have hz1 : z ∈ (removePair g op1 op2 z1 x1).tensors :=
          V1.out_mem T2 hT2 z (by rw [(e2 T2).1, o2]; simp)
        obtain ⟨Q0, hQ0⟩ := List.exists_mem_of_ne_nil _ a7
        obtain ⟨q1, q2⟩ := (V.tgt z hz Q0 (fun hf => hf)).1 hQ0
        have key : ∃ Q, Q ∈ (removePair g op1 op2 z1 x1).ops ∧
            z ∈ ((removePair g op1 op2 z1 x1).opAt Q).inputs := by
          by_cases hQ1 : Q0 = op1
          · -- `op1` reads `z`: the consumers of `z1` read `z` now
            rw [hQ1, p2] at q2
            simp only [List.mem_singleton] at q2
            obtain ⟨s, hs⟩ := List.exists_mem_of_ne_nil _ c7
            obtain ⟨s1, s2⟩ := (V.tgt z1 p8 s (fun hf => hf)).1 hs
            have hs1 : s ≠ op1 := by
              intro e
              rw [e, p2] at s2
              simp only [List.mem_singleton] at s2
              exact hzz1 (q2.trans s2.symm)
            have hs2 : s ≠ op2 := by
              intro e
              rw [e, p6] at s2
              simp only [List.mem_singleton] at s2
              rw [s2, p10] at p9
              simp only [Option.some.injEq] at p9
              rw [e] at hs1
              exact hs1 p9.symm
            refine ⟨s, (hmemf s).2 ⟨s1, hs1, hs2⟩, ?_⟩
            rw [(e2 s).2.2.2, if_pos hs]
            exact (mem_map_replace _ _ _ _).2 (Or.inr ⟨q2, s2⟩)
          · have hQ2 : Q0 ≠ op2 := by
              intro e
              rw [e, p6] at q2
              simp only [List.mem_singleton] at q2
              rw [← q2, sz] at p10
              simp only [Option.some.injEq] at p10
              exact h2 p10.symm
            refine ⟨Q0, (hmemf Q0).2 ⟨q1, hQ1, hQ2⟩, ?_⟩
            rw [(e2 Q0).2.2.2]
            split_ifs
            · exact (mem_map_replace _ _ _ _).2 (Or.inl ⟨q2, hzz1⟩)
            · exact q2
        obtain ⟨Q, k1, k2⟩ := key
        have := (V1.tgt z hz1 Q (fun hf => hf)).2 ⟨k1, k2⟩
        intro e
        rw [e] at this
        cases this
      · intro Q hQ i hi
        obtain ⟨q1, _, _⟩ := (hmemf Q).1 hQ
        have h1 := a8 Q q1 i hi
        rw [(e2 Q).2.2.2]
        split_ifs
        · rw [get?_map_replace _ _ _ _ _ h1, if_neg hzz1]
        · exact h1



/-- Rule 1 after `T2` has been fused: the removal of a pair leaves the state
as it is. -/
theorem ChainHalf.half_pair {g0 : GraphObj} {T1 T2 x y z : Nat} {g : GraphObj}
    (S : ChainStatic g0 T1 T2 x y z) (B : ChainBase g0 x g g.ops)
    (H : ChainHalf g0 T1 T2 x y z g g.ops) (op1 y1 op2 z1 x1 : Nat) (hop1 : op1 ∈ g.ops)
    (V : EdgesValidG g (fun P => P ∈ g.ops) (fun _ => False))
    (hc : PairCond g op1 y1 op2 z1 x1) :
    ChainHalf g0 T1 T2 x y z (removePair g op1 op2 z1 x1) (removePair g op1 op2 z1 x1).ops := by
  obtain ⟨a1, a2, a3, ⟨M, i, m1, m2, m3, m4, m5⟩, a5, a6, a7⟩ := H
  obtain ⟨p1, p2, p3, p4, p5, p6, p7, p8, p9, p10, p11⟩ := pair_facts B V hop1 hc
  obtain ⟨c1, _, _, _, c5, _, c7, _, _⟩ := hc
  obtain ⟨e1, e2, e3, _⟩ := removePair_exact g op1 op2 z1 x1
  have ty1 : (g.opAt T1).type = OpType.Transpose := (B.frame T1).2.1.trans S.type1
  have o1 : (g.opAt T1).outputs = [y] := (B.frame T1).1.trans S.out1
  have hy : y ∈ g.tensors := V.out_mem T1 a1 y (by rw [o1]; simp)
  have sy : (g.tensorAt y).source = some T1 :=
    (V.src y hy T1 (fun hf => hf)).2 ⟨a1, by rw [o1]; simp⟩
  have hmemf : ∀ Q, Q ∈ (removePair g op1 op2 z1 x1).ops ↔ Q ∈ g.ops ∧ Q ≠ op1 ∧ Q ≠ op2 := by
    intro Q
    rw [e1]
    exact mem_filter_ne2 _ _ _ _
  have hM1 : M ≠ op1 := fun e => by rw [e, c1] at m2; cases m2
  have hM2 : M ≠ op2 := fun e => by rw [e, c5] at m2; cases m2
  have h1 : op1 ≠ T1 := by
    intro e
    rw [e, o1] at p1
    simp only [List.cons.injEq, and_true] at p1
    rw [← p1, m5] at p3
    simp only [List.cons.injEq, and_true] at p3
    exact hM2 p3
  have h3 : op2 ≠ T1 := by
    intro e
    rw [e, a3] at p6
    simp only [List.cons.injEq, and_true] at p6
    rw [← p6] at p10
    exact B.xsrc op1 p10 c1
  have hxz1 : x ≠ z1 := by
    intro e
    rw [← e] at p9
    exact B.xsrc op2 p9 c5
  have hyz1 : y ≠ z1 := by
    intro e
    rw [← e, sy] at p9
    simp only [Option.some.injEq] at p9
    exact h3 p9.symm
  have hyx1 : y ≠ x1 := by
    intro e
    have := (V.tgt x1 p11 op1 (fun hf => hf)).2 ⟨hop1, by rw [p2]; simp⟩
    rw [← e, m5] at this
    simp only [List.mem_singleton] at this
    exact hM1 this.symm
  refine ⟨(hmemf T1).2 ⟨a1, Ne.symm h1, Ne.symm h3⟩, fun h => a2 ((hmemf T2).1 h).1, ?_,
    ⟨M, i, (hmemf M).2 ⟨m1, hM1, hM2⟩, (e2 M).2.1.trans m2, m3, ?_, ?_⟩, a5, ?_, ?_⟩
  · rw [(e2 T1).2.2.2, if_neg, a3]
    intro h
    have := ((V.tgt z1 p8 T1 (fun hf => hf)).1 h).2
    rw [a3] at this
    simp only [List.mem_singleton] at this
    exact hxz1 this.symm
  · rw [(e2 M).2.2.2]
    split_ifs
    · rw [get?_map_replace _ _ _ _ _ m4, if_neg hyz1]
    · exact m4
  · rw [(e3 y).2 hyz1 hyx1 (by rw [m5]; simpa using Ne.symm hM1)
      (by rw [m5]; simpa using Ne.symm hM2), m5]
  · intro Q hQ hzQ
    obtain ⟨q1, _, _⟩ := (hmemf Q).1 hQ
    rw [(e2 Q).2.2.2] at hzQ
    split_ifs at hzQ
    · rcases (mem_map_replace _ _ _ _).1 hzQ with ⟨h, _⟩ | ⟨h, _⟩
      · exact a6 Q q1 h
      · apply a6 op1 hop1
        rw [p2, h]
        simp
    · exact a6 Q q1 hzQ
  · intro Q hQ j hj
    obtain ⟨q1, _, _⟩ := (hmemf Q).1 hQ
    have h1 := a7 Q q1 j hj
    rw [(e2 Q).2.2.2]
    split_ifs
    · rw [get?_map_replace _ _ _ _ _ h1, if_neg hyz1]
    · exact h1

/-- Rule 1 after both Transposes are gone. -/
theorem ChainGone.gone_pair {g0 : GraphObj} {T1 T2 x y z : Nat} {g : GraphObj}
    (B : ChainBase g0 x g g.ops)
    (G : ChainGone g0 T1 T2 x y z g g.ops) (op1 y1 op2 z1 x1 : Nat) (hop1 : op1 ∈ g.ops)
    (V : EdgesValidG g (fun P => P ∈ g.ops) (fun _ => False))
    (hc : PairCond g op1 y1 op2 z1 x1) :
    ChainGone g0 T1 T2 x y z (removePair g op1 op2 z1 x1) (removePair g op1 op2 z1 x1).ops := by
  obtain ⟨a1, a2, a3, a4⟩ := G
  obtain ⟨p1, p2, p3, p4, p5, p6, p7, p8, p9, p10, p11⟩ := pair_facts B V hop1 hc
  obtain ⟨c1, _, _, _, c5, _, c7, _, _⟩ := hc
  obtain ⟨e1, e2, e3, _⟩ := removePair_exact g op1 op2 z1 x1
  have hmemf : ∀ Q, Q ∈ (removePair g op1 op2 z1 x1).ops ↔ Q ∈ g.ops ∧ Q ≠ op1 ∧ Q ≠ op2 := by
    intro Q
    rw [e1]
    exact mem_filter_ne2 _ _ _ _
  have hxz1 : x ≠ z1 := by
    intro e
    rw [← e] at p9
    exact B.xsrc op2 p9 c5
  refine ⟨fun h => a1 ((hmemf T1).1 h).1, fun h => a2 ((hmemf T2).1 h).1, ?_, ?_⟩
  · intro Q hQ
    obtain ⟨q1, _, _⟩ := (hmemf Q).1 hQ
    rw [(e2 Q).2.2.2]
    split_ifs
    · constructor
      · intro h
        rcases (mem_map_replace _ _ _ _).1 h with ⟨h, _⟩ | ⟨h, _⟩
        · exact (a3 Q q1).1 h
        · apply (a3 op1 hop1).1
          rw [p2, h]
          simp
      · intro h
        rcases (mem_map_replace _ _ _ _).1 h with ⟨h, _⟩ | ⟨h, _⟩
        · exact (a3 Q q1).2 h
        · apply (a3 op1 hop1).2
          rw [p2, h]
          simp
    · exact a3 Q q1
  · intro Q hQ j hj
    obtain ⟨q1, _, _⟩ := (hmemf Q).1 hQ
    have h1 := a4 Q q1 j hj
    rw [(e2 Q).2.2.2]
    split_ifs
    · rw [get?_map_replace _ _ _ _ _ h1, if_neg hxz1]
    · exact h1

/-- The state of the chain is carried through `optimize`. -/
theorem chainTrack_carried (g0 : GraphObj) (T1 T2 x y z : Nat)
    (S : ChainStatic g0 T1 T2 x y z) : Carried (ChainTrack g0 T1 T2 x y z) := by
  refine ⟨?_, ?_, ?_, ?_⟩
  · intro g h l e1 e2 hJ
    obtain ⟨B, P⟩ := hJ
    refine ⟨⟨?_, ?_, ?_, ?_⟩, ?_⟩
    · rw [e2]; exact B.frame
    · rw [e1]; exact B.shape
    · rw [e2]; exact B.arity
    · rw [e1, e2]; exact B.xsrc
    · unfold ChainIntact ChainHalf ChainGone at P ⊢
      rw [e1, e2]
      exact P
  · intro g l op inputIdx tin pred orig _ V _ hJ hop hpred hty hidx hc V1
    obtain ⟨B, P⟩ := hJ
    refine ⟨B.base_fuse op inputIdx tin pred orig, ?_⟩
    rcases P with A | H | G
    · rcases A.intact_fuse S B op inputIdx tin pred orig V hop hpred hty hidx hc V1 with r | r
      · exact Or.inl r
      · exact Or.inr (Or.inl r)
    · rcases H.half_fuse S B op inputIdx tin pred orig V hop hpred hty hc with r | r
      · exact Or.inr (Or.inl r)
      · exact Or.inr (Or.inr r)
    · exact Or.inr (Or.inr (G.gone_fuse B op inputIdx tin pred orig V hop hpred hc))
  · intro g pre post op1 y1 op2 z1 x1 hsplit hnd V _ hJ hscan hc V1
    obtain ⟨B, P⟩ := hJ
    have hop1 : op1 ∈ g.ops := by rw [hsplit]; simp
    refine ⟨B.base_pair op1 op2 z1 x1, ?_⟩
    rcases P with A | H | G
    · rcases A.intact_pair S B pre post op1 y1 op2 z1 x1 hsplit hnd V hscan hc V1 with r | r
      · exact Or.inl r
      · exact Or.inr (Or.inr r)
    · exact Or.inr (Or.inl (H.half_pair S B op1 y1 op2 z1 x1 hop1 V hc))
    · exact Or.inr (Or.inr (G.gone_pair B op1 y1 op2 z1 x1 hop1 V hc))
  · intro g l l1 _ V hJ hperm hpf
    obtain ⟨B, P⟩ := hJ
    refine ⟨⟨B.frame, B.shape, fun o ho => B.arity o (hperm.mem_iff.1 ho), B.xsrc⟩, ?_⟩
    rcases P with A | H | G
    · left
      obtain ⟨a1, a2, _, a4, a5, a6, a7, a8⟩ := A
      refine ⟨hperm.mem_iff.2 a1, hperm.mem_iff.2 a2, ?_, a4, a5, a6, a7,
        fun Q hQ => a8 Q (hperm.mem_iff.1 hQ)⟩
      -- producers come first
      obtain ⟨pre, post, e⟩ := List.append_of_mem (hperm.mem_iff.2 a2)
      have o1 : (g.opAt T1).outputs = [y] := (B.frame T1).1.trans S.out1
      have hy : y ∈ g.tensors := V.out_mem T1 a1 y (by rw [o1]; simp)
      have sy : (g.tensorAt y).source = some T1 :=
        (V.src y hy T1 (fun hf => hf)).2 ⟨a1, by rw [o1]; simp⟩
      have h1 : T1 ∈ pre := hpf pre T2 post e y (by rw [a5]; simp) T1 sy
      obtain ⟨pre1, post1, e1⟩ := List.append_of_mem h1
      refine ⟨pre1, post1 ++ T2 :: post, ?_, by simp⟩
      rw [e, e1]
      simp
    · right; left
      obtain ⟨a1, a2, a3, ⟨M, i, m1, m⟩, a5, a6, a7⟩ := H
      exact ⟨hperm.mem_iff.2 a1, fun h => a2 (hperm.mem_iff.1 h), a3,
        ⟨M, i, hperm.mem_iff.2 m1, m⟩, a5, fun Q hQ => a6 Q (hperm.mem_iff.1 hQ),
        fun Q hQ => a7 Q (hperm.mem_iff.1 hQ)⟩
    · right; right
      obtain ⟨a1, a2, a3, a4⟩ := G
      exact ⟨fun h => a1 (hperm.mem_iff.1 h), fun h => a2 (hperm.mem_iff.1 h),
        fun Q hQ => a3 Q (hperm.mem_iff.1 hQ), fun Q hQ => a4 Q (hperm.mem_iff.1 hQ)⟩



theorem producedChainGraph_valid : GraphValid producedChainGraph :=
  GraphValid.of_bounded producedChainGraph (by decide) (by decide) (by decide) (by decide)
    (by decide) (by decide) (by decide) (by decide) (by decide) (by decide) (by decide)
    (by decide) (by decide) (by decide)

theorem producedChainGraph_acyclic : Acyclic producedChainGraph :=
  acyclic_of_topo_sort producedChainGraph { producedChainGraph with sorted := true } rfl
    (by decide) rfl

/-- Claim C9 (amended): let a valid graph without a cycle, whose cached flag
`sorted` is honest and whose Transposes have one input and one output each,
contain the chain `x -> Transpose T1 -> y -> Transpose T2 -> z` in which `x` is
not produced by a Transpose, the permutation of `T2` is the inverse of that of
`T1` at the rank of `y`, `T2` is the one target of `y`, and `z` has a target.
Then `optimize` does not run out of fuel, it returns when no permutation of a
Transpose has an entry out of range, and in every graph it returns neither `T1`
nor `T2` is an operator, neither `y` nor `z` is a tensor, no operator reads `y`
or `z`, and every operator that read `z` reads `x` at the same input. -/
theorem optimize_removes_inverse_transposes (g : GraphObj) (T1 T2 x y z : Nat)
    (hv : GraphValid g) (hac : Acyclic g) (hcache : g.sorted = true → ProducersFirst g g.ops)
    (harity : ∀ o ∈ g.ops, (g.opAt o).type = OpType.Transpose →
      (g.opAt o).inputs.length = 1 ∧ (g.opAt o).outputs.length = 1)
    (hT1 : T1 ∈ g.ops) (hT2 : T2 ∈ g.ops) (ty1 : (g.opAt T1).type = OpType.Transpose)
    (ty2 : (g.opAt T2).type = OpType.Transpose) (in1 : (g.opAt T1).inputs = [x])
    (out1 : (g.opAt T1).outputs = [y]) (out2 : (g.opAt T2).outputs = [z])
    (hx : ∀ P, (g.tensorAt x).source = some P → (g.opAt P).type ≠ OpType.Transpose)
    (hinv : InversePerms (g.opAt T1).transposePermute (g.opAt T2).transposePermute
      (g.tensorAt y).shape.length)
    (hy : (g.tensorAt y).targets = [T2]) (hz : (g.tensorAt z).targets ≠ []) :
    g.optimize ≠ .outOfFuel ∧ (PermsInRange g → ∃ g1, g.optimize = .done g1) ∧
      ∀ g1, g.optimize = .done g1 →
        T1 ∉ g1.ops ∧ T2 ∉ g1.ops ∧ y ∉ g1.tensors ∧ z ∉ g1.tensors ∧
        (∀ Q ∈ g1.ops, y ∉ (g1.opAt Q).inputs ∧ z ∉ (g1.opAt Q).inputs) ∧
        ∀ Q ∈ g1.ops, ∀ i : Nat, (g.opAt Q).inputs.get? i = some z →
          (g1.opAt Q).inputs.get? i = some x := by
  obtain ⟨s1, s2, s3⟩ := optimize_spec g hv
  refine ⟨s1, s3 hac, fun g1 hrun => ?_⟩
  obtain ⟨v1, k1, nf, np⟩ := s2 g1 hrun
  have V := hv.toG
  have hyT : y ∈ g.tensors := hv.out_mem T1 hT1 y (by rw [out1]; simp)
  have hzT : z ∈ g.tensors := hv.out_mem T2 hT2 z (by rw [out2]; simp)
  have sy : (g.tensorAt y).source = some T1 :=
    (hv.src_iff y hyT T1).2 ⟨hT1, by rw [out1]; simp⟩
  have sz : (g.tensorAt z).source = some T2 :=
    (hv.src_iff z hzT T2).2 ⟨hT2, by rw [out2]; simp⟩
  have in2 : (g.opAt T2).inputs = [y] :=
    singleton_of_length_mem (harity T2 hT2 ty2).1
      ((hv.tgt_iff y hyT T2).1 (by rw [hy]; simp)).2
  have hxy : x ≠ y := fun e => hx T1 (e ▸ sy) ty1
  have hxz : x ≠ z := fun e => hx T2 (e ▸ sz) ty2
  have hTT : T1 ≠ T2 := by
    intro e
    rw [e, in2] at in1
    simp only [List.cons.injEq, and_true] at in1
    exact hxy in1.symm
  have hyz : y ≠ z := by
    intro e
    rw [e, sz] at sy
    simp only [Option.some.injEq] at sy
    exact hTT sy.symm
  have S : ChainStatic g T1 T2 x y z := ⟨ty1, ty2, out1, out2, hinv, hxy, hyz, hxz, hTT⟩
  have C := chainTrack_carried g T1 T2 x y z S
  have hJ := optimize_carry C g g1 hv hac (fun g2 hts => by
    obtain ⟨hperm, htat, hoat, hpf⟩ := topo_sort_first g g2 hv hac hcache hts
    refine C.ext g g2 g2.ops htat hoat ⟨⟨fun _ => ⟨rfl, rfl, rfl⟩, fun _ => rfl,
      fun o ho => harity o (hperm.mem_iff.1 ho), hx⟩, Or.inl ⟨hperm.mem_iff.2 hT1,
      hperm.mem_iff.2 hT2, ?_, in1, in2, hy, hz, fun _ _ _ h => h⟩⟩
    obtain ⟨pre, post, e⟩ := List.append_of_mem (hperm.mem_iff.2 hT2)
    have h1 : T1 ∈ pre := hpf pre T2 post e y (by rw [in2]; simp) T1 sy
    obtain ⟨pre1, post1, e1⟩ := List.append_of_mem h1
    refine ⟨pre1, post1 ++ T2 :: post, ?_, by simp⟩
    rw [e, e1]
    simp) hrun
  obtain ⟨B, P⟩ := hJ
  have o1 : (g1.opAt T1).outputs = [y] := (B.frame T1).1.trans out1
  have o2 : (g1.opAt T2).outputs = [z] := (B.frame T2).1.trans out2
  have t1 : (g1.opAt T1).type = OpType.Transpose := (B.frame T1).2.1.trans ty1
  have t2 : (g1.opAt T2).type = OpType.Transpose := (B.frame T2).2.1.trans ty2
  rcases P with A | H | G
  · -- the tests of rule 1 would pass at `T1`
    exfalso
    obtain ⟨a1, a2, _, a4, a5, a6, a7, _⟩ := A
    refine np T1 a1 ⟨y, T2, z, x, t1, by rw [o1]; rfl, by rw [a6]; rfl, by rw [a6]; rfl, t2,
      by rw [o2]; rfl, a7, by rw [a4]; rfl, ?_⟩
    rw [(B.frame T1).2.2, (B.frame T2).2.2, B.shape y]
    exact hinv.is_inverse_perm_true
  · -- the tests of rule 2 would pass at the Matmul
    exfalso
    obtain ⟨a1, a2, a3, ⟨M, i, m1, m2, m3, m4, m5⟩, a5, _, _⟩ := H
    have hy1 : y ∈ g1.tensors := v1.out_mem T1 a1 y (by rw [o1]; simp)
    have sy1 : (g1.tensorAt y).source = some T1 :=
      (v1.src_iff y hy1 T1).2 ⟨a1, by rw [o1]; simp⟩
    refine nf M m1 m2 i m3 ⟨y, T1, x, m4, sy1, List.not_mem_nil _, t1, by rw [m5]; rfl, ?_,
      by rw [a3]; rfl⟩
    rw [(B.frame T1).2.2, B.shape y]
    exact a5
  · obtain ⟨a1, a2, a3, a4⟩ := G
    have gone : ∀ t P, t ∈ (g.opAt P).outputs → P ∈ g.ops → P ∉ g1.ops →
        (∀ Q ∈ g1.ops, t ∉ (g1.opAt Q).inputs) → t ∈ g.tensors → t ∉ g1.tensors := by
      intro t P hout hP hP1 hno ht ht1
      apply v1.no_dangling t ht1
      constructor
      · cases htl : (g1.tensorAt t).targets with
        | nil => rfl
        | cons Q rest =>
          exfalso
          have hQ : Q ∈ (g1.tensorAt t).targets := by rw [htl]; simp
          obtain ⟨q1, q2⟩ := (v1.tgt_iff t ht1 Q).1 hQ
          exact hno Q q1 q2
      · cases hso : (g1.tensorAt t).source with
        | none => rfl
        | some P1 =>
          exfalso
          obtain ⟨q1, q2⟩ := (v1.src_iff t ht1 P1).1 hso
          rw [(B.frame P1).1] at q2
          have e1 := (hv.src_iff t ht P1).2 ⟨k1.reduced.live_sub P1 q1, q2⟩
          have e2 := (hv.src_iff t ht P).2 ⟨hP, hout⟩
          rw [e1] at e2
          simp only [Option.some.injEq] at e2
          exact hP1 (e2 ▸ q1)
    exact ⟨a1, a2,
      gone y T1 (by rw [out1]; simp) hT1 a1 (fun Q hQ => (a3 Q hQ).1) hyT,
      gone z T2 (by rw [out2]; simp) hT2 a2 (fun Q hQ => (a3 Q hQ).2) hzT, a3, a4⟩

/-- Witness of `optimize_removes_inverse_transposes`: the chain of the
permutations `[1, 2, 0]` and `[2, 0, 1]` behind an operator that is not a
Transpose. -/
theorem optimize_removes_inverse_transposes_witness :
    producedChainGraph.optimize ≠ .outOfFuel ∧
      (PermsInRange producedChainGraph → ∃ g1, producedChainGraph.optimize = .done g1) ∧
      ∀ g1, producedChainGraph.optimize = .done g1 →
        1 ∉ g1.ops ∧ 2 ∉ g1.ops ∧ 2 ∉ g1.tensors ∧ 3 ∉ g1.tensors ∧
        (∀ Q ∈ g1.ops, 2 ∉ (g1.opAt Q).inputs ∧ 3 ∉ (g1.opAt Q).inputs) ∧
        ∀ Q ∈ g1.ops, ∀ i : Nat, (producedChainGraph.opAt Q).inputs.get? i = some 3 →
          (g1.opAt Q).inputs.get? i = some 1 :=
  optimize_removes_inverse_transposes producedChainGraph 1 2 1 2 3 producedChainGraph_valid
    producedChainGraph_acyclic (fun h => by cases h) (by decide) (by decide) (by decide) rfl rfl
    rfl rfl rfl (by decide) inversePerms_cycle rfl (by decide)

end infini
